import Mathlib

/-! Policy configurator of `vpp` (plugins/policy/configurator).

A shallow embedding of `configurator_impl.go`: prefix subtraction
(`subtractSubnet`), the duplicate-free rule list (`ContivRules.Insert`), the
rule generator (`generateRules`) and the pod loop of
`PolicyConfiguratorTxn.Commit`.

Byte slices (`net.IP`, `net.IPMask`) are lists of naturals, each a byte value
below 256 in well-formed data; a Go `nil` slice is the empty list.  A Go
run-time panic (index out of range) is the result `none`.
-/

namespace Vpp

/-! ## The parts of Go's `net` package that `subtractSubnet` calls -/

/-- Go `net.IPNet`: a network number and a mask, both byte slices. -/
structure IPNet where
  IP : List Nat
  Mask : List Nat
deriving DecidableEq, Repr

/-- Inner loop of Go `simpleMaskLength`: `for v&0x80 != 0 { n++; v <<= 1 }` on a
byte `v`; returns the count and the final `v`.  Eight rounds empty any byte. -/
def countLeadingOnes : Nat → Nat → Nat × Nat
  | 0, v => (0, v)
  | fuel + 1, v =>
    if v &&& 0x80 ≠ 0 then
      ((countLeadingOnes fuel ((v <<< 1) % 256)).1 + 1, (countLeadingOnes fuel ((v <<< 1) % 256)).2)
    else (0, v)

/-- Go `simpleMaskLength`: the number of leading ones of a mask made of ones
followed by zeros, `none` (Go: -1) for any other mask. -/
def simpleMaskLength : List Nat → Option Nat
  | [] => some 0
  | v :: rest =>
    if v = 0xff then (simpleMaskLength rest).map (· + 8)
    else if (countLeadingOnes 8 v).2 ≠ 0 then none
    else if rest.all (· == 0) then some (countLeadingOnes 8 v).1
    else none

/-- Go `IPMask.Size`, first result: the number of leading ones, 0 for a mask
that is not in canonical form. -/
def maskSize (m : List Nat) : Nat :=
  match simpleMaskLength m with
  | some n => n
  | none => 0

/-- The byte loop of Go `CIDRMask`: `l` bytes holding `n` ones then zeros. -/
def cidrBytes : Nat → Nat → List Nat
  | _, 0 => []
  | n, l + 1 =>
    if n ≥ 8 then 0xff :: cidrBytes (n - 8) l
    else (0xff ^^^ (0xff >>> n)) :: cidrBytes 0 l

/-- Go `net.CIDRMask(ones, bits)`; `nil` unless `bits` is 32 or 128 and
`ones ≤ bits`. -/
def CIDRMask (ones bits : Nat) : List Nat :=
  if bits ≠ 32 ∧ bits ≠ 128 then []
  else if ones > bits then []
  else cidrBytes ones (bits / 8)

/-- Go `v4InV6Prefix`. -/
def v4InV6Prefix : List Nat := [0, 0, 0, 0, 0, 0, 0, 0, 0, 0, 0xff, 0xff]

/-- Go `IP.To4`: the 4-byte form of an IPv4 address, `none` (Go: nil) for
anything else. -/
def To4 (ip : List Nat) : Option (List Nat) :=
  if ip.length = 4 then some ip
  else if ip.length = 16 ∧ (ip.take 10).all (· == 0) ∧ ip.getD 10 0 = 0xff ∧ ip.getD 11 0 = 0xff then
    some (ip.drop 12)
  else none

/-- Go `IP.Equal`. -/
def ipEqual (ip x : List Nat) : Bool :=
  if ip.length = x.length then decide (ip = x)
  else if ip.length = 4 ∧ x.length = 16 then
    decide (x.take 12 = v4InV6Prefix) && decide (ip = x.drop 12)
  else if ip.length = 16 ∧ x.length = 4 then
    decide (ip.take 12 = v4InV6Prefix) && decide (ip.drop 12 = x)
  else false

/-- Byte-wise AND of two slices (the loop `out[i] = ip[i] & mask[i]`). -/
def andBytes (ip mask : List Nat) : List Nat :=
  List.zipWith (fun a b => a &&& b) ip mask

/-- Go `IP.Mask`: the address masked by `mask`, `nil` on a length mismatch. -/
def ipMask (ip mask : List Nat) : List Nat :=
  let mask1 := if mask.length = 16 ∧ ip.length = 4 ∧ (mask.take 12).all (· == 0xff)
    then mask.drop 12 else mask
  let ip1 := if mask1.length = 4 ∧ ip.length = 16 ∧ ip.take 12 = v4InV6Prefix
    then ip.drop 12 else ip
  if ip1.length ≠ mask1.length then [] else andBytes ip1 mask1

/-- Go `networkNumberAndMask`; `none` stands for the pair `(nil, nil)`. -/
def networkNumberAndMask (n : IPNet) : Option (List Nat × List Nat) :=
  match To4 n.IP with
  | some ip =>
    if n.Mask.length = 4 then some (ip, n.Mask)
    else if n.Mask.length = 16 then some (ip, n.Mask.drop 12)
    else none
  | none =>
    if n.IP.length ≠ 16 then none
    else if n.Mask.length = 4 then none
    else if n.Mask.length = 16 then some (n.IP, n.Mask)
    else none

/-- Go `IPNet.Contains`. -/
def IPNet.Contains (n : IPNet) (ip : List Nat) : Bool :=
  match networkNumberAndMask n with
  | none => decide ((To4 ip).getD ip = [])
  | some (nn, m) =>
    decide (((To4 ip).getD ip).length = nn.length) &&
      decide (andBytes nn m = andBytes ((To4 ip).getD ip) m)

/-! ## `subtractSubnet` -/

/-- One round of the loop of `subtractSubnet`: the prefix of length `bit + 1`
around `net2` with bit number `bit` flipped.  `none` is the index panic of
`subnet.IP[bit/8] ^= ...`. -/
def siblingSubnet (net2 : IPNet) (bit : Nat) : Option IPNet :=
  let mask := CIDRMask (bit + 1) (net2.Mask.length * 8)
  let ip := ipMask net2.IP mask
  if bit / 8 < ip.length then
    some { IP := ip.set (bit / 8) (ip.getD (bit / 8) 0 ^^^ ((1 <<< (7 - bit % 8)) % 256)), Mask := mask }
  else none

/-- The loop `for bit := net1MaskSize; bit < net2MaskSize; bit++` of
`subtractSubnet`, started at `bit` with `count` rounds to go. -/
def siblingLoop (net2 : IPNet) : Nat → Nat → Option (List IPNet)
  | _, 0 => some []
  | bit, count + 1 =>
    match siblingSubnet net2 bit, siblingLoop net2 (bit + 1) count with
    | some s, some rest => some (s :: rest)
    | _, _ => none

/-- Go `subtractSubnet`: the subnets with all IPs included in `net1` and not
included in `net2`. -/
def subtractSubnet (net1 net2 : IPNet) : Option (List IPNet) :=
  if maskSize net1.Mask > maskSize net2.Mask then
    if !net2.Contains net1.IP then some [net1] else some []
  else if maskSize net1.Mask = maskSize net2.Mask then
    if !ipEqual net1.IP net2.IP then some [net1] else some []
  else
    if !net1.Contains net2.IP then some [net1]
    else siblingLoop net2 (maskSize net1.Mask) (maskSize net2.Mask - maskSize net1.Mask)

/-- An address is covered by a prefix when it has the prefix's length and agrees
with its network number on every bit of the mask. -/
def IPNet.covers (n : IPNet) (a : List Nat) : Prop :=
  a.length = n.IP.length ∧ andBytes a n.Mask = andBytes n.IP n.Mask

instance (n : IPNet) (a : List Nat) : Decidable (n.covers a) := by
  unfold IPNet.covers; infer_instance

/-- A prefix value as `net.ParseCIDR` builds it: an address of 4 or 16 bytes, a
mask of the same length made of `ones` one-bits followed by zeros, and no
address bit set outside the mask. -/
def IPNet.WF (n : IPNet) : Prop :=
  (n.IP.length = 4 ∨ n.IP.length = 16) ∧ n.Mask.length = n.IP.length ∧
    (∀ b ∈ n.IP, b < 256) ∧ n.Mask = cidrBytes (maskSize n.Mask) n.Mask.length ∧
    andBytes n.IP n.Mask = n.IP

instance (n : IPNet) : Decidable n.WF := by
  unfold IPNet.WF; infer_instance

/-- Shorthand for an IPv4 prefix `a.b.c.d/ones`. -/
def cidr4 (a b c d ones : Nat) : IPNet := { IP := [a, b, c, d], Mask := CIDRMask ones 32 }

/-- Shorthand for an IPv6 prefix given by its 16 bytes. -/
def cidr6 (ip : List Nat) (ones : Nat) : IPNet := { IP := ip, Mask := CIDRMask ones 128 }

/-- Address and mask have the same length, 4 or 16 bytes. -/
def IPNet.Sized (n : IPNet) : Prop :=
  (n.IP.length = 4 ∨ n.IP.length = 16) ∧ n.Mask.length = n.IP.length

instance (n : IPNet) : Decidable n.Sized := by
  unfold IPNet.Sized; infer_instance

/-- A prefix whose network number is not an IPv4-mapped IPv6 address: an IPv4
prefix, or an IPv6 prefix with a network number outside `::ffff:0:0/96`. -/
def IPNet.Plain (n : IPNet) : Prop := n.IP.length = 4 ∨ To4 n.IP = none

instance (n : IPNet) : Decidable n.Plain := by
  unfold IPNet.Plain; infer_instance

/-- The value `&net.IPNet{}`: no address, no mask. -/
def emptyNet : IPNet := { IP := [], Mask := [] }

/-- Bit number `i` of a byte slice, counted from the most significant bit of the
first byte. -/
def bitOf (xs : List Nat) (i : Nat) : Bool := (xs.getD (i / 8) 0).testBit (7 - i % 8)

/-! ## Policies and rules (types of `configurator/api.go` and `renderer/api.go`) -/

/-- Go `podmodel.ID`. -/
structure PodID where
  Name : String
  Namespace : String
deriving DecidableEq, Repr

/-- Go `policymodel.ID`. -/
structure PolicyID where
  Name : String
  Namespace : String
deriving DecidableEq, Repr

/-- Go `PolicyType`. -/
inductive PolicyType where
  | PolicyIngress
  | PolicyEgress
  | PolicyAll
deriving DecidableEq, Repr

/-- Go `MatchType`. -/
inductive MatchType where
  | MatchIngress
  | MatchEgress
deriving DecidableEq, Repr

/-- Go `ProtocolType` of the configurator: the protocol of a policy port. -/
inductive ProtocolType where
  | TCP
  | UDP
deriving DecidableEq, Repr

/-- Go `Port`. -/
structure Port where
  Protocol : ProtocolType
  Number : Nat
deriving DecidableEq, Repr

/-- Go `IPBlock`. -/
structure IPBlock where
  Network : IPNet
  Except : List IPNet
deriving DecidableEq, Repr

/-- Go `Match`.  `Pods` and `IPBlocks` are slices that may be `nil` (`none`),
which the generator tells apart from an empty slice. -/
structure Match where
  Typ : MatchType
  Pods : Option (List PodID)
  IPBlocks : Option (List IPBlock)
  Ports : List Port
deriving DecidableEq, Repr

/-- Go `ContivPolicy`. -/
structure ContivPolicy where
  ID : PolicyID
  Typ : PolicyType
  Matches : List Match
deriving DecidableEq, Repr

namespace renderer

/-- Go `renderer.ActionType`. -/
inductive ActionType where
  | ActionDeny
  | ActionPermit
deriving DecidableEq, Repr

/-- Go `renderer.ProtocolType`. -/
inductive ProtocolType where
  | TCP
  | UDP
  | ANY
deriving DecidableEq, Repr

/-- Go `renderer.ContivRule`. -/
structure ContivRule where
  Action : ActionType
  Protocol : ProtocolType
  SrcNetwork : IPNet
  DestNetwork : IPNet
  SrcPort : Nat
  DestPort : Nat
deriving DecidableEq, Repr

end renderer

open renderer (ContivRule)

/-- Go `podmodel.Pod`, the one field the configurator reads. -/
structure Pod where
  IpAddress : String
deriving DecidableEq, Repr

/-- The collaborators of the configurator whose code is outside this package:
the policy cache (`Cache.LookupPod`, `none` when not found), `utils.GetOneHostSubnet`
(`none` for Go nil), the IPAM's NAT loopback address with
`utils.GetOneHostSubnetFromIP`, the rule comparison `ContivRule.Compare`, and the
outcome of `sort.Sort` on a policy list. -/
structure Env where
  LookupPod : PodID → Option Pod
  GetOneHostSubnet : String → Option IPNet
  NatLoopbackIP : List Nat
  GetOneHostSubnetFromIP : List Nat → IPNet
  Compare : ContivRule → ContivRule → Int
  SortPolicies : List ContivPolicy → List ContivPolicy

/-! ## `ContivRules` -/

/-- Go `ContivRules`: the rules in insertion order and in sorted order. -/
structure ContivRules where
  rules : List ContivRule
  orderedRules : List ContivRule
deriving DecidableEq, Repr

/-- The loop of Go `sort.Search`, with `fuel` rounds left. -/
def searchLoop (f : Nat → Bool) : Nat → Nat → Nat → Nat
  | 0, i, _ => i
  | fuel + 1, i, j =>
    if i < j then
      if !f ((i + j) / 2) then searchLoop f fuel ((i + j) / 2 + 1) j
      else searchLoop f fuel i ((i + j) / 2)
    else i

/-- Go `sort.Search(n, f)`: binary search for the least index in `[0, n)` at
which `f` is true (`n` if there is none).  The interval shrinks in every round,
so `n` rounds are enough. -/
def Search (n : Nat) (f : Nat → Bool) : Nat := searchLoop f n 0 n

/-- Go `ContivRules.Insert`: the updated lists and the returned flag. -/
def ContivRules.Insert (cmp : ContivRule → ContivRule → Int) (cr : ContivRules)
    (rule : ContivRule) : ContivRules × Bool :=
  let le := fun (i : Nat) =>
    match cr.orderedRules[i]? with
    | some r => decide (cmp rule r ≤ 0)
    | none => false
  let idx := Search cr.orderedRules.length le
  if idx < cr.orderedRules.length ∧ (match cr.orderedRules[idx]? with
      | some r => decide (cmp rule r = 0)
      | none => false) = true then
    (cr, false)
  else
    ({ rules := cr.rules ++ [rule],
       orderedRules := cr.orderedRules.take idx ++ rule :: cr.orderedRules.drop idx }, true)

/-- Go `ContivRules.CopySlice`: the rules in insertion order. -/
def ContivRules.CopySlice (cr : ContivRules) : List ContivRule := cr.rules

/-! ## `generateRules` -/

/-- Go `PeerPod`. -/
structure PeerPod where
  ID : PodID
  IPNet : IPNet
deriving DecidableEq, Repr

/-- Lines 283-302: the peers of a match that the cache knows with a valid IP. -/
def collectPeers (env : Env) : List PodID → List PeerPod
  | [] => []
  | peer :: rest =>
    match env.LookupPod peer with
    | none => collectPeers env rest
    | some peerData =>
      if peerData.IpAddress = "" then collectPeers env rest
      else
        match env.GetOneHostSubnet peerData.IpAddress with
        | none => collectPeers env rest
        | some peerIPNet => { ID := peer, IPNet := peerIPNet } :: collectPeers env rest

/-- Lines 309-313 on networks: `except` subtracted from every subnet of the list.
These are the networks that the pointers of the slice `subnets` point to during
the round of one IP block. -/
def subtractFromAll (except : IPNet) : List IPNet → Option (List IPNet)
  | [] => some []
  | subnet :: rest =>
    match subtractSubnet subnet except, subtractFromAll except rest with
    | some a, some b => some (a ++ b)
    | _, _ => none

/-- Lines 308-314 on networks: the exceptions subtracted one after the other, as
in the round of one IP block. -/
def subtractExcepts : List IPNet → List IPNet → Option (List IPNet)
  | subnets, [] => some subnets
  | subnets, except :: rest =>
    match subtractFromAll except subnets with
    | some subtracted => subtractExcepts subtracted rest
    | none => none

/-- An element of the slices `subnets` and `allSubnets` of `generateRules`, which
hold pointers: the pointer `&block.Network` into the variable `block` of the
`range` statement, which is one variable for all rounds of the loop, or the
pointer to a network that `subtractSubnet` allocated. -/
inductive SubnetRef where
  | blockNetwork
  | allocated (n : IPNet)
deriving DecidableEq, Repr

/-- The network that a pointer of the slice points to while `block.Network` is
`network`. -/
def SubnetRef.deref (network : IPNet) : SubnetRef → IPNet
  | SubnetRef.blockNetwork => network
  | SubnetRef.allocated n => n

/-- Go `subtractSubnet(subnet, &except)` on a pointer of the slice, with the
pointers it returns: `net1` itself in the three branches that append `net1`, new
networks from the loop over the bits.  `network` is `block.Network` at the time
of the call. -/
def subtractRef (network : IPNet) (subnet : SubnetRef) (except : IPNet) :
    Option (List SubnetRef) :=
  if maskSize (subnet.deref network).Mask > maskSize except.Mask then
    if !except.Contains (subnet.deref network).IP then some [subnet] else some []
  else if maskSize (subnet.deref network).Mask = maskSize except.Mask then
    if !ipEqual (subnet.deref network).IP except.IP then some [subnet] else some []
  else
    if !(subnet.deref network).Contains except.IP then some [subnet]
    else (siblingLoop except (maskSize (subnet.deref network).Mask)
      (maskSize except.Mask - maskSize (subnet.deref network).Mask)).map
        (List.map SubnetRef.allocated)

/-- Lines 309-313: `except` subtracted from every pointer of the slice
`subnets`. -/
def subtractFromAllRefs (network except : IPNet) : List SubnetRef → Option (List SubnetRef)
  | [] => some []
  | subnet :: rest =>
    match subtractRef network subnet except, subtractFromAllRefs network except rest with
    | some a, some b => some (a ++ b)
    | _, _ => none

/-- Lines 308-314: the exceptions of a block subtracted one after the other. -/
def subtractExceptsRefs (network : IPNet) : List SubnetRef → List IPNet → Option (List SubnetRef)
  | subnets, [] => some subnets
  | subnets, except :: rest =>
    match subtractFromAllRefs network except subnets with
    | some subtracted => subtractExceptsRefs network subtracted rest
    | none => none

/-- Lines 305-316: the slice `allSubnets` after the loop over the IP blocks, as
pointers.  Every round starts from the pointer `&block.Network`. -/
def collectSubnetRefs : List IPBlock → Option (List SubnetRef)
  | [] => some []
  | block :: rest =>
    match subtractExceptsRefs block.Network [SubnetRef.blockNetwork] block.Except,
        collectSubnetRefs rest with
    | some subnets, some more => some (subnets ++ more)
    | _, _ => none

/-- Lines 305-316: the networks that the pointers of `allSubnets` point to when
the rules are built, after the loop over the IP blocks.  The variable `block` then
holds the last block, so every pointer `&block.Network` that was kept points to
the network of the last block. -/
def collectSubnets (blocks : List IPBlock) : Option (List IPNet) :=
  match blocks.getLast? with
  | none => some []
  | some last => (collectSubnetRefs blocks).map (List.map (SubnetRef.deref last.Network))

/-- The renderer protocol of a policy port (`if port.Protocol == TCP`). -/
def portProtocol (port : Port) : renderer.ProtocolType :=
  if port.Protocol = ProtocolType.TCP then renderer.ProtocolType.TCP
  else renderer.ProtocolType.UDP

/-- The rule `ruleAny` built for a peer network: permit, any protocol, any port. -/
def ruleAnyFor (direction : MatchType) (n : IPNet) : ContivRule :=
  { Action := renderer.ActionType.ActionPermit,
    Protocol := renderer.ProtocolType.ANY,
    SrcNetwork := if direction = MatchType.MatchIngress then n else emptyNet,
    DestNetwork := if direction = MatchType.MatchIngress then emptyNet else n,
    SrcPort := 0,
    DestPort := 0 }

/-- The rule built for a peer network and a port. -/
def rulePortFor (direction : MatchType) (n : IPNet) (port : Port) : ContivRule :=
  { Action := renderer.ActionType.ActionPermit,
    Protocol := portProtocol port,
    SrcNetwork := if direction = MatchType.MatchIngress then n else emptyNet,
    DestNetwork := if direction = MatchType.MatchIngress then emptyNet else n,
    SrcPort := 0,
    DestPort := port.Number }

/-- The rule `ruleAny` of lines 323-330: permit anything. -/
def ruleAllowAll : ContivRule :=
  { Action := renderer.ActionType.ActionPermit,
    Protocol := renderer.ProtocolType.ANY,
    SrcNetwork := emptyNet, DestNetwork := emptyNet, SrcPort := 0, DestPort := 0 }

/-- The rule of lines 336-347: permit a port from and to anywhere. -/
def rulePortOnly (port : Port) : ContivRule :=
  { Action := renderer.ActionType.ActionPermit,
    Protocol := portProtocol port,
    SrcNetwork := emptyNet, DestNetwork := emptyNet, SrcPort := 0, DestPort := port.Number }

/-- The rule of lines 449-456: permit everything from the NAT loopback. -/
def ruleNatLoop (env : Env) : ContivRule :=
  { Action := renderer.ActionType.ActionPermit,
    Protocol := renderer.ProtocolType.ANY,
    SrcNetwork := env.GetOneHostSubnetFromIP env.NatLoopbackIP,
    DestNetwork := emptyNet, SrcPort := 0, DestPort := 0 }

/-- The rule `ruleNone` of lines 460-467: deny the rest. -/
def ruleNone : ContivRule :=
  { Action := renderer.ActionType.ActionDeny,
    Protocol := renderer.ProtocolType.ANY,
    SrcNetwork := emptyNet, DestNetwork := emptyNet, SrcPort := 0, DestPort := 0 }

/-- The local variables of `generateRules`. -/
structure GenState where
  rules : ContivRules
  hasPolicy : Bool
  allAllowed : Bool
deriving DecidableEq, Repr

/-- Lines 354-396 and 399-441 for one peer network: one rule if the match has no
ports, one rule per port otherwise. -/
def insertNetwork (env : Env) (direction : MatchType) (ports : List Port)
    (rules : ContivRules) (n : IPNet) : ContivRules :=
  if ports.length = 0 then (rules.Insert env.Compare (ruleAnyFor direction n)).1
  else ports.foldl (fun acc port => (acc.Insert env.Compare (rulePortFor direction n port)).1) rules

/-- Lines 320-351: the match that names neither pods nor IP blocks. -/
def insertUndefined (env : Env) (m : Match) (st : GenState) : GenState :=
  if m.Pods = none ∧ m.IPBlocks = none then
    if m.Ports.length = 0 then
      { st with rules := (st.rules.Insert env.Compare ruleAllowAll).1, allAllowed := true }
    else
      { st with rules :=
          m.Ports.foldl (fun acc port => (acc.Insert env.Compare (rulePortOnly port)).1) st.rules }
  else st

/-- The body of the loop over the matches of a policy (lines 277-442). -/
def processMatch (env : Env) (direction : MatchType) (st : GenState) (m : Match) :
    Option GenState :=
  if m.Typ ≠ direction then some st
  else
    match collectSubnets (m.IPBlocks.getD []) with
    | none => none
    | some allSubnets =>
      let st1 := insertUndefined env m st
      let r2 := ((collectPeers env (m.Pods.getD [])).map PeerPod.IPNet).foldl
        (insertNetwork env direction m.Ports) st1.rules
      let r3 := allSubnets.foldl (insertNetwork env direction m.Ports) r2
      some { st1 with rules := r3 }

/-- The loop over the matches of a policy. -/
def processMatches (env : Env) (direction : MatchType) : GenState → List Match → Option GenState
  | st, [] => some st
  | st, m :: rest =>
    match processMatch env direction st m with
    | some st1 => processMatches env direction st1 rest
    | none => none

/-- Whether a policy is skipped for a direction (lines 270-274). -/
def policySkipped (direction : MatchType) (policy : ContivPolicy) : Bool :=
  (policy.Typ = PolicyType.PolicyIngress ∧ direction = MatchType.MatchEgress) ∨
    (policy.Typ = PolicyType.PolicyEgress ∧ direction = MatchType.MatchIngress)

/-- The loop over the policies (lines 269-443). -/
def processPolicies (env : Env) (direction : MatchType) :
    GenState → List ContivPolicy → Option GenState
  | st, [] => some st
  | st, policy :: rest =>
    if policySkipped direction policy then processPolicies env direction st rest
    else
      match processMatches env direction { st with hasPolicy := true } policy.Matches with
      | some st1 => processPolicies env direction st1 rest
      | none => none

/-- Lines 445-469: the NAT-loopback permit and the final deny. -/
def finishRules (env : Env) (direction : MatchType) (st : GenState) : ContivRules :=
  if st.hasPolicy ∧ ¬ st.allAllowed then
    let r1 := if direction = MatchType.MatchIngress then (st.rules.Insert env.Compare (ruleNatLoop env)).1
      else st.rules
    (r1.Insert env.Compare ruleNone).1
  else st.rules

/-- Go `generateRules`; `none` when `subtractSubnet` panics. -/
def generateRules (env : Env) (direction : MatchType) (policies : List ContivPolicy) :
    Option ContivRules :=
  match processPolicies env direction
      { rules := { rules := [], orderedRules := [] }, hasPolicy := false, allAllowed := false }
      policies with
  | some st => some (finishRules env direction st)
  | none => none

/-! ## `PolicyConfiguratorTxn.Commit` -/

/-- Go `ContivPolicies.Equals`: equal lengths and pairwise equal policy IDs. -/
def ContivPolicies.Equals (cp cp2 : List ContivPolicy) : Bool :=
  if cp.length ≠ cp2.length then false
  else (cp.zip cp2).all (fun pq => decide (pq.1.ID = pq.2.ID))

/-- Go `ContivPolicies.Less`, on the two policies at the compared indices. -/
def ContivPolicies.Less (a b : ContivPolicy) : Bool :=
  if a.ID.Namespace < b.ID.Namespace then true
  else if a.ID.Namespace = b.ID.Namespace then
    (if a.ID.Name < b.ID.Name then true else false)
  else false

/-- Go `ProcessedPolicySet`. -/
structure ProcessedPolicySet where
  policies : List ContivPolicy
  ingress : ContivRules
  egress : ContivRules
deriving DecidableEq, Repr

/-- One call of `renderer.Txn.Render`, as every opened renderer transaction
receives it. -/
structure RenderCall where
  pod : PodID
  podIPNet : Option IPNet
  ingress : List ContivRule
  egress : List ContivRule
  removed : Bool
deriving DecidableEq, Repr

/-- The state of the pod loop of `Commit`: the policy sets already processed, the
transaction's pod-IP map and the `Render` calls issued so far. -/
structure CommitState where
  processed : List ProcessedPolicySet
  podIPAddresses : PodID → Option IPNet
  calls : List RenderCall

/-- Lines 188-195: the rule lists remembered for an equal policy set (the last
one if there are several), as the pair `(ingress, egress)`. -/
def lookupProcessed (policies : List ContivPolicy) (processed : List ProcessedPolicySet) :
    Option (ContivRules × ContivRules) :=
  processed.foldl
    (fun found policySet =>
      if ContivPolicies.Equals policySet.policies policies then
        some (policySet.ingress, policySet.egress)
      else found)
    none

/-- The body of the pod loop of `Commit` (lines 153-224) for one entry of
`pct.config`; `none` when `generateRules` panics. -/
def commitPod (env : Env) (st : CommitState) (pod : PodID)
    (unorderedPolicies : List ContivPolicy) : Option CommitState :=
  let removedPod : Option CommitState :=
    match st.podIPAddresses pod with
    | some podIPNet =>
      some { st with
        podIPAddresses := fun p => if p = pod then none else st.podIPAddresses p,
        calls := st.calls ++
          [{ pod := pod, podIPNet := some podIPNet, ingress := [], egress := [], removed := true }] }
    | none => some st
  match env.LookupPod pod with
  | none => removedPod
  | some podData =>
    if podData.IpAddress = "" then removedPod
    else
      match env.GetOneHostSubnet podData.IpAddress with
      | none => some st
      | some podIPNet =>
        let policies := env.SortPolicies unorderedPolicies
        match lookupProcessed policies st.processed with
        | some (ingress, egress) =>
          some { st with
            podIPAddresses := fun p => if p = pod then some podIPNet else st.podIPAddresses p,
            calls := st.calls ++
              [{ pod := pod, podIPNet := some podIPNet, ingress := ingress.CopySlice,
                 egress := egress.CopySlice, removed := false }] }
        | none =>
          match generateRules env MatchType.MatchIngress policies,
              generateRules env MatchType.MatchEgress policies with
          | some egress, some ingress =>
            some {
              processed := st.processed ++
                [{ policies := policies, ingress := ingress, egress := egress }],
              podIPAddresses := fun p => if p = pod then some podIPNet else st.podIPAddresses p,
              calls := st.calls ++
                [{ pod := pod, podIPNet := some podIPNet, ingress := ingress.CopySlice,
                   egress := egress.CopySlice, removed := false }] }
          | _, _ => none

/-- The pod loop of `Commit` over the entries of `pct.config`, in the order in
which the `range` statement visits them. -/
def commitPods (env : Env) : CommitState → List (PodID × List ContivPolicy) → Option CommitState
  | st, [] => some st
  | st, entry :: rest =>
    match commitPod env st entry.1 entry.2 with
    | some st1 => commitPods env st1 rest
    | none => none

/-- The `Render` calls of a `Commit` of a transaction whose pod-IP map is
`podIPAddresses` and whose `config` holds `entries`. -/
def commitCalls (env : Env) (podIPAddresses : PodID → Option IPNet)
    (entries : List (PodID × List ContivPolicy)) : Option (List RenderCall) :=
  (commitPods env { processed := [], podIPAddresses := podIPAddresses, calls := [] } entries).map
    CommitState.calls

/-- Go `PolicyConfiguratorTxn.Configure` on the entries of `pct.config`: the
policies of `pod` are replaced. -/
def Configure (config : List (PodID × List ContivPolicy)) (pod : PodID)
    (policies : List ContivPolicy) : List (PodID × List ContivPolicy) :=
  config.filter (fun entry => decide (entry.1 ≠ pod)) ++ [(pod, policies)]

/-! ## What `Commit` is expected to render -/

/-- The memo of `Commit` is sound for the entries of a transaction: whenever
`Equals` takes the sorted policy lists of two entries for one another (same
length, same IDs), the two lists are the same.  This is the case when policy IDs
identify policy content, and in every transaction with a single entry. -/
def MemoSound (env : Env) (entries : List (PodID × List ContivPolicy)) : Prop :=
  ∀ e1 ∈ entries, ∀ e2 ∈ entries,
    ContivPolicies.Equals (env.SortPolicies e1.2) (env.SortPolicies e2.2) = true →
      env.SortPolicies e1.2 = env.SortPolicies e2.2

instance (env : Env) (entries : List (PodID × List ContivPolicy)) :
    Decidable (MemoSound env entries) := by
  unfold MemoSound; infer_instance

/-- The `Render` calls expected for one entry of `pct.config` when the
transaction starts with the pod-IP map `ips`: none for a pod that is unknown and
was never configured or whose IP does not parse, a removal for a pod that lost its
IP, and otherwise the rules generated for its sorted policies, those of
`MatchEgress` as ingress and those of `MatchIngress` as egress. -/
def expectedCalls (env : Env) (ips : PodID → Option IPNet)
    (entry : PodID × List ContivPolicy) : List RenderCall :=
  let removedPod : List RenderCall :=
    match ips entry.1 with
    | some podIPNet =>
      [{ pod := entry.1, podIPNet := some podIPNet, ingress := [], egress := [], removed := true }]
    | none => []
  match env.LookupPod entry.1 with
  | none => removedPod
  | some podData =>
    if podData.IpAddress = "" then removedPod
    else
      match env.GetOneHostSubnet podData.IpAddress with
      | none => []
      | some podIPNet =>
        match generateRules env MatchType.MatchEgress (env.SortPolicies entry.2),
            generateRules env MatchType.MatchIngress (env.SortPolicies entry.2) with
        | some ingress, some egress =>
          [{ pod := entry.1, podIPNet := some podIPNet, ingress := ingress.rules,
             egress := egress.rules, removed := false }]
        | _, _ => []

/-- Every remembered policy set belongs to an entry of the transaction and holds
the rules generated for it. -/
def ProcessedOK (env : Env) (entries : List (PodID × List ContivPolicy))
    (processed : List ProcessedPolicySet) : Prop :=
  ∀ ps ∈ processed, (∃ e ∈ entries, ps.policies = env.SortPolicies e.2) ∧
    generateRules env MatchType.MatchEgress ps.policies = some ps.ingress ∧
    generateRules env MatchType.MatchIngress ps.policies = some ps.egress

/-! ## A rule comparison and a policy sort to run the configurator with -/

/-- Three-way comparison of two numbers. -/
def compareNat (a b : Nat) : Int :=
  if a < b then -1 else if b < a then 1 else 0

/-- Three-way lexicographic comparison of two byte slices. -/
def compareBytes : List Nat → List Nat → Int
  | [], [] => 0
  | [], _ :: _ => -1
  | _ :: _, [] => 1
  | a :: as, b :: bs => if compareNat a b ≠ 0 then compareNat a b else compareBytes as bs

/-- Three-way comparison of two networks: an empty address first, then by the
address bytes, then by the mask. -/
def compareIPNets (a b : IPNet) : Int :=
  if compareBytes a.IP b.IP ≠ 0 then compareBytes a.IP b.IP else compareBytes a.Mask b.Mask

/-- The code of an action in the rule serialization. -/
def actionCode : renderer.ActionType → Nat
  | renderer.ActionType.ActionPermit => 0
  | renderer.ActionType.ActionDeny => 1

/-- The code of a protocol in the rule serialization. -/
def protocolCode : renderer.ProtocolType → Nat
  | renderer.ProtocolType.ANY => 0
  | renderer.ProtocolType.TCP => 6
  | renderer.ProtocolType.UDP => 17

/-- Modelled from the spec: `ContivRule.Compare` of `renderer/api.go`, which is
not among the sources.  The order is component-wise in the field order action,
protocol, source network, source port, destination network, destination port; an
empty network sorts before any other and port 0 before any explicit port. -/
def ruleCompare (a b : ContivRule) : Int :=
  if compareNat (actionCode a.Action) (actionCode b.Action) ≠ 0 then
    compareNat (actionCode a.Action) (actionCode b.Action)
  else if compareNat (protocolCode a.Protocol) (protocolCode b.Protocol) ≠ 0 then
    compareNat (protocolCode a.Protocol) (protocolCode b.Protocol)
  else if compareIPNets a.SrcNetwork b.SrcNetwork ≠ 0 then
    compareIPNets a.SrcNetwork b.SrcNetwork
  else if compareNat a.SrcPort b.SrcPort ≠ 0 then compareNat a.SrcPort b.SrcPort
  else if compareIPNets a.DestNetwork b.DestNetwork ≠ 0 then
    compareIPNets a.DestNetwork b.DestNetwork
  else compareNat a.DestPort b.DestPort

/-- Insertion of a policy, which stood before the policies of the list, into the
list sorted by `ContivPolicies.Less`: it passes the policies that are `Less` than
it and stays before the others, those with the same ID included. -/
def insertPolicy (p : ContivPolicy) : List ContivPolicy → List ContivPolicy
  | [] => [p]
  | q :: rest => if ContivPolicies.Less q p then q :: insertPolicy p rest else p :: q :: rest

/-- Insertion sort by `ContivPolicies.Less`, which is what `sort.Sort` runs on
a short slice: an element moves only past elements it is `Less` than, so policies
with the same ID keep their order. -/
def sortPolicies : List ContivPolicy → List ContivPolicy
  | [] => []
  | p :: rest => insertPolicy p (sortPolicies rest)

/-- What the configurator relies on from a three-way comparison such as
`ContivRule.Compare`: it is zero exactly on equal values, swapping the arguments
swaps the sign, and "less" is transitive. -/
structure LawfulCompare {α : Type} (cmp : α → α → Int) : Prop where
  eq_iff : ∀ a b, cmp a b = 0 ↔ a = b
  swap : ∀ a b, cmp a b < 0 ↔ 0 < cmp b a
  trans : ∀ a b c, cmp a b < 0 → cmp b c < 0 → cmp a c < 0

/-- Comparison of pairs: by the first components, then by the second. -/
def lexCompare {α β : Type} (c1 : α → α → Int) (c2 : β → β → Int) (p q : α × β) : Int :=
  if c1 p.1 q.1 ≠ 0 then c1 p.1 q.1 else c2 p.2 q.2

/-- The fields of a rule in the order in which `ruleCompare` looks at them. -/
def ruleKey (r : ContivRule) : Nat × Nat × IPNet × Nat × IPNet × Nat :=
  (actionCode r.Action, protocolCode r.Protocol, r.SrcNetwork, r.SrcPort, r.DestNetwork, r.DestPort)

/-- The key by which `ContivPolicies.Less` orders policies. -/
def policyKey (p : ContivPolicy) : Lex (String × String) := toLex (p.ID.Namespace, p.ID.Name)

/-- What the configurator relies on from `sort.Sort`: the outcome is a
rearrangement of the input in which no policy is `Less` than an earlier one. -/
def SortContract (sort : List ContivPolicy → List ContivPolicy) : Prop :=
  ∀ l, (sort l).Perm l ∧ (sort l).Pairwise (fun a b => ContivPolicies.Less b a = false)

/-- A test environment: pods `podA` (10.0.0.1) and `podB` (10.0.0.2) in namespace
`default`, NAT loopback 10.1.255.254. -/
def testEnv : Env :=
  { LookupPod := fun pod =>
      if pod = { Name := "podA", Namespace := "default" } then some { IpAddress := "10.0.0.1" }
      else if pod = { Name := "podB", Namespace := "default" } then some { IpAddress := "10.0.0.2" }
      else none,
    GetOneHostSubnet := fun ip =>
      if ip = "10.0.0.1" then some (cidr4 10 0 0 1 32)
      else if ip = "10.0.0.2" then some (cidr4 10 0 0 2 32)
      else none,
    NatLoopbackIP := [10, 1, 255, 254],
    GetOneHostSubnetFromIP := fun ip => { IP := ip, Mask := CIDRMask (8 * ip.length) (8 * ip.length) },
    Compare := ruleCompare,
    SortPolicies := sortPolicies }

/-- The sorted list and the insertion-order list hold the same rules. -/
def ContivRules.SameRules (cr : ContivRules) : Prop :=
  ∀ x, x ∈ cr.orderedRules ↔ x ∈ cr.rules

/-- The list `orderedRules` is strictly increasing under the comparison. -/
def ContivRules.Sorted (cmp : ContivRule → ContivRule → Int) (cr : ContivRules) : Prop :=
  cr.orderedRules.Pairwise (fun a b => cmp a b < 0)

/-- The match `m2` is the match `m` with its peer pods listed in another order. -/
def Match.PeersPermuted (m m2 : Match) : Prop :=
  m2.Typ = m.Typ ∧ m2.IPBlocks = m.IPBlocks ∧ m2.Ports = m.Ports ∧
    ((m.Pods = none ∧ m2.Pods = none) ∨
      ∃ l l2, m.Pods = some l ∧ m2.Pods = some l2 ∧ l2.Perm l)

/-- The policy `p2` is the policy `p` with the peer pods of its matches listed in
another order. -/
def ContivPolicy.PeersPermuted (p p2 : ContivPolicy) : Prop :=
  p2.ID = p.ID ∧ p2.Typ = p.Typ ∧ List.Forall₂ Match.PeersPermuted p.Matches p2.Matches

/-- The peers of a match that resolve, as a filter over the listed pods. -/
def resolvePeer (env : Env) (peer : PodID) : Option PeerPod :=
  match env.LookupPod peer with
  | none => none
  | some peerData =>
    if peerData.IpAddress = "" then none
    else
      match env.GetOneHostSubnet peerData.IpAddress with
      | none => none
      | some peerIPNet => some { ID := peer, IPNet := peerIPNet }

/-- Two optional rule lists fail together or hold the same rules. -/
def SameMembers (a b : Option (List ContivRule)) : Prop :=
  (a = none ∧ b = none) ∨ ∃ rs rs2, a = some rs ∧ b = some rs2 ∧ ∀ x, x ∈ rs ↔ x ∈ rs2

/-! ## The rules a run of `generateRules` inserts, as lists -/

/-- The rules of the list inserted one after the other. -/
def insertAll (cmp : ContivRule → ContivRule → Int) (cr : ContivRules) (rs : List ContivRule) :
    ContivRules :=
  rs.foldl (fun acc r => (acc.Insert cmp r).1) cr

/-- The rules `insertNetwork` inserts for one peer network. -/
def networkRules (direction : MatchType) (ports : List Port) (n : IPNet) : List ContivRule :=
  if ports.length = 0 then [ruleAnyFor direction n] else ports.map (rulePortFor direction n)

/-- The rules `insertUndefined` inserts. -/
def undefinedRules (m : Match) : List ContivRule :=
  if m.Pods = none ∧ m.IPBlocks = none then
    if m.Ports.length = 0 then [ruleAllowAll] else m.Ports.map rulePortOnly
  else []

/-- A match that names neither pods nor IP blocks nor ports: it sets `allAllowed`. -/
def matchAllowsAll (m : Match) : Bool :=
  m.Pods = none ∧ m.IPBlocks = none ∧ m.Ports.length = 0

/-- The rules inserted for a match of the requested direction whose IP blocks
resolve to `allSubnets`. -/
def matchRules (env : Env) (direction : MatchType) (m : Match) (allSubnets : List IPNet) :
    List ContivRule :=
  undefinedRules m ++
    ((collectPeers env (m.Pods.getD [])).map PeerPod.IPNet).flatMap (networkRules direction m.Ports) ++
    allSubnets.flatMap (networkRules direction m.Ports)

/-- The rules inserted for the matches of a policy, in order. -/
def matchesRules (env : Env) (direction : MatchType) : List Match → Option (List ContivRule)
  | [] => some []
  | m :: rest =>
    if m.Typ ≠ direction then matchesRules env direction rest
    else
      match collectSubnets (m.IPBlocks.getD []), matchesRules env direction rest with
      | some allSubnets, some more => some (matchRules env direction m allSubnets ++ more)
      | _, _ => none

/-- The rules inserted for a list of policies, in order. -/
def policiesRules (env : Env) (direction : MatchType) : List ContivPolicy → Option (List ContivRule)
  | [] => some []
  | policy :: rest =>
    if policySkipped direction policy then policiesRules env direction rest
    else
      match matchesRules env direction policy.Matches, policiesRules env direction rest with
      | some rs, some more => some (rs ++ more)
      | _, _ => none

/-- Some policy of the list applies to the direction (`hasPolicy`). -/
def anyApplies (direction : MatchType) (policies : List ContivPolicy) : Bool :=
  policies.any (fun policy => !policySkipped direction policy)

/-- Some policy that applies has a match of the direction that names neither pods
nor IP blocks nor ports (`allAllowed`). -/
def anyAllowsAll (direction : MatchType) (policies : List ContivPolicy) : Bool :=
  policies.any (fun policy => !policySkipped direction policy &&
    policy.Matches.any (fun m => decide (m.Typ = direction) && matchAllowsAll m))

/-- The rules `finishRules` inserts. -/
def finalRules (env : Env) (direction : MatchType) (hasPolicy allAllowed : Bool) :
    List ContivRule :=
  if hasPolicy ∧ ¬ allAllowed then
    (if direction = MatchType.MatchIngress then [ruleNatLoop env] else []) ++ [ruleNone]
  else []

/-- Every exception of every IP block of the policies has an address and a mask
of the same length, 4 or 16 bytes. -/
def ExceptsSized (policies : List ContivPolicy) : Prop :=
  ∀ policy ∈ policies, ∀ m ∈ policy.Matches, ∀ block ∈ m.IPBlocks.getD [],
    ∀ except ∈ block.Except, except.Sized

instance (policies : List ContivPolicy) : Decidable (ExceptsSized policies) := by
  unfold ExceptsSized; infer_instance

/-- Test pod `default/podA`. -/
def podA : PodID := { Name := "podA", Namespace := "default" }

/-- Test pod `default/podB`. -/
def podB : PodID := { Name := "podB", Namespace := "default" }

/-- A policy of type Ingress with one ingress match that lists the pod `peer` and
the port 80/TCP. -/
def singlePeerPolicy (id : PolicyID) (peer : PodID) : ContivPolicy :=
  { ID := id,
    Typ := PolicyType.PolicyIngress,
    Matches := [{ Typ := MatchType.MatchIngress, Pods := some [peer], IPBlocks := none,
                  Ports := [{ Protocol := ProtocolType.TCP, Number := 80 }] }] }

/-- Test policy: ingress from `podB` on TCP port 80. -/
def ingressPolicy : ContivPolicy := singlePeerPolicy { Name := "p1", Namespace := "default" } podB

/-- Test policy: egress to `podB` on any port. -/
def egressPolicy : ContivPolicy :=
  { ID := { Name := "p2", Namespace := "default" },
    Typ := PolicyType.PolicyEgress,
    Matches := [{ Typ := MatchType.MatchEgress, Pods := some [podB], IPBlocks := none,
                  Ports := [] }] }

/-- Test policy: one ingress match for `podB` on TCP port 80 and one ingress match
that names neither pods nor IP blocks nor ports. -/
def allowAllPolicy : ContivPolicy :=
  { ID := { Name := "p3", Namespace := "default" },
    Typ := PolicyType.PolicyAll,
    Matches := [{ Typ := MatchType.MatchIngress, Pods := some [podB], IPBlocks := none,
                  Ports := [{ Protocol := ProtocolType.TCP, Number := 80 }] },
                { Typ := MatchType.MatchIngress, Pods := none, IPBlocks := none, Ports := [] }] }

/-- Test policy: ingress from the listed peers on UDP port 53, and from
10.0.0.0/24 without 10.0.0.128/25. -/
def peersPolicy (peers : List PodID) : ContivPolicy :=
  { ID := { Name := "p4", Namespace := "default" },
    Typ := PolicyType.PolicyIngress,
    Matches := [{ Typ := MatchType.MatchIngress, Pods := some peers,
                  IPBlocks := some [{ Network := cidr4 10 0 0 0 24,
                                      Except := [cidr4 10 0 0 128 25] }],
                  Ports := [{ Protocol := ProtocolType.UDP, Number := 53 }] }] }

/-- Test policy of type IngressAndEgress: ingress from `podB` on TCP port 80,
egress to `podB` on any port. -/
def bothPolicy : ContivPolicy :=
  { ID := { Name := "p5", Namespace := "default" },
    Typ := PolicyType.PolicyAll,
    Matches := [{ Typ := MatchType.MatchIngress, Pods := some [podB], IPBlocks := none,
                  Ports := [{ Protocol := ProtocolType.TCP, Number := 80 }] },
                { Typ := MatchType.MatchEgress, Pods := some [podB], IPBlocks := none,
                  Ports := [] }] }

/-! ## The whole of `PolicyConfiguratorTxn.Commit` -/

/-- A registered renderer as the configurator sees it: the error (`none` for nil)
that `Commit` of one of its transactions returns, given the `resync` flag the
transaction was opened with and the `Render` calls it received. -/
structure Renderer where
  txnCommit : Bool → List RenderCall → Option String

/-- A renderer transaction opened by `Commit`. -/
structure RendererTxn where
  renderer : Renderer
  resync : Bool
  calls : List RenderCall

/-- Go `renderer.Txn.Commit`: the returned error. -/
def RendererTxn.Commit (txn : RendererTxn) : Option String :=
  txn.renderer.txnCommit txn.resync txn.calls

/-- Go `PolicyConfigurator`, the fields that `Commit` uses. -/
structure PolicyConfigurator where
  renderers : List Renderer
  parallelRendering : Bool
  podIPAddresses : PodID → Option IPNet

/-- Go `PolicyConfiguratorTxn`; `config` holds the entries of the map in the
order in which `range` visits them. -/
structure PolicyConfiguratorTxn where
  resync : Bool
  config : List (PodID × List ContivPolicy)
  podIPAddresses : PodID → Option IPNet

/-- Go `PolicyConfigurator.NewTxn`. -/
def PolicyConfigurator.NewTxn (pc : PolicyConfigurator) (resync : Bool) : PolicyConfiguratorTxn :=
  { resync := resync,
    config := [],
    podIPAddresses := if resync then (fun _ => none) else pc.podIPAddresses }

/-- Go `PolicyConfiguratorTxn.Configure`. -/
def PolicyConfiguratorTxn.Configure (pct : PolicyConfiguratorTxn) (pod : PodID)
    (policies : List ContivPolicy) : PolicyConfiguratorTxn :=
  { pct with config := Vpp.Configure pct.config pod policies }

/-- Lines 213-223 seen from the end of the pod loop: the renderer transactions are
opened when the first pod is rendered, one per registered renderer, and each of
them receives every `Render` call. -/
def openTxns (renderers : List Renderer) (resync : Bool) (calls : List RenderCall) :
    List RendererTxn :=
  if calls = [] then []
  else renderers.map (fun r => { renderer := r, resync := resync, calls := calls })

/-- Lines 229-241 in sequential mode: every transaction is committed; the state is
the pair of `wasError` and the transactions committed so far. -/
def commitSequential : List RendererTxn → Option String × List RendererTxn →
    Option String × List RendererTxn
  | [], acc => acc
  | rTxn :: rest, (wasError, committed) =>
    commitSequential rest
      ((match rTxn.Commit with
        | some err => some err
        | none => wasError), committed ++ [rTxn])

/-- Lines 242-249, the receiving loop of the parallel mode: `wasError` after the
errors were received in the given order. -/
def receiveErrors : List (Option String) → Option String → Option String
  | [], wasError => wasError
  | err :: rest, wasError =>
    receiveErrors rest (match err with
      | some e => some e
      | none => wasError)

/-- What a `Commit` leaves behind: the configurator with the saved pod-IP map, the
renderer transactions that were opened, those on which `Commit` was called (in
the order of the calls in sequential mode) and the returned error. -/
structure CommitOutcome where
  configurator : PolicyConfigurator
  opened : List RendererTxn
  committed : List RendererTxn
  wasError : Option String

/-- Go `PolicyConfiguratorTxn.Commit`; `none` when `generateRules` panics.  In
parallel mode the goroutines deliver their errors in an order chosen by the
scheduler, given here as `arrival`, a rearrangement of the list of errors. -/
def PolicyConfiguratorTxn.Commit (env : Env) (pc : PolicyConfigurator)
    (pct : PolicyConfiguratorTxn)
    (arrival : List (Option String) → List (Option String)) : Option CommitOutcome :=
  match commitPods env { processed := [], podIPAddresses := pct.podIPAddresses, calls := [] }
      pct.config with
  | none => none
  | some st =>
    let rendererTxns := openTxns pc.renderers pct.resync st.calls
    let result : Option String × List RendererTxn :=
      if pc.parallelRendering then
        (receiveErrors (arrival (rendererTxns.map RendererTxn.Commit)) none, rendererTxns)
      else commitSequential rendererTxns (none, [])
    some { configurator := { pc with podIPAddresses := st.podIPAddresses },
           opened := rendererTxns,
           committed := result.2,
           wasError := result.1 }

/-- The one-host subnet of a pod that the policy cache knows with a valid IP
address, `none` for a pod that is unknown, has no IP or an IP that does not
parse. -/
def validIP (env : Env) (pod : PodID) : Option IPNet :=
  match env.LookupPod pod with
  | none => none
  | some podData =>
    if podData.IpAddress = "" then none else env.GetOneHostSubnet podData.IpAddress

/-- The policy cache reports the pod as unknown or with an empty IP address. -/
def podGone (env : Env) (pod : PodID) : Bool :=
  match env.LookupPod pod with
  | none => true
  | some podData => decide (podData.IpAddress = "")

/-- A renderer whose transactions fail to commit with the given error. -/
def failingRenderer (err : String) : Renderer := { txnCommit := fun _ _ => some err }

/-- A renderer whose transactions commit without error. -/
def goodRenderer : Renderer := { txnCommit := fun _ _ => none }

/-- The entry of a pod in the pod-IP map after the pod loop of `Commit` visited
it, `old` being the entry before: dropped for a pod that is gone, replaced for a
pod with a valid IP, kept for a pod whose IP does not parse. -/
def expectedIP (env : Env) (old : Option IPNet) (pod : PodID) : Option IPNet :=
  if podGone env pod then none
  else
    match validIP env pod with
    | some podIPNet => some podIPNet
    | none => old

/-- Test pod `default/podC`, unknown to the test environment. -/
def podC : PodID := { Name := "podC", Namespace := "default" }

/-- A pod-IP map that records 10.0.0.3 for `podC` and nothing else. -/
def staleIPs : PodID → Option IPNet :=
  fun pod => if pod = podC then some (cidr4 10 0 0 3 32) else none

/-- A sequential test configurator with two renderers that fail and one that
succeeds, registered in this order. -/
def testConfigurator : PolicyConfigurator :=
  { renderers := [failingRenderer "e1", failingRenderer "e2", goodRenderer],
    parallelRendering := false,
    podIPAddresses := staleIPs }

/-- A test transaction of `testConfigurator`: `podA` with the ingress policy and
`podC` without policies. -/
def testTxn (resync : Bool) : PolicyConfiguratorTxn :=
  ((testConfigurator.NewTxn resync).Configure podA [ingressPolicy]).Configure podC []


/-! ## The renderer cache (`renderer/cache/cache_impl.go`)

Tables and pod configurations are values: a pointer that the Go code shares between
the cache and a transaction is the same value in both.  A nil pointer is `none`,
a nil-pointer dereference (a Go panic) makes the function return `none`. -/

/-- Go `cache.TableType`. -/
inductive TableType where
  | Local
  | Global
deriving DecidableEq, Repr

/-- Go `cache.Orientation`. -/
inductive Orientation where
  | IngressOrientation
  | EgressOrientation
deriving DecidableEq, Repr

/-- Go `cache.AnyPort`. -/
def AnyPort : Nat := 0

/-- Go `cache.PodSet`, a map keyed by pod IDs: the keys in the order in which
`range` visits them. -/
abbrev PodSet := List PodID

/-- Modelled from the spec: the empty set of pods. -/
def NewPodSet : PodSet := []

/-- Modelled from the spec: membership in a set of pods. -/
def PodSet.Has (s : PodSet) (pod : PodID) : Bool := decide (pod ∈ s)

/-- Modelled from the spec: a pod is added to a set of pods. -/
def PodSet.Add (s : PodSet) (pod : PodID) : PodSet := if pod ∈ s then s else s ++ [pod]

/-- Modelled from the spec: a pod is removed from a set of pods. -/
def PodSet.Remove (s : PodSet) (pod : PodID) : PodSet := s.filter (fun p => decide (p ≠ pod))

/-- Modelled from the spec: two sets of pods have the same members. -/
def PodSet.Equals (s s2 : PodSet) : Bool :=
  s.all (fun p => decide (p ∈ s2)) && s2.all (fun p => decide (p ∈ s))

/-- Modelled from the spec: the union of two sets of pods. -/
def PodSet.Join (s s2 : PodSet) : PodSet := s2.foldl PodSet.Add s

/-- Go `cache.Ports`, a map keyed by port numbers: the keys in the order in which
`range` visits them. -/
abbrev Ports := List Nat

/-- Go `cache.ContivRuleTable`.  `Rules` is the slice `Rules[:NumOfRules]`, the
rules that the table holds; `Private` is opaque to the cache (`none` for nil). -/
structure ContivRuleTable where
  Typ : TableType
  Rules : List ContivRule
  Pods : PodSet
  Private : Option Nat
deriving DecidableEq, Repr

/-- Go field `NumOfRules`. -/
def ContivRuleTable.NumOfRules (table : ContivRuleTable) : Nat := table.Rules.length

/-- Modelled from the spec: a new table of the given type, without rules and pods. -/
def NewContivRuleTable (tableType : TableType) : ContivRuleTable :=
  { Typ := tableType, Rules := [], Pods := NewPodSet, Private := none }

/-- Modelled from the spec: `InsertRule(r)` inserts into the sorted position and
returns false if an equal rule already exists; the search is the one of
`ContivRules.Insert`. -/
def ContivRuleTable.InsertRule (cmp : ContivRule → ContivRule → Int) (table : ContivRuleTable)
    (rule : ContivRule) : ContivRuleTable × Bool :=
  let res := ContivRules.Insert cmp { rules := [], orderedRules := table.Rules } rule
  ({ table with Rules := res.1.orderedRules }, res.2)

/-- Modelled from the spec: `RemoveByPredicate(p)` removes all rules matching `p`. -/
def ContivRuleTable.RemoveByPredicate (table : ContivRuleTable) (p : ContivRule → Bool) :
    ContivRuleTable :=
  { table with Rules := table.Rules.filter (fun rule => !p rule) }

/-- Go `cache.PodConfig`; `PodIP` is a pointer, `none` for nil. -/
structure PodConfig where
  PodIP : Option IPNet
  Ingress : List ContivRule
  Egress : List ContivRule
  Removed : Bool
deriving DecidableEq, Repr

/-- Go `Config`, a map from pods to pod configurations: the entries in the order in
which `range` visits them. -/
abbrev Config := List (PodID × PodConfig)

/-- Go `config[pod]` with the comma-ok flag: `none` if the pod has no entry. -/
def Config.get (config : Config) (pod : PodID) : Option PodConfig :=
  match config.find? (fun entry => decide (entry.1 = pod)) with
  | some entry => some entry.2
  | none => none

/-- Go `config[pod] = podConfig`. -/
def Config.set (config : Config) (pod : PodID) (podConfig : PodConfig) : Config :=
  config.filter (fun entry => decide (entry.1 ≠ pod)) ++ [(pod, podConfig)]

/-- Go `delete(config, pod)`. -/
def Config.delete (config : Config) (pod : PodID) : Config :=
  config.filter (fun entry => decide (entry.1 ≠ pod))

/-- Go `cache.LocalTables`: the slice `tables[:numTables]`. -/
structure LocalTables where
  tables : List ContivRuleTable
deriving DecidableEq, Repr

/-- Go field `numTables`. -/
def LocalTables.numTables (lt : LocalTables) : Nat := lt.tables.length

/-- Modelled from the spec: a store of Local tables that holds no table. -/
def NewLocalTables : LocalTables := { tables := [] }

/-- Go `cache.TxnChange`. -/
structure TxnChange where
  Table : ContivRuleTable
  PreviousPods : PodSet
deriving DecidableEq, Repr

/-- The code of package `cache` that `cache_impl.go` calls and that lies outside
of it: the comparison of rules and of rule lists, the ID of a table, the
operations of `LocalTables` (a table argument names the table of the store that
the operation works on, `none` being nil) and the port sets that one pod's rules
allow towards another pod (TCP ports, UDP ports, any traffic). -/
structure CacheDeps where
  Compare : ContivRule → ContivRule → Int
  compareRuleLists : List ContivRule → List ContivRule → Int
  GetID : ContivRuleTable → String
  Insert : LocalTables → ContivRuleTable → LocalTables
  Remove : LocalTables → ContivRuleTable → LocalTables
  LookupByID : LocalTables → String → Option ContivRuleTable
  LookupByPod : LocalTables → PodID → Option ContivRuleTable
  LookupByRules : LocalTables → List ContivRule → Option ContivRuleTable
  AssignPod : LocalTables → ContivRuleTable → PodID → LocalTables
  UnassignPod : LocalTables → Option ContivRuleTable → PodID → LocalTables
  GetIsolatedPods : LocalTables → PodSet
  getAllowedIngressPorts : Option IPNet → List ContivRule → Ports × Ports × Bool
  getAllowedEgressPorts : Option IPNet → List ContivRule → Ports × Ports × Bool
  IsSubsetOf : Ports → Ports → Bool
  Intersection : Ports → Ports → Ports
  HasExplicit : Ports → Nat → Bool

/-- Go `RendererCache`. -/
structure RendererCache where
  orientation : Orientation
  localTables : LocalTables
  globalTable : Option ContivRuleTable
  config : Config
deriving DecidableEq, Repr

/-- Go `RendererCacheTxn`; the cache that the transaction points to is passed to
its methods. -/
structure RendererCacheTxn where
  localTables : LocalTables
  globalTable : Option ContivRuleTable
  upToDateTables : Bool
  config : Config
deriving DecidableEq, Repr

/-! ### The cache -/

/-- Go `RendererCache.Flush`. -/
def RendererCache.Flush (rc : RendererCache) : RendererCache :=
  { rc with
    localTables := NewLocalTables,
    globalTable := some (NewContivRuleTable TableType.Global),
    config := [] }

/-- Go `RendererCache.Init`. -/
def RendererCache.Init (rc : RendererCache) (orientation : Orientation) : RendererCache :=
  RendererCache.Flush { rc with orientation := orientation }

/-- Go `RendererCache.NewTxn`. -/
def RendererCache.NewTxn (_rc : RendererCache) : RendererCacheTxn :=
  { localTables := NewLocalTables, globalTable := none, upToDateTables := false, config := [] }

/-- The local variables of `Resync`. -/
structure ResyncState where
  config : Config
  localTables : LocalTables
  globalTable : ContivRuleTable
deriving DecidableEq, Repr

/-- Lines 124-130 of `Resync`, the loop over the pods of one table: the new
`config`, or the pod that the returned error names. -/
def resyncPods (config : Config) : List PodID → Except PodID Config
  | [] => Except.ok config
  | podID :: rest =>
    if (Config.get config podID).isSome then Except.error podID
    else resyncPods (Config.set config podID
      { PodIP := none, Ingress := [], Egress := [], Removed := false }) rest

/-- Lines 109-131 of `Resync`, the loop over the tables. -/
def resyncTables (deps : CacheDeps) :
    List (Option ContivRuleTable) → ResyncState → Except PodID ResyncState
  | [], st => Except.ok st
  | none :: rest, st => resyncTables deps rest st
  | some table :: rest, st =>
    if table.Typ = TableType.Global then
      resyncTables deps rest { st with globalTable := table }
    else if table.Pods.length = 0 then resyncTables deps rest st
    else
      match resyncPods st.config table.Pods with
      | Except.error podID => Except.error podID
      | Except.ok config =>
        resyncTables deps rest
          { st with localTables := deps.Insert st.localTables table, config := config }

/-- Go `RendererCache.Resync`: the cache after the call and the returned error,
`none` for nil and otherwise the pod that the error names. -/
def RendererCache.Resync (deps : CacheDeps) (rc : RendererCache)
    (tables : List (Option ContivRuleTable)) : RendererCache × Option PodID :=
  match resyncTables deps tables
      { config := [], localTables := NewLocalTables,
        globalTable := NewContivRuleTable TableType.Global } with
  | Except.error podID => (rc, some podID)
  | Except.ok st =>
    ({ rc with localTables := st.localTables, globalTable := some st.globalTable,
               config := st.config }, none)

/-- Go `RendererCache.GetPodConfig`. -/
def RendererCache.GetPodConfig (rc : RendererCache) (pod : PodID) : Option PodConfig :=
  Config.get rc.config pod

/-- Go `RendererCache.GetAllPods`. -/
def RendererCache.GetAllPods (rc : RendererCache) : PodSet :=
  rc.config.foldl (fun pods entry => PodSet.Add pods entry.1) NewPodSet

/-- Go `RendererCache.GetIsolatedPods`. -/
def RendererCache.GetIsolatedPods (deps : CacheDeps) (rc : RendererCache) : PodSet :=
  deps.GetIsolatedPods rc.localTables

/-- Go `RendererCache.GetLocalTableByPod`. -/
def RendererCache.GetLocalTableByPod (deps : CacheDeps) (rc : RendererCache) (pod : PodID) :
    Option ContivRuleTable :=
  match deps.LookupByPod rc.localTables pod with
  | some table => if table.NumOfRules = 0 then none else some table
  | none => none

/-- Go `RendererCache.GetGlobalTable`. -/
def RendererCache.GetGlobalTable (rc : RendererCache) : Option ContivRuleTable :=
  rc.globalTable


/-! ### The transaction -/

/-- Go `RendererCacheTxn.Update`; the log line dereferences `podConfig`, which is
therefore not nil. -/
def RendererCacheTxn.Update (rct : RendererCacheTxn) (pod : PodID) (podConfig : PodConfig) :
    RendererCacheTxn :=
  { rct with config := Config.set rct.config pod podConfig, upToDateTables := false }

/-- Go `RendererCacheTxn.GetUpdatedPods`. -/
def RendererCacheTxn.GetUpdatedPods (rct : RendererCacheTxn) : PodSet :=
  rct.config.foldl (fun updated entry => PodSet.Add updated entry.1) NewPodSet

/-- Go `RendererCacheTxn.GetRemovedPods`. -/
def RendererCacheTxn.GetRemovedPods (rct : RendererCacheTxn) : PodSet :=
  rct.config.foldl
    (fun removed entry => if entry.2.Removed then PodSet.Add removed entry.1 else removed)
    NewPodSet

/-- Go `RendererCacheTxn.GetPodConfig`. -/
def RendererCacheTxn.GetPodConfig (rc : RendererCache) (rct : RendererCacheTxn) (pod : PodID) :
    Option PodConfig :=
  match Config.get rct.config pod with
  | some config => some config
  | none => rc.GetPodConfig pod

/-- Go `RendererCacheTxn.GetAllPods`. -/
def RendererCacheTxn.GetAllPods (rc : RendererCache) (rct : RendererCacheTxn) : PodSet :=
  rct.config.foldl
    (fun pods entry =>
      if !entry.2.Removed then PodSet.Add pods entry.1 else PodSet.Remove pods entry.1)
    rc.GetAllPods

/-- Go `RendererCacheTxn.allowAll`. -/
def allowAll : ContivRule :=
  { Action := renderer.ActionType.ActionPermit,
    SrcNetwork := emptyNet,
    DestNetwork := emptyNet,
    Protocol := renderer.ProtocolType.ANY,
    SrcPort := 0,
    DestPort := 0 }

/-- Go `IPMask.Size`, second result: the length of the mask in bits, 0 for a mask
that is not in canonical form. -/
def maskBits (m : List Nat) : Nat :=
  match simpleMaskLength m with
  | some _ => m.length * 8
  | none => 0

/-- The predicate that `installLocalRules` hands to `RemoveByPredicate` (lines
547-562): the rule is anchored on the one-host subnet of `srcPodIP`. -/
def anchoredOn (orientation : Orientation) (srcPodIP : IPNet) (rule : ContivRule) : Bool :=
  let ipAddr :=
    if orientation = Orientation.EgressOrientation then rule.SrcNetwork else rule.DestNetwork
  if ipAddr.IP.length = 0 then false
  else if maskSize ipAddr.Mask ≠ maskBits ipAddr.Mask ∨ ipEqual ipAddr.IP srcPodIP.IP = false then
    false
  else true

/-- Go `RendererCacheTxn.installAllowedPorts`. -/
def installAllowedPorts (deps : CacheDeps) (orientation : Orientation)
    (dstTable : ContivRuleTable) (srcPodIP : IPNet) (allowedPorts : Ports)
    (protocol : renderer.ProtocolType) : ContivRuleTable :=
  let ruleTemplate : ContivRule :=
    { Action := renderer.ActionType.ActionPermit,
      SrcNetwork := if orientation = Orientation.EgressOrientation then srcPodIP else emptyNet,
      DestNetwork := if orientation = Orientation.EgressOrientation then emptyNet else srcPodIP,
      SrcPort := AnyPort,
      DestPort := AnyPort,
      Protocol := protocol }
  if deps.HasExplicit allowedPorts AnyPort then
    (dstTable.InsertRule deps.Compare ruleTemplate).1
  else
    allowedPorts.foldl
      (fun table port => (table.InsertRule deps.Compare { ruleTemplate with DestPort := port }).1)
      dstTable

/-- Go `RendererCacheTxn.installLocalRules`: the destination table afterwards.  The
restricting branch writes `srcPodCfg.PodIP` into rules and reads its address; with
a nil `PodIP` this is the panic `none`. -/
def installLocalRules (deps : CacheDeps) (orientation : Orientation)
    (dstTable : ContivRuleTable) (dstPodCfg srcPodCfg : PodConfig) : Option ContivRuleTable :=
  let src :=
    if orientation = Orientation.EgressOrientation then
      deps.getAllowedIngressPorts dstPodCfg.PodIP srcPodCfg.Ingress
    else deps.getAllowedEgressPorts dstPodCfg.PodIP srcPodCfg.Egress
  let dst :=
    if orientation = Orientation.EgressOrientation then
      deps.getAllowedEgressPorts srcPodCfg.PodIP dstPodCfg.Egress
    else deps.getAllowedIngressPorts srcPodCfg.PodIP dstPodCfg.Ingress
  if src.2.2 then some dstTable
  else if dst.2.2 || !deps.IsSubsetOf dst.1 src.1 || !deps.IsSubsetOf dst.2.1 src.2.1 then
    match srcPodCfg.PodIP with
    | none => none
    | some srcPodIP =>
      let table1 := dstTable.RemoveByPredicate (anchoredOn orientation srcPodIP)
      let table2 := installAllowedPorts deps orientation table1 srcPodIP
        (deps.Intersection dst.1 src.1) renderer.ProtocolType.TCP
      let table3 := installAllowedPorts deps orientation table2 srcPodIP
        (deps.Intersection dst.2.1 src.2.1) renderer.ProtocolType.UDP
      let newRule : ContivRule :=
        { Action := renderer.ActionType.ActionDeny,
          SrcNetwork := if orientation = Orientation.EgressOrientation then srcPodIP else emptyNet,
          DestNetwork := if orientation = Orientation.EgressOrientation then emptyNet else srcPodIP,
          SrcPort := AnyPort,
          DestPort := AnyPort,
          Protocol := renderer.ProtocolType.ANY }
      some (table3.InsertRule deps.Compare newRule).1
  else some dstTable

/-- Lines 490-493 of `buildLocalTable`, the loop over the source pods; `view` is
`rct.GetPodConfig`. -/
def installAllLocalRules (deps : CacheDeps) (orientation : Orientation)
    (view : PodID → Option PodConfig) (dstPodCfg : PodConfig) :
    List PodID → ContivRuleTable → Option ContivRuleTable
  | [], table => some table
  | srcPodID :: rest, table =>
    match view srcPodID with
    | none => none
    | some srcPodCfg =>
      match installLocalRules deps orientation table dstPodCfg srcPodCfg with
      | none => none
      | some table1 => installAllLocalRules deps orientation view dstPodCfg rest table1

/-- The test of lines 499-500: the rule matches all traffic. -/
def matchesAll (rule : ContivRule) : Bool :=
  decide (rule.Protocol = renderer.ProtocolType.ANY) && decide (rule.DestPort = 0) &&
    decide (rule.SrcNetwork.IP.length = 0) && decide (rule.DestNetwork.IP.length = 0)

/-- Go `RendererCacheTxn.buildLocalTable`.  `len(table.Rules)` is read as the number
of rules of the table: the table starts without rules and every removal of rules
is followed by an insertion. -/
def buildLocalTable (deps : CacheDeps) (rc : RendererCache) (rct : RendererCacheTxn)
    (dstPodID : PodID) (dstPodCfg : PodConfig) : Option ContivRuleTable :=
  let table : ContivRuleTable :=
    { NewContivRuleTable TableType.Local with
      Pods := PodSet.Add (NewContivRuleTable TableType.Local).Pods dstPodID }
  if dstPodCfg.Removed then some table
  else
    let rules :=
      if rc.orientation = Orientation.EgressOrientation then dstPodCfg.Egress
      else dstPodCfg.Ingress
    let table1 := rules.foldl (fun t rule => (t.InsertRule deps.Compare rule).1) table
    match installAllLocalRules deps rc.orientation (rct.GetPodConfig rc) dstPodCfg
        (rct.GetAllPods rc) table1 with
    | none => none
    | some table2 =>
      if table2.Rules.length > 0 then
        if table2.Rules.any matchesAll then some table2
        else some (table2.InsertRule deps.Compare allowAll).1
      else some table2

/-- Go `RendererCacheTxn.installGlobalRules`: the global table afterwards.  A rule
is given `podCfg.PodIP` as its network; with a nil `PodIP` this is the panic
`none`. -/
def installGlobalRules (deps : CacheDeps) (orientation : Orientation)
    (globalTable : ContivRuleTable) (podCfg : PodConfig) : Option ContivRuleTable :=
  let rules :=
    if orientation = Orientation.EgressOrientation then podCfg.Ingress else podCfg.Egress
  if rules = [] then some globalTable
  else
    match podCfg.PodIP with
    | none => none
    | some podIP =>
      some (rules.foldl
        (fun table rule =>
          (table.InsertRule deps.Compare
            (if orientation = Orientation.EgressOrientation then
              { rule with SrcNetwork := podIP }
            else { rule with DestNetwork := podIP })).1)
        globalTable)

/-- Lines 627-630 of `rebuildGlobalTable`, the loop over the pods; `view` is
`rct.GetPodConfig`. -/
def installAllGlobalRules (deps : CacheDeps) (orientation : Orientation)
    (view : PodID → Option PodConfig) : List PodID → ContivRuleTable → Option ContivRuleTable
  | [], table => some table
  | podID :: rest, table =>
    match view podID with
    | none => none
    | some podCfg =>
      match installGlobalRules deps orientation table podCfg with
      | none => none
      | some table1 => installAllGlobalRules deps orientation view rest table1

/-- Go `RendererCacheTxn.rebuildGlobalTable`: the new `rct.globalTable`. -/
def rebuildGlobalTable (deps : CacheDeps) (rc : RendererCache) (rct : RendererCacheTxn) :
    Option ContivRuleTable :=
  match installAllGlobalRules deps rc.orientation (rct.GetPodConfig rc) (rct.GetAllPods rc)
      (NewContivRuleTable TableType.Global) with
  | none => none
  | some table =>
    if table.NumOfRules > 0 then some (table.InsertRule deps.Compare allowAll).1
    else some table

/-- One round of the loop of `refreshTables` (lines 412-455): the new
`rct.localTables`. -/
def refreshPod (deps : CacheDeps) (rc : RendererCache) (rct : RendererCacheTxn)
    (localTables : LocalTables) (podID : PodID) : Option LocalTables :=
  match rct.GetPodConfig rc podID with
  | none => none
  | some podCfg =>
    match buildLocalTable deps rc rct podID podCfg with
    | none => none
    | some newTable =>
      let localTables1 :=
        match deps.LookupByPod rc.localTables podID with
        | some origTable =>
          if (deps.LookupByID localTables (deps.GetID origTable)).isNone then
            deps.Insert localTables
              { Typ := origTable.Typ, Rules := origTable.Rules, Pods := origTable.Pods,
                Private := origTable.Private }
          else localTables
        | none => localTables
      match deps.LookupByRules localTables1 newTable.Rules with
      | some txnTable => some (deps.AssignPod localTables1 txnTable podID)
      | none =>
        match deps.LookupByRules rc.localTables newTable.Rules with
        | some cacheTable =>
          some (deps.Insert localTables1
            { Typ := cacheTable.Typ, Rules := cacheTable.Rules,
              Pods := PodSet.Add cacheTable.Pods podID, Private := cacheTable.Private })
        | none => some (deps.Insert localTables1 newTable)

/-- The loop of `refreshTables` over the pods. -/
def refreshPods (deps : CacheDeps) (rc : RendererCache) (rct : RendererCacheTxn) :
    List PodID → LocalTables → Option LocalTables
  | [], localTables => some localTables
  | podID :: rest, localTables =>
    match refreshPod deps rc rct localTables podID with
    | none => none
    | some localTables1 => refreshPods deps rc rct rest localTables1

/-- Go `RendererCacheTxn.refreshTables`. -/
def refreshTables (deps : CacheDeps) (rc : RendererCache) (rct : RendererCacheTxn) :
    Option RendererCacheTxn :=
  match refreshPods deps rc rct (PodSet.Join (rct.GetAllPods rc) rct.GetRemovedPods)
      rct.localTables with
  | none => none
  | some localTables =>
    match rebuildGlobalTable deps rc rct with
    | none => none
    | some globalTable =>
      some { rct with localTables := localTables, globalTable := some globalTable,
                      upToDateTables := true }

/-- The transaction after `if !rct.upToDateTables { rct.refreshTables() }`. -/
def upToDate (deps : CacheDeps) (rc : RendererCache) (rct : RendererCacheTxn) :
    Option RendererCacheTxn :=
  if rct.upToDateTables then some rct else refreshTables deps rc rct

/-- Lines 225-249 of `GetChanges`, the loop over the local tables of the
transaction. -/
def localChanges (deps : CacheDeps) (rc : RendererCache) : List ContivRuleTable → List TxnChange
  | [] => []
  | txnTable :: rest =>
    let origTable := deps.LookupByID rc.localTables (deps.GetID txnTable)
    if txnTable.NumOfRules = 0 then localChanges deps rc rest
    else if txnTable.Pods.length = 0 ∧ origTable = none then localChanges deps rc rest
    else if (match origTable with
        | some orig => PodSet.Equals txnTable.Pods orig.Pods
        | none => false) = true then localChanges deps rc rest
    else
      { Table := txnTable,
        PreviousPods := match origTable with
          | some orig => orig.Pods
          | none => NewPodSet } :: localChanges deps rc rest

/-- Lines 252-261 of `GetChanges`: the change of the global table, if any; `none`
for the panic on a cache without a global table. -/
def globalChanges (deps : CacheDeps) (rc : RendererCache) (rct : RendererCacheTxn) :
    Option (List TxnChange) :=
  match rct.globalTable with
  | none => some []
  | some globalTable =>
    match rc.globalTable with
    | none => none
    | some cacheTable =>
      if deps.compareRuleLists globalTable.Rules cacheTable.Rules ≠ 0 then
        some [{ Table := globalTable, PreviousPods := [] }]
      else some []

/-- Go `RendererCacheTxn.GetChanges`: the changes and the transaction afterwards. -/
def RendererCacheTxn.GetChanges (deps : CacheDeps) (rc : RendererCache)
    (rct : RendererCacheTxn) : Option (List TxnChange × RendererCacheTxn) :=
  match upToDate deps rc rct with
  | none => none
  | some rct1 =>
    match globalChanges deps rc rct1 with
    | none => none
    | some global => some (localChanges deps rc rct1.localTables.tables ++ global, rct1)

/-- Line 301 of `Commit`, `origTable.Private = txnTable.Private`, on the table of
the store with the ID `id`. -/
def setPrivate (deps : CacheDeps) (lt : LocalTables) (id : String) (priv : Option Nat) :
    LocalTables :=
  { tables := lt.tables.map
      (fun table => if deps.GetID table = id then { table with Private := priv } else table) }

/-- One round of the loop of `Commit` over the local tables of the transaction
(lines 273-311): the local tables of the cache afterwards. -/
def commitLocalTable (deps : CacheDeps) (cacheTables : LocalTables)
    (txnTable : ContivRuleTable) : LocalTables :=
  match deps.LookupByID cacheTables (deps.GetID txnTable) with
  | some origTable =>
    if txnTable.Pods.length = 0 then deps.Remove cacheTables txnTable
    else if !PodSet.Equals txnTable.Pods origTable.Pods then
      let tables1 := origTable.Pods.foldl
        (fun lt pod =>
          if !PodSet.Has txnTable.Pods pod then deps.UnassignPod lt (some origTable) pod else lt)
        cacheTables
      let tables2 := txnTable.Pods.foldl
        (fun lt pod =>
          if !PodSet.Has origTable.Pods pod then deps.AssignPod lt origTable pod else lt)
        tables1
      setPrivate deps tables2 (deps.GetID origTable) txnTable.Private
    else cacheTables
  | none =>
    if txnTable.Pods.length ≠ 0 then deps.Insert cacheTables txnTable else cacheTables

/-- Lines 315-320 of `Commit`: the global table of the cache afterwards; `none` for
the panic on a cache without a global table. -/
def commitGlobalTable (deps : CacheDeps) (cacheTable txnTable : Option ContivRuleTable) :
    Option (Option ContivRuleTable) :=
  match txnTable with
  | none => some cacheTable
  | some globalTable =>
    match cacheTable with
    | none => none
    | some cacheGlobal =>
      if deps.compareRuleLists globalTable.Rules cacheGlobal.Rules ≠ 0 then
        some (some globalTable)
      else some (some cacheGlobal)

/-- Lines 323-332 of `Commit`, the loop over the configuration of the
transaction: the configuration and the local tables of the cache afterwards. -/
def commitConfig (deps : CacheDeps) :
    List (PodID × PodConfig) → Config × LocalTables → Config × LocalTables
  | [], acc => acc
  | entry :: rest, acc =>
    if entry.2.Removed then
      commitConfig deps rest (Config.delete acc.1 entry.1, deps.UnassignPod acc.2 none entry.1)
    else commitConfig deps rest (Config.set acc.1 entry.1 entry.2, acc.2)

/-- Go `RendererCacheTxn.Commit`: the cache and the transaction afterwards (the
returned error is always nil); `none` for a panic. -/
def RendererCacheTxn.Commit (deps : CacheDeps) (rc : RendererCache) (rct : RendererCacheTxn) :
    Option (RendererCache × RendererCacheTxn) :=
  match upToDate deps rc rct with
  | none => none
  | some rct1 =>
    let localTables := rct1.localTables.tables.foldl (commitLocalTable deps) rc.localTables
    match commitGlobalTable deps rc.globalTable rct1.globalTable with
    | none => none
    | some globalTable =>
      let res := commitConfig deps rct1.config (rc.config, localTables)
      some ({ rc with localTables := res.2, globalTable := globalTable, config := res.1 }, rct1)

/-- Go `RendererCacheTxn.GetGlobalTable`: the table and the transaction afterwards. -/
def RendererCacheTxn.GetGlobalTable (deps : CacheDeps) (rc : RendererCache)
    (rct : RendererCacheTxn) : Option (Option ContivRuleTable × RendererCacheTxn) :=
  match upToDate deps rc rct with
  | none => none
  | some rct1 =>
    match rct1.globalTable with
    | some globalTable => some (some globalTable, rct1)
    | none => some (rc.globalTable, rct1)

/-- The states of the cache that a run of its interface reaches: `Init` and
`Flush` on any cache, then `Resync` with any input (failed or not) and `Commit`
of any transaction that returns. -/
inductive Reachable (deps : CacheDeps) : RendererCache → Prop
  | init (rc : RendererCache) (orientation : Orientation) : Reachable deps (rc.Init orientation)
  | flush (rc : RendererCache) : Reachable deps rc.Flush
  | resync (rc : RendererCache) (tables : List (Option ContivRuleTable)) :
      Reachable deps rc → Reachable deps (rc.Resync deps tables).1
  | commit (rc rc1 : RendererCache) (rct rct1 : RendererCacheTxn) :
      Reachable deps rc → rct.Commit deps rc = some (rc1, rct1) → Reachable deps rc1


/-! ### `LocalTables`, modelled from the spec

The operations of `LocalTables` lie outside of `cache_impl.go`.  The model keeps
the tables of a store in a list; a table argument names the table of the store
with the same rule list. -/

/-- Modelled from the spec: `UnassignPod(nil, pod)`, the pod leaves whichever
table of the store it is assigned to. -/
def LocalTables.unassign (lt : LocalTables) (pod : PodID) : LocalTables :=
  { tables := lt.tables.map (fun t => { t with Pods := PodSet.Remove t.Pods pod }) }

/-- Modelled from the spec: the by-id index, the table of the store with the
given ID. -/
def LocalTables.LookupByID (getID : ContivRuleTable → String) (lt : LocalTables)
    (id : String) : Option ContivRuleTable :=
  lt.tables.find? (fun t => decide (getID t = id))

/-- Modelled from the spec: the by-pod index, the table of the store that the pod
is assigned to. -/
def LocalTables.LookupByPod (lt : LocalTables) (pod : PodID) : Option ContivRuleTable :=
  lt.tables.find? (fun t => decide (pod ∈ t.Pods))

/-- Modelled from the spec: the by-rules index, the table of the store with the
given sorted rule list. -/
def LocalTables.LookupByRules (lt : LocalTables) (rules : List ContivRule) :
    Option ContivRuleTable :=
  lt.tables.find? (fun t => decide (t.Rules = rules))

/-- Modelled from the spec: `AssignPod` updates `pods`; the pod joins the given
table and leaves the table it was assigned to. -/
def LocalTables.AssignPod (lt : LocalTables) (table : ContivRuleTable) (pod : PodID) :
    LocalTables :=
  { tables := lt.tables.map (fun t =>
      if t.Rules = table.Rules then { t with Pods := PodSet.Add t.Pods pod }
      else { t with Pods := PodSet.Remove t.Pods pod }) }

/-- Modelled from the spec: `UnassignPod` updates `pods`; the pod leaves the given
table, or with nil whichever table it is assigned to. -/
def LocalTables.UnassignPod (lt : LocalTables) (table : Option ContivRuleTable) (pod : PodID) :
    LocalTables :=
  match table with
  | none => lt.unassign pod
  | some table =>
    { tables := lt.tables.map (fun t =>
        if t.Rules = table.Rules then { t with Pods := PodSet.Remove t.Pods pod } else t) }

/-- Modelled from the spec: the table is added to the store and its pods are
assigned to it, leaving the tables they were assigned to. -/
def LocalTables.Insert (lt : LocalTables) (table : ContivRuleTable) : LocalTables :=
  { tables := (table.Pods.foldl LocalTables.unassign lt).tables ++ [table] }

/-- Modelled from the spec: the table leaves the store. -/
def LocalTables.Remove (lt : LocalTables) (table : ContivRuleTable) : LocalTables :=
  { tables := lt.tables.filter (fun t => decide (t.Rules ≠ table.Rules)) }

/-- Modelled from the spec: the pods that are assigned to a table of the store. -/
def LocalTables.GetIsolatedPods (lt : LocalTables) : PodSet :=
  lt.tables.foldl (fun s t => PodSet.Join s t.Pods) NewPodSet

/-- Numbers written with letters: a letter c for every sixteen, a letter a for
every unit left, closed by the letter b. -/
def letterCode : List Nat → List Char
  | [] => []
  | n :: rest =>
    List.replicate (n / 16) 'c' ++ (List.replicate (n % 16) 'a' ++ 'b' :: letterCode rest)

/-- Lists of numbers written as one list, each list behind its length. -/
def flatCode (ls : List (List Nat)) : List Nat :=
  ls.flatMap (fun l => l.length :: l)


/-! ### What the cache relies on, and a test instance -/

/-- All tables of the store are Local tables. -/
def LocalTables.AllLocal (lt : LocalTables) : Prop :=
  ∀ table ∈ lt.tables, table.Typ = TableType.Local

/-- What the cache relies on from the operations of `LocalTables` as far as the
type of the tables goes: a store of Local tables stays one when a Local table is
inserted or a pod is assigned, and a lookup in it returns a Local table. -/
structure KeepsLocal (deps : CacheDeps) : Prop where
  insert : ∀ lt table, LocalTables.AllLocal lt → table.Typ = TableType.Local →
    LocalTables.AllLocal (deps.Insert lt table)
  assignPod : ∀ lt table pod, LocalTables.AllLocal lt →
    LocalTables.AllLocal (deps.AssignPod lt table pod)
  lookupByPod : ∀ lt pod table, LocalTables.AllLocal lt →
    deps.LookupByPod lt pod = some table → table.Typ = TableType.Local
  lookupByRules : ∀ lt rules table, LocalTables.AllLocal lt →
    deps.LookupByRules lt rules = some table → table.Typ = TableType.Local

/-- Every pod configuration that the transaction sees has a pod IP. -/
def PodIPsSet (rc : RendererCache) (rct : RendererCacheTxn) : Prop :=
  ∀ pod podCfg, rct.GetPodConfig rc pod = some podCfg → podCfg.PodIP.isSome = true

/-- Modelled from the spec: rule lists are compared pointwise by the rule
comparison, a proper prefix coming first. -/
def ruleListsCompare : List ContivRule → List ContivRule → Int
  | [], [] => 0
  | [], _ :: _ => -1
  | _ :: _, [] => 1
  | a :: as, b :: bs => if ruleCompare a b ≠ 0 then ruleCompare a b else ruleListsCompare as bs

/-- The numbers that the test ID of a table is made of. -/
def ruleNumbers (r : ContivRule) : List Nat :=
  flatCode [[actionCode r.Action, protocolCode r.Protocol, r.SrcPort, r.DestPort],
    r.SrcNetwork.IP, r.SrcNetwork.Mask, r.DestNetwork.IP, r.DestNetwork.Mask]

/-- Modelled from the spec: an ID derived from the sorted rule list, the numbers
of its rules written with letters. -/
def testID (table : ContivRuleTable) : String :=
  String.mk (letterCode (flatCode (table.Rules.map ruleNumbers)))

/-- Modelled from the spec: the ports that the rules permit for the peer `ip` (TCP
ports, UDP ports, any traffic), `network` giving the field of a rule that names
the peer; a rule without a peer network covers every peer. -/
def allowedPorts (network : ContivRule → IPNet) (ip : Option IPNet) :
    List ContivRule → Ports × Ports × Bool
  | [] => ([], [], false)
  | rule :: rest =>
    let res := allowedPorts network ip rest
    let covers :=
      decide ((network rule).IP.length = 0) ||
        (match ip with
          | some podIP => (network rule).Contains podIP.IP
          | none => false)
    if covers && decide (rule.Action = renderer.ActionType.ActionPermit) then
      match rule.Protocol with
      | renderer.ProtocolType.TCP => (rule.DestPort :: res.1, res.2.1, res.2.2)
      | renderer.ProtocolType.UDP => (res.1, rule.DestPort :: res.2.1, res.2.2)
      | renderer.ProtocolType.ANY => (res.1, res.2.1, true)
    else res

/-- A test instance of the code around `cache_impl.go`: `LocalTables` as modelled
from the spec; in the ingress list of a pod the peers are the destination
networks, in its egress list the source networks. -/
def testDeps : CacheDeps :=
  { Compare := ruleCompare,
    compareRuleLists := ruleListsCompare,
    GetID := testID,
    Insert := LocalTables.Insert,
    Remove := LocalTables.Remove,
    LookupByID := LocalTables.LookupByID testID,
    LookupByPod := LocalTables.LookupByPod,
    LookupByRules := LocalTables.LookupByRules,
    AssignPod := LocalTables.AssignPod,
    UnassignPod := LocalTables.UnassignPod,
    GetIsolatedPods := LocalTables.GetIsolatedPods,
    getAllowedIngressPorts := allowedPorts (fun rule => rule.DestNetwork),
    getAllowedEgressPorts := allowedPorts (fun rule => rule.SrcNetwork),
    IsSubsetOf := fun a b => a.all (fun port => decide (port ∈ b)),
    Intersection := fun a b => a.filter (fun port => decide (port ∈ b)),
    HasExplicit := fun a port => decide (port ∈ a) }

/-- A cache in its zero state, before `Init`. -/
def zeroCache : RendererCache :=
  { orientation := Orientation.IngressOrientation, localTables := NewLocalTables,
    globalTable := none, config := [] }

/-- A test cache: initialised with the egress orientation. -/
def testCache : RendererCache := zeroCache.Init Orientation.EgressOrientation

/-- A test Global table with the one rule `rule`. -/
def globalWith (rule : ContivRule) : ContivRuleTable :=
  { Typ := TableType.Global, Rules := [rule], Pods := [], Private := none }

/-- A test Local table without rules, assigned to `pods`. -/
def localFor (pods : List PodID) : ContivRuleTable :=
  { Typ := TableType.Local, Rules := [], Pods := pods, Private := none }

/-- A test pod configuration for the pod IP 10.0.0.1: deny all ingress. -/
def denyIngressConfig : PodConfig :=
  { PodIP := some (cidr4 10 0 0 1 32), Ingress := [ruleNone], Egress := [], Removed := false }

/-- A test transaction of `testCache` that updates `podA` with `denyIngressConfig`. -/
def testCacheTxn : RendererCacheTxn := testCache.NewTxn.Update podA denyIngressConfig

/-- The pods of an entry of the input of `Resync` that is a non-nil Local table;
no pods for any other entry. -/
def localPodsOf : Option ContivRuleTable → List PodID
  | some table => if table.Typ = TableType.Global then [] else table.Pods
  | none => []

/-- Some pod belongs to the pod sets of two entries of the input of `Resync` that
are non-nil Local tables. -/
def SharedPod (tables : List (Option ContivRuleTable)) : Prop :=
  ∃ (i j : Nat) (t1 t2 : ContivRuleTable) (pod : PodID), i < j ∧
    tables[i]? = some (some t1) ∧ tables[j]? = some (some t2) ∧
    t1.Typ = TableType.Local ∧ t2.Typ = TableType.Local ∧ pod ∈ t1.Pods ∧ pod ∈ t2.Pods

/-- The entry of the input of `Resync` is a non-nil Global table. -/
def isGlobal : Option ContivRuleTable → Bool
  | some table => decide (table.Typ = TableType.Global)
  | none => false

instance (lt : LocalTables) : Decidable lt.AllLocal := by
  unfold LocalTables.AllLocal; infer_instance

/-- Test input of `Resync`: two Local tables that share `podA`. -/
def sharedTables : List (Option ContivRuleTable) :=
  [some (localFor [podA]), none, some (localFor [podB, podA])]

/-- Test input of `Resync`: two Global tables and a Local table between them. -/
def twoGlobals : List (Option ContivRuleTable) :=
  [some (globalWith ruleNone), some (localFor [podA]), some (globalWith ruleAllowAll)]


/-! ### What `installLocalRules` does to a table, as lists of rules -/

/-- The rules of the list inserted into the table one after the other. -/
def insertRules (cmp : ContivRule → ContivRule → Int) (table : ContivRuleTable)
    (rs : List ContivRule) : ContivRuleTable :=
  rs.foldl (fun t r => (t.InsertRule cmp r).1) table

/-- The rule `ruleTemplate` of `installAllowedPorts`. -/
def portTemplate (orientation : Orientation) (srcPodIP : IPNet)
    (protocol : renderer.ProtocolType) : ContivRule :=
  { Action := renderer.ActionType.ActionPermit,
    SrcNetwork := if orientation = Orientation.EgressOrientation then srcPodIP else emptyNet,
    DestNetwork := if orientation = Orientation.EgressOrientation then emptyNet else srcPodIP,
    SrcPort := AnyPort,
    DestPort := AnyPort,
    Protocol := protocol }

/-- The rules that `installAllowedPorts` inserts, in the order of insertion. -/
def allowedPortRules (deps : CacheDeps) (orientation : Orientation) (srcPodIP : IPNet)
    (allowedPorts : Ports) (protocol : renderer.ProtocolType) : List ContivRule :=
  if deps.HasExplicit allowedPorts AnyPort then [portTemplate orientation srcPodIP protocol]
  else allowedPorts.map
    (fun port => { portTemplate orientation srcPodIP protocol with DestPort := port })

/-- The ports that the source pod allows towards the destination pod, as
`installLocalRules` determines them (lines 521-527). -/
def srcPorts (deps : CacheDeps) (orientation : Orientation) (dstPodCfg srcPodCfg : PodConfig) :
    Ports × Ports × Bool :=
  if orientation = Orientation.EgressOrientation then
    deps.getAllowedIngressPorts dstPodCfg.PodIP srcPodCfg.Ingress
  else deps.getAllowedEgressPorts dstPodCfg.PodIP srcPodCfg.Egress

/-- The ports that the destination pod allows from the source pod, as
`installLocalRules` determines them (lines 530-536). -/
def dstPorts (deps : CacheDeps) (orientation : Orientation) (dstPodCfg srcPodCfg : PodConfig) :
    Ports × Ports × Bool :=
  if orientation = Orientation.EgressOrientation then
    deps.getAllowedEgressPorts srcPodCfg.PodIP dstPodCfg.Egress
  else deps.getAllowedIngressPorts srcPodCfg.PodIP dstPodCfg.Ingress

/-- The condition under which `installLocalRules` changes the table (lines 538-543):
the source does not allow any traffic, and the destination allows any traffic or
a TCP or UDP port that the source does not allow. -/
def restricts (deps : CacheDeps) (orientation : Orientation) (dstPodCfg srcPodCfg : PodConfig) :
    Bool :=
  !(srcPorts deps orientation dstPodCfg srcPodCfg).2.2 &&
    ((dstPorts deps orientation dstPodCfg srcPodCfg).2.2 ||
      !deps.IsSubsetOf (dstPorts deps orientation dstPodCfg srcPodCfg).1
        (srcPorts deps orientation dstPodCfg srcPodCfg).1 ||
      !deps.IsSubsetOf (dstPorts deps orientation dstPodCfg srcPodCfg).2.1
        (srcPorts deps orientation dstPodCfg srcPodCfg).2.1)

/-- The rule `newRule` of `installLocalRules`: deny the rest. -/
def denyRest (orientation : Orientation) (srcPodIP : IPNet) : ContivRule :=
  { Action := renderer.ActionType.ActionDeny,
    SrcNetwork := if orientation = Orientation.EgressOrientation then srcPodIP else emptyNet,
    DestNetwork := if orientation = Orientation.EgressOrientation then emptyNet else srcPodIP,
    SrcPort := AnyPort,
    DestPort := AnyPort,
    Protocol := renderer.ProtocolType.ANY }

/-- The rules that `installLocalRules` inserts when it restricts a pair, in the
order of insertion. -/
def restrictRules (deps : CacheDeps) (orientation : Orientation)
    (dstPodCfg srcPodCfg : PodConfig) (srcPodIP : IPNet) : List ContivRule :=
  allowedPortRules deps orientation srcPodIP
      (deps.Intersection (dstPorts deps orientation dstPodCfg srcPodCfg).1
        (srcPorts deps orientation dstPodCfg srcPodCfg).1) renderer.ProtocolType.TCP ++
    allowedPortRules deps orientation srcPodIP
      (deps.Intersection (dstPorts deps orientation dstPodCfg srcPodCfg).2.1
        (srcPorts deps orientation dstPodCfg srcPodCfg).2.1) renderer.ProtocolType.UDP ++
    [denyRest orientation srcPodIP]

/-- The anchor field of a rule: the source network in egress orientation, the
destination network in ingress orientation. -/
def anchor (orientation : Orientation) (rule : ContivRule) : IPNet :=
  if orientation = Orientation.EgressOrientation then rule.SrcNetwork else rule.DestNetwork

/-- The pods of the list have pairwise different pod IPs (by `IP.Equal`) in the
view. -/
def DistinctPodIPs (view : PodID → Option PodConfig) (pods : List PodID) : Prop :=
  ∀ p ∈ pods, ∀ q ∈ pods, p ≠ q → ∀ cp cq ip iq, view p = some cp → view q = some cq →
    cp.PodIP = some ip → cq.PodIP = some iq → ipEqual ip.IP iq.IP = false

/-- The sorted rule list of the table is strictly increasing. -/
def ContivRuleTable.Sorted (cmp : ContivRule → ContivRule → Int) (table : ContivRuleTable) :
    Prop :=
  table.Rules.Pairwise (fun a b => cmp a b < 0)


/-! ### Test data of the cache -/

/-- A test rule: permit TCP to the peer on the port. -/
def permitTCPTo (peer : IPNet) (port : Nat) : ContivRule :=
  { Action := renderer.ActionType.ActionPermit, Protocol := renderer.ProtocolType.TCP,
    SrcNetwork := emptyNet, DestNetwork := peer, SrcPort := 0, DestPort := port }

/-- A test rule: permit TCP from the peer on the port. -/
def permitTCPFrom (peer : IPNet) (port : Nat) : ContivRule :=
  { Action := renderer.ActionType.ActionPermit, Protocol := renderer.ProtocolType.TCP,
    SrcNetwork := peer, DestNetwork := emptyNet, SrcPort := 0, DestPort := port }

/-- Test configuration of `podA` (10.0.0.1): towards `podB` (10.0.0.2) it allows
the given TCP ports and nothing else. -/
def allowsTo (ports : List Nat) : PodConfig :=
  { PodIP := some (cidr4 10 0 0 1 32),
    Ingress := ports.map (permitTCPTo (cidr4 10 0 0 2 32)) ++ [ruleNone],
    Egress := [], Removed := false }

/-- Test configuration of `podB` (10.0.0.2): from `podA` (10.0.0.1) it allows the
given TCP ports and nothing else. -/
def allowsFrom (ports : List Nat) : PodConfig :=
  { PodIP := some (cidr4 10 0 0 2 32),
    Ingress := [],
    Egress := ports.map (permitTCPFrom (cidr4 10 0 0 1 32)) ++ [ruleNone], Removed := false }

/-- A test transaction of `testCache` (egress orientation): `podA` allows the ports
`portsA` to `podB`, `podB` allows the ports `portsB` from `podA`. -/
def pairTxn (portsA portsB : List Nat) : RendererCacheTxn :=
  (testCache.NewTxn.Update podA (allowsTo portsA)).Update podB (allowsFrom portsB)

/-- A test pod configuration for the pod IP 10.0.0.1: deny all egress. -/
def denyEgressConfig (removed : Bool) : PodConfig :=
  { PodIP := some (cidr4 10 0 0 1 32), Ingress := [], Egress := [ruleNone], Removed := removed }

/-- The cache after `Commit` of the transaction, the cache itself if `Commit`
panics. -/
def committed (deps : CacheDeps) (rc : RendererCache) (rct : RendererCacheTxn) : RendererCache :=
  match rct.Commit deps rc with
  | some res => res.1
  | none => rc

/-- The transaction that `NewTxn` returns, after the `Update` calls of the list. -/
def txnOf (rc : RendererCache) (updates : List (PodID × PodConfig)) : RendererCacheTxn :=
  updates.foldl (fun rct u => rct.Update u.1 u.2) rc.NewTxn


/-- A test pod configuration for the pod IP 10.0.0.`d`: deny all egress. -/
def denyEgressAt (d : Nat) : PodConfig :=
  { PodIP := some (cidr4 10 0 0 d 32), Ingress := [], Egress := [ruleNone], Removed := false }

/-- The `Update` calls of a test transaction: `podA` and `podB` get the same
policy, deny all egress. -/
def sharingUpdates : List (PodID × PodConfig) :=
  [(podA, denyEgressAt 1), (podB, denyEgressAt 2)]

/-- The test table that `podA` and `podB` share. -/
def sharedDenyTable (pods : PodSet) : ContivRuleTable :=
  { Typ := TableType.Local, Rules := [ruleNone], Pods := pods, Private := none }

/-- The `Update` calls of a test transaction: `podA` allows TCP 80 to `podB`, and
`podB` allows TCP 80 and 443 from `podA`. -/
def pairUpdates : List (PodID × PodConfig) :=
  [(podA, allowsTo [80]), (podB, allowsFrom [80, 443])]

/-- The `Update` calls of a test transaction: `podA` and `podC` have the same pod
IP 10.0.0.1, `podA` allows TCP 80 and `podC` TCP 443 to `podB`, and `podB` allows
TCP 80 and 443 from 10.0.0.1. -/
def sameIPUpdates : List (PodID × PodConfig) :=
  [(podA, allowsTo [80]), (podC, allowsTo [443]), (podB, allowsFrom [80, 443])]

/-- The test cache after the commit of `sameIPUpdates`. -/
def sameIPCache : RendererCache :=
  committed testDeps testCache (txnOf testCache sameIPUpdates)

/-- The test cache `sameIPCache` after the commit of a transaction that updates
`podA` with the configuration it has. -/
def sameIPCache2 : RendererCache :=
  committed testDeps sameIPCache (txnOf sameIPCache [(podA, allowsTo [80])])

/-- A test pod configuration for the pod IP 10.0.0.1: no policy applies to the
pod. -/
def noPolicyConfig : PodConfig :=
  { PodIP := some (cidr4 10 0 0 1 32), Ingress := [], Egress := [], Removed := false }


/-! ### The store of Local tables seen as a finite map

A store in which no two tables have the same rule list is a finite map from rule
lists to sets of pods.  The definitions below read a store in this way; the
invariants of the cache and of a transaction are stated with them. -/

/-- The store holds a table with the rule list. -/
def LocalTables.has (lt : LocalTables) (rules : List ContivRule) : Prop :=
  ∃ t ∈ lt.tables, t.Rules = rules

/-- The store holds a table with the rule list, and the pod is assigned to it. -/
def LocalTables.holds (lt : LocalTables) (rules : List ContivRule) (pod : PodID) : Prop :=
  ∃ t ∈ lt.tables, t.Rules = rules ∧ pod ∈ t.Pods

/-- A well-formed store: its tables are Local tables, no two of them have the same
rule list, and no pod is assigned to two of them. -/
structure LocalTables.WF (lt : LocalTables) : Prop where
  typ : lt.AllLocal
  rules : (lt.tables.map (fun t => t.Rules)).Nodup
  pods : ∀ r1 r2 pod, lt.holds r1 pod → lt.holds r2 pod → r1 = r2

/-- Modelled from the spec: what the cache relies on from the code of
`LocalTables` and from `GetID`, which lie outside of `cache_impl.go`.  The
operations of the store are those of the list model above (the indices by-id,
by-pod and by-rules, a pod in at most one table), and the ID of a Local table is
derived from its sorted rule list: two Local tables have equal IDs exactly when
they have equal rule lists. -/
structure StoreContract (deps : CacheDeps) : Prop where
  insert : ∀ lt table, deps.Insert lt table = lt.Insert table
  remove : ∀ lt table, deps.Remove lt table = lt.Remove table
  lookupByID : ∀ lt id, deps.LookupByID lt id = lt.LookupByID deps.GetID id
  lookupByPod : ∀ lt pod, deps.LookupByPod lt pod = lt.LookupByPod pod
  lookupByRules : ∀ lt rules, deps.LookupByRules lt rules = lt.LookupByRules rules
  assignPod : ∀ lt table pod, deps.AssignPod lt table pod = lt.AssignPod table pod
  unassignPod : ∀ lt table pod, deps.UnassignPod lt table pod = lt.UnassignPod table pod
  id_iff : ∀ t1 t2 : ContivRuleTable, t1.Typ = TableType.Local → t2.Typ = TableType.Local →
    (deps.GetID t1 = deps.GetID t2 ↔ t1.Rules = t2.Rules)

/-- The candidate table of a pod: the table that `refreshTables` builds for it in
the state of the transaction (`none` for a panic). -/
def candidate (deps : CacheDeps) (rc : RendererCache) (rct : RendererCacheTxn) (pod : PodID) :
    Option ContivRuleTable :=
  match rct.GetPodConfig rc pod with
  | none => none
  | some podCfg => buildLocalTable deps rc rct pod podCfg

/-- The states of a transaction of the cache `rc`, with the `Update` calls made so
far: `NewTxn`, then `Update` calls and calls that refresh the tables of the
transaction when they are stale (`GetChanges`, `GetGlobalTable` and the like). -/
inductive Txn (deps : CacheDeps) (rc : RendererCache) :
    List (PodID × PodConfig) → RendererCacheTxn → Prop
  | new : Txn deps rc [] rc.NewTxn
  | update (updates : List (PodID × PodConfig)) (rct : RendererCacheTxn) (pod : PodID)
      (podConfig : PodConfig) :
      Txn deps rc updates rct → Txn deps rc (updates ++ [(pod, podConfig)]) (rct.Update pod podConfig)
  | refresh (updates : List (PodID × PodConfig)) (rct rct1 : RendererCacheTxn) :
      Txn deps rc updates rct → upToDate deps rc rct = some rct1 → Txn deps rc updates rct1

/-- The states of the cache reached from `Init` by committing transactions. -/
inductive Committed (deps : CacheDeps) : RendererCache → Prop
  | init (rc : RendererCache) (orientation : Orientation) : Committed deps (rc.Init orientation)
  | commit (rc rc1 : RendererCache) (updates : List (PodID × PodConfig))
      (rct rct1 : RendererCacheTxn) :
      Committed deps rc → Txn deps rc updates rct → rct.Commit deps rc = some (rc1, rct1) →
      Committed deps rc1

/-- Lines 416-428 of `refreshTables`: the local tables of the transaction after the
pod's original table was added to them, if it was not there. -/
def withOrigTable (deps : CacheDeps) (rc : RendererCache) (localTables : LocalTables)
    (podID : PodID) : LocalTables :=
  match deps.LookupByPod rc.localTables podID with
  | some origTable =>
    if (deps.LookupByID localTables (deps.GetID origTable)).isNone then
      deps.Insert localTables
        { Typ := origTable.Typ, Rules := origTable.Rules, Pods := origTable.Pods,
          Private := origTable.Private }
    else localTables
  | none => localTables

/-- Lines 430-454 of `refreshTables`: the local tables of the transaction after the
pod was given the table with the rules of `newTable`. -/
def withNewTable (deps : CacheDeps) (rc : RendererCache) (localTables1 : LocalTables)
    (newTable : ContivRuleTable) (podID : PodID) : LocalTables :=
  match deps.LookupByRules localTables1 newTable.Rules with
  | some txnTable => deps.AssignPod localTables1 txnTable podID
  | none =>
    match deps.LookupByRules rc.localTables newTable.Rules with
    | some cacheTable =>
      deps.Insert localTables1
        { Typ := cacheTable.Typ, Rules := cacheTable.Rules,
          Pods := PodSet.Add cacheTable.Pods podID, Private := cacheTable.Private }
    | none => deps.Insert localTables1 newTable

/-- The loop of `refreshTables` has visited the pods of the list: the store of the
transaction is well-formed, every visited pod is assigned in it to the table with
the rule list of its candidate table, and the table that the cache assigns a
visited pod to has a copy in it. -/
structure Refreshed (deps : CacheDeps) (rc : RendererCache) (rct : RendererCacheTxn)
    (S : LocalTables) (visited : List PodID) : Prop where
  wf : S.WF
  cand : ∀ q ∈ visited, ∃ tq, candidate deps rc rct q = some tq ∧ S.holds tq.Rules q
  orig : ∀ q ∈ visited, ∀ r, rc.localTables.holds r q → S.has r

/-- The invariant of a transaction: its store of local tables is well-formed and
holds pods of the cache and of the transaction only, and when its tables are up
to date, the loop of `refreshTables` has visited all pods and the global table
was rebuilt in the present state of the configuration. -/
structure TxnInv (deps : CacheDeps) (rc : RendererCache) (rct : RendererCacheTxn) : Prop where
  wf : rct.localTables.WF
  fresh : rct.upToDateTables = true →
    Refreshed deps rc rct rct.localTables (PodSet.Join (rct.GetAllPods rc) rct.GetRemovedPods)
  global : rct.upToDateTables = true →
    ∃ g, rebuildGlobalTable deps rc rct = some g ∧ rct.globalTable = some g
  pods : ∀ r q, rct.localTables.holds r q →
    q ∈ rc.config.map Prod.fst ∨ q ∈ rct.config.map Prod.fst

/-- The invariant of the cache: its store of local tables is well-formed, it has
one configuration per tracked pod, and the pods of its tables are tracked. -/
structure CacheInv (rc : RendererCache) : Prop where
  wf : rc.localTables.WF
  keys : (rc.config.map Prod.fst).Nodup
  pods : ∀ r q, rc.localTables.holds r q → q ∈ rc.config.map Prod.fst

/-- The rules that `installGlobalRules` inserts into the global table for a pod:
the rules of the pod with the pod IP as their network (`none` for the panic on a
nil pod IP). -/
def globalRulesOf (orientation : Orientation) (podCfg : PodConfig) : Option (List ContivRule) :=
  let rules :=
    if orientation = Orientation.EgressOrientation then podCfg.Ingress else podCfg.Egress
  if rules = [] then some []
  else
    match podCfg.PodIP with
    | none => none
    | some podIP =>
      some (rules.map (fun rule =>
        if orientation = Orientation.EgressOrientation then { rule with SrcNetwork := podIP }
        else { rule with DestNetwork := podIP }))

/-! ### The memo of `Commit`, as an invariant of the pod loop -/

/-- The invariant of the pod loop of `Commit` after the entries `done`: no two
remembered policy sets are taken for one another by `Equals`, and every `Render`
call of a pod that is not removed carries the rule lists of a remembered policy
set that `Equals` takes for the sorted policies of the pod. -/
structure MemoInv (env : Env) (st : CommitState) (done : List (PodID × List ContivPolicy)) :
    Prop where
  distinct : ∀ ps1 ∈ st.processed, ∀ ps2 ∈ st.processed,
    ContivPolicies.Equals ps1.policies ps2.policies = true → ps1 = ps2
  calls : ∀ c ∈ st.calls, c.removed = false → ∃ e ∈ done, e.1 = c.pod ∧
    ∃ ps ∈ st.processed, ContivPolicies.Equals ps.policies (env.SortPolicies e.2) = true ∧
      c.ingress = ps.ingress.rules ∧ c.egress = ps.egress.rules

/-- The test that `installLocalRules` makes on the network of a rule (lines
555-559), on a network by itself: it has an address, and `Mask.Size()` returns as
many ones as bits, as it does for the mask of a one-host subnet. -/
def IPNet.OneHost (n : IPNet) : Prop := n.IP.length ≠ 0 ∧ maskSize n.Mask = maskBits n.Mask

instance (n : IPNet) : Decidable n.OneHost := by
  unfold IPNet.OneHost; infer_instance

/-- Lines 480-493 of `buildLocalTable` for a pod that is not removed: the table
with the rules of the pod in the orientation of the cache, combined with the rules
of every tracked pod, before the test for a rule that matches all traffic. -/
def localRulesTable (deps : CacheDeps) (rc : RendererCache) (rct : RendererCacheTxn)
    (dstPodID : PodID) (dstPodCfg : PodConfig) : Option ContivRuleTable :=
  installAllLocalRules deps rc.orientation (rct.GetPodConfig rc) dstPodCfg (rct.GetAllPods rc)
    ((if rc.orientation = Orientation.EgressOrientation then dstPodCfg.Egress
      else dstPodCfg.Ingress).foldl (fun t rule => (t.InsertRule deps.Compare rule).1)
      { NewContivRuleTable TableType.Local with
        Pods := PodSet.Add (NewContivRuleTable TableType.Local).Pods dstPodID })

/-! ### Test data for the rules of a match and for the memo -/

/-- The state of `generateRules` before the first policy. -/
def emptyGen : GenState :=
  { rules := { rules := [], orderedRules := [] }, hasPolicy := false, allAllowed := false }

/-- A test match: ingress, neither pods nor IP blocks nor ports. -/
def anyMatch : Match :=
  { Typ := MatchType.MatchIngress, Pods := none, IPBlocks := none, Ports := [] }

/-- A test match: ingress from the pods of the list and from 10.0.0.0/8, without
ports. -/
def blockMatch (pods : List PodID) : Match :=
  { Typ := MatchType.MatchIngress, Pods := some pods,
    IPBlocks := some [{ Network := cidr4 10 0 0 0 8, Except := [] }], Ports := [] }

/-- A test match: ingress from 10.0.0.0/8 and from 192.168.0.0/16, without pods
and ports. -/
def twoBlockMatch : Match :=
  { Typ := MatchType.MatchIngress, Pods := none,
    IPBlocks := some [{ Network := cidr4 10 0 0 0 8, Except := [] },
                      { Network := cidr4 192 168 0 0 16, Except := [] }],
    Ports := [] }

/-- A test match: ingress from the pods of the list on the ports TCP 80 and UDP 53. -/
def portsMatch (pods : List PodID) : Match :=
  { Typ := MatchType.MatchIngress, Pods := some pods, IPBlocks := none,
    Ports := [{ Protocol := ProtocolType.TCP, Number := 80 },
              { Protocol := ProtocolType.UDP, Number := 53 }] }

/-- A test policy with the ID of `ingressPolicy` and another body: it allows all
ingress. -/
def sameIDPolicy : ContivPolicy :=
  { ID := { Name := "p1", Namespace := "default" }, Typ := PolicyType.PolicyIngress,
    Matches := [anyMatch] }

/-! # Theorems -/

/-! ## Bits of byte slices -/

theorem getD_andBytes (xs ys : List Nat) (k : Nat) :
    (andBytes xs ys).getD k 0 = xs.getD k 0 &&& ys.getD k 0 := by
  induction xs generalizing ys k with
  | nil => simp [andBytes]
  | cons x xs ih =>
    cases ys with
    | nil => simp [andBytes]
    | cons y ys =>
      cases k with
      | zero => simp [andBytes]
      | succ k => simpa [andBytes] using ih ys k

theorem bitOf_andBytes (xs ys : List Nat) (i : Nat) :
    bitOf (andBytes xs ys) i = (bitOf xs i && bitOf ys i) := by
  unfold bitOf
  rw [getD_andBytes, Nat.testBit_and]

theorem bitOf_nil (i : Nat) : bitOf [] i = false := by
  simp [bitOf]

theorem bitOf_cons (x : Nat) (xs : List Nat) (i : Nat) :
    bitOf (x :: xs) i = if i < 8 then x.testBit (7 - i) else bitOf xs (i - 8) := by
  by_cases h : i < 8
  · have h1 : i / 8 = 0 := Nat.div_eq_of_lt h
    have h2 : i % 8 = i := Nat.mod_eq_of_lt h
    simp [bitOf, h, h1, h2]
  · have h1 : i / 8 = (i - 8) / 8 + 1 := by omega
    have h2 : i % 8 = (i - 8) % 8 := by omega
    simp [bitOf, h, h1, h2]

theorem testBit_ff (i : Nat) (h : i < 8) : (0xff : Nat).testBit (7 - i) = true := by
  interval_cases i <;> decide

theorem testBit_cidrByte (n i : Nat) (hn : n < 8) (h : i < 8) :
    ((0xff : Nat) ^^^ (0xff >>> n)).testBit (7 - i) = decide (i < n) := by
  interval_cases n <;> interval_cases i <;> decide

theorem bitOf_cidrBytes (l n i : Nat) :
    bitOf (cidrBytes n l) i = decide (i < n ∧ i < 8 * l) := by
  induction l generalizing n i with
  | zero => simp [cidrBytes, bitOf_nil]
  | succ l ih =>
    unfold cidrBytes
    by_cases hn : n ≥ 8
    · rw [if_pos hn, bitOf_cons]
      by_cases hi : i < 8
      · rw [if_pos hi, testBit_ff i hi]
        symm; rw [decide_eq_true_iff]; omega
      · rw [if_neg hi, ih]
        apply decide_eq_decide.mpr; omega
    · rw [if_neg hn, bitOf_cons]
      by_cases hi : i < 8
      · rw [if_pos hi, testBit_cidrByte n i (by omega) hi]
        apply decide_eq_decide.mpr; omega
      · rw [if_neg hi, ih]
        apply decide_eq_decide.mpr; omega

theorem length_cidrBytes (l n : Nat) : (cidrBytes n l).length = l := by
  induction l generalizing n with
  | zero => simp [cidrBytes]
  | succ l ih => unfold cidrBytes; split <;> simp [ih]

theorem length_andBytes (xs ys : List Nat) : (andBytes xs ys).length = min xs.length ys.length := by
  simp [andBytes]

theorem getD_set (l : List Nat) (j k a : Nat) (hj : j < l.length) :
    (l.set j a).getD k 0 = if j = k then a else l.getD k 0 := by
  simp only [List.getD_eq_getElem?_getD, List.getElem?_set]
  by_cases h : j = k
  · subst h; simp [hj]
  · simp [h]

theorem bitOf_flip (ip : List Nat) (b i : Nat) (hb : b / 8 < ip.length) :
    bitOf (ip.set (b / 8) (ip.getD (b / 8) 0 ^^^ ((1 <<< (7 - b % 8)) % 256))) i =
      xor (bitOf ip i) (decide (i = b)) := by
  have hp : (1 <<< (7 - b % 8)) % 256 = 2 ^ (7 - b % 8) := by
    rw [Nat.one_shiftLeft]
    apply Nat.mod_eq_of_lt
    calc 2 ^ (7 - b % 8) ≤ 2 ^ 7 := Nat.pow_le_pow_right (by decide) (by omega)
      _ < 256 := by decide
  unfold bitOf
  rw [getD_set _ _ _ _ hb, hp]
  by_cases h : b / 8 = i / 8
  · rw [if_pos h, Nat.testBit_xor, Nat.testBit_two_pow, h]
    congr 1
    apply decide_eq_decide.mpr; omega
  · rw [if_neg h]
    have : decide (i = b) = false := by
      rw [decide_eq_false_iff_not]; intro e; exact h (by rw [e])
    simp [this]


theorem ipMask_eq_andBytes (ip mask : List Nat) (h : ip.length = mask.length) :
    ipMask ip mask = andBytes ip mask := by
  unfold ipMask
  have h1 : ¬ (mask.length = 16 ∧ ip.length = 4 ∧ (mask.take 12).all (· == 0xff) = true) := by
    intro c; omega
  rw [if_neg h1]
  have h2 : ¬ (mask.length = 4 ∧ ip.length = 16 ∧ ip.take 12 = v4InV6Prefix) := by
    intro c; omega
  simp only [if_neg h2]
  rw [if_neg (by simpa using h)]

theorem CIDRMask_eq_cidrBytes (ones l : Nat) (hl : l = 4 ∨ l = 16) (h : ones ≤ 8 * l) :
    CIDRMask ones (l * 8) = cidrBytes ones l := by
  unfold CIDRMask
  rw [if_neg (by omega), if_neg (by omega)]
  congr 1; omega

theorem countLeadingOnes_le (fuel v : Nat) : (countLeadingOnes fuel v).1 ≤ fuel := by
  induction fuel generalizing v with
  | zero => simp [countLeadingOnes]
  | succ fuel ih =>
    unfold countLeadingOnes
    split
    · have := ih ((v <<< 1) % 256); simp only; omega
    · simp

theorem simpleMaskLength_le (m : List Nat) (n : Nat) (h : simpleMaskLength m = some n) :
    n ≤ 8 * m.length := by
  induction m generalizing n with
  | nil => simp [simpleMaskLength] at h; subst h; simp
  | cons v rest ih =>
    unfold simpleMaskLength at h
    split at h
    · cases hr : simpleMaskLength rest with
      | none => simp [hr] at h
      | some k =>
        simp [hr] at h
        have := ih k hr
        simp only [List.length_cons]; omega
    · split at h
      · cases h
      · split at h
        · simp only [Option.some.injEq] at h
          have := countLeadingOnes_le 8 v
          simp only [List.length_cons]; omega
        · cases h

theorem maskSize_le (m : List Nat) : maskSize m ≤ 8 * m.length := by
  unfold maskSize
  cases h : simpleMaskLength m with
  | none => simp
  | some n => exact simpleMaskLength_le m n h

theorem siblingSubnet_eq (net2 : IPNet) (hs : net2.Sized) (b : Nat) (hb : b < 8 * net2.IP.length) :
    siblingSubnet net2 b = some
      { IP := (andBytes net2.IP (cidrBytes (b + 1) net2.IP.length)).set (b / 8)
          ((andBytes net2.IP (cidrBytes (b + 1) net2.IP.length)).getD (b / 8) 0 ^^^
            ((1 <<< (7 - b % 8)) % 256)),
        Mask := cidrBytes (b + 1) net2.IP.length } := by
  obtain ⟨hl, hm⟩ := hs
  unfold siblingSubnet
  simp only [hm]
  rw [CIDRMask_eq_cidrBytes (b + 1) net2.IP.length hl (by omega)]
  rw [ipMask_eq_andBytes _ _ (by rw [length_cidrBytes])]
  rw [if_pos (by rw [length_andBytes, length_cidrBytes]; omega)]

theorem siblingSubnet_bits (net2 s : IPNet) (hs : net2.Sized) (b : Nat)
    (hb : b < 8 * net2.IP.length) (h : siblingSubnet net2 b = some s) :
    s.Mask = cidrBytes (b + 1) net2.IP.length ∧ s.IP.length = net2.IP.length ∧
      ∀ i, bitOf s.IP i =
        xor (bitOf net2.IP i && decide (i < b + 1 ∧ i < 8 * net2.IP.length)) (decide (i = b)) := by
  rw [siblingSubnet_eq net2 hs b hb] at h
  simp only [Option.some.injEq] at h
  subst h
  refine ⟨rfl, ?_, ?_⟩
  · simp [length_andBytes, length_cidrBytes]
  · intro i
    simp only
    rw [bitOf_flip _ _ _ (by rw [length_andBytes, length_cidrBytes]; omega), bitOf_andBytes,
      bitOf_cidrBytes]

theorem covers_bit (p : IPNet) (a : List Nat) (n : Nat) (hm : p.Mask = cidrBytes n p.IP.length)
    (h : p.covers a) (i : Nat) (hi : i < n) (hi2 : i < 8 * p.IP.length) :
    bitOf a i = bitOf p.IP i := by
  have h2 := congrArg (fun l => bitOf l i) h.2
  simp only [bitOf_andBytes] at h2
  rw [hm, bitOf_cidrBytes] at h2
  simpa [hi, hi2] using h2

theorem sibling_disjoint (net2 s q : IPNet) (hs : net2.Sized) (b c : Nat) (hbc : b < c)
    (hc : c < 8 * net2.IP.length) (h1 : siblingSubnet net2 b = some s)
    (h2 : siblingSubnet net2 c = some q) (a : List Nat) : ¬ (s.covers a ∧ q.covers a) := by
  rintro ⟨ha, hq⟩
  obtain ⟨m1, l1, b1⟩ := siblingSubnet_bits net2 s hs b (by omega) h1
  obtain ⟨m2, l2, b2⟩ := siblingSubnet_bits net2 q hs c hc h2
  have e1 := covers_bit s a (b + 1) (by rw [l1]; exact m1) ha b (by omega) (by rw [l1]; omega)
  have e2 := covers_bit q a (c + 1) (by rw [l2]; exact m2) hq b (by omega) (by rw [l2]; omega)
  rw [b1] at e1
  rw [b2] at e2
  have hb1 : decide (b < b + 1 ∧ b < 8 * net2.IP.length) = true := by
    rw [decide_eq_true_iff]; omega
  have hb2 : decide (b < c + 1 ∧ b < 8 * net2.IP.length) = true := by
    rw [decide_eq_true_iff]; omega
  have hb3 : decide (b = c) = false := by
    rw [decide_eq_false_iff_not]; omega
  rw [hb1] at e1
  rw [hb2, hb3] at e2
  rw [e2] at e1
  cases hbit : bitOf net2.IP b <;> simp [hbit] at e1

theorem siblingLoop_eq (net2 : IPNet) (hs : net2.Sized) (count b : Nat)
    (hb : b + count ≤ 8 * net2.IP.length) :
    siblingLoop net2 b count =
      some ((List.range' b count).map (fun c => (siblingSubnet net2 c).getD emptyNet)) := by
  induction count generalizing b with
  | zero => simp [siblingLoop]
  | succ count ih =>
    unfold siblingLoop
    simp only [List.range'_succ, List.map_cons]
    rw [ih (b + 1) (by omega), siblingSubnet_eq net2 hs b (by omega)]
    rfl

theorem siblingLoop_disjoint (net2 : IPNet) (hs : net2.Sized) (count b : Nat)
    (hb : b + count ≤ 8 * net2.IP.length) :
    ((List.range' b count).map (fun c => (siblingSubnet net2 c).getD emptyNet)).Pairwise
      (fun p q => ∀ a, ¬ (p.covers a ∧ q.covers a)) := by
  rw [List.pairwise_map]
  have hp : (List.range' b count).Pairwise (fun x y => x < y) := List.pairwise_lt_range' b count
  refine (List.Pairwise.and_mem.mp hp).imp ?_
  intro x y hxy a
  obtain ⟨hx, hy, hlt⟩ := hxy
  rw [List.mem_range'_1] at hx hy
  have ex := siblingSubnet_eq net2 hs x (by omega)
  have ey := siblingSubnet_eq net2 hs y (by omega)
  refine sibling_disjoint net2 _ _ hs x y hlt (by omega) ?_ ?_ a
  · rw [ex]; rfl
  · rw [ey]; rfl

/-- The prefixes that `subtractSubnet` returns are pairwise disjoint. -/
theorem subtractSubnet_disjoint (A B : IPNet) (hB : B.Sized) :
    ∃ r, subtractSubnet A B = some r ∧
      r.Pairwise (fun p q => ∀ a, ¬ (p.covers a ∧ q.covers a)) := by
  unfold subtractSubnet
  split
  · split <;> exact ⟨_, rfl, by simp⟩
  · split
    · split <;> exact ⟨_, rfl, by simp⟩
    · split
      · exact ⟨_, rfl, by simp⟩
      · have h2 := maskSize_le B.Mask
        rw [hB.2] at h2
        have hle : maskSize A.Mask + (maskSize B.Mask - maskSize A.Mask) ≤ 8 * B.IP.length := by
          omega
        exact ⟨_, siblingLoop_eq B hB _ _ hle, siblingLoop_disjoint B hB _ _ hle⟩


/-! ## Coverage in terms of bits, and `subtractSubnet` on plain prefixes -/

theorem cidrBytes_lt (l n b : Nat) (h : b ∈ cidrBytes n l) : b < 256 := by
  induction l generalizing n with
  | zero => simp [cidrBytes] at h
  | succ l ih =>
    unfold cidrBytes at h
    split at h
    · rcases List.mem_cons.mp h with e | e
      · rw [e]; decide
      · exact ih _ e
    · rename_i hn
      rcases List.mem_cons.mp h with e | e
      · rw [e]
        have hn8 : n < 8 := by omega
        interval_cases n <;> decide
      · exact ih _ e

theorem getD_lt (l : List Nat) (h : ∀ b ∈ l, b < 256) (k : Nat) : l.getD k 0 < 256 := by
  rw [List.getD_eq_getElem?_getD]
  cases hk : l[k]? with
  | none => simp
  | some x => simpa using h x (List.getElem?_mem hk)

theorem testBit_high (m t : Nat) (hm : m < 256) (ht : 8 ≤ t) : m.testBit t = false := by
  apply Nat.testBit_lt_two_pow
  calc m < 2 ^ 8 := hm
    _ ≤ 2 ^ t := Nat.pow_le_pow_right (by decide) ht

theorem bitOf_index (xs : List Nat) (k t : Nat) (ht : t < 8) :
    bitOf xs (8 * k + (7 - t)) = (xs.getD k 0).testBit t := by
  unfold bitOf
  have h1 : (8 * k + (7 - t)) / 8 = k := by omega
  have h2 : 7 - (8 * k + (7 - t)) % 8 = t := by omega
  rw [h1, h2]

theorem list_eq_of_getD (l1 l2 : List Nat) (hlen : l1.length = l2.length)
    (h : ∀ k, l1.getD k 0 = l2.getD k 0) : l1 = l2 := by
  apply List.ext_getElem hlen
  intro k h1 h2
  have := h k
  rw [List.getD_eq_getElem?_getD, List.getD_eq_getElem?_getD, List.getElem?_eq_getElem h1,
    List.getElem?_eq_getElem h2] at this
  simpa using this

theorem covers_of_bits (p : IPNet) (a : List Nat) (n : Nat)
    (hm : p.Mask = cidrBytes n p.IP.length) (hlen : a.length = p.IP.length)
    (h : ∀ i, i < n → i < 8 * p.IP.length → bitOf a i = bitOf p.IP i) : p.covers a := by
  refine ⟨hlen, ?_⟩
  apply list_eq_of_getD
  · rw [length_andBytes, length_andBytes, hlen]
  · intro k
    rw [getD_andBytes, getD_andBytes]
    apply Nat.eq_of_testBit_eq
    intro t
    rw [Nat.testBit_and, Nat.testBit_and]
    by_cases ht : t < 8
    · have hb := bitOf_index p.Mask k t ht
      rw [hm, bitOf_cidrBytes] at hb
      rw [← hm] at hb
      rw [← hb]
      by_cases hi : 8 * k + (7 - t) < n ∧ 8 * k + (7 - t) < 8 * p.IP.length
      · have := h _ hi.1 hi.2
        rw [bitOf_index a k t ht, bitOf_index p.IP k t ht] at this
        rw [this]
      · simp [hi]
    · have hlt : p.Mask.getD k 0 < 256 :=
        getD_lt _ (fun b hb => cidrBytes_lt _ n b (by rw [← hm]; exact hb)) k
      rw [testBit_high _ t hlt (by omega)]
      simp

theorem covers_iff_bits (p : IPNet) (a : List Nat) (n : Nat)
    (hm : p.Mask = cidrBytes n p.IP.length) :
    p.covers a ↔ a.length = p.IP.length ∧
      ∀ i, i < n → i < 8 * p.IP.length → bitOf a i = bitOf p.IP i :=
  ⟨fun h => ⟨h.1, fun i hi hi2 => covers_bit p a n hm h i hi hi2⟩,
    fun h => covers_of_bits p a n hm h.1 h.2⟩

theorem ip_eq_of_bits (a b : List Nat) (hlen : a.length = b.length) (ha : ∀ x ∈ a, x < 256)
    (hb : ∀ x ∈ b, x < 256) (h : ∀ i, bitOf a i = bitOf b i) : a = b := by
  apply list_eq_of_getD a b hlen
  intro k
  apply Nat.eq_of_testBit_eq
  intro t
  by_cases ht : t < 8
  · rw [← bitOf_index a k t ht, ← bitOf_index b k t ht, h]
  · rw [testBit_high _ t (getD_lt a ha k) (by omega), testBit_high _ t (getD_lt b hb k) (by omega)]

theorem WF_mask (n : IPNet) (h : n.WF) : n.Mask = cidrBytes (maskSize n.Mask) n.IP.length := by
  obtain ⟨_, h2, _, h4, _⟩ := h
  rw [← h2]; exact h4

theorem WF_sized (n : IPNet) (h : n.WF) : n.Sized := ⟨h.1, h.2.1⟩

theorem WF_host_bits (n : IPNet) (h : n.WF) (i : Nat) (hi : maskSize n.Mask ≤ i) :
    bitOf n.IP i = false := by
  have hc := h.2.2.2.2
  have := congrArg (fun l => bitOf l i) hc
  simp only [bitOf_andBytes] at this
  rw [WF_mask n h, bitOf_cidrBytes] at this
  have hd : decide (i < maskSize n.Mask ∧ i < 8 * n.IP.length) = false := by
    rw [decide_eq_false_iff_not]; omega
  rw [hd] at this
  simpa using this.symm

/-- On addresses and network numbers that are not IPv4-mapped, `Contains` decides
coverage. -/
theorem Contains_eq_covers (n : IPNet) (ip : List Nat) (hs : n.Sized)
    (hlen : ip.length = n.IP.length) (hn : n.IP.length = 4 ∨ To4 n.IP = none)
    (hip : ip.length = 4 ∨ To4 ip = none) : n.Contains ip = decide (n.covers ip) := by
  obtain ⟨hl, hm⟩ := hs
  unfold IPNet.Contains networkNumberAndMask IPNet.covers
  rcases hl with h4 | h16
  · have e1 : To4 n.IP = some n.IP := by unfold To4; rw [if_pos h4]
    have e2 : To4 ip = some ip := by unfold To4; rw [if_pos (by omega)]
    rw [e1, e2]
    simp only [hm, h4, if_true, Option.getD_some, hlen]
    by_cases hc : andBytes n.IP n.Mask = andBytes ip n.Mask
    · simp [hc]
    · have hc2 : ¬ andBytes ip n.Mask = andBytes n.IP n.Mask := fun c => hc c.symm
      simp [hc, hc2]
  · have e1 : To4 n.IP = none := by
      rcases hn with c | c
      · omega
      · exact c
    have e2 : To4 ip = none := by
      rcases hip with c | c
      · omega
      · exact c
    rw [e1, e2]
    simp only [hm, h16, Option.getD_none, hlen]
    by_cases hc : andBytes n.IP n.Mask = andBytes ip n.Mask
    · simp [hc, h16]
    · have hc2 : ¬ andBytes ip n.Mask = andBytes n.IP n.Mask := fun c => hc c.symm
      simp [hc, hc2]


theorem sibling_covers (B s : IPNet) (hs : B.Sized) (c : Nat) (hc : c < 8 * B.IP.length)
    (h : siblingSubnet B c = some s) (a : List Nat) :
    s.covers a ↔ a.length = B.IP.length ∧ (∀ i, i < c → bitOf a i = bitOf B.IP i) ∧
      bitOf a c = !bitOf B.IP c := by
  obtain ⟨hm, hl, hb⟩ := siblingSubnet_bits B s hs c hc h
  rw [covers_iff_bits s a (c + 1) (by rw [hl]; exact hm), hl]
  constructor
  · rintro ⟨h1, h2⟩
    refine ⟨h1, ?_, ?_⟩
    · intro i hi
      rw [h2 i (by omega) (by omega), hb]
      have d1 : decide (i < c + 1 ∧ i < 8 * B.IP.length) = true := by
        rw [decide_eq_true_iff]; omega
      have d2 : decide (i = c) = false := by rw [decide_eq_false_iff_not]; omega
      rw [d1, d2]; simp
    · rw [h2 c (by omega) hc, hb]
      have d1 : decide (c < c + 1 ∧ c < 8 * B.IP.length) = true := by
        rw [decide_eq_true_iff]; omega
      rw [d1]; simp
  · rintro ⟨h1, h2, h3⟩
    refine ⟨h1, ?_⟩
    intro i hi hi2
    rw [hb]
    have d1 : decide (i < c + 1 ∧ i < 8 * B.IP.length) = true := by
      rw [decide_eq_true_iff]; omega
    rw [d1]
    rcases Nat.lt_or_ge i c with hlt | hge
    · have d2 : decide (i = c) = false := by rw [decide_eq_false_iff_not]; omega
      rw [d2, h2 i hlt]; simp
    · have e : i = c := by omega
      subst e
      rw [h3]; simp

theorem first_difference (P : Nat → Prop) [DecidablePred P] (n : Nat) (h : ¬ ∀ i, i < n → P i) :
    ∃ c, c < n ∧ ¬ P c ∧ ∀ i, i < c → P i := by
  have hex : ∃ c, c < n ∧ ¬ P c := by
    by_contra hn
    apply h
    intro i hi
    by_contra hp
    exact hn ⟨i, hi, hp⟩
  refine ⟨Nat.find hex, (Nat.find_spec hex).1, (Nat.find_spec hex).2, ?_⟩
  intro i hi
  by_contra hp
  exact Nat.find_min hex hi ⟨by have := (Nat.find_spec hex).1; omega, hp⟩

/-- For IPv4 prefixes, and for IPv6 prefixes with network numbers outside the
IPv4-mapped range, `subtractSubnet` returns prefixes that cover exactly the
addresses of the first prefix that are not in the second. -/
theorem subtractSubnet_covers (A B : IPNet) (hA : A.WF) (hB : B.WF)
    (hlen : A.IP.length = B.IP.length) (hpA : A.Plain) (hpB : B.Plain) :
    ∃ r, subtractSubnet A B = some r ∧
      ∀ a, (∃ p ∈ r, p.covers a) ↔ (A.covers a ∧ ¬ B.covers a) := by
  have hmA := WF_mask A hA
  have hmB := WF_mask B hB
  have hcA := fun a => covers_iff_bits A a (maskSize A.Mask) hmA
  have hcB := fun a => covers_iff_bits B a (maskSize B.Mask) hmB
  have hleA : maskSize A.Mask ≤ 8 * A.IP.length := by
    have := maskSize_le A.Mask; rw [hA.2.1] at this; exact this
  have hleB : maskSize B.Mask ≤ 8 * B.IP.length := by
    have := maskSize_le B.Mask; rw [hB.2.1] at this; exact this
  have hBA : B.Contains A.IP = decide (B.covers A.IP) :=
    Contains_eq_covers B A.IP (WF_sized B hB) hlen hpB hpA
  have hAB : A.Contains B.IP = decide (A.covers B.IP) :=
    Contains_eq_covers A B.IP (WF_sized A hA) hlen.symm hpA hpB
  unfold subtractSubnet
  by_cases h1 : maskSize A.Mask > maskSize B.Mask
  · rw [if_pos h1, hBA]
    by_cases hcov : B.covers A.IP
    · refine ⟨[], by simp [hcov], ?_⟩
      intro a
      simp only [List.not_mem_nil, false_and, exists_false, false_iff, not_and, not_not]
      intro ha
      rw [hcB] at hcov ⊢
      rw [hcA] at ha
      refine ⟨by rw [ha.1, hlen], ?_⟩
      intro i hi hi2
      rw [ha.2 i (by omega) (by omega), hcov.2 i hi hi2]
    · refine ⟨[A], by simp [hcov], ?_⟩
      intro a
      simp only [List.mem_singleton, exists_eq_left]
      constructor
      · intro ha
        refine ⟨ha, ?_⟩
        intro hb
        apply hcov
        rw [hcB] at hb ⊢
        rw [hcA] at ha
        refine ⟨hlen, ?_⟩
        intro i hi hi2
        rw [← ha.2 i (by omega) (by omega), hb.2 i hi hi2]
      · exact fun h => h.1
  · rw [if_neg h1]
    by_cases h2 : maskSize A.Mask = maskSize B.Mask
    · rw [if_pos h2]
      have heq : ipEqual A.IP B.IP = decide (A.IP = B.IP) := by
        unfold ipEqual; rw [if_pos hlen]
      rw [heq]
      by_cases hip : A.IP = B.IP
      · refine ⟨[], by simp [hip], ?_⟩
        intro a
        simp only [List.not_mem_nil, false_and, exists_false, false_iff, not_and, not_not]
        intro ha
        rw [hcB]
        rw [hcA] at ha
        rw [← hip, ← h2]
        exact ha
      · refine ⟨[A], by simp [hip], ?_⟩
        intro a
        simp only [List.mem_singleton, exists_eq_left]
        constructor
        · intro ha
          refine ⟨ha, ?_⟩
          intro hb
          apply hip
          rw [hcB] at hb
          rw [hcA] at ha
          apply ip_eq_of_bits A.IP B.IP hlen hA.2.2.1 hB.2.2.1
          intro i
          by_cases hi : i < maskSize A.Mask ∧ i < 8 * A.IP.length
          · rw [← ha.2 i hi.1 hi.2, hb.2 i (by omega) (by omega)]
          · by_cases hi2 : i < maskSize A.Mask
            · have hge : 8 * A.IP.length ≤ i := by omega
              unfold bitOf
              rw [List.getD_eq_default _ _ (by omega), List.getD_eq_default _ _ (by omega)]
            · rw [WF_host_bits A hA i (by omega), WF_host_bits B hB i (by omega)]
        · exact fun h => h.1
    · rw [if_neg h2, hAB]
      by_cases hcov : A.covers B.IP
      · have hcount : maskSize A.Mask + (maskSize B.Mask - maskSize A.Mask) ≤
            8 * B.IP.length := by omega
        have hloop := siblingLoop_eq B (WF_sized B hB) _ _ hcount
        refine ⟨(List.range' (maskSize A.Mask) (maskSize B.Mask - maskSize A.Mask)).map
          (fun c => (siblingSubnet B c).getD emptyNet), (by simpa [hcov] using hloop), ?_⟩
        intro a
        rw [hcA] at hcov
        constructor
        · rintro ⟨p, hp, hpa⟩
          rw [List.mem_map] at hp
          obtain ⟨c, hc, hpc⟩ := hp
          rw [List.mem_range'_1] at hc
          have hsib := siblingSubnet_eq B (WF_sized B hB) c (by omega)
          have hsome : siblingSubnet B c = some p := by rw [← hpc, hsib]; rfl
          rw [sibling_covers B p (WF_sized B hB) c (by omega) hsome] at hpa
          obtain ⟨k1, k2, k3⟩ := hpa
          constructor
          · rw [hcA]
            refine ⟨by rw [k1, hlen], ?_⟩
            intro i hi hi2
            rw [k2 i (by omega), hcov.2 i hi hi2]
          · intro hb
            rw [hcB] at hb
            have := hb.2 c (by omega) (by omega)
            rw [k3] at this
            cases hbit : bitOf B.IP c <;> simp [hbit] at this
        · rintro ⟨ha, hnb⟩
          rw [hcA] at ha
          rw [hcB] at hnb
          have hnall : ¬ ∀ i, i < maskSize B.Mask → bitOf a i = bitOf B.IP i := by
            intro hall
            exact hnb ⟨by rw [ha.1, hlen], fun i hi _ => hall i hi⟩
          obtain ⟨c, hc1, hc2, hc3⟩ := first_difference _ _ hnall
          have hcge : maskSize A.Mask ≤ c := by
            by_contra hlt
            apply hc2
            rw [ha.2 c (by omega) (by omega), hcov.2 c (by omega) (by omega)]
          have hsib := siblingSubnet_eq B (WF_sized B hB) c (by omega)
          refine ⟨(siblingSubnet B c).getD emptyNet, ?_, ?_⟩
          · rw [List.mem_map]
            exact ⟨c, by rw [List.mem_range'_1]; omega, rfl⟩
          · rw [sibling_covers B _ (WF_sized B hB) c (by omega) (by rw [hsib]; rfl)]
            refine ⟨by rw [ha.1, hlen], hc3, ?_⟩
            cases hx : bitOf a c <;> cases hy : bitOf B.IP c <;> simp [hx, hy] at hc2 ⊢
      · refine ⟨[A], by simp [hcov], ?_⟩
        intro a
        simp only [List.mem_singleton, exists_eq_left]
        constructor
        · intro ha
          refine ⟨ha, ?_⟩
          intro hb
          apply hcov
          rw [hcB] at hb
          rw [hcA] at ha ⊢
          refine ⟨hlen.symm, ?_⟩
          intro i hi hi2
          rw [← ha.2 i hi hi2, hb.2 i (by omega) (by omega)]
        · exact fun h => h.1


/-! ## Iterated subtraction on IPv4 prefixes -/

theorem cidrBytes_zero_all (l : Nat) : (cidrBytes 0 l).all (· == 0) = true := by
  induction l with
  | zero => rfl
  | succ l ih =>
    unfold cidrBytes
    rw [if_neg (by omega)]
    simp only [List.all_cons, ih, Bool.and_true]
    decide

theorem cidrByte_leadingOnes (n : Nat) (hn : n < 8) :
    (0xff ^^^ (0xff >>> n)) ≠ 0xff ∧ countLeadingOnes 8 (0xff ^^^ (0xff >>> n)) = (n, 0) := by
  interval_cases n <;> decide

theorem simpleMaskLength_cidrBytes (l n : Nat) (h : n ≤ 8 * l) :
    simpleMaskLength (cidrBytes n l) = some n := by
  induction l generalizing n with
  | zero =>
    have : n = 0 := by omega
    subst this; rfl
  | succ l ih =>
    unfold cidrBytes
    by_cases hn : n ≥ 8
    · rw [if_pos hn]
      unfold simpleMaskLength
      rw [if_pos rfl, ih (n - 8) (by omega)]
      simp only [Option.map_some', Option.some.injEq]
      omega
    · rw [if_neg hn]
      obtain ⟨h1, h2⟩ := cidrByte_leadingOnes n (by omega)
      unfold simpleMaskLength
      rw [if_neg h1, h2]
      simp only [ne_eq, not_true_eq_false, if_false, cidrBytes_zero_all, if_true]

theorem maskSize_cidrBytes (l n : Nat) (h : n ≤ 8 * l) : maskSize (cidrBytes n l) = n := by
  unfold maskSize
  rw [simpleMaskLength_cidrBytes l n h]

theorem andBytes_lt (xs ys : List Nat) (h : ∀ b ∈ ys, b < 256) (b : Nat)
    (hb : b ∈ andBytes xs ys) : b < 256 := by
  obtain ⟨k, hk⟩ := List.mem_iff_getElem?.mp hb
  have h1 : (andBytes xs ys).getD k 0 = b := by
    rw [List.getD_eq_getElem?_getD, hk]; rfl
  rw [getD_andBytes] at h1
  rw [← h1]
  exact lt_of_le_of_lt Nat.and_le_right (getD_lt ys h k)

theorem sibling_WF (B s : IPNet) (hs : B.Sized) (c : Nat) (hc : c < 8 * B.IP.length)
    (h : siblingSubnet B c = some s) : s.WF ∧ s.IP.length = B.IP.length := by
  obtain ⟨hm, hl, hb⟩ := siblingSubnet_bits B s hs c hc h
  have hmlen : s.Mask.length = s.IP.length := by rw [hm, length_cidrBytes, hl]
  have hbytes : ∀ b ∈ s.IP, b < 256 := by
    rw [siblingSubnet_eq B hs c hc] at h
    simp only [Option.some.injEq] at h
    subst h
    simp only
    have hand : ∀ b ∈ andBytes B.IP (cidrBytes (c + 1) B.IP.length), b < 256 :=
      fun b hb => andBytes_lt _ _ (fun x hx => cidrBytes_lt _ _ x hx) b hb
    intro b hb
    rcases List.mem_or_eq_of_mem_set hb with h1 | h1
    · exact hand b h1
    · rw [h1]
      apply Nat.xor_lt_two_pow (n := 8)
      · exact getD_lt _ hand _
      · exact Nat.mod_lt _ (by decide)
  have hmask : s.Mask = cidrBytes (maskSize s.Mask) s.Mask.length := by
    rw [hmlen, hl, hm, maskSize_cidrBytes _ _ (by omega)]
  refine ⟨⟨by rw [hl]; exact hs.1, hmlen, hbytes, hmask, ?_⟩, hl⟩
  apply ip_eq_of_bits _ _ (by rw [length_andBytes, hmlen]; simp)
    (fun b hb => andBytes_lt _ _ (fun x hx => by rw [hm] at hx; exact cidrBytes_lt _ _ x hx) b hb)
    hbytes
  intro i
  rw [bitOf_andBytes, hm, bitOf_cidrBytes, hb]
  by_cases hd : i < c + 1 ∧ i < 8 * B.IP.length
  · simp [hd]
  · have hne : ¬ i = c := by omega
    simp [hd, hne]

theorem subtractSubnet_WF (A B : IPNet) (hA : A.WF) (hB : B.Sized)
    (hlen : A.IP.length = B.IP.length) (r : List IPNet) (h : subtractSubnet A B = some r)
    (p : IPNet) (hp : p ∈ r) : p.WF ∧ p.IP.length = B.IP.length := by
  unfold subtractSubnet at h
  have hone : ∀ q, q ∈ [A] → q.WF ∧ q.IP.length = B.IP.length := by
    intro q hq
    rw [List.mem_singleton] at hq
    rw [hq]
    exact ⟨hA, hlen⟩
  split at h
  · split at h <;> simp only [Option.some.injEq] at h <;> subst h
    · exact hone p hp
    · cases hp
  · split at h
    · split at h <;> simp only [Option.some.injEq] at h <;> subst h
      · exact hone p hp
      · cases hp
    · split at h
      · simp only [Option.some.injEq] at h
        subst h
        exact hone p hp
      · have hle := maskSize_le B.Mask
        rw [hB.2] at hle
        rw [siblingLoop_eq B hB _ _ (by omega)] at h
        simp only [Option.some.injEq] at h
        subst h
        rw [List.mem_map] at hp
        obtain ⟨c, hc, hpc⟩ := hp
        rw [List.mem_range'_1] at hc
        have hsib := siblingSubnet_eq B hB c (by omega)
        exact sibling_WF B p hB c (by omega) (by rw [← hpc, hsib]; rfl)

theorem subtractFromAll_covers (except : IPNet) (he : except.WF) (he4 : except.IP.length = 4)
    (subnets : List IPNet) (hs : ∀ s ∈ subnets, s.WF ∧ s.IP.length = 4) :
    ∃ r, subtractFromAll except subnets = some r ∧ (∀ p ∈ r, p.WF ∧ p.IP.length = 4) ∧
      ∀ a, (∃ p ∈ r, p.covers a) ↔ ((∃ s ∈ subnets, s.covers a) ∧ ¬ except.covers a) := by
  induction subnets with
  | nil => exact ⟨[], rfl, by simp, by simp⟩
  | cons s rest ih =>
    obtain ⟨hsw, hs4⟩ := hs s (List.mem_cons_self _ _)
    obtain ⟨r1, h1, hcov1⟩ := subtractSubnet_covers s except hsw he (by rw [hs4, he4])
      (Or.inl hs4) (Or.inl he4)
    obtain ⟨r2, h2, hwf2, hcov2⟩ := ih (fun x hx => hs x (List.mem_cons_of_mem _ hx))
    refine ⟨r1 ++ r2, by simp [subtractFromAll, h1, h2], ?_, ?_⟩
    · intro p hp
      rcases List.mem_append.mp hp with h | h
      · have := subtractSubnet_WF s except hsw (WF_sized _ he) (by rw [hs4, he4]) r1 h1 p h
        exact ⟨this.1, by rw [this.2, he4]⟩
      · exact hwf2 p h
    · intro a
      constructor
      · rintro ⟨p, hp, hpa⟩
        rcases List.mem_append.mp hp with h | h
        · have := (hcov1 a).mp ⟨p, h, hpa⟩
          exact ⟨⟨s, List.mem_cons_self _ _, this.1⟩, this.2⟩
        · obtain ⟨⟨x, hx, hxa⟩, hne⟩ := (hcov2 a).mp ⟨p, h, hpa⟩
          exact ⟨⟨x, List.mem_cons_of_mem _ hx, hxa⟩, hne⟩
      · rintro ⟨⟨x, hx, hxa⟩, hne⟩
        rcases List.mem_cons.mp hx with e | e
        · subst e
          obtain ⟨p, hp, hpa⟩ := (hcov1 a).mpr ⟨hxa, hne⟩
          exact ⟨p, List.mem_append_left _ hp, hpa⟩
        · obtain ⟨p, hp, hpa⟩ := (hcov2 a).mpr ⟨⟨x, e, hxa⟩, hne⟩
          exact ⟨p, List.mem_append_right _ hp, hpa⟩

/-- For an IPv4 network and IPv4 exceptions the prefixes derived by the except loop of
`generateRules` cover exactly the addresses of the network that lie in none of
the exceptions. -/
theorem subtractExcepts_covers (excepts : List IPNet)
    (he : ∀ e ∈ excepts, e.WF ∧ e.IP.length = 4) (subnets : List IPNet)
    (hs : ∀ s ∈ subnets, s.WF ∧ s.IP.length = 4) :
    ∃ r, subtractExcepts subnets excepts = some r ∧
      ∀ a, (∃ p ∈ r, p.covers a) ↔
        ((∃ s ∈ subnets, s.covers a) ∧ ∀ e ∈ excepts, ¬ e.covers a) := by
  induction excepts generalizing subnets with
  | nil => exact ⟨subnets, rfl, by simp⟩
  | cons e rest ih =>
    obtain ⟨hew, he4⟩ := he e (List.mem_cons_self _ _)
    obtain ⟨r1, h1, hwf1, hcov1⟩ := subtractFromAll_covers e hew he4 subnets hs
    obtain ⟨r2, h2, hcov2⟩ := ih (fun x hx => he x (List.mem_cons_of_mem _ hx)) r1 hwf1
    refine ⟨r2, by simp [subtractExcepts, h1, h2], ?_⟩
    intro a
    rw [hcov2 a, hcov1 a]
    simp only [List.mem_cons, forall_eq_or_imp]
    tauto


/-! ## `generateRules` as a sequence of insertions -/

theorem insertAll_nil (cmp : ContivRule → ContivRule → Int) (cr : ContivRules) :
    insertAll cmp cr [] = cr := rfl

theorem insertAll_cons (cmp : ContivRule → ContivRule → Int) (cr : ContivRules) (r : ContivRule)
    (rs : List ContivRule) :
    insertAll cmp cr (r :: rs) = insertAll cmp (cr.Insert cmp r).1 rs := rfl

theorem insertAll_append (cmp : ContivRule → ContivRule → Int) (cr : ContivRules)
    (rs rs2 : List ContivRule) :
    insertAll cmp cr (rs ++ rs2) = insertAll cmp (insertAll cmp cr rs) rs2 := by
  unfold insertAll; rw [List.foldl_append]

theorem foldl_insert_map {α : Type} (cmp : ContivRule → ContivRule → Int) (g : α → ContivRule)
    (l : List α) (cr : ContivRules) :
    l.foldl (fun acc x => (acc.Insert cmp (g x)).1) cr = insertAll cmp cr (l.map g) := by
  unfold insertAll; rw [List.foldl_map]

theorem insertNetwork_eq (env : Env) (d : MatchType) (ports : List Port) (cr : ContivRules)
    (n : IPNet) :
    insertNetwork env d ports cr n = insertAll env.Compare cr (networkRules d ports n) := by
  unfold insertNetwork networkRules
  split
  · rfl
  · rw [foldl_insert_map]

theorem foldl_insertNetwork (env : Env) (d : MatchType) (ports : List Port) (nets : List IPNet)
    (cr : ContivRules) :
    nets.foldl (insertNetwork env d ports) cr =
      insertAll env.Compare cr (nets.flatMap (networkRules d ports)) := by
  induction nets generalizing cr with
  | nil => rfl
  | cons n nets ih =>
    rw [List.foldl_cons, ih, List.flatMap_cons, insertAll_append, insertNetwork_eq]

theorem insertUndefined_eq (env : Env) (m : Match) (st : GenState) :
    insertUndefined env m st =
      { rules := insertAll env.Compare st.rules (undefinedRules m),
        hasPolicy := st.hasPolicy,
        allAllowed := st.allAllowed || matchAllowsAll m } := by
  unfold insertUndefined undefinedRules matchAllowsAll
  by_cases h : m.Pods = none ∧ m.IPBlocks = none
  · by_cases hp : m.Ports.length = 0
    · simp [h, hp, insertAll]
    · rw [if_pos h, if_neg hp, if_pos h, if_neg hp, foldl_insert_map]
      simp [h, hp]
  · rw [if_neg h, if_neg h]
    have : decide (m.Pods = none ∧ m.IPBlocks = none ∧ m.Ports.length = 0) = false := by
      rw [decide_eq_false_iff_not]; intro c; exact h ⟨c.1, c.2.1⟩
    rw [this]
    cases st
    simp [insertAll]

theorem processMatch_eq (env : Env) (d : MatchType) (st : GenState) (m : Match)
    (hm : m.Typ = d) :
    processMatch env d st m =
      (collectSubnets (m.IPBlocks.getD [])).map (fun subs =>
        { rules := insertAll env.Compare st.rules (matchRules env d m subs),
          hasPolicy := st.hasPolicy,
          allAllowed := st.allAllowed || matchAllowsAll m }) := by
  unfold processMatch
  rw [if_neg (by simpa using hm)]
  cases collectSubnets (m.IPBlocks.getD []) with
  | none => rfl
  | some subs =>
    simp only [Option.map_some']
    rw [foldl_insertNetwork, foldl_insertNetwork, insertUndefined_eq]
    simp only [matchRules, insertAll_append]

theorem processMatches_eq (env : Env) (d : MatchType) (ms : List Match) (st : GenState) :
    processMatches env d st ms =
      (matchesRules env d ms).map (fun rs =>
        { rules := insertAll env.Compare st.rules rs,
          hasPolicy := st.hasPolicy,
          allAllowed := st.allAllowed ||
            ms.any (fun m => decide (m.Typ = d) && matchAllowsAll m) }) := by
  induction ms generalizing st with
  | nil => simp [processMatches, matchesRules, insertAll]
  | cons m ms ih =>
    unfold processMatches matchesRules
    by_cases hm : m.Typ = d
    · rw [processMatch_eq env d st m hm, if_neg (by simpa using hm)]
      cases collectSubnets (m.IPBlocks.getD []) with
      | none => simp
      | some subs =>
        simp only [Option.map_some']
        rw [ih]
        cases matchesRules env d ms with
        | none => simp
        | some more =>
          simp [insertAll_append, hm, Bool.or_assoc]
    · have hp : processMatch env d st m = some st := by
        unfold processMatch; rw [if_pos hm]
      rw [hp, if_pos hm]
      simp only
      rw [ih]
      simp [hm]

theorem processPolicies_eq (env : Env) (d : MatchType) (ps : List ContivPolicy) (st : GenState) :
    processPolicies env d st ps =
      (policiesRules env d ps).map (fun rs =>
        { rules := insertAll env.Compare st.rules rs,
          hasPolicy := st.hasPolicy || anyApplies d ps,
          allAllowed := st.allAllowed || anyAllowsAll d ps }) := by
  induction ps generalizing st with
  | nil => simp [processPolicies, policiesRules, insertAll, anyApplies, anyAllowsAll]
  | cons p ps ih =>
    unfold processPolicies policiesRules
    by_cases hp : policySkipped d p = true
    · rw [if_pos hp, if_pos hp, ih]
      simp [anyApplies, anyAllowsAll, hp]
    · rw [if_neg hp, if_neg hp, processMatches_eq]
      cases matchesRules env d p.Matches with
      | none => simp
      | some rs =>
        simp only [Option.map_some']
        rw [ih]
        cases policiesRules env d ps with
        | none => simp
        | some more =>
          simp [insertAll_append, anyApplies, anyAllowsAll, hp, Bool.or_assoc]

theorem finishRules_eq (env : Env) (d : MatchType) (st : GenState) :
    finishRules env d st =
      insertAll env.Compare st.rules (finalRules env d st.hasPolicy st.allAllowed) := by
  unfold finishRules finalRules
  by_cases h : st.hasPolicy = true ∧ ¬ st.allAllowed = true
  · rw [if_pos h, if_pos h]
    by_cases hd : d = MatchType.MatchIngress
    · simp [hd, insertAll]
    · simp [hd, insertAll]
  · rw [if_neg h, if_neg h]; rfl

theorem generateRules_eq (env : Env) (d : MatchType) (ps : List ContivPolicy) :
    generateRules env d ps =
      (policiesRules env d ps).map (fun rs =>
        insertAll env.Compare { rules := [], orderedRules := [] }
          (rs ++ finalRules env d (anyApplies d ps) (anyAllowsAll d ps))) := by
  unfold generateRules
  rw [processPolicies_eq]
  cases policiesRules env d ps with
  | none => rfl
  | some rs =>
    simp only [Option.map_some']
    rw [finishRules_eq, insertAll_append]
    simp


/-! ## `sort.Search` and `ContivRules.Insert` -/

theorem searchLoop_bounds (f : Nat → Bool) (fuel i j : Nat) (h : i ≤ j) :
    i ≤ searchLoop f fuel i j ∧ searchLoop f fuel i j ≤ j := by
  induction fuel generalizing i j with
  | zero => simp [searchLoop, h]
  | succ fuel ih =>
    unfold searchLoop
    by_cases hij : i < j
    · rw [if_pos hij]
      split
      · have := ih ((i + j) / 2 + 1) j (by omega); omega
      · have := ih i ((i + j) / 2) (by omega); omega
    · rw [if_neg hij]; omega

theorem Search_le (n : Nat) (f : Nat → Bool) : Search n f ≤ n :=
  (searchLoop_bounds f n 0 n (Nat.zero_le n)).2

theorem searchLoop_spec (f : Nat → Bool) (n : Nat)
    (hmono : ∀ a b, a ≤ b → b < n → f a = true → f b = true) (fuel i j : Nat)
    (hij : i ≤ j) (hjn : j ≤ n) (hfuel : j - i ≤ fuel) (hlo : ∀ k, k < i → f k = false)
    (hhi : ∀ k, j ≤ k → k < n → f k = true) :
    (∀ k, k < searchLoop f fuel i j → f k = false) ∧
      (∀ k, searchLoop f fuel i j ≤ k → k < n → f k = true) := by
  induction fuel generalizing i j with
  | zero =>
    have e : i = j := by omega
    subst e
    simp only [searchLoop]
    exact ⟨hlo, hhi⟩
  | succ fuel ih =>
    unfold searchLoop
    by_cases hlt : i < j
    · rw [if_pos hlt]
      cases hf : f ((i + j) / 2) with
      | false =>
        simp only [Bool.not_false, if_true]
        apply ih ((i + j) / 2 + 1) j (by omega) hjn (by omega) _ hhi
        intro k hk
        cases hfk : f k with
        | false => rfl
        | true =>
          have := hmono k ((i + j) / 2) (by omega) (by omega) hfk
          rw [hf] at this; cases this
      | true =>
        simp only [Bool.not_true, Bool.false_eq_true, if_false]
        apply ih i ((i + j) / 2) (by omega) (by omega) (by omega) hlo
        intro k hk hkn
        exact hmono ((i + j) / 2) k hk hkn hf
    · rw [if_neg hlt]
      have e : i = j := by omega
      subst e
      exact ⟨hlo, hhi⟩

theorem Search_spec (f : Nat → Bool) (n : Nat)
    (hmono : ∀ a b, a ≤ b → b < n → f a = true → f b = true) :
    (∀ k, k < Search n f → f k = false) ∧ (∀ k, Search n f ≤ k → k < n → f k = true) :=
  searchLoop_spec f n hmono n 0 n (Nat.zero_le n) (Nat.le_refl n) (by omega)
    (fun k hk => absurd hk (Nat.not_lt_zero k)) (fun k hk hkn => absurd hkn (by omega))

/-- The two outcomes of `Insert`: an element that compares equal was found and
nothing changes, or the rule is appended to `rules` and put into `orderedRules`
at the index found by the search. -/
theorem Insert_cases (cmp : ContivRule → ContivRule → Int) (cr : ContivRules) (r : ContivRule) :
    (cr.Insert cmp r = (cr, false) ∧ ∃ x ∈ cr.orderedRules, cmp r x = 0) ∨
      (∃ idx, idx ≤ cr.orderedRules.length ∧
        cr.Insert cmp r =
          ({ rules := cr.rules ++ [r],
             orderedRules := cr.orderedRules.take idx ++ r :: cr.orderedRules.drop idx }, true)) := by
  unfold ContivRules.Insert
  simp only
  split
  · rename_i h
    left
    refine ⟨rfl, ?_⟩
    obtain ⟨_, h2⟩ := h
    split at h2
    · rename_i x hx
      exact ⟨x, List.getElem?_mem hx, by simpa using h2⟩
    · cases h2
  · right
    exact ⟨_, Search_le _ _, rfl⟩

theorem mem_take_drop (l : List ContivRule) (idx : Nat) (r x : ContivRule) :
    x ∈ l.take idx ++ r :: l.drop idx ↔ x ∈ l ∨ x = r := by
  have h : x ∈ l ↔ x ∈ l.take idx ++ l.drop idx := by rw [List.take_append_drop]
  rw [h]
  simp only [List.mem_append, List.mem_cons]
  tauto

theorem Insert_sameRules (cmp : ContivRule → ContivRule → Int) (cr : ContivRules) (r : ContivRule)
    (h : cr.SameRules) : (cr.Insert cmp r).1.SameRules := by
  rcases Insert_cases cmp cr r with ⟨e, _⟩ | ⟨idx, _, e⟩
  · rw [e]; exact h
  · rw [e]
    intro x
    show x ∈ cr.orderedRules.take idx ++ r :: cr.orderedRules.drop idx ↔ x ∈ cr.rules ++ [r]
    rw [mem_take_drop, h x]
    simp

theorem Insert_mem_rules (cmp : ContivRule → ContivRule → Int)
    (hE : ∀ a b, cmp a b = 0 → a = b) (cr : ContivRules) (r : ContivRule) (h : cr.SameRules)
    (x : ContivRule) : x ∈ (cr.Insert cmp r).1.rules ↔ x ∈ cr.rules ∨ x = r := by
  rcases Insert_cases cmp cr r with ⟨e, y, hy, hc⟩ | ⟨idx, _, e⟩
  · rw [e]
    have hr : r = y := hE r y hc
    constructor
    · intro hx; exact Or.inl hx
    · rintro (hx | hx)
      · exact hx
      · rw [hx, hr]; exact (h y).mp hy
  · rw [e]; simp

theorem Insert_rules_of_not_mem (cmp : ContivRule → ContivRule → Int)
    (hE : ∀ a b, cmp a b = 0 → a = b) (cr : ContivRules) (r : ContivRule) (h : cr.SameRules)
    (hr : r ∉ cr.rules) : (cr.Insert cmp r).1.rules = cr.rules ++ [r] := by
  rcases Insert_cases cmp cr r with ⟨_, y, hy, hc⟩ | ⟨idx, _, e⟩
  · have e : r = y := hE r y hc
    exact absurd ((h y).mp hy) (by rw [← e]; exact hr)
  · rw [e]

theorem sameRules_empty : ({ rules := [], orderedRules := [] } : ContivRules).SameRules := by
  intro x; simp

theorem insertAll_sameRules (cmp : ContivRule → ContivRule → Int) (rs : List ContivRule)
    (cr : ContivRules) (h : cr.SameRules) : (insertAll cmp cr rs).SameRules := by
  induction rs generalizing cr with
  | nil => exact h
  | cons r rs ih => rw [insertAll_cons]; exact ih _ (Insert_sameRules cmp cr r h)

theorem insertAll_mem_rules (cmp : ContivRule → ContivRule → Int)
    (hE : ∀ a b, cmp a b = 0 → a = b) (rs : List ContivRule) (cr : ContivRules)
    (h : cr.SameRules) (x : ContivRule) :
    x ∈ (insertAll cmp cr rs).rules ↔ x ∈ cr.rules ∨ x ∈ rs := by
  induction rs generalizing cr with
  | nil => simp [insertAll]
  | cons r rs ih =>
    rw [insertAll_cons, ih _ (Insert_sameRules cmp cr r h), Insert_mem_rules cmp hE cr r h]
    simp only [List.mem_cons]
    tauto

/-! ## `subtractSubnet` returns for well-sized exceptions -/

theorem subtractSubnet_isSome (A B : IPNet) (hB : B.Sized) : ∃ r, subtractSubnet A B = some r :=
  (subtractSubnet_disjoint A B hB).imp (fun _ h => h.1)

theorem subtractFromAll_isSome (except : IPNet) (h : except.Sized) (subnets : List IPNet) :
    ∃ r, subtractFromAll except subnets = some r := by
  induction subnets with
  | nil => exact ⟨[], rfl⟩
  | cons s rest ih =>
    obtain ⟨a, ha⟩ := subtractSubnet_isSome s except h
    obtain ⟨b, hb⟩ := ih
    exact ⟨a ++ b, by simp [subtractFromAll, ha, hb]⟩

theorem subtractExcepts_isSome (excepts : List IPNet) (h : ∀ e ∈ excepts, e.Sized)
    (subnets : List IPNet) : ∃ r, subtractExcepts subnets excepts = some r := by
  induction excepts generalizing subnets with
  | nil => exact ⟨subnets, rfl⟩
  | cons e rest ih =>
    obtain ⟨a, ha⟩ := subtractFromAll_isSome e (h e (List.mem_cons_self _ _)) subnets
    obtain ⟨b, hb⟩ := ih (fun x hx => h x (List.mem_cons_of_mem _ hx)) a
    exact ⟨b, by simp [subtractExcepts, ha, hb]⟩

/-! ## The pointers of `allSubnets` and the networks they point to -/

theorem deref_allocated (network : IPNet) (l : List IPNet) :
    (l.map SubnetRef.allocated).map (SubnetRef.deref network) = l := by
  induction l with
  | nil => rfl
  | cons x rest ih => simp only [List.map_cons, SubnetRef.deref, ih]

/-- On networks, `subtractRef` is `subtractSubnet`. -/
theorem subtractRef_deref (network : IPNet) (subnet : SubnetRef) (except : IPNet) :
    (subtractRef network subnet except).map (List.map (SubnetRef.deref network)) =
      subtractSubnet (subnet.deref network) except := by
  unfold subtractRef subtractSubnet
  split
  · split <;> rfl
  · split
    · split <;> rfl
    · split
      · rfl
      · cases siblingLoop except (maskSize (subnet.deref network).Mask)
            (maskSize except.Mask - maskSize (subnet.deref network).Mask) with
        | none => rfl
        | some l => simp only [Option.map_some', deref_allocated]

theorem subtractFromAllRefs_deref (network except : IPNet) (refs : List SubnetRef) :
    (subtractFromAllRefs network except refs).map (List.map (SubnetRef.deref network)) =
      subtractFromAll except (refs.map (SubnetRef.deref network)) := by
  induction refs with
  | nil => rfl
  | cons r rest ih =>
    simp only [subtractFromAllRefs, List.map_cons, subtractFromAll]
    rw [← subtractRef_deref, ← ih]
    cases subtractRef network r except with
    | none => rfl
    | some a =>
      cases subtractFromAllRefs network except rest with
      | none => rfl
      | some b => simp only [Option.map_some', List.map_append]

theorem subtractExceptsRefs_deref (network : IPNet) (excepts : List IPNet)
    (refs : List SubnetRef) :
    (subtractExceptsRefs network refs excepts).map (List.map (SubnetRef.deref network)) =
      subtractExcepts (refs.map (SubnetRef.deref network)) excepts := by
  induction excepts generalizing refs with
  | nil => rfl
  | cons e rest ih =>
    simp only [subtractExceptsRefs, subtractExcepts]
    rw [← subtractFromAllRefs_deref]
    cases subtractFromAllRefs network e refs with
    | none => rfl
    | some subtracted => exact ih subtracted

theorem collectSubnets_nil : collectSubnets [] = some [] := rfl

/-- A match with one IP block: the subnets are the network of the block minus
its exceptions. -/
theorem collectSubnets_single (block : IPBlock) :
    collectSubnets [block] = subtractExcepts [block.Network] block.Except := by
  unfold collectSubnets
  simp only [List.getLast?_singleton, collectSubnetRefs]
  rw [← show ([SubnetRef.blockNetwork].map (SubnetRef.deref block.Network)) = [block.Network]
    from rfl, ← subtractExceptsRefs_deref]
  cases subtractExceptsRefs block.Network [SubnetRef.blockNetwork] block.Except with
  | none => rfl
  | some subnets => simp only [Option.map_some', List.append_nil]

/-- A match with two IP blocks without exceptions: both pointers of `allSubnets`
point to the variable `block`, which holds the second block when the rules are
built. -/
theorem collectSubnets_aliases (a b : IPNet) :
    collectSubnets [{ Network := a, Except := [] }, { Network := b, Except := [] }] =
      some [b, b] := rfl

theorem subtractExceptsRefs_isSome (network : IPNet) (excepts : List IPNet)
    (h : ∀ e ∈ excepts, e.Sized) (refs : List SubnetRef) :
    ∃ r, subtractExceptsRefs network refs excepts = some r := by
  obtain ⟨r, hr⟩ := subtractExcepts_isSome excepts h (refs.map (SubnetRef.deref network))
  rw [← subtractExceptsRefs_deref] at hr
  cases h2 : subtractExceptsRefs network refs excepts with
  | none => rw [h2] at hr; cases hr
  | some r2 => exact ⟨r2, rfl⟩

theorem collectSubnetRefs_isSome (blocks : List IPBlock)
    (h : ∀ block ∈ blocks, ∀ e ∈ block.Except, e.Sized) :
    ∃ r, collectSubnetRefs blocks = some r := by
  induction blocks with
  | nil => exact ⟨[], rfl⟩
  | cons block rest ih =>
    obtain ⟨a, ha⟩ := subtractExceptsRefs_isSome block.Network block.Except
      (h block (List.mem_cons_self _ _)) [SubnetRef.blockNetwork]
    obtain ⟨b, hb⟩ := ih (fun x hx => h x (List.mem_cons_of_mem _ hx))
    exact ⟨a ++ b, by simp [collectSubnetRefs, ha, hb]⟩

theorem collectSubnets_isSome (blocks : List IPBlock)
    (h : ∀ block ∈ blocks, ∀ e ∈ block.Except, e.Sized) :
    ∃ r, collectSubnets blocks = some r := by
  unfold collectSubnets
  cases blocks.getLast? with
  | none => exact ⟨[], rfl⟩
  | some last =>
    obtain ⟨r, hr⟩ := collectSubnetRefs_isSome blocks h
    exact ⟨_, by rw [hr]; rfl⟩


/-! ## `generateRules` returns, and what it inserts -/

theorem matchesRules_isSome (env : Env) (d : MatchType) (ms : List Match)
    (h : ∀ m ∈ ms, ∀ block ∈ m.IPBlocks.getD [], ∀ e ∈ block.Except, e.Sized) :
    ∃ rs, matchesRules env d ms = some rs := by
  induction ms with
  | nil => exact ⟨[], rfl⟩
  | cons m rest ih =>
    obtain ⟨more, hmore⟩ := ih (fun x hx => h x (List.mem_cons_of_mem _ hx))
    unfold matchesRules
    split
    · exact ⟨more, hmore⟩
    · obtain ⟨subs, hsubs⟩ := collectSubnets_isSome (m.IPBlocks.getD [])
        (h m (List.mem_cons_self _ _))
      exact ⟨_, by rw [hsubs, hmore]⟩

theorem policiesRules_isSome (env : Env) (d : MatchType) (ps : List ContivPolicy)
    (h : ExceptsSized ps) : ∃ rs, policiesRules env d ps = some rs := by
  induction ps with
  | nil => exact ⟨[], rfl⟩
  | cons p rest ih =>
    obtain ⟨more, hmore⟩ := ih (fun x hx => h x (List.mem_cons_of_mem _ hx))
    unfold policiesRules
    split
    · exact ⟨more, hmore⟩
    · obtain ⟨rs, hrs⟩ := matchesRules_isSome env d p.Matches (h p (List.mem_cons_self _ _))
      exact ⟨_, by rw [hrs, hmore]⟩

theorem mem_matchesRules (env : Env) (d : MatchType) (ms : List Match) (rs : List ContivRule)
    (h : matchesRules env d ms = some rs) (r : ContivRule) :
    r ∈ rs ↔ ∃ m ∈ ms, m.Typ = d ∧ ∃ subs, collectSubnets (m.IPBlocks.getD []) = some subs ∧
      r ∈ matchRules env d m subs := by
  induction ms generalizing rs with
  | nil =>
    simp only [matchesRules, Option.some.injEq] at h
    subst h; simp
  | cons m rest ih =>
    unfold matchesRules at h
    by_cases hm : m.Typ = d
    · rw [if_neg (by simpa using hm)] at h
      cases hs : collectSubnets (m.IPBlocks.getD []) with
      | none => simp [hs] at h
      | some subs =>
        cases hr : matchesRules env d rest with
        | none => simp [hs, hr] at h
        | some more =>
          simp only [hs, hr, Option.some.injEq] at h
          subst h
          rw [List.mem_append, ih more hr]
          constructor
          · rintro (h1 | ⟨m1, hm1, h1⟩)
            · exact ⟨m, List.mem_cons_self _ _, hm, subs, hs, h1⟩
            · exact ⟨m1, List.mem_cons_of_mem _ hm1, h1⟩
          · rintro ⟨m1, hm1, hd, subs1, hs1, h1⟩
            rcases List.mem_cons.mp hm1 with e | e
            · subst e
              rw [hs] at hs1
              simp only [Option.some.injEq] at hs1
              subst hs1
              exact Or.inl h1
            · exact Or.inr ⟨m1, e, hd, subs1, hs1, h1⟩
    · rw [if_pos hm] at h
      rw [ih rs h]
      constructor
      · rintro ⟨m1, hm1, h1⟩
        exact ⟨m1, List.mem_cons_of_mem _ hm1, h1⟩
      · rintro ⟨m1, hm1, hd, h1⟩
        rcases List.mem_cons.mp hm1 with e | e
        · subst e; exact absurd hd hm
        · exact ⟨m1, e, hd, h1⟩

theorem mem_policiesRules (env : Env) (d : MatchType) (ps : List ContivPolicy)
    (rs : List ContivRule) (h : policiesRules env d ps = some rs) (r : ContivRule) :
    r ∈ rs ↔ ∃ p ∈ ps, policySkipped d p = false ∧ ∃ m ∈ p.Matches, m.Typ = d ∧
      ∃ subs, collectSubnets (m.IPBlocks.getD []) = some subs ∧ r ∈ matchRules env d m subs := by
  induction ps generalizing rs with
  | nil =>
    simp only [policiesRules, Option.some.injEq] at h
    subst h; simp
  | cons p rest ih =>
    unfold policiesRules at h
    by_cases hp : policySkipped d p = true
    · rw [if_pos hp] at h
      rw [ih rs h]
      constructor
      · rintro ⟨p1, hp1, h1⟩
        exact ⟨p1, List.mem_cons_of_mem _ hp1, h1⟩
      · rintro ⟨p1, hp1, hs, h1⟩
        rcases List.mem_cons.mp hp1 with e | e
        · subst e; rw [hp] at hs; cases hs
        · exact ⟨p1, e, hs, h1⟩
    · rw [if_neg hp] at h
      cases hm : matchesRules env d p.Matches with
      | none => simp [hm] at h
      | some mr =>
        cases hr : policiesRules env d rest with
        | none => simp [hm, hr] at h
        | some more =>
          simp only [hm, hr, Option.some.injEq] at h
          subst h
          rw [List.mem_append, ih more hr, mem_matchesRules env d p.Matches mr hm]
          constructor
          · rintro (h1 | ⟨p1, hp1, h1⟩)
            · exact ⟨p, List.mem_cons_self _ _, by simpa using hp, h1⟩
            · exact ⟨p1, List.mem_cons_of_mem _ hp1, h1⟩
          · rintro ⟨p1, hp1, hs, h1⟩
            rcases List.mem_cons.mp hp1 with e | e
            · subst e; exact Or.inl h1
            · exact Or.inr ⟨p1, e, hs, h1⟩

theorem mem_networkRules (d : MatchType) (ports : List Port) (n : IPNet) (r : ContivRule)
    (h : r ∈ networkRules d ports n) :
    r = ruleAnyFor d n ∨ ∃ port ∈ ports, r = rulePortFor d n port := by
  unfold networkRules at h
  split at h
  · left; simpa using h
  · right
    obtain ⟨port, hp, e⟩ := List.mem_map.mp h
    exact ⟨port, hp, e.symm⟩

theorem networkRules_permit (d : MatchType) (ports : List Port) (n : IPNet) (r : ContivRule)
    (h : r ∈ networkRules d ports n) : r.Action = renderer.ActionType.ActionPermit := by
  rcases mem_networkRules d ports n r h with e | ⟨port, _, e⟩ <;> rw [e] <;> rfl

theorem undefinedRules_permit (m : Match) (r : ContivRule) (h : r ∈ undefinedRules m) :
    r.Action = renderer.ActionType.ActionPermit := by
  unfold undefinedRules at h
  split at h
  · split at h
    · simp only [List.mem_singleton] at h; rw [h]; rfl
    · obtain ⟨port, _, e⟩ := List.mem_map.mp h
      rw [← e]; rfl
  · cases h

theorem matchRules_permit (env : Env) (d : MatchType) (m : Match) (subs : List IPNet)
    (r : ContivRule) (h : r ∈ matchRules env d m subs) :
    r.Action = renderer.ActionType.ActionPermit := by
  unfold matchRules at h
  simp only [List.mem_append, List.mem_flatMap] at h
  rcases h with (h | ⟨n, _, h⟩) | ⟨n, _, h⟩
  · exact undefinedRules_permit m r h
  · exact networkRules_permit d m.Ports n r h
  · exact networkRules_permit d m.Ports n r h

theorem policiesRules_permit (env : Env) (d : MatchType) (ps : List ContivPolicy)
    (rs : List ContivRule) (h : policiesRules env d ps = some rs) (r : ContivRule) (hr : r ∈ rs) :
    r.Action = renderer.ActionType.ActionPermit := by
  obtain ⟨p, _, _, m, _, _, subs, _, hm⟩ := (mem_policiesRules env d ps rs h r).mp hr
  exact matchRules_permit env d m subs r hm

theorem anyApplies_false (d : MatchType) (ps : List ContivPolicy)
    (h : ∀ p ∈ ps, policySkipped d p = true) : anyApplies d ps = false := by
  unfold anyApplies
  rw [List.any_eq_false]
  intro p hp
  simp [h p hp]

theorem policiesRules_skipped (env : Env) (d : MatchType) (ps : List ContivPolicy)
    (h : ∀ p ∈ ps, policySkipped d p = true) : policiesRules env d ps = some [] := by
  induction ps with
  | nil => rfl
  | cons p rest ih =>
    unfold policiesRules
    rw [if_pos (h p (List.mem_cons_self _ _))]
    exact ih (fun x hx => h x (List.mem_cons_of_mem _ hx))

theorem generateRules_skipped (env : Env) (d : MatchType) (ps : List ContivPolicy)
    (h : ∀ p ∈ ps, policySkipped d p = true) :
    generateRules env d ps = some { rules := [], orderedRules := [] } := by
  rw [generateRules_eq, policiesRules_skipped env d ps h, anyApplies_false d ps h]
  simp [finalRules, insertAll]

theorem anyApplies_true (d : MatchType) (ps : List ContivPolicy)
    (h : ∃ p ∈ ps, policySkipped d p = false) : anyApplies d ps = true := by
  unfold anyApplies
  rw [List.any_eq_true]
  obtain ⟨p, hp, hs⟩ := h
  exact ⟨p, hp, by simp [hs]⟩

theorem anyAllowsAll_false (d : MatchType) (ps : List ContivPolicy)
    (h : ∀ p ∈ ps, policySkipped d p = false → ∀ m ∈ p.Matches, m.Typ = d →
      matchAllowsAll m = false) : anyAllowsAll d ps = false := by
  unfold anyAllowsAll
  rw [List.any_eq_false]
  intro p hp
  cases hs : policySkipped d p with
  | true => simp
  | false =>
    simp only [Bool.not_false, Bool.true_and, Bool.not_eq_true]
    rw [List.any_eq_false]
    intro m hm
    by_cases hd : m.Typ = d
    · simp [h p hp hs m hm hd]
    · simp [hd]

theorem anyAllowsAll_true (d : MatchType) (ps : List ContivPolicy)
    (h : ∃ p ∈ ps, policySkipped d p = false ∧ ∃ m ∈ p.Matches, m.Typ = d ∧
      matchAllowsAll m = true) : anyAllowsAll d ps = true := by
  unfold anyAllowsAll
  rw [List.any_eq_true]
  obtain ⟨p, hp, hs, m, hm, hd, ha⟩ := h
  refine ⟨p, hp, ?_⟩
  simp only [hs, Bool.not_false, Bool.true_and]
  rw [List.any_eq_true]
  exact ⟨m, hm, by simp [hd, ha]⟩


theorem ruleNatLoop_permit (env : Env) :
    (ruleNatLoop env).Action = renderer.ActionType.ActionPermit := rfl

/-- With default-deny injected: the list ends with the deny rule, holds the
NAT-loopback permit for direction `MatchIngress`, and holds nothing but the rules
of the matches and these two. -/
theorem generateRules_default_deny (env : Env) (d : MatchType) (ps : List ContivPolicy)
    (hE : ∀ a b, env.Compare a b = 0 → a = b) (hS : ExceptsSized ps)
    (happ : anyApplies d ps = true) (hna : anyAllowsAll d ps = false) :
    ∃ cr rs, generateRules env d ps = some cr ∧ policiesRules env d ps = some rs ∧
      cr.rules.getLast? = some ruleNone ∧
      (d = MatchType.MatchIngress → ruleNatLoop env ∈ cr.rules) ∧
      (∀ r, r ∈ cr.rules ↔
        (r ∈ rs ∨ (d = MatchType.MatchIngress ∧ r = ruleNatLoop env) ∨ r = ruleNone)) := by
  obtain ⟨rs, hrs⟩ := policiesRules_isSome env d ps hS
  have hfin : finalRules env d (anyApplies d ps) (anyAllowsAll d ps) =
      (if d = MatchType.MatchIngress then [ruleNatLoop env] else []) ++ [ruleNone] := by
    unfold finalRules
    rw [happ, hna]
    simp
  refine ⟨insertAll env.Compare { rules := [], orderedRules := [] }
    (rs ++ ((if d = MatchType.MatchIngress then [ruleNatLoop env] else []) ++ [ruleNone])), rs,
    by rw [generateRules_eq, hrs, hfin]; rfl, hrs, ?_⟩
  rw [← List.append_assoc, insertAll_append]
  have hX := insertAll_sameRules env.Compare
    (rs ++ if d = MatchType.MatchIngress then [ruleNatLoop env] else [])
    { rules := [], orderedRules := [] } sameRules_empty
  have hmemX := insertAll_mem_rules env.Compare hE
    (rs ++ if d = MatchType.MatchIngress then [ruleNatLoop env] else [])
    { rules := [], orderedRules := [] } sameRules_empty
  have hpermit : ∀ r ∈ (insertAll env.Compare { rules := [], orderedRules := [] }
      (rs ++ if d = MatchType.MatchIngress then [ruleNatLoop env] else [])).rules,
      r.Action = renderer.ActionType.ActionPermit := by
    intro r hr
    rcases (hmemX r).mp hr with h | h
    · cases h
    · rcases List.mem_append.mp h with h | h
      · exact policiesRules_permit env d ps rs hrs r h
      · split at h
        · simp only [List.mem_singleton] at h; rw [h]; rfl
        · cases h
  have hnot : ruleNone ∉ (insertAll env.Compare { rules := [], orderedRules := [] }
      (rs ++ if d = MatchType.MatchIngress then [ruleNatLoop env] else [])).rules := by
    intro hc
    have := hpermit ruleNone hc
    simp [ruleNone] at this
  have hlast : (insertAll env.Compare (insertAll env.Compare { rules := [], orderedRules := [] }
      (rs ++ if d = MatchType.MatchIngress then [ruleNatLoop env] else [])) [ruleNone]).rules =
      (insertAll env.Compare { rules := [], orderedRules := [] }
        (rs ++ if d = MatchType.MatchIngress then [ruleNatLoop env] else [])).rules ++ [ruleNone] :=
    Insert_rules_of_not_mem env.Compare hE _ ruleNone hX hnot
  rw [hlast]
  refine ⟨List.getLast?_concat _, ?_, ?_⟩
  · intro hd
    rw [List.mem_append]
    left
    rw [hmemX]
    right
    simp [hd]
  · intro r
    rw [List.mem_append, hmemX, List.mem_append, List.mem_singleton]
    by_cases hd : d = MatchType.MatchIngress
    · simp [hd, or_assoc]
    · simp [hd]

/-- With `allAllowed` set: the list holds exactly the rules of the matches, the
allow-all rule among them. -/
theorem generateRules_all_allowed (env : Env) (d : MatchType) (ps : List ContivPolicy)
    (hE : ∀ a b, env.Compare a b = 0 → a = b) (hS : ExceptsSized ps)
    (hall : ∃ p ∈ ps, policySkipped d p = false ∧ ∃ m ∈ p.Matches, m.Typ = d ∧
      matchAllowsAll m = true) :
    ∃ cr rs, generateRules env d ps = some cr ∧ policiesRules env d ps = some rs ∧
      (∀ r, r ∈ cr.rules ↔ r ∈ rs) ∧ ruleAllowAll ∈ cr.rules := by
  obtain ⟨rs, hrs⟩ := policiesRules_isSome env d ps hS
  have hfin : finalRules env d (anyApplies d ps) (anyAllowsAll d ps) = [] := by
    unfold finalRules
    rw [anyAllowsAll_true d ps hall]
    simp
  have hmem := insertAll_mem_rules env.Compare hE rs
    { rules := [], orderedRules := [] } sameRules_empty
  have hiff : ∀ r, r ∈ (insertAll env.Compare { rules := [], orderedRules := [] } rs).rules ↔
      r ∈ rs := by
    intro r; rw [hmem]; simp
  refine ⟨insertAll env.Compare { rules := [], orderedRules := [] } rs, rs,
    by rw [generateRules_eq, hrs, hfin]; simp, hrs, hiff, ?_⟩
  rw [hiff, mem_policiesRules env d ps rs hrs]
  obtain ⟨p, hp, hs, m, hm, hd, ha⟩ := hall
  obtain ⟨subs, hsubs⟩ := collectSubnets_isSome (m.IPBlocks.getD []) (hS p hp m hm)
  refine ⟨p, hp, hs, m, hm, hd, subs, hsubs, ?_⟩
  unfold matchAllowsAll at ha
  rw [decide_eq_true_iff] at ha
  unfold matchRules undefinedRules
  rw [if_pos ⟨ha.1, ha.2.1⟩, if_pos ha.2.2]
  simp


/-! ## The comparison `ruleCompare` is a total order, `sortPolicies` sorts -/

theorem compareNat_eq_zero (a b : Nat) : compareNat a b = 0 ↔ a = b := by
  unfold compareNat; split_ifs <;> simp <;> omega

theorem compareNat_neg (a b : Nat) : compareNat a b < 0 ↔ a < b := by
  unfold compareNat; split_ifs <;> simp <;> omega

theorem compareNat_pos (a b : Nat) : 0 < compareNat a b ↔ b < a := by
  unfold compareNat; split_ifs <;> simp <;> omega

theorem lawful_compareNat : LawfulCompare compareNat where
  eq_iff := compareNat_eq_zero
  swap := fun a b => by rw [compareNat_neg, compareNat_pos]
  trans := fun a b c => by rw [compareNat_neg, compareNat_neg, compareNat_neg]; omega

theorem lexCompare_eq_zero {α β : Type} (c1 : α → α → Int) (c2 : β → β → Int) (p q : α × β) :
    lexCompare c1 c2 p q = 0 ↔ c1 p.1 q.1 = 0 ∧ c2 p.2 q.2 = 0 := by
  unfold lexCompare
  by_cases h : c1 p.1 q.1 = 0
  · simp [h]
  · simp [h]

theorem lexCompare_neg {α β : Type} (c1 : α → α → Int) (c2 : β → β → Int) (p q : α × β) :
    lexCompare c1 c2 p q < 0 ↔ c1 p.1 q.1 < 0 ∨ (c1 p.1 q.1 = 0 ∧ c2 p.2 q.2 < 0) := by
  unfold lexCompare
  by_cases h : c1 p.1 q.1 = 0
  · simp [h]
  · simp only [ne_eq, h, not_false_eq_true, if_true, false_and, or_false]

theorem lexCompare_pos {α β : Type} (c1 : α → α → Int) (c2 : β → β → Int) (p q : α × β) :
    0 < lexCompare c1 c2 p q ↔ 0 < c1 p.1 q.1 ∨ (c1 p.1 q.1 = 0 ∧ 0 < c2 p.2 q.2) := by
  unfold lexCompare
  by_cases h : c1 p.1 q.1 = 0
  · simp [h]
  · simp only [ne_eq, h, not_false_eq_true, if_true, false_and, or_false]

theorem lawful_lexCompare {α β : Type} (c1 : α → α → Int) (c2 : β → β → Int)
    (h1 : LawfulCompare c1) (h2 : LawfulCompare c2) : LawfulCompare (lexCompare c1 c2) where
  eq_iff := fun p q => by
    rw [lexCompare_eq_zero, h1.eq_iff, h2.eq_iff]
    exact Prod.ext_iff.symm
  swap := fun p q => by
    rw [lexCompare_neg, lexCompare_pos, h1.swap, h2.swap, h1.eq_iff, h1.eq_iff]
    constructor
    · rintro (h | ⟨e, h⟩)
      · exact Or.inl h
      · exact Or.inr ⟨e.symm, h⟩
    · rintro (h | ⟨e, h⟩)
      · exact Or.inl h
      · exact Or.inr ⟨e.symm, h⟩
  trans := fun p q r => by
    rw [lexCompare_neg, lexCompare_neg, lexCompare_neg, h1.eq_iff, h1.eq_iff, h1.eq_iff]
    rintro (h | ⟨e, h⟩) (k | ⟨f, k⟩)
    · exact Or.inl (h1.trans _ _ _ h k)
    · left; rw [← f]; exact h
    · left; rw [e]; exact k
    · right; exact ⟨e.trans f, h2.trans _ _ _ h k⟩

theorem lawful_of_injective {α β : Type} (c : β → β → Int) (f : α → β)
    (hf : ∀ a b, f a = f b → a = b) (h : LawfulCompare c) :
    LawfulCompare (fun a b => c (f a) (f b)) where
  eq_iff := fun a b => by
    rw [h.eq_iff]
    exact ⟨hf a b, fun e => by rw [e]⟩
  swap := fun a b => h.swap _ _
  trans := fun a b c => h.trans _ _ _

theorem compareBytes_eq_zero (a b : List Nat) : compareBytes a b = 0 ↔ a = b := by
  induction a generalizing b with
  | nil => cases b <;> simp [compareBytes]
  | cons x xs ih =>
    cases b with
    | nil => simp [compareBytes]
    | cons y ys =>
      unfold compareBytes
      by_cases h : compareNat x y = 0
      · rw [if_neg (by simpa using h), ih]
        rw [compareNat_eq_zero] at h
        simp [h]
      · rw [if_pos h]
        have hxy : x ≠ y := fun e => h ((compareNat_eq_zero x y).mpr e)
        simp [h, hxy]

theorem compareBytes_neg (a b : List Nat) :
    compareBytes a b < 0 ↔ 0 < compareBytes b a := by
  induction a generalizing b with
  | nil => cases b <;> simp [compareBytes]
  | cons x xs ih =>
    cases b with
    | nil => simp [compareBytes]
    | cons y ys =>
      unfold compareBytes
      by_cases h : x = y
      · subst h
        have e : compareNat x x = 0 := (compareNat_eq_zero x x).mpr rfl
        simp only [e, ne_eq, not_true_eq_false, if_false]
        exact ih ys
      · have e1 : compareNat x y ≠ 0 := fun c => h ((compareNat_eq_zero x y).mp c)
        have e2 : compareNat y x ≠ 0 := fun c => h ((compareNat_eq_zero y x).mp c).symm
        rw [if_pos e1, if_pos e2, compareNat_neg, compareNat_pos]

theorem compareBytes_trans (a b c : List Nat) (h1 : compareBytes a b < 0)
    (h2 : compareBytes b c < 0) : compareBytes a c < 0 := by
  induction a generalizing b c with
  | nil =>
    cases c with
    | nil => cases b <;> simp [compareBytes] at h1 h2
    | cons z zs => simp [compareBytes]
  | cons x xs ih =>
    cases b with
    | nil => simp [compareBytes] at h1
    | cons y ys =>
      cases c with
      | nil => simp [compareBytes] at h2
      | cons z zs =>
        unfold compareBytes at h1 h2 ⊢
        by_cases hxy : x = y
        · subst hxy
          have e : compareNat x x = 0 := (compareNat_eq_zero x x).mpr rfl
          simp only [e, ne_eq, not_true_eq_false, if_false] at h1
          by_cases hxz : x = z
          · subst hxz
            simp only [e, ne_eq, not_true_eq_false, if_false] at h2 ⊢
            exact ih ys zs h1 h2
          · have e1 : compareNat x z ≠ 0 := fun c => hxz ((compareNat_eq_zero x z).mp c)
            rw [if_pos e1] at h2 ⊢
            exact h2
        · have e1 : compareNat x y ≠ 0 := fun c => hxy ((compareNat_eq_zero x y).mp c)
          rw [if_pos e1, compareNat_neg] at h1
          by_cases hyz : y = z
          · subst hyz
            rw [if_pos e1, compareNat_neg]
            exact h1
          · have e2 : compareNat y z ≠ 0 := fun c => hyz ((compareNat_eq_zero y z).mp c)
            rw [if_pos e2, compareNat_neg] at h2
            have e3 : compareNat x z ≠ 0 := fun c => by
              rw [compareNat_eq_zero] at c; omega
            rw [if_pos e3, compareNat_neg]
            omega

theorem lawful_compareBytes : LawfulCompare compareBytes where
  eq_iff := compareBytes_eq_zero
  swap := compareBytes_neg
  trans := compareBytes_trans

theorem lawful_compareIPNets : LawfulCompare compareIPNets := by
  have h := lawful_of_injective (lexCompare compareBytes compareBytes)
    (fun n : IPNet => (n.IP, n.Mask))
    (fun a b e => by
      cases a; cases b
      simp only [Prod.mk.injEq] at e
      simp [e.1, e.2])
    (lawful_lexCompare _ _ lawful_compareBytes lawful_compareBytes)
  exact h

theorem ruleKey_injective (a b : ContivRule) (h : ruleKey a = ruleKey b) : a = b := by
  cases a with
  | mk a1 a2 a3 a4 a5 a6 =>
    cases b with
    | mk b1 b2 b3 b4 b5 b6 =>
      simp only [ruleKey, Prod.mk.injEq] at h
      obtain ⟨h1, h2, h3, h4, h5, h6⟩ := h
      have e1 : a1 = b1 := by cases a1 <;> cases b1 <;> simp [actionCode] at h1 <;> rfl
      have e2 : a2 = b2 := by cases a2 <;> cases b2 <;> simp [protocolCode] at h2 <;> rfl
      rw [e1, e2, h3, h4, h5, h6]

/-- The rule comparison `ruleCompare` is a total order on rules. -/
theorem lawful_ruleCompare : LawfulCompare ruleCompare := by
  have h := lawful_of_injective
    (lexCompare compareNat (lexCompare compareNat (lexCompare compareIPNets
      (lexCompare compareNat (lexCompare compareIPNets compareNat)))))
    ruleKey ruleKey_injective
    (lawful_lexCompare _ _ lawful_compareNat (lawful_lexCompare _ _ lawful_compareNat
      (lawful_lexCompare _ _ lawful_compareIPNets (lawful_lexCompare _ _ lawful_compareNat
        (lawful_lexCompare _ _ lawful_compareIPNets lawful_compareNat)))))
  exact h

theorem Less_iff (a b : ContivPolicy) :
    ContivPolicies.Less a b = true ↔ policyKey a < policyKey b := by
  unfold ContivPolicies.Less policyKey
  rw [Prod.Lex.lt_iff]
  simp only [ofLex_toLex]
  by_cases h1 : a.ID.Namespace < b.ID.Namespace
  · simp [h1]
  · by_cases h2 : a.ID.Namespace = b.ID.Namespace
    · by_cases h3 : a.ID.Name < b.ID.Name
      · simp [h1, h2, h3]
      · simp [h1, h2, h3]
    · simp [h1, h2]

theorem Less_false_iff (a b : ContivPolicy) :
    ContivPolicies.Less a b = false ↔ policyKey b ≤ policyKey a := by
  rw [← not_lt, ← Less_iff]; simp

theorem insertPolicy_perm (p : ContivPolicy) (l : List ContivPolicy) :
    (insertPolicy p l).Perm (p :: l) := by
  induction l with
  | nil => exact List.Perm.refl _
  | cons q rest ih =>
    unfold insertPolicy
    split
    · exact ((List.Perm.cons q ih).trans (List.Perm.swap p q rest))
    · exact List.Perm.refl _

theorem sortPolicies_perm (l : List ContivPolicy) : (sortPolicies l).Perm l := by
  induction l with
  | nil => exact List.Perm.refl _
  | cons p rest ih =>
    unfold sortPolicies
    exact (insertPolicy_perm p _).trans (List.Perm.cons p ih)

theorem insertPolicy_sorted (p : ContivPolicy) (l : List ContivPolicy)
    (h : l.Pairwise (fun a b => ContivPolicies.Less b a = false)) :
    (insertPolicy p l).Pairwise (fun a b => ContivPolicies.Less b a = false) := by
  induction l with
  | nil => simp [insertPolicy]
  | cons q rest ih =>
    rw [List.pairwise_cons] at h
    unfold insertPolicy
    by_cases hqp : ContivPolicies.Less q p = true
    · rw [if_pos hqp, List.pairwise_cons]
      refine ⟨?_, ih h.2⟩
      intro x hx
      rcases List.mem_cons.mp ((insertPolicy_perm p rest).subset hx) with e | e
      · subst e
        rw [Less_iff] at hqp
        rw [Less_false_iff]
        exact le_of_lt hqp
      · exact h.1 x e
    · rw [if_neg hqp, List.pairwise_cons]
      refine ⟨?_, List.pairwise_cons.mpr h⟩
      have hpq : policyKey p ≤ policyKey q := (Less_false_iff q p).mp (by simpa using hqp)
      intro x hx
      rw [Less_false_iff]
      rcases List.mem_cons.mp hx with e | e
      · subst e; exact hpq
      · exact le_trans hpq ((Less_false_iff x q).mp (h.1 x e))

theorem sortPolicies_sorted (l : List ContivPolicy) :
    (sortPolicies l).Pairwise (fun a b => ContivPolicies.Less b a = false) := by
  induction l with
  | nil => simp [sortPolicies]
  | cons p rest ih => unfold sortPolicies; exact insertPolicy_sorted p _ ih

/-- The insertion sort `sortPolicies` meets the contract of `sort.Sort`. -/
theorem sortContract_sortPolicies : SortContract sortPolicies :=
  fun l => ⟨sortPolicies_perm l, sortPolicies_sorted l⟩


/-! ## The pod loop of `Commit` -/

theorem lookupProcessed_append (policies : List ContivPolicy) (processed : List ProcessedPolicySet)
    (ps : ProcessedPolicySet) :
    lookupProcessed policies (processed ++ [ps]) =
      if ContivPolicies.Equals ps.policies policies then some (ps.ingress, ps.egress)
      else lookupProcessed policies processed := by
  unfold lookupProcessed
  rw [List.foldl_append]
  rfl

theorem lookupProcessed_some (policies : List ContivPolicy) (processed : List ProcessedPolicySet)
    (res : ContivRules × ContivRules) (h : lookupProcessed policies processed = some res) :
    ∃ ps ∈ processed, ContivPolicies.Equals ps.policies policies = true ∧
      res = (ps.ingress, ps.egress) := by
  induction processed using List.reverseRecOn generalizing res with
  | nil => simp [lookupProcessed] at h
  | append_singleton l ps ih =>
    rw [lookupProcessed_append] at h
    split at h
    · rename_i he
      simp only [Option.some.injEq] at h
      exact ⟨ps, by simp, he, h.symm⟩
    · obtain ⟨q, hq, h1, h2⟩ := ih res h
      exact ⟨q, by simp [hq], h1, h2⟩

theorem lookupProcessed_sound (env : Env) (entries : List (PodID × List ContivPolicy))
    (hmemo : MemoSound env entries) (processed : List ProcessedPolicySet)
    (hok : ProcessedOK env entries processed) (entry : PodID × List ContivPolicy)
    (he : entry ∈ entries) (res : ContivRules × ContivRules)
    (h : lookupProcessed (env.SortPolicies entry.2) processed = some res) :
    generateRules env MatchType.MatchEgress (env.SortPolicies entry.2) = some res.1 ∧
      generateRules env MatchType.MatchIngress (env.SortPolicies entry.2) = some res.2 := by
  obtain ⟨ps, hps, heq, hres⟩ := lookupProcessed_some _ _ _ h
  obtain ⟨⟨e, hee, hpol⟩, h1, h2⟩ := hok ps hps
  rw [hpol] at heq
  have := hmemo e hee entry he heq
  rw [hpol, this] at h1 h2
  rw [hres]
  exact ⟨h1, h2⟩

theorem exceptsSized_of_perm (l l2 : List ContivPolicy) (hp : l2.Perm l) (h : ExceptsSized l) :
    ExceptsSized l2 :=
  fun p hp2 => h p (hp.subset hp2)

/-- One round of the pod loop issues the expected calls, updates the pod-IP map
at this pod only and keeps the memo sound. -/
theorem commitPod_eq (env : Env) (entries : List (PodID × List ContivPolicy))
    (hmemo : MemoSound env entries) (st : CommitState)
    (hok : ProcessedOK env entries st.processed) (entry : PodID × List ContivPolicy)
    (he : entry ∈ entries) (hs : ExceptsSized (env.SortPolicies entry.2)) :
    ∃ st1, commitPod env st entry.1 entry.2 = some st1 ∧
      ProcessedOK env entries st1.processed ∧
      st1.calls = st.calls ++ expectedCalls env st.podIPAddresses entry ∧
      ∀ p, p ≠ entry.1 → st1.podIPAddresses p = st.podIPAddresses p := by
  have hrem : ∃ st1, (match st.podIPAddresses entry.1 with
      | some podIPNet =>
        some { st with
          podIPAddresses := fun p => if p = entry.1 then none else st.podIPAddresses p,
          calls := st.calls ++
            [{ pod := entry.1, podIPNet := some podIPNet, ingress := [], egress := [],
               removed := true }] }
      | none => some st) = some st1 ∧
      ProcessedOK env entries st1.processed ∧
      st1.calls = st.calls ++ (match st.podIPAddresses entry.1 with
        | some podIPNet =>
          [{ pod := entry.1, podIPNet := some podIPNet, ingress := [], egress := [],
             removed := true }]
        | none => []) ∧
      ∀ p, p ≠ entry.1 → st1.podIPAddresses p = st.podIPAddresses p := by
    cases st.podIPAddresses entry.1 with
    | none => exact ⟨st, rfl, hok, by simp, fun _ _ => rfl⟩
    | some n => exact ⟨_, rfl, hok, rfl, fun p hp => by simp [hp]⟩
  unfold commitPod expectedCalls
  simp only
  cases hl : env.LookupPod entry.1 with
  | none => exact hrem
  | some podData =>
    simp only
    by_cases hip : podData.IpAddress = ""
    · rw [if_pos hip, if_pos hip]; exact hrem
    · rw [if_neg hip, if_neg hip]
      cases hg : env.GetOneHostSubnet podData.IpAddress with
      | none => exact ⟨st, rfl, hok, by simp, fun _ _ => rfl⟩
      | some n =>
        simp only
        obtain ⟨e, hge⟩ : ∃ e, generateRules env MatchType.MatchIngress
            (env.SortPolicies entry.2) = some e := by
          obtain ⟨rs, hrs⟩ := policiesRules_isSome env MatchType.MatchIngress _ hs
          exact ⟨_, by rw [generateRules_eq, hrs]; rfl⟩
        obtain ⟨i, hgi⟩ : ∃ i, generateRules env MatchType.MatchEgress
            (env.SortPolicies entry.2) = some i := by
          obtain ⟨rs, hrs⟩ := policiesRules_isSome env MatchType.MatchEgress _ hs
          exact ⟨_, by rw [generateRules_eq, hrs]; rfl⟩
        rw [hge, hgi]
        cases hlook : lookupProcessed (env.SortPolicies entry.2) st.processed with
        | some res =>
          obtain ⟨h1, h2⟩ := lookupProcessed_sound env entries hmemo st.processed hok entry he
            res hlook
          rw [hgi] at h1
          rw [hge] at h2
          simp only [Option.some.injEq] at h1 h2
          refine ⟨_, rfl, hok, ?_, fun p hp => by simp [hp]⟩
          simp [ContivRules.CopySlice, h1, h2]
        | none =>
          refine ⟨_, rfl, ?_, ?_, fun p hp => by simp [hp]⟩
          · intro ps hps
            rcases List.mem_append.mp hps with h | h
            · exact hok ps h
            · simp only [List.mem_singleton] at h
              subst h
              exact ⟨⟨entry, he, rfl⟩, hgi, hge⟩
          · simp [ContivRules.CopySlice]

theorem expectedCalls_congr (env : Env) (ips ips2 : PodID → Option IPNet)
    (entry : PodID × List ContivPolicy) (h : ips2 entry.1 = ips entry.1) :
    expectedCalls env ips2 entry = expectedCalls env ips entry := by
  unfold expectedCalls
  rw [h]

theorem commitPods_eq (env : Env) (all : List (PodID × List ContivPolicy))
    (hmemo : MemoSound env all) (ips : PodID → Option IPNet)
    (entries : List (PodID × List ContivPolicy)) (hsub : ∀ e ∈ entries, e ∈ all)
    (hs : ∀ e ∈ entries, ExceptsSized (env.SortPolicies e.2))
    (hnodup : (entries.map Prod.fst).Nodup) (st : CommitState)
    (hok : ProcessedOK env all st.processed)
    (hips : ∀ e ∈ entries, st.podIPAddresses e.1 = ips e.1) :
    ∃ st1, commitPods env st entries = some st1 ∧
      st1.calls = st.calls ++ entries.flatMap (expectedCalls env ips) := by
  induction entries generalizing st with
  | nil => exact ⟨st, rfl, by simp⟩
  | cons entry rest ih =>
    obtain ⟨st1, h1, hok1, hcalls, hother⟩ := commitPod_eq env all hmemo st hok entry
      (hsub entry (List.mem_cons_self _ _)) (hs entry (List.mem_cons_self _ _))
    rw [List.map_cons, List.nodup_cons] at hnodup
    obtain ⟨st2, h2, hcalls2⟩ := ih (fun e he => hsub e (List.mem_cons_of_mem _ he))
      (fun e he => hs e (List.mem_cons_of_mem _ he)) hnodup.2 st1 hok1
      (fun e he => by
        have hne : e.1 ≠ entry.1 := fun c => hnodup.1 (c ▸ List.mem_map_of_mem Prod.fst he)
        rw [hother e.1 hne]
        exact hips e (List.mem_cons_of_mem _ he))
    refine ⟨st2, by simp only [commitPods, h1]; exact h2, ?_⟩
    rw [hcalls2, hcalls, List.flatMap_cons, List.append_assoc,
      expectedCalls_congr env ips st.podIPAddresses entry (hips entry (List.mem_cons_self _ _))]

/-- The `Render` calls of a `Commit` are the expected calls of the entries, in
the order in which the entries are visited: the memo changes nothing. -/
theorem commitCalls_eq (env : Env) (hsort : SortContract env.SortPolicies)
    (ips : PodID → Option IPNet) (entries : List (PodID × List ContivPolicy))
    (hmemo : MemoSound env entries) (hs : ∀ e ∈ entries, ExceptsSized e.2)
    (hnodup : (entries.map Prod.fst).Nodup) :
    commitCalls env ips entries = some (entries.flatMap (expectedCalls env ips)) := by
  obtain ⟨st1, h1, h2⟩ := commitPods_eq env entries hmemo ips entries (fun _ h => h)
    (fun e he => exceptsSized_of_perm _ _ (hsort e.2).1 (hs e he)) hnodup
    { processed := [], podIPAddresses := ips, calls := [] }
    (fun ps hps => by cases hps) (fun _ _ => rfl)
  unfold commitCalls
  rw [h1]
  simp [h2]


/-! ## The sorted list of `ContivRules` -/

theorem lawful_le_trans (cmp : ContivRule → ContivRule → Int) (hL : LawfulCompare cmp)
    (r x y : ContivRule) (h1 : cmp r x ≤ 0) (h2 : cmp x y < 0) : cmp r y < 0 := by
  rcases lt_or_eq_of_le h1 with h | h
  · exact hL.trans r x y h h2
  · rw [(hL.eq_iff r x).mp h]; exact h2

/-- In a sorted list a rule that does not compare equal to any element goes
between the elements below it and the elements above it. -/
theorem Insert_cases_sorted (cmp : ContivRule → ContivRule → Int) (hL : LawfulCompare cmp)
    (cr : ContivRules) (r : ContivRule) (hs : cr.Sorted cmp) :
    (cr.Insert cmp r = (cr, false) ∧ r ∈ cr.orderedRules) ∨
      (∃ idx, cr.Insert cmp r =
          ({ rules := cr.rules ++ [r],
             orderedRules := cr.orderedRules.take idx ++ r :: cr.orderedRules.drop idx }, true) ∧
        (∀ x ∈ cr.orderedRules.take idx, cmp x r < 0) ∧
        (∀ x ∈ cr.orderedRules.drop idx, cmp r x < 0)) := by
  have hget : ∀ (a b : Nat) (x y : ContivRule), a < b → cr.orderedRules[a]? = some x → cr.orderedRules[b]? = some y →
      cmp x y < 0 := by
    intro a b x y hab hx hy
    obtain ⟨ha, hxa⟩ := List.getElem?_eq_some_iff.mp hx
    obtain ⟨hb, hyb⟩ := List.getElem?_eq_some_iff.mp hy
    have := (List.pairwise_iff_getElem.mp hs) a b ha hb hab
    rw [hxa, hyb] at this
    exact this
  have hmono : ∀ (a b : Nat), a ≤ b → b < cr.orderedRules.length →
      (match cr.orderedRules[a]? with
        | some x => decide (cmp r x ≤ 0)
        | none => false) = true →
      (match cr.orderedRules[b]? with
        | some x => decide (cmp r x ≤ 0)
        | none => false) = true := by
    intro a b hab hb ha
    rcases Nat.eq_or_lt_of_le hab with e | hlt
    · subst e; exact ha
    · have hbget : cr.orderedRules[b]? = some cr.orderedRules[b] := List.getElem?_eq_getElem hb
      have haget : cr.orderedRules[a]? = some cr.orderedRules[a] :=
        List.getElem?_eq_getElem (by omega)
      rw [haget] at ha
      rw [hbget]
      simp only [decide_eq_true_eq] at ha ⊢
      exact le_of_lt (lawful_le_trans cmp hL r _ _ ha (hget a b _ _ hlt haget hbget))
  obtain ⟨hlo, hhi⟩ := Search_spec _ cr.orderedRules.length hmono
  unfold ContivRules.Insert
  simp only
  split
  · rename_i h
    left
    refine ⟨rfl, ?_⟩
    obtain ⟨_, h2⟩ := h
    split at h2
    · rename_i x hx
      simp only [decide_eq_true_eq] at h2
      rw [(hL.eq_iff r x).mp h2]
      exact List.getElem?_mem hx
    · cases h2
  · rename_i hnd
    right
    refine ⟨_, rfl, ?_, ?_⟩
    · intro x hx
      obtain ⟨k, hk, hxk⟩ := List.mem_take_iff_getElem.mp hx
      have hklen : k < cr.orderedRules.length := by
        have := Nat.lt_min.mp hk; omega
      have hkidx : k < Search cr.orderedRules.length (fun i =>
          match cr.orderedRules[i]? with
          | some x => decide (cmp r x ≤ 0)
          | none => false) := (Nat.lt_min.mp hk).1
      have := hlo k hkidx
      simp only [List.getElem?_eq_getElem hklen, decide_eq_false_iff_not, not_le] at this
      rw [hxk] at this
      exact (hL.swap x r).mpr this
    · intro x hx
      obtain ⟨k, hk, hxk⟩ := List.mem_drop_iff_getElem.mp hx
      have hidx : Search cr.orderedRules.length (fun i =>
          match cr.orderedRules[i]? with
          | some x => decide (cmp r x ≤ 0)
          | none => false) < cr.orderedRules.length := by omega
      have h0 := hhi _ (Nat.le_refl _) hidx
      simp only [List.getElem?_eq_getElem hidx, decide_eq_true_eq] at h0
      have hne : ¬ cmp r (cr.orderedRules[Search cr.orderedRules.length (fun i =>
          match cr.orderedRules[i]? with
          | some x => decide (cmp r x ≤ 0)
          | none => false)]) = 0 := by
        intro c
        apply hnd
        refine ⟨hidx, ?_⟩
        simp only [List.getElem?_eq_getElem hidx, decide_eq_true_eq]
        exact c
      have hlt0 := lt_of_le_of_ne h0 hne
      rcases Nat.eq_zero_or_pos k with e | hpos
      · subst e
        rw [← hxk]
        exact hlt0
      · rw [← hxk]
        exact hL.trans r _ _ hlt0 (hget _ _ _ _ (by omega) (List.getElem?_eq_getElem hidx)
          (List.getElem?_eq_getElem (by omega)))

theorem Insert_sorted (cmp : ContivRule → ContivRule → Int) (hL : LawfulCompare cmp)
    (cr : ContivRules) (r : ContivRule) (hs : cr.Sorted cmp) : (cr.Insert cmp r).1.Sorted cmp := by
  rcases Insert_cases_sorted cmp hL cr r hs with ⟨e, _⟩ | ⟨idx, e, hlo, hhi⟩
  · rw [e]; exact hs
  · rw [e]
    unfold ContivRules.Sorted at hs ⊢
    simp only
    have hsplit : (cr.orderedRules.take idx ++ cr.orderedRules.drop idx).Pairwise
        (fun a b => cmp a b < 0) := by rw [List.take_append_drop]; exact hs
    rw [List.pairwise_append] at hsplit
    rw [List.pairwise_append, List.pairwise_cons]
    refine ⟨hsplit.1, ⟨hhi, hsplit.2.1⟩, ?_⟩
    intro a ha b hb
    rcases List.mem_cons.mp hb with e | e
    · subst e; exact hlo a ha
    · exact hsplit.2.2 a ha b e

theorem insertAll_sorted (cmp : ContivRule → ContivRule → Int) (hL : LawfulCompare cmp)
    (rs : List ContivRule) (cr : ContivRules) (hs : cr.Sorted cmp) :
    (insertAll cmp cr rs).Sorted cmp := by
  induction rs generalizing cr with
  | nil => exact hs
  | cons r rs ih => rw [insertAll_cons]; exact ih _ (Insert_sorted cmp hL cr r hs)

theorem sorted_unique (cmp : ContivRule → ContivRule → Int) (hL : LawfulCompare cmp)
    (l1 l2 : List ContivRule) (h1 : l1.Pairwise (fun a b => cmp a b < 0))
    (h2 : l2.Pairwise (fun a b => cmp a b < 0)) (hmem : ∀ x, x ∈ l1 ↔ x ∈ l2) : l1 = l2 := by
  have hne : ∀ a b, cmp a b < 0 → a ≠ b := by
    intro a b hab e
    rw [e, (hL.eq_iff b b).mpr rfl] at hab
    exact absurd hab (by decide)
  have n1 : l1.Nodup := h1.imp (fun {a b} hab => hne a b hab)
  have n2 : l2.Nodup := h2.imp (fun {a b} hab => hne a b hab)
  have hperm : l1.Perm l2 := (List.perm_ext_iff_of_nodup n1 n2).mpr hmem
  haveI : IsAntisymm ContivRule (fun a b => cmp a b < 0) :=
    ⟨fun a b hab hba => by
      have := (hL.swap a b).mp hab
      exact absurd hba (by omega)⟩
  exact List.eq_of_perm_of_sorted hperm h1 h2

/-- The sorted list after a run of insertions depends only on which rules were
inserted, not on their order. -/
theorem insertAll_ordered_congr (cmp : ContivRule → ContivRule → Int) (hL : LawfulCompare cmp)
    (rs rs2 : List ContivRule) (hmem : ∀ x, x ∈ rs ↔ x ∈ rs2) :
    (insertAll cmp { rules := [], orderedRules := [] } rs).orderedRules =
      (insertAll cmp { rules := [], orderedRules := [] } rs2).orderedRules := by
  have hE : ∀ a b, cmp a b = 0 → a = b := fun a b => (hL.eq_iff a b).mp
  have hempty : ({ rules := [], orderedRules := [] } : ContivRules).Sorted cmp := by
    simp [ContivRules.Sorted]
  apply sorted_unique cmp hL _ _ (insertAll_sorted cmp hL rs _ hempty)
    (insertAll_sorted cmp hL rs2 _ hempty)
  intro x
  rw [insertAll_sameRules cmp rs _ sameRules_empty x,
    insertAll_sameRules cmp rs2 _ sameRules_empty x,
    insertAll_mem_rules cmp hE rs _ sameRules_empty,
    insertAll_mem_rules cmp hE rs2 _ sameRules_empty, hmem x]


/-! ## Reordering peers and policies -/

theorem collectPeers_cons (env : Env) (peer : PodID) (rest : List PodID) :
    collectPeers env (peer :: rest) =
      match resolvePeer env peer with
      | none => collectPeers env rest
      | some p => p :: collectPeers env rest := by
  unfold resolvePeer
  rw [collectPeers]
  cases env.LookupPod peer with
  | none => rfl
  | some peerData =>
    simp only
    by_cases hip : peerData.IpAddress = ""
    · rw [if_pos hip, if_pos hip]
    · rw [if_neg hip, if_neg hip]
      cases env.GetOneHostSubnet peerData.IpAddress <;> rfl

theorem collectPeers_eq_filterMap (env : Env) (l : List PodID) :
    collectPeers env l = l.filterMap (resolvePeer env) := by
  induction l with
  | nil => rfl
  | cons peer rest ih =>
    rw [collectPeers_cons, List.filterMap_cons, ih]
    cases resolvePeer env peer <;> rfl

theorem matchRules_peersPermuted (env : Env) (d : MatchType) (m m2 : Match)
    (h : Match.PeersPermuted m m2) (subs : List IPNet) (x : ContivRule) :
    x ∈ matchRules env d m subs ↔ x ∈ matchRules env d m2 subs := by
  obtain ⟨_, hb, hp, hpods⟩ := h
  have hpeers : ∀ y, y ∈ collectPeers env (m.Pods.getD []) ↔
      y ∈ collectPeers env (m2.Pods.getD []) := by
    intro y
    rcases hpods with ⟨e1, e2⟩ | ⟨l, l2, e1, e2, hperm⟩
    · rw [e1, e2]
    · rw [e1, e2, collectPeers_eq_filterMap, collectPeers_eq_filterMap]
      exact ((hperm.filterMap (resolvePeer env)).mem_iff).symm
  have hundef : undefinedRules m2 = undefinedRules m := by
    unfold undefinedRules
    rw [hb, hp]
    rcases hpods with ⟨e1, e2⟩ | ⟨l, l2, e1, e2, _⟩
    · rw [e1, e2]
    · rw [e1, e2]; simp
  unfold matchRules
  rw [hundef, hp]
  simp only [List.mem_append, List.mem_flatMap, List.mem_map]
  constructor
  · rintro ((h | ⟨n, ⟨y, hy, rfl⟩, h⟩) | h)
    · exact Or.inl (Or.inl h)
    · exact Or.inl (Or.inr ⟨_, ⟨y, (hpeers y).mp hy, rfl⟩, h⟩)
    · exact Or.inr h
  · rintro ((h | ⟨n, ⟨y, hy, rfl⟩, h⟩) | h)
    · exact Or.inl (Or.inl h)
    · exact Or.inl (Or.inr ⟨_, ⟨y, (hpeers y).mpr hy, rfl⟩, h⟩)
    · exact Or.inr h

theorem matchesRules_peersPermuted (env : Env) (d : MatchType) (ms ms2 : List Match)
    (h : List.Forall₂ Match.PeersPermuted ms ms2) :
    SameMembers (matchesRules env d ms) (matchesRules env d ms2) := by
  induction h with
  | nil => exact Or.inr ⟨[], [], rfl, rfl, fun _ => Iff.rfl⟩
  | @cons m m2 rest rest2 hm _ ih =>
    unfold matchesRules
    rw [hm.1, hm.2.1]
    by_cases hd : m.Typ = d
    · rw [if_neg (by simpa using hd), if_neg (by simpa using hd)]
      cases hsubs : collectSubnets (m.IPBlocks.getD []) with
      | none => exact Or.inl ⟨rfl, rfl⟩
      | some subs =>
        rcases ih with ⟨e1, e2⟩ | ⟨rs, rs2, e1, e2, hmem⟩
        · rw [e1, e2]; exact Or.inl ⟨rfl, rfl⟩
        · rw [e1, e2]
          refine Or.inr ⟨_, _, rfl, rfl, ?_⟩
          intro x
          rw [List.mem_append, List.mem_append, hmem x,
            matchRules_peersPermuted env d m m2 hm subs x]
    · rw [if_pos hd, if_pos hd]
      exact ih

theorem any_allowsAll_peersPermuted (d : MatchType) (ms ms2 : List Match)
    (h : List.Forall₂ Match.PeersPermuted ms ms2) :
    ms2.any (fun m => decide (m.Typ = d) && matchAllowsAll m) =
      ms.any (fun m => decide (m.Typ = d) && matchAllowsAll m) := by
  induction h with
  | nil => rfl
  | @cons m m2 rest rest2 hm _ ih =>
    rw [List.any_cons, List.any_cons, ih]
    congr 1
    obtain ⟨ht, hb, hp, hpods⟩ := hm
    unfold matchAllowsAll
    rw [ht, hb, hp]
    rcases hpods with ⟨e1, e2⟩ | ⟨l, l2, e1, e2, _⟩
    · rw [e1, e2]
    · rw [e1, e2]; simp

theorem policySkipped_peersPermuted (d : MatchType) (p p2 : ContivPolicy)
    (h : ContivPolicy.PeersPermuted p p2) : policySkipped d p2 = policySkipped d p := by
  unfold policySkipped
  rw [h.2.1]

theorem policiesRules_peersPermuted (env : Env) (d : MatchType) (ps ps2 : List ContivPolicy)
    (h : List.Forall₂ ContivPolicy.PeersPermuted ps ps2) :
    SameMembers (policiesRules env d ps) (policiesRules env d ps2) ∧
      anyApplies d ps2 = anyApplies d ps ∧ anyAllowsAll d ps2 = anyAllowsAll d ps := by
  induction h with
  | nil => exact ⟨Or.inr ⟨[], [], rfl, rfl, fun _ => Iff.rfl⟩, rfl, rfl⟩
  | @cons p p2 rest rest2 hp _ ih =>
    obtain ⟨ih1, ih2, ih3⟩ := ih
    have hsk := policySkipped_peersPermuted d p p2 hp
    refine ⟨?_, ?_, ?_⟩
    · unfold policiesRules
      rw [hsk]
      by_cases hs : policySkipped d p = true
      · rw [if_pos hs, if_pos hs]; exact ih1
      · rw [if_neg hs, if_neg hs]
        rcases matchesRules_peersPermuted env d p.Matches p2.Matches hp.2.2 with
          ⟨e1, e2⟩ | ⟨rs, rs2, e1, e2, hmem⟩
        · rw [e1, e2]; exact Or.inl ⟨rfl, rfl⟩
        · rw [e1, e2]
          rcases ih1 with ⟨f1, f2⟩ | ⟨qs, qs2, f1, f2, hmem2⟩
          · rw [f1, f2]; exact Or.inl ⟨rfl, rfl⟩
          · rw [f1, f2]
            refine Or.inr ⟨_, _, rfl, rfl, ?_⟩
            intro x
            rw [List.mem_append, List.mem_append, hmem x, hmem2 x]
    · unfold anyApplies at ih2 ⊢
      rw [List.any_cons, List.any_cons, ih2, hsk]
    · unfold anyAllowsAll at ih3 ⊢
      rw [List.any_cons, List.any_cons, ih3, hsk,
        any_allowsAll_peersPermuted d p.Matches p2.Matches hp.2.2]

/-- Reordering the peer pods of the matches leaves the sorted rule list as it is. -/
theorem generateRules_peersPermuted (env : Env) (hL : LawfulCompare env.Compare)
    (d : MatchType) (ps ps2 : List ContivPolicy)
    (h : List.Forall₂ ContivPolicy.PeersPermuted ps ps2) :
    (generateRules env d ps2).map ContivRules.orderedRules =
      (generateRules env d ps).map ContivRules.orderedRules := by
  obtain ⟨h1, h2, h3⟩ := policiesRules_peersPermuted env d ps ps2 h
  rw [generateRules_eq, generateRules_eq, h2, h3]
  rcases h1 with ⟨e1, e2⟩ | ⟨rs, rs2, e1, e2, hmem⟩
  · rw [e1, e2]
  · rw [e1, e2]
    simp only [Option.map_some', Option.some.injEq]
    apply insertAll_ordered_congr env.Compare hL
    intro x
    rw [List.mem_append, List.mem_append, hmem x]

theorem policyID_eq_of_key (a b : ContivPolicy) (h : policyKey a = policyKey b) : a.ID = b.ID := by
  unfold policyKey at h
  have h2 := congrArg ofLex h
  simp only [ofLex_toLex, Prod.mk.injEq] at h2
  cases ha : a.ID with
  | mk n1 ns1 =>
    cases hb : b.ID with
    | mk n2 ns2 =>
      rw [ha, hb] at h2
      simp only at h2
      rw [h2.1, h2.2]

/-- The outcome of sorting a list of policies with pairwise distinct IDs does
not depend on the order of the list. -/
theorem sort_unique (sort : List ContivPolicy → List ContivPolicy) (hsort : SortContract sort)
    (l l2 : List ContivPolicy) (hperm : l2.Perm l) (hnodup : (l.map ContivPolicy.ID).Nodup) :
    sort l2 = sort l := by
  have hp : (sort l2).Perm (sort l) := ((hsort l2).1.trans hperm).trans (hsort l).1.symm
  have hids : ∀ l3 : List ContivPolicy, l3.Perm l →
      l3.Pairwise (fun a b => a.ID = b.ID → a = b) := by
    intro l3 h3
    have hn : (l3.map ContivPolicy.ID).Nodup := (h3.map ContivPolicy.ID).nodup_iff.mpr hnodup
    rw [List.Nodup, List.pairwise_map] at hn
    exact hn.imp (fun {a b} hab e => absurd e hab)
  have s1 := (hsort l2).2.and (hids _ ((hsort l2).1.trans hperm))
  have s2 := (hsort l).2.and (hids _ (hsort l).1)
  haveI : IsAntisymm ContivPolicy
      (fun a b => ContivPolicies.Less b a = false ∧ (a.ID = b.ID → a = b)) :=
    ⟨fun a b hab hba => by
      have k1 := (Less_false_iff b a).mp hab.1
      have k2 := (Less_false_iff a b).mp hba.1
      exact hab.2 (policyID_eq_of_key a b (le_antisymm k1 k2))⟩
  exact List.eq_of_perm_of_sorted hp s1 s2

theorem commitPod_congr (env : Env) (st : CommitState) (pod : PodID) (l l2 : List ContivPolicy)
    (h : env.SortPolicies l2 = env.SortPolicies l) :
    commitPod env st pod l2 = commitPod env st pod l := by
  unfold commitPod
  rw [h]

theorem commitPods_append (env : Env) (a b : List (PodID × List ContivPolicy))
    (st : CommitState) :
    commitPods env st (a ++ b) =
      match commitPods env st a with
      | some st1 => commitPods env st1 b
      | none => none := by
  induction a generalizing st with
  | nil => rfl
  | cons e rest ih =>
    simp only [List.cons_append, commitPods]
    cases commitPod env st e.1 e.2 with
    | none => rfl
    | some st1 => exact ih st1

theorem commitCalls_congr (env : Env) (ips : PodID → Option IPNet)
    (before after : List (PodID × List ContivPolicy)) (pod : PodID) (l l2 : List ContivPolicy)
    (h : env.SortPolicies l2 = env.SortPolicies l) :
    commitCalls env ips (before ++ (pod, l2) :: after) =
      commitCalls env ips (before ++ (pod, l) :: after) := by
  unfold commitCalls
  rw [commitPods_append, commitPods_append]
  cases commitPods env { processed := [], podIPAddresses := ips, calls := [] } before with
  | none => rfl
  | some st1 =>
    simp only [commitPods]
    rw [commitPod_congr env st1 pod l l2 h]


/-! ## Consequences for single entries -/

theorem generateRules_isSome (env : Env) (d : MatchType) (ps : List ContivPolicy)
    (hS : ExceptsSized ps) : ∃ cr, generateRules env d ps = some cr := by
  obtain ⟨rs, hrs⟩ := policiesRules_isSome env d ps hS
  exact ⟨_, by rw [generateRules_eq, hrs]; rfl⟩

theorem commitPod_isSome (env : Env) (st : CommitState) (pod : PodID) (l : List ContivPolicy)
    (hS : ExceptsSized (env.SortPolicies l)) : ∃ st1, commitPod env st pod l = some st1 := by
  obtain ⟨e, he⟩ := generateRules_isSome env MatchType.MatchIngress _ hS
  obtain ⟨i, hi⟩ := generateRules_isSome env MatchType.MatchEgress _ hS
  unfold commitPod
  simp only [he, hi]
  cases env.LookupPod pod with
  | none => cases st.podIPAddresses pod <;> exact ⟨_, rfl⟩
  | some podData =>
    simp only
    split
    · cases st.podIPAddresses pod <;> exact ⟨_, rfl⟩
    · cases env.GetOneHostSubnet podData.IpAddress with
      | none => exact ⟨_, rfl⟩
      | some n =>
        simp only
        cases lookupProcessed (env.SortPolicies l) st.processed with
        | none => exact ⟨_, rfl⟩
        | some res => exact ⟨_, rfl⟩

theorem commitPods_isSome (env : Env) (entries : List (PodID × List ContivPolicy))
    (hS : ∀ e ∈ entries, ExceptsSized (env.SortPolicies e.2)) (st : CommitState) :
    ∃ st1, commitPods env st entries = some st1 := by
  induction entries generalizing st with
  | nil => exact ⟨st, rfl⟩
  | cons e rest ih =>
    obtain ⟨st1, h1⟩ := commitPod_isSome env st e.1 e.2 (hS e (List.mem_cons_self _ _))
    obtain ⟨st2, h2⟩ := ih (fun x hx => hS x (List.mem_cons_of_mem _ hx)) st1
    exact ⟨st2, by simp only [commitPods, h1]; exact h2⟩

theorem commitCalls_isSome (env : Env) (hsort : SortContract env.SortPolicies)
    (ips : PodID → Option IPNet) (entries : List (PodID × List ContivPolicy))
    (hS : ∀ e ∈ entries, ExceptsSized e.2) : ∃ calls, commitCalls env ips entries = some calls := by
  obtain ⟨st1, h1⟩ := commitPods_isSome env entries
    (fun e he => exceptsSized_of_perm _ _ (hsort e.2).1 (hS e he))
    { processed := [], podIPAddresses := ips, calls := [] }
  exact ⟨st1.calls, by unfold commitCalls; rw [h1]; rfl⟩

theorem expectedCalls_pod (env : Env) (ips : PodID → Option IPNet)
    (entry : PodID × List ContivPolicy) (c : RenderCall) (h : c ∈ expectedCalls env ips entry) :
    c.pod = entry.1 := by
  unfold expectedCalls at h
  have hrem : ∀ c2 : RenderCall, c2 ∈ (match ips entry.1 with
      | some podIPNet =>
        [({ pod := entry.1, podIPNet := some podIPNet, ingress := [], egress := [],
            removed := true } : RenderCall)]
      | none => []) → c2.pod = entry.1 := by
    intro c2 h2
    cases hi : ips entry.1 with
    | none => rw [hi] at h2; cases h2
    | some n => rw [hi] at h2; simp only [List.mem_singleton] at h2; rw [h2]
  simp only at h
  cases hl : env.LookupPod entry.1 with
  | none => rw [hl] at h; exact hrem c h
  | some podData =>
    rw [hl] at h
    simp only at h
    split at h
    · exact hrem c h
    · cases hg : env.GetOneHostSubnet podData.IpAddress with
      | none => rw [hg] at h; cases h
      | some n =>
        rw [hg] at h
        simp only at h
        split at h
        · simp only [List.mem_singleton] at h; rw [h]
        · cases h

/-- The one `Render` call of `Commit` for a configured pod that the cache knows
with a valid IP: the rules generated for `MatchEgress` go out as ingress and the
rules generated for `MatchIngress` as egress. -/
theorem commit_call_of_entry (env : Env) (hsort : SortContract env.SortPolicies)
    (ips : PodID → Option IPNet) (entries : List (PodID × List ContivPolicy))
    (hmemo : MemoSound env entries) (hs : ∀ e ∈ entries, ExceptsSized e.2)
    (hnodup : (entries.map Prod.fst).Nodup) (pod : PodID) (l : List ContivPolicy)
    (hmem : (pod, l) ∈ entries) (podData : Pod) (n : IPNet)
    (hl : env.LookupPod pod = some podData) (hip : podData.IpAddress ≠ "")
    (hg : env.GetOneHostSubnet podData.IpAddress = some n) :
    ∃ calls i e, commitCalls env ips entries = some calls ∧
      generateRules env MatchType.MatchEgress (env.SortPolicies l) = some i ∧
      generateRules env MatchType.MatchIngress (env.SortPolicies l) = some e ∧
      { pod := pod, podIPNet := some n, ingress := i.rules, egress := e.rules,
        removed := false } ∈ calls ∧
      ∀ c ∈ calls, c.pod = pod →
        c = { pod := pod, podIPNet := some n, ingress := i.rules, egress := e.rules,
              removed := false } := by
  have hS := exceptsSized_of_perm _ _ (hsort l).1 (hs (pod, l) hmem)
  obtain ⟨e, he⟩ := generateRules_isSome env MatchType.MatchIngress _ hS
  obtain ⟨i, hi⟩ := generateRules_isSome env MatchType.MatchEgress _ hS
  have hexp : expectedCalls env ips (pod, l) =
      [{ pod := pod, podIPNet := some n, ingress := i.rules, egress := e.rules,
         removed := false }] := by
    unfold expectedCalls
    simp only [hl, if_neg hip, hg, hi, he]
  refine ⟨_, i, e, commitCalls_eq env hsort ips entries hmemo hs hnodup, hi, he, ?_, ?_⟩
  · rw [List.mem_flatMap]
    exact ⟨(pod, l), hmem, by rw [hexp]; simp⟩
  · intro c hc hpod
    rw [List.mem_flatMap] at hc
    obtain ⟨entry, hentry, hce⟩ := hc
    have h1 := expectedCalls_pod env ips entry c hce
    have h2 : entry = (pod, l) := by
      have hfst : entry.1 = pod := by rw [← h1, hpod]
      have hinj := List.inj_on_of_nodup_map hnodup hentry hmem (by simpa using hfst)
      exact hinj
    rw [h2, hexp] at hce
    simpa using hce

theorem sort_singleton (sort : List ContivPolicy → List ContivPolicy) (hsort : SortContract sort)
    (p : ContivPolicy) : sort [p] = [p] :=
  List.perm_singleton.mp (hsort [p]).1

theorem insertAll_rules_fresh (cmp : ContivRule → ContivRule → Int)
    (hE : ∀ a b, cmp a b = 0 → a = b) (rs : List ContivRule) (cr : ContivRules)
    (h : cr.SameRules) (hnodup : rs.Nodup) (hfresh : ∀ r ∈ rs, r ∉ cr.rules) :
    (insertAll cmp cr rs).rules = cr.rules ++ rs := by
  induction rs generalizing cr with
  | nil => simp [insertAll]
  | cons r rest ih =>
    rw [List.nodup_cons] at hnodup
    have h1 := Insert_rules_of_not_mem cmp hE cr r h (hfresh r (List.mem_cons_self _ _))
    rw [insertAll_cons, ih _ (Insert_sameRules cmp cr r h) hnodup.2, h1]
    · simp
    · intro x hx
      rw [h1, List.mem_append, List.mem_singleton]
      rintro (c | c)
      · exact hfresh x (List.mem_cons_of_mem _ hx) c
      · exact hnodup.1 (c ▸ hx)


/-! ## `Insert` on a sorted list, the error of `Commit`, the saved pod-IP map -/

theorem Insert_false_iff (cmp : ContivRule → ContivRule → Int) (hL : LawfulCompare cmp)
    (cr : ContivRules) (r : ContivRule) (hs : cr.Sorted cmp) :
    (cr.Insert cmp r).2 = false ↔ ∃ x ∈ cr.orderedRules, cmp r x = 0 := by
  rcases Insert_cases_sorted cmp hL cr r hs with ⟨e, hr⟩ | ⟨idx, e, hlo, hhi⟩
  · rw [e]
    simp only [true_iff]
    exact ⟨r, hr, (hL.eq_iff r r).mpr rfl⟩
  · rw [e]
    simp only [Bool.true_eq_false, false_iff, not_exists, not_and]
    intro x hx hc
    rw [← List.take_append_drop idx cr.orderedRules, List.mem_append] at hx
    rcases hx with h | h
    · have := (hL.swap x r).mp (hlo x h)
      omega
    · have := hhi x h
      omega

theorem Insert_true_spec (cmp : ContivRule → ContivRule → Int) (hL : LawfulCompare cmp)
    (cr : ContivRules) (r : ContivRule) (hs : cr.Sorted cmp)
    (h : (cr.Insert cmp r).2 = true) :
    (cr.Insert cmp r).1.rules = cr.rules ++ [r] ∧
      ∃ idx, idx ≤ cr.orderedRules.length ∧
        (cr.Insert cmp r).1.orderedRules =
          cr.orderedRules.take idx ++ r :: cr.orderedRules.drop idx ∧
        (∀ x ∈ cr.orderedRules.take idx, cmp x r < 0) ∧
        (∀ x ∈ cr.orderedRules.drop idx, cmp r x < 0) := by
  rcases Insert_cases_sorted cmp hL cr r hs with ⟨e, _⟩ | ⟨idx, e, hlo, hhi⟩
  · rw [e] at h; cases h
  · rw [e]
    refine ⟨rfl, min idx cr.orderedRules.length, Nat.min_le_right _ _, ?_, ?_, ?_⟩
    · simp only
      rcases Nat.le_total idx cr.orderedRules.length with hle | hge
      · rw [Nat.min_eq_left hle]
      · rw [Nat.min_eq_right hge, List.take_of_length_le hge, List.drop_of_length_le hge,
          List.take_length, List.drop_length]
    · intro x hx
      apply hlo x
      rcases Nat.le_total idx cr.orderedRules.length with hle | hge
      · rw [Nat.min_eq_left hle] at hx; exact hx
      · rw [Nat.min_eq_right hge, List.take_length] at hx
        rw [List.take_of_length_le hge]; exact hx
    · intro x hx
      apply hhi x
      rcases Nat.le_total idx cr.orderedRules.length with hle | hge
      · rw [Nat.min_eq_left hle] at hx; exact hx
      · rw [Nat.min_eq_right hge, List.drop_length] at hx
        cases hx

theorem commitSequential_eq (txns : List RendererTxn) (wasError : Option String)
    (committed : List RendererTxn) :
    commitSequential txns (wasError, committed) =
      (receiveErrors (txns.map RendererTxn.Commit) wasError, committed ++ txns) := by
  induction txns generalizing wasError committed with
  | nil => simp [commitSequential, receiveErrors]
  | cons t rest ih =>
    simp only [commitSequential, List.map_cons, receiveErrors]
    rw [ih]
    simp

theorem receiveErrors_all_none (errs : List (Option String)) (wasError : Option String)
    (h : ∀ e ∈ errs, e = none) : receiveErrors errs wasError = wasError := by
  induction errs generalizing wasError with
  | nil => rfl
  | cons e rest ih =>
    have he : e = none := h e (List.mem_cons_self _ _)
    subst he
    simp only [receiveErrors]
    exact ih _ (fun x hx => h x (List.mem_cons_of_mem _ hx))

theorem receiveErrors_append (a b : List (Option String)) (wasError : Option String) :
    receiveErrors (a ++ b) wasError = receiveErrors b (receiveErrors a wasError) := by
  induction a generalizing wasError with
  | nil => rfl
  | cons e rest ih => simp only [List.cons_append, receiveErrors]; exact ih _

theorem receiveErrors_last (pre post : List (Option String)) (err : String)
    (wasError : Option String) (h : ∀ e ∈ post, e = none) :
    receiveErrors (pre ++ some err :: post) wasError = some err := by
  rw [receiveErrors_append]
  simp only [receiveErrors]
  exact receiveErrors_all_none post _ h

theorem receiveErrors_eq (errs : List (Option String)) (wasError : Option String) :
    receiveErrors errs wasError =
      match (errs.filterMap id).getLast? with
      | some e => some e
      | none => wasError := by
  induction errs using List.reverseRecOn generalizing wasError with
  | nil => rfl
  | append_singleton l e ih =>
    rw [receiveErrors_append, List.filterMap_append]
    cases e with
    | none =>
      have e : List.filterMap id [(none : Option String)] = [] := rfl
      rw [e, List.append_nil]
      simp only [receiveErrors]
      exact ih wasError
    | some x =>
      simp [receiveErrors, List.getLast?_append]

theorem commit_sequential_outcome (env : Env) (pc : PolicyConfigurator)
    (pct : PolicyConfiguratorTxn) (arrival : List (Option String) → List (Option String))
    (hseq : pc.parallelRendering = false) (out : CommitOutcome)
    (h : pct.Commit env pc arrival = some out) :
    out.committed = out.opened ∧
      out.wasError = receiveErrors (out.opened.map RendererTxn.Commit) none := by
  unfold PolicyConfiguratorTxn.Commit at h
  cases hc : commitPods env { processed := [], podIPAddresses := pct.podIPAddresses, calls := [] }
      pct.config with
  | none => rw [hc] at h; cases h
  | some st =>
    rw [hc] at h
    simp only [hseq, Bool.false_eq_true, if_false, Option.some.injEq] at h
    subst h
    simp only [commitSequential_eq, List.nil_append, and_self]

theorem commit_isSome (env : Env) (hsort : SortContract env.SortPolicies)
    (pc : PolicyConfigurator) (pct : PolicyConfiguratorTxn)
    (arrival : List (Option String) → List (Option String))
    (hs : ∀ e ∈ pct.config, ExceptsSized e.2) :
    ∃ out st, pct.Commit env pc arrival = some out ∧
      commitPods env { processed := [], podIPAddresses := pct.podIPAddresses, calls := [] }
        pct.config = some st ∧
      out.configurator.podIPAddresses = st.podIPAddresses ∧
      out.configurator.renderers = pc.renderers ∧
      out.opened = openTxns pc.renderers pct.resync st.calls := by
  obtain ⟨st, hst⟩ := commitPods_isSome env pct.config
    (fun e he => exceptsSized_of_perm _ _ (hsort e.2).1 (hs e he))
    { processed := [], podIPAddresses := pct.podIPAddresses, calls := [] }
  unfold PolicyConfiguratorTxn.Commit
  rw [hst]
  exact ⟨_, st, rfl, rfl, rfl, rfl, rfl⟩

/-- One round of the pod loop: the pod's entry of the map afterwards, and the calls
issued, all for this pod; a pod that is gone gets a removal call if it had an
entry and no call otherwise. -/
theorem commitPod_effect (env : Env) (st st1 : CommitState) (pod : PodID)
    (l : List ContivPolicy) (h : commitPod env st pod l = some st1) :
    st1.podIPAddresses pod = expectedIP env (st.podIPAddresses pod) pod ∧
      (∀ p, p ≠ pod → st1.podIPAddresses p = st.podIPAddresses p) ∧
      ∃ cs, st1.calls = st.calls ++ cs ∧ (∀ c ∈ cs, c.pod = pod) ∧
        (podGone env pod = true →
          cs = match st.podIPAddresses pod with
            | some podIPNet =>
              [{ pod := pod, podIPNet := some podIPNet, ingress := [], egress := [],
                 removed := true }]
            | none => []) := by
  have hrem : podGone env pod = true →
      (match st.podIPAddresses pod with
        | some podIPNet =>
          some { st with
            podIPAddresses := fun p => if p = pod then none else st.podIPAddresses p,
            calls := st.calls ++
              [{ pod := pod, podIPNet := some podIPNet, ingress := [], egress := [],
                 removed := true }] }
        | none => some st) = some st1 →
      st1.podIPAddresses pod = expectedIP env (st.podIPAddresses pod) pod ∧
      (∀ p, p ≠ pod → st1.podIPAddresses p = st.podIPAddresses p) ∧
      ∃ cs, st1.calls = st.calls ++ cs ∧ (∀ c ∈ cs, c.pod = pod) ∧
        (podGone env pod = true →
          cs = match st.podIPAddresses pod with
            | some podIPNet =>
              [{ pod := pod, podIPNet := some podIPNet, ingress := [], egress := [],
                 removed := true }]
            | none => []) := by
    intro hg h2
    unfold expectedIP
    rw [if_pos hg]
    cases hip : st.podIPAddresses pod with
    | none =>
      rw [hip] at h2
      simp only [Option.some.injEq] at h2
      subst h2
      exact ⟨hip, fun _ _ => rfl, [], by simp, by simp, fun _ => rfl⟩
    | some n =>
      rw [hip] at h2
      simp only [Option.some.injEq] at h2
      subst h2
      exact ⟨by simp, fun p hp => by simp [hp], _, rfl, by simp, fun _ => rfl⟩
  unfold commitPod at h
  simp only at h
  cases hl : env.LookupPod pod with
  | none =>
    rw [hl] at h
    exact hrem (by unfold podGone; rw [hl]) h
  | some podData =>
    rw [hl] at h
    simp only at h
    by_cases hip : podData.IpAddress = ""
    · rw [if_pos hip] at h
      exact hrem (by unfold podGone; rw [hl]; simpa using hip) h
    · rw [if_neg hip] at h
      have hng : podGone env pod = false := by unfold podGone; rw [hl]; simpa using hip
      have hv : validIP env pod = env.GetOneHostSubnet podData.IpAddress := by
        unfold validIP; rw [hl]; simp only; rw [if_neg hip]
      unfold expectedIP
      rw [hng, hv]
      simp only [Bool.false_eq_true, if_false, false_implies, and_true]
      cases hg : env.GetOneHostSubnet podData.IpAddress with
      | none =>
        rw [hg] at h
        simp only [Option.some.injEq] at h
        subst h
        exact ⟨rfl, fun _ _ => rfl, [], by simp, by simp⟩
      | some n =>
        rw [hg] at h
        simp only at h
        cases hlook : lookupProcessed (env.SortPolicies l) st.processed with
        | some res =>
          rw [hlook] at h
          simp only [Option.some.injEq] at h
          subst h
          exact ⟨by simp, fun p hp => by simp [hp], _, rfl, by simp⟩
        | none =>
          rw [hlook] at h
          simp only at h
          cases he : generateRules env MatchType.MatchIngress (env.SortPolicies l) with
          | none => rw [he] at h; cases h
          | some e =>
            cases hi : generateRules env MatchType.MatchEgress (env.SortPolicies l) with
            | none => rw [he, hi] at h; cases h
            | some i =>
              rw [he, hi] at h
              simp only [Option.some.injEq] at h
              subst h
              exact ⟨by simp, fun p hp => by simp [hp], _, rfl, by simp⟩

/-- The pod loop over entries with distinct pods: the map afterwards, and the calls
issued for a pod that is gone. -/
theorem commitPods_effect (env : Env) (entries : List (PodID × List ContivPolicy))
    (hnodup : (entries.map Prod.fst).Nodup) (st st1 : CommitState)
    (h : commitPods env st entries = some st1) :
    (∀ p, st1.podIPAddresses p =
      if p ∈ entries.map Prod.fst then expectedIP env (st.podIPAddresses p) p
      else st.podIPAddresses p) ∧
      ∃ cs, st1.calls = st.calls ++ cs ∧ (∀ c ∈ cs, c.pod ∈ entries.map Prod.fst) ∧
        ∀ pod, pod ∈ entries.map Prod.fst → podGone env pod = true →
          cs.filter (fun c => decide (c.pod = pod)) =
            match st.podIPAddresses pod with
            | some podIPNet =>
              [{ pod := pod, podIPNet := some podIPNet, ingress := [], egress := [],
                 removed := true }]
            | none => [] := by
  induction entries generalizing st with
  | nil =>
    simp only [commitPods, Option.some.injEq] at h
    subst h
    exact ⟨fun p => by simp, [], by simp, by simp, fun pod hp => by simp at hp⟩
  | cons entry rest ih =>
    rw [List.map_cons, List.nodup_cons] at hnodup
    simp only [commitPods] at h
    cases h1 : commitPod env st entry.1 entry.2 with
    | none => rw [h1] at h; cases h
    | some st2 =>
      rw [h1] at h
      simp only at h
      obtain ⟨e1, e2, cs1, e3, e4, e5⟩ := commitPod_effect env st st2 entry.1 entry.2 h1
      obtain ⟨i1, cs2, i2, i3, i4⟩ := ih hnodup.2 st2 h
      refine ⟨?_, cs1 ++ cs2, by rw [i2, e3, List.append_assoc], ?_, ?_⟩
      · intro p
        rw [i1 p]
        by_cases hp : p = entry.1
        · subst hp
          rw [if_neg hnodup.1, e1]
          simp
        · rw [e2 p hp]
          simp only [List.map_cons, List.mem_cons, hp, false_or]
      · intro c hc
        rcases List.mem_append.mp hc with hc | hc
        · rw [e4 c hc]; simp
        · exact List.mem_cons_of_mem _ (i3 c hc)
      · intro pod hpod hgone
        rw [List.filter_append]
        rcases List.mem_cons.mp hpod with hp | hp
        · have hp2 : pod = entry.1 := hp
          subst hp2
          have hnone : cs2.filter (fun c => decide (c.pod = entry.1)) = [] := by
            rw [List.filter_eq_nil_iff]
            intro c hc
            have := i3 c hc
            simp only [decide_eq_true_eq]
            intro hcp
            rw [hcp] at this
            exact hnodup.1 this
          have hall : cs1.filter (fun c => decide (c.pod = entry.1)) = cs1 := by
            rw [List.filter_eq_self]
            intro c hc
            simpa using e4 c hc
          rw [hnone, hall, List.append_nil]
          exact e5 hgone
        · have hne : pod ≠ entry.1 := fun c => hnodup.1 (c ▸ hp)
          have hnone : cs1.filter (fun c => decide (c.pod = pod)) = [] := by
            rw [List.filter_eq_nil_iff]
            intro c hc
            simp only [decide_eq_true_eq]
            rw [e4 c hc]
            exact fun c2 => hne c2.symm
          rw [hnone, List.nil_append, i4 pod hp hgone, e2 pod hne]

theorem receiveErrors_none_iff (errs : List (Option String)) :
    receiveErrors errs none = none ↔ ∀ e ∈ errs, e = none := by
  constructor
  · intro h e he
    cases e with
    | none => rfl
    | some x =>
      obtain ⟨pre, post, rfl⟩ := List.append_of_mem he
      rw [receiveErrors_append] at h
      simp only [receiveErrors] at h
      have : ∀ (l : List (Option String)) (y : String), receiveErrors l (some y) ≠ none := by
        intro l
        induction l with
        | nil => intro y; simp [receiveErrors]
        | cons a rest ih =>
          intro y
          cases a with
          | none => simp only [receiveErrors]; exact ih y
          | some z => simp only [receiveErrors]; exact ih z
      exact absurd h (this post x)
  · exact receiveErrors_all_none errs none

theorem openTxns_cases (renderers : List Renderer) (resync : Bool) (calls : List RenderCall) :
    (calls = [] ∧ openTxns renderers resync calls = []) ∨
      (calls ≠ [] ∧ (openTxns renderers resync calls).map RendererTxn.renderer = renderers ∧
        ∀ t ∈ openTxns renderers resync calls, t.calls = calls ∧ t.resync = resync) := by
  unfold openTxns
  by_cases h : calls = []
  · left; rw [if_pos h]; exact ⟨h, rfl⟩
  · right
    rw [if_neg h]
    refine ⟨h, ?_, ?_⟩
    · rw [List.map_map]
      exact List.map_id _
    · intro t ht
      obtain ⟨r, _, rfl⟩ := List.mem_map.mp ht
      exact ⟨rfl, rfl⟩

/-- Sequential `Commit` returns; it commits every opened transaction, the opened
transactions follow the registered renderers, and the error is the one that the
receiving fold leaves. -/
theorem commit_sequential_total (env : Env) (hsort : SortContract env.SortPolicies)
    (pc : PolicyConfigurator) (pct : PolicyConfiguratorTxn)
    (arrival : List (Option String) → List (Option String))
    (hs : ∀ e ∈ pct.config, ExceptsSized e.2) (hseq : pc.parallelRendering = false) :
    ∃ out, pct.Commit env pc arrival = some out ∧ out.committed = out.opened ∧
      out.wasError = receiveErrors (out.opened.map RendererTxn.Commit) none ∧
      (out.opened = [] ∨ out.opened.map RendererTxn.renderer = pc.renderers) := by
  obtain ⟨out, st, h1, _, _, _, h5⟩ := commit_isSome env hsort pc pct arrival hs
  obtain ⟨h6, h7⟩ := commit_sequential_outcome env pc pct arrival hseq out h1
  refine ⟨out, h1, h6, h7, ?_⟩
  rw [h5]
  rcases openTxns_cases pc.renderers pct.resync st.calls with ⟨_, h⟩ | ⟨_, h, _⟩
  · exact Or.inl h
  · exact Or.inr h

theorem podGone_validIP (env : Env) (pod : PodID) (h : podGone env pod = true) :
    validIP env pod = none := by
  unfold podGone at h
  unfold validIP
  cases hl : env.LookupPod pod with
  | none => rfl
  | some podData =>
    rw [hl] at h
    simp only [decide_eq_true_eq] at h
    simp only [h, if_true]

theorem expectedIP_none (env : Env) (pod : PodID) : expectedIP env none pod = validIP env pod := by
  unfold expectedIP
  by_cases h : podGone env pod = true
  · rw [if_pos h, podGone_validIP env pod h]
  · rw [if_neg h]
    cases validIP env pod <;> rfl

/-- The pod-IP map that `Commit` saves, for a transaction with distinct pods. -/
theorem commit_saved_map (env : Env) (hsort : SortContract env.SortPolicies)
    (pc : PolicyConfigurator) (pct : PolicyConfiguratorTxn)
    (arrival : List (Option String) → List (Option String))
    (hs : ∀ e ∈ pct.config, ExceptsSized e.2) (hnodup : (pct.config.map Prod.fst).Nodup) :
    ∃ out, pct.Commit env pc arrival = some out ∧
      ∀ p, out.configurator.podIPAddresses p =
        if p ∈ pct.config.map Prod.fst then expectedIP env (pct.podIPAddresses p) p
        else pct.podIPAddresses p := by
  obtain ⟨out, st, h1, h2, h3, _, _⟩ := commit_isSome env hsort pc pct arrival hs
  refine ⟨out, h1, ?_⟩
  rw [h3]
  exact (commitPods_effect env pct.config hnodup _ st h2).1

/-- What `Commit` does for a pod of the transaction that is gone. -/
theorem commit_gone_pod (env : Env) (hsort : SortContract env.SortPolicies)
    (pc : PolicyConfigurator) (pct : PolicyConfiguratorTxn)
    (arrival : List (Option String) → List (Option String))
    (hs : ∀ e ∈ pct.config, ExceptsSized e.2) (hnodup : (pct.config.map Prod.fst).Nodup)
    (pod : PodID) (hmem : pod ∈ pct.config.map Prod.fst) (hgone : podGone env pod = true) :
    ∃ out, pct.Commit env pc arrival = some out ∧
      out.configurator.podIPAddresses pod = none ∧
      (pct.podIPAddresses pod = none → ∀ t ∈ out.opened, ∀ c ∈ t.calls, c.pod ≠ pod) ∧
      (∀ podIPNet, pct.podIPAddresses pod = some podIPNet →
        out.opened.map RendererTxn.renderer = pc.renderers ∧
        ∀ t ∈ out.opened, t.calls.filter (fun c => decide (c.pod = pod)) =
          [{ pod := pod, podIPNet := some podIPNet, ingress := [], egress := [],
             removed := true }]) := by
  obtain ⟨out, st, h1, h2, h3, _, h5⟩ := commit_isSome env hsort pc pct arrival hs
  obtain ⟨e1, cs, e2, _, e4⟩ := commitPods_effect env pct.config hnodup _ st h2
  simp only [List.nil_append] at e2
  have hf := e4 pod hmem hgone
  simp only at hf
  refine ⟨out, h1, ?_, ?_, ?_⟩
  · rw [h3, e1 pod, if_pos hmem]
    unfold expectedIP
    rw [if_pos hgone]
  · intro hnone t ht c hc hcp
    rw [hnone] at hf
    rw [h5] at ht
    rcases openTxns_cases pc.renderers pct.resync st.calls with ⟨_, h⟩ | ⟨_, _, h⟩
    · rw [h] at ht; cases ht
    · rw [(h t ht).1, e2] at hc
      have : c ∈ cs.filter (fun c => decide (c.pod = pod)) :=
        List.mem_filter.mpr ⟨hc, by simpa using hcp⟩
      rw [hf] at this
      cases this
  · intro n hn
    rw [hn] at hf
    rw [h5]
    rcases openTxns_cases pc.renderers pct.resync st.calls with ⟨h0, _⟩ | ⟨_, h, h6⟩
    · rw [e2] at h0
      rw [h0] at hf
      cases hf
    · refine ⟨h, fun t ht => ?_⟩
      rw [(h6 t ht).1, e2]
      exact hf


/-! ## The renderer cache: `Resync` -/

theorem PodSet.mem_Add (s : PodSet) (pod x : PodID) :
    x ∈ PodSet.Add s pod ↔ x ∈ s ∨ x = pod := by
  unfold PodSet.Add
  by_cases h : pod ∈ s
  · rw [if_pos h]
    constructor
    · exact Or.inl
    · rintro (h1 | h1)
      · exact h1
      · rw [h1]; exact h
  · rw [if_neg h]
    simp

theorem PodSet.mem_Remove (s : PodSet) (pod x : PodID) :
    x ∈ PodSet.Remove s pod ↔ x ∈ s ∧ x ≠ pod := by
  unfold PodSet.Remove
  simp

theorem Config.get_isSome_iff (config : Config) (pod : PodID) :
    (Config.get config pod).isSome = true ↔ pod ∈ config.map Prod.fst := by
  unfold Config.get
  cases h : config.find? (fun entry => decide (entry.1 = pod)) with
  | none =>
    simp only [Option.isSome_none, Bool.false_eq_true, false_iff]
    intro hm
    obtain ⟨e, he, rfl⟩ := List.mem_map.mp hm
    have := List.find?_eq_none.mp h e he
    simp at this
  | some entry =>
    simp only [Option.isSome_some, true_iff]
    have h1 := List.find?_some h
    have h2 := List.mem_of_find?_eq_some h
    simp only [decide_eq_true_eq] at h1
    exact List.mem_map.mpr ⟨entry, h2, h1⟩

theorem Config.get_mem (config : Config) (pod : PodID) (podCfg : PodConfig)
    (h : Config.get config pod = some podCfg) : (pod, podCfg) ∈ config := by
  unfold Config.get at h
  cases h1 : config.find? (fun entry => decide (entry.1 = pod)) with
  | none => rw [h1] at h; cases h
  | some entry =>
    rw [h1] at h
    simp only [Option.some.injEq] at h
    have h2 := List.find?_some h1
    have h3 := List.mem_of_find?_eq_some h1
    simp only [decide_eq_true_eq] at h2
    rw [← h2, ← h]
    exact h3

theorem Config.set_of_not_mem (config : Config) (pod : PodID) (podCfg : PodConfig)
    (h : pod ∉ config.map Prod.fst) : Config.set config pod podCfg = config ++ [(pod, podCfg)] := by
  unfold Config.set
  congr 1
  rw [List.filter_eq_self]
  intro e he
  simp only [ne_eq, decide_not, Bool.not_eq_eq_eq_not, Bool.not_true, decide_eq_false_iff_not]
  intro hc
  exact h (List.mem_map.mpr ⟨e, he, hc⟩)

theorem resyncPods_ok (config : Config) (pods : List PodID) (hn : pods.Nodup)
    (hd : ∀ p ∈ pods, p ∉ config.map Prod.fst) :
    ∃ config1, resyncPods config pods = Except.ok config1 ∧
      config1.map Prod.fst = config.map Prod.fst ++ pods := by
  induction pods generalizing config with
  | nil => exact ⟨config, rfl, by simp⟩
  | cons p rest ih =>
    rw [List.nodup_cons] at hn
    have hp : p ∉ config.map Prod.fst := hd p (List.mem_cons_self _ _)
    have hget : (Config.get config p).isSome = false := by
      rw [Bool.eq_false_iff]
      exact fun h => hp ((Config.get_isSome_iff config p).mp h)
    simp only [resyncPods, hget, Bool.false_eq_true, if_false]
    rw [Config.set_of_not_mem config p _ hp]
    obtain ⟨c1, h1, h2⟩ := ih (config ++ [(p, _)]) hn.2 (by
      intro q hq
      simp only [List.map_append, List.map_cons, List.map_nil, List.mem_append,
        List.mem_singleton, not_or]
      exact ⟨hd q (List.mem_cons_of_mem _ hq), fun h => hn.1 (h ▸ hq)⟩)
    refine ⟨c1, h1, ?_⟩
    rw [h2]
    simp

theorem resyncPods_error (config : Config) (pods : List PodID) (hn : pods.Nodup)
    (hd : ∃ p ∈ pods, p ∈ config.map Prod.fst) :
    ∃ p, resyncPods config pods = Except.error p ∧ p ∈ pods ∧ p ∈ config.map Prod.fst := by
  induction pods generalizing config with
  | nil => obtain ⟨p, hp, _⟩ := hd; cases hp
  | cons p rest ih =>
    rw [List.nodup_cons] at hn
    by_cases hp : p ∈ config.map Prod.fst
    · refine ⟨p, ?_, List.mem_cons_self _ _, hp⟩
      simp only [resyncPods, (Config.get_isSome_iff config p).mpr hp, if_true]
    · have hget : (Config.get config p).isSome = false := by
        rw [Bool.eq_false_iff]
        exact fun h => hp ((Config.get_isSome_iff config p).mp h)
      simp only [resyncPods, hget, Bool.false_eq_true, if_false]
      rw [Config.set_of_not_mem config p _ hp]
      obtain ⟨q, hq, hqc⟩ := hd
      have hqr : q ∈ rest := by
        rcases List.mem_cons.mp hq with h | h
        · rw [h] at hqc; exact absurd hqc hp
        · exact h
      obtain ⟨x, h1, h2, h3⟩ := ih (config ++ [(p, _)]) hn.2
        ⟨q, hqr, by simp only [List.map_append, List.mem_append]; exact Or.inl hqc⟩
      refine ⟨x, h1, List.mem_cons_of_mem _ h2, ?_⟩
      simp only [List.map_append, List.map_cons, List.map_nil, List.mem_append,
        List.mem_singleton] at h3
      rcases h3 with h3 | h3
      · exact h3
      · rw [h3] at h2; exact absurd h2 hn.1

theorem tableType_local_of_ne (t : TableType) (h : t ≠ TableType.Global) : t = TableType.Local := by
  cases t
  · rfl
  · exact absurd rfl h

/-- The loop of `Resync` over the tables succeeds exactly when the pods recorded
so far and the pods of the Local tables of the input are all distinct, and then
records these pods. -/
theorem resyncTables_spec (deps : CacheDeps) (tables : List (Option ContivRuleTable))
    (hn : ∀ t, some t ∈ tables → t.Pods.Nodup) (st : ResyncState)
    (hst : (st.config.map Prod.fst).Nodup) :
    ((st.config.map Prod.fst ++ tables.flatMap localPodsOf).Nodup →
      ∃ st1, resyncTables deps tables st = Except.ok st1 ∧
        st1.config.map Prod.fst = st.config.map Prod.fst ++ tables.flatMap localPodsOf) ∧
    (¬ (st.config.map Prod.fst ++ tables.flatMap localPodsOf).Nodup →
      ∃ p, resyncTables deps tables st = Except.error p) := by
  induction tables generalizing st with
  | nil =>
    simp only [List.flatMap_nil, List.append_nil, resyncTables]
    exact ⟨fun _ => ⟨st, rfl, rfl⟩, fun h => absurd hst h⟩
  | cons entry rest ih =>
    have hn2 : ∀ t, some t ∈ rest → t.Pods.Nodup := fun t ht => hn t (List.mem_cons_of_mem _ ht)
    cases entry with
    | none =>
      simp only [List.flatMap_cons, localPodsOf, List.nil_append, resyncTables]
      exact ih hn2 st hst
    | some table =>
      by_cases hg : table.Typ = TableType.Global
      · simp only [List.flatMap_cons, localPodsOf, hg, if_true, List.nil_append, resyncTables]
        exact ih hn2 { st with globalTable := table } hst
      · by_cases hl : table.Pods.length = 0
        · have he : table.Pods = [] := List.length_eq_zero.mp hl
          simp only [List.flatMap_cons, localPodsOf, hg, if_false, he, List.nil_append,
            resyncTables, List.length_nil, if_true]
          exact ih hn2 st hst
        · simp only [List.flatMap_cons, localPodsOf, hg, if_false, resyncTables, hl]
          have hpn : table.Pods.Nodup := hn table (List.mem_cons_self _ _)
          by_cases hd : ∀ p ∈ table.Pods, p ∉ st.config.map Prod.fst
          · obtain ⟨c1, h1, h2⟩ := resyncPods_ok st.config table.Pods hpn hd
            rw [h1]
            simp only
            have hc1 : (c1.map Prod.fst).Nodup := by
              rw [h2, List.nodup_append]
              exact ⟨hst, hpn, fun x hx1 hx2 => hd x hx2 hx1⟩
            have := ih hn2 { st with localTables := deps.Insert st.localTables table,
                                      config := c1 } hc1
            simp only [h2, List.append_assoc] at this
            exact this
          · simp only [not_forall, not_not, exists_prop] at hd
            obtain ⟨p, h1, _, _⟩ := resyncPods_error st.config table.Pods hpn hd
            rw [h1]
            simp only
            refine ⟨fun hnd => ?_, fun _ => ⟨p, rfl⟩⟩
            exfalso
            obtain ⟨q, hq1, hq2⟩ := hd
            rw [List.nodup_append] at hnd
            exact hnd.2.2 hq2 (List.mem_append_left _ hq1)

theorem mem_localPodsOf (entry : Option ContivRuleTable) (pod : PodID) :
    pod ∈ localPodsOf entry ↔
      ∃ t, entry = some t ∧ t.Typ = TableType.Local ∧ pod ∈ t.Pods := by
  cases entry with
  | none => simp [localPodsOf]
  | some table =>
    unfold localPodsOf
    by_cases hg : table.Typ = TableType.Global
    · simp only [hg, if_true, List.not_mem_nil, Option.some.injEq, false_iff, not_exists, not_and]
      intro t ht hl
      rw [← ht, hg] at hl
      cases hl
    · simp only [hg, if_false, Option.some.injEq]
      constructor
      · intro h
        exact ⟨table, rfl, tableType_local_of_ne _ hg, h⟩
      · rintro ⟨t, rfl, _, h⟩
        exact h

theorem nodup_localPods_iff (tables : List (Option ContivRuleTable))
    (hn : ∀ t, some t ∈ tables → t.Pods.Nodup) :
    (tables.flatMap localPodsOf).Nodup ↔ ¬ SharedPod tables := by
  rw [List.nodup_flatMap]
  have h1 : ∀ x ∈ tables, (localPodsOf x).Nodup := by
    intro x hx
    cases x with
    | none => exact List.nodup_nil
    | some t =>
      by_cases hg : t.Typ = TableType.Global
      · simp only [localPodsOf, hg, if_true]; exact List.nodup_nil
      · simp only [localPodsOf, hg, if_false]; exact hn t hx
  rw [and_iff_right h1]
  rw [List.pairwise_iff_getElem]
  unfold SharedPod
  constructor
  · rintro h ⟨i, j, t1, t2, pod, hij, hi, hj, hl1, hl2, hp1, hp2⟩
    obtain ⟨hi1, hi2⟩ := List.getElem?_eq_some_iff.mp hi
    obtain ⟨hj1, hj2⟩ := List.getElem?_eq_some_iff.mp hj
    have hd := h i j hi1 hj1 hij
    simp only [Function.onFun, hi2, hj2] at hd
    exact hd ((mem_localPodsOf _ _).mpr ⟨t1, rfl, hl1, hp1⟩)
      ((mem_localPodsOf _ _).mpr ⟨t2, rfl, hl2, hp2⟩)
  · intro h i j hi hj hij
    simp only [Function.onFun]
    intro pod hp1 hp2
    apply h
    obtain ⟨t1, e1, l1, m1⟩ := (mem_localPodsOf _ _).mp hp1
    obtain ⟨t2, e2, l2, m2⟩ := (mem_localPodsOf _ _).mp hp2
    exact ⟨i, j, t1, t2, pod, hij, by rw [← e1]; exact List.getElem?_eq_getElem hi,
      by rw [← e2]; exact List.getElem?_eq_getElem hj, l1, l2, m1, m2⟩

theorem mem_foldl_Add (entries : List (PodID × PodConfig)) (acc : PodSet) (pod : PodID) :
    pod ∈ entries.foldl (fun pods entry => PodSet.Add pods entry.1) acc ↔
      pod ∈ acc ∨ pod ∈ entries.map Prod.fst := by
  induction entries generalizing acc with
  | nil => simp
  | cons e rest ih =>
    simp only [List.foldl_cons, List.map_cons, List.mem_cons]
    rw [ih, PodSet.mem_Add]
    tauto

theorem mem_GetAllPods (rc : RendererCache) (pod : PodID) :
    pod ∈ rc.GetAllPods ↔ pod ∈ rc.config.map Prod.fst := by
  unfold RendererCache.GetAllPods
  rw [mem_foldl_Add]
  simp [NewPodSet]

/-- `Resync` fails exactly when two Local tables of the input share a pod; when it
succeeds, the tracked pods are the pods of the Local tables of the input. -/
theorem resync_spec (deps : CacheDeps) (rc : RendererCache)
    (tables : List (Option ContivRuleTable)) (hn : ∀ t, some t ∈ tables → t.Pods.Nodup) :
    ((rc.Resync deps tables).2 ≠ none ↔ SharedPod tables) ∧
      ((rc.Resync deps tables).2 = none →
        ∀ pod, pod ∈ (rc.Resync deps tables).1.GetAllPods ↔
          ∃ t, some t ∈ tables ∧ t.Typ = TableType.Local ∧ pod ∈ t.Pods) := by
  have hspec := resyncTables_spec deps tables hn
    { config := [], localTables := NewLocalTables,
      globalTable := NewContivRuleTable TableType.Global } List.nodup_nil
  simp only [List.map_nil, List.nil_append] at hspec
  by_cases hnd : (tables.flatMap localPodsOf).Nodup
  · obtain ⟨st1, h1, h2⟩ := hspec.1 hnd
    have hns := (nodup_localPods_iff tables hn).mp hnd
    unfold RendererCache.Resync
    rw [h1]
    simp only [ne_eq, not_true_eq_false, false_iff, forall_const]
    refine ⟨hns, fun pod => ?_⟩
    rw [mem_GetAllPods]
    simp only
    rw [h2, List.mem_flatMap]
    constructor
    · rintro ⟨e, he, hp⟩
      obtain ⟨t, rfl, hl, hm⟩ := (mem_localPodsOf _ _).mp hp
      exact ⟨t, he, hl, hm⟩
    · rintro ⟨t, ht, hl, hm⟩
      exact ⟨some t, ht, (mem_localPodsOf _ _).mpr ⟨t, rfl, hl, hm⟩⟩
  · obtain ⟨p, h1⟩ := hspec.2 hnd
    have hs : SharedPod tables := by
      by_contra hc
      exact hnd ((nodup_localPods_iff tables hn).mpr hc)
    unfold RendererCache.Resync
    rw [h1]
    simp only [ne_eq, reduceCtorEq, not_false_eq_true, true_iff, false_implies, and_true]
    exact hs

/-- A failed `Resync` returns the cache that it was called on. -/
theorem resync_error_keeps (deps : CacheDeps) (rc : RendererCache)
    (tables : List (Option ContivRuleTable)) (h : (rc.Resync deps tables).2 ≠ none) :
    (rc.Resync deps tables).1 = rc := by
  unfold RendererCache.Resync at h ⊢
  cases hr : resyncTables deps tables
      { config := [], localTables := NewLocalTables,
        globalTable := NewContivRuleTable TableType.Global } with
  | error p => rfl
  | ok st => rw [hr] at h; exact absurd rfl h

theorem resync_global_isSome (deps : CacheDeps) (rc : RendererCache)
    (tables : List (Option ContivRuleTable)) (h : rc.globalTable.isSome = true) :
    (rc.Resync deps tables).1.globalTable.isSome = true := by
  unfold RendererCache.Resync
  cases hr : resyncTables deps tables
      { config := [], localTables := NewLocalTables,
        globalTable := NewContivRuleTable TableType.Global } with
  | error p => exact h
  | ok st => rfl

/-- The Global tables of the input do not bear on the outcome of the loop of
`Resync` as far as the configuration and the local tables go. -/
theorem resyncTables_filter (deps : CacheDeps) (tables : List (Option ContivRuleTable))
    (st st2 : ResyncState) (hc : st.config = st2.config) (hl : st.localTables = st2.localTables) :
    (resyncTables deps tables st).map (fun s => (s.config, s.localTables)) =
      (resyncTables deps (tables.filter (fun t => !isGlobal t)) st2).map
        (fun s => (s.config, s.localTables)) := by
  induction tables generalizing st st2 with
  | nil => simp [resyncTables, Except.map, hc, hl]
  | cons entry rest ih =>
    cases entry with
    | none =>
      simp only [List.filter_cons, isGlobal, Bool.not_false, if_true, resyncTables]
      exact ih st st2 hc hl
    | some table =>
      by_cases hg : table.Typ = TableType.Global
      · simp only [List.filter_cons, isGlobal, hg, decide_True, Bool.not_true, Bool.false_eq_true,
          if_false, resyncTables, if_true]
        exact ih _ st2 hc hl
      · simp only [List.filter_cons, isGlobal, hg, decide_False, Bool.not_false, if_true,
          resyncTables, if_false]
        by_cases hp : table.Pods.length = 0
        · simp only [hp, if_true]
          exact ih st st2 hc hl
        · simp only [hp, if_false]
          rw [← hc]
          cases resyncPods st.config table.Pods with
          | error p => rfl
          | ok c1 =>
            simp only
            exact ih _ _ rfl (by simp only [hl])

/-- When the loop of `Resync` succeeds, the last Global table of the input is the
global table. -/
theorem resyncTables_global (deps : CacheDeps) (pre post : List (Option ContivRuleTable))
    (g : ContivRuleTable) (hg : g.Typ = TableType.Global)
    (hpost : ∀ t, some t ∈ post → t.Typ ≠ TableType.Global) (st st1 : ResyncState)
    (h : resyncTables deps (pre ++ some g :: post) st = Except.ok st1) :
    st1.globalTable = g := by
  have hp : ∀ (post : List (Option ContivRuleTable)),
      (∀ t, some t ∈ post → t.Typ ≠ TableType.Global) → ∀ (st st1 : ResyncState),
      resyncTables deps post st = Except.ok st1 → st1.globalTable = st.globalTable := by
    intro post
    induction post with
    | nil =>
      intro _ st st1 h
      simp only [resyncTables, Except.ok.injEq] at h
      rw [← h]
    | cons entry rest ih =>
      intro hpost st st1 h
      have ih := ih (fun t ht => hpost t (List.mem_cons_of_mem _ ht))
      have hrest : ∀ t, some t ∈ rest → t.Typ ≠ TableType.Global :=
        fun t ht => hpost t (List.mem_cons_of_mem _ ht)
      cases entry with
      | none =>
        simp only [resyncTables] at h
        exact ih st st1 h
      | some table =>
        have hng := hpost table (List.mem_cons_self _ _)
        simp only [resyncTables, hng, if_false] at h
        by_cases hl : table.Pods.length = 0
        · simp only [hl, if_true] at h
          exact ih st st1 h
        · simp only [hl, if_false] at h
          cases hr : resyncPods st.config table.Pods with
          | error p => rw [hr] at h; cases h
          | ok c1 =>
            rw [hr] at h
            simp only at h
            have := ih _ st1 h
            exact this
  induction pre generalizing st with
  | nil =>
    simp only [List.nil_append, resyncTables, hg, if_true] at h
    exact hp post hpost _ st1 h
  | cons entry rest ih =>
    cases entry with
    | none =>
      simp only [List.cons_append, resyncTables] at h
      exact ih st h
    | some table =>
      simp only [List.cons_append, resyncTables] at h
      by_cases hgt : table.Typ = TableType.Global
      · simp only [hgt, if_true] at h
        exact ih _ h
      · simp only [hgt, if_false] at h
        by_cases hl : table.Pods.length = 0
        · simp only [hl, if_true] at h
          exact ih st h
        · simp only [hl, if_false] at h
          cases hr : resyncPods st.config table.Pods with
          | error p => rw [hr] at h; cases h
          | ok c1 =>
            rw [hr] at h
            simp only at h
            exact ih _ h

/-- The outcome of `Resync` does not depend on the number of Global tables: the
error is the one for the input without its Global tables, and on success the last
Global table of the input is the global table of the cache. -/
theorem resync_globals (deps : CacheDeps) (rc : RendererCache)
    (tables : List (Option ContivRuleTable)) :
    (rc.Resync deps tables).2 = (rc.Resync deps (tables.filter (fun t => !isGlobal t))).2 ∧
      ∀ pre post g, tables = pre ++ some g :: post → g.Typ = TableType.Global →
        (∀ t, some t ∈ post → t.Typ ≠ TableType.Global) →
        (rc.Resync deps tables).2 = none →
        (rc.Resync deps tables).1.globalTable = some g := by
  constructor
  · have := resyncTables_filter deps tables
      { config := [], localTables := NewLocalTables,
        globalTable := NewContivRuleTable TableType.Global }
      { config := [], localTables := NewLocalTables,
        globalTable := NewContivRuleTable TableType.Global } rfl rfl
    unfold RendererCache.Resync
    cases h1 : resyncTables deps tables
        { config := [], localTables := NewLocalTables,
          globalTable := NewContivRuleTable TableType.Global } with
    | error p =>
      rw [h1] at this
      cases h2 : resyncTables deps (tables.filter (fun t => !isGlobal t))
          { config := [], localTables := NewLocalTables,
            globalTable := NewContivRuleTable TableType.Global } with
      | error q =>
        rw [h2] at this
        simp only [Except.map, Except.error.injEq] at this
        simp only [this]
      | ok s2 => rw [h2] at this; simp [Except.map] at this
    | ok s1 =>
      rw [h1] at this
      cases h2 : resyncTables deps (tables.filter (fun t => !isGlobal t))
          { config := [], localTables := NewLocalTables,
            globalTable := NewContivRuleTable TableType.Global } with
      | error q => rw [h2] at this; simp [Except.map] at this
      | ok s2 => rfl
  · intro pre post g ht hg hpost hok
    unfold RendererCache.Resync at hok ⊢
    cases h1 : resyncTables deps tables
        { config := [], localTables := NewLocalTables,
          globalTable := NewContivRuleTable TableType.Global } with
    | error p => rw [h1] at hok; cases hok
    | ok s1 =>
      simp only
      rw [ht] at h1
      rw [resyncTables_global deps pre post g hg hpost _ s1 h1]


/-! ## The renderer cache: the global table of a transaction -/

theorem commitGlobalTable_isSome (deps : CacheDeps) (cacheTable txnTable res : Option ContivRuleTable)
    (hc : cacheTable.isSome = true) (h : commitGlobalTable deps cacheTable txnTable = some res) :
    res.isSome = true := by
  unfold commitGlobalTable at h
  cases txnTable with
  | none =>
    simp only [Option.some.injEq] at h
    rw [← h]; exact hc
  | some g =>
    cases cacheTable with
    | none => cases hc
    | some cg =>
      simp only at h
      split at h <;> (simp only [Option.some.injEq] at h; rw [← h]; rfl)

theorem commit_global_isSome (deps : CacheDeps) (rc rc1 : RendererCache)
    (rct rct1 : RendererCacheTxn) (hg : rc.globalTable.isSome = true)
    (h : rct.Commit deps rc = some (rc1, rct1)) : rc1.globalTable.isSome = true := by
  unfold RendererCacheTxn.Commit at h
  cases hu : upToDate deps rc rct with
  | none => rw [hu] at h; cases h
  | some r =>
    rw [hu] at h
    simp only at h
    cases hc : commitGlobalTable deps rc.globalTable r.globalTable with
    | none => rw [hc] at h; cases h
    | some g =>
      rw [hc] at h
      simp only [Option.some.injEq, Prod.mk.injEq] at h
      rw [← h.1]
      exact commitGlobalTable_isSome deps _ _ g hg hc

/-- The global table is not nil in any reachable state of the cache. -/
theorem reachable_global (deps : CacheDeps) (rc : RendererCache) (h : Reachable deps rc) :
    rc.GetGlobalTable.isSome = true := by
  unfold RendererCache.GetGlobalTable
  induction h with
  | init rc orientation => rfl
  | flush rc => rfl
  | resync rc tables _ ih => exact resync_global_isSome deps rc tables ih
  | commit rc rc1 rct rct1 _ hc ih => exact commit_global_isSome deps rc rc1 rct rct1 ih hc

theorem InsertRule_typ (cmp : ContivRule → ContivRule → Int) (table : ContivRuleTable)
    (rule : ContivRule) : (table.InsertRule cmp rule).1.Typ = table.Typ := rfl

theorem foldl_InsertRule_typ {α : Type} (cmp : ContivRule → ContivRule → Int) (f : α → ContivRule)
    (l : List α) (table : ContivRuleTable) :
    (l.foldl (fun t x => (t.InsertRule cmp (f x)).1) table).Typ = table.Typ := by
  induction l generalizing table with
  | nil => rfl
  | cons x rest ih =>
    simp only [List.foldl_cons]
    rw [ih, InsertRule_typ]

theorem installAllowedPorts_typ (deps : CacheDeps) (orientation : Orientation)
    (dstTable : ContivRuleTable) (srcPodIP : IPNet) (allowedPorts : Ports)
    (protocol : renderer.ProtocolType) :
    (installAllowedPorts deps orientation dstTable srcPodIP allowedPorts protocol).Typ =
      dstTable.Typ := by
  unfold installAllowedPorts
  simp only
  split
  · rfl
  · exact foldl_InsertRule_typ deps.Compare _ allowedPorts dstTable

theorem installLocalRules_typ (deps : CacheDeps) (orientation : Orientation)
    (dstTable table1 : ContivRuleTable) (dstPodCfg srcPodCfg : PodConfig)
    (h : installLocalRules deps orientation dstTable dstPodCfg srcPodCfg = some table1) :
    table1.Typ = dstTable.Typ := by
  unfold installLocalRules at h
  cases orientation
  all_goals
    simp only [reduceCtorEq, if_true, if_false] at h
    split at h
    · simp only [Option.some.injEq] at h; rw [← h]
    · split at h
      · cases hip : srcPodCfg.PodIP with
        | none => rw [hip] at h; cases h
        | some ip =>
          rw [hip] at h
          simp only [Option.some.injEq] at h
          rw [← h, InsertRule_typ, installAllowedPorts_typ, installAllowedPorts_typ]
          rfl
      · simp only [Option.some.injEq] at h; rw [← h]

theorem installAllLocalRules_typ (deps : CacheDeps) (orientation : Orientation)
    (view : PodID → Option PodConfig) (dstPodCfg : PodConfig) (pods : List PodID)
    (table table1 : ContivRuleTable)
    (h : installAllLocalRules deps orientation view dstPodCfg pods table = some table1) :
    table1.Typ = table.Typ := by
  induction pods generalizing table with
  | nil =>
    simp only [installAllLocalRules, Option.some.injEq] at h
    rw [h]
  | cons p rest ih =>
    simp only [installAllLocalRules] at h
    cases hv : view p with
    | none => rw [hv] at h; cases h
    | some cfg =>
      rw [hv] at h
      simp only at h
      cases hi : installLocalRules deps orientation table dstPodCfg cfg with
      | none => rw [hi] at h; cases h
      | some t =>
        rw [hi] at h
        simp only at h
        rw [ih t h, installLocalRules_typ deps orientation table t dstPodCfg cfg hi]

theorem buildLocalTable_typ (deps : CacheDeps) (rc : RendererCache) (rct : RendererCacheTxn)
    (dstPodID : PodID) (dstPodCfg : PodConfig) (table : ContivRuleTable)
    (h : buildLocalTable deps rc rct dstPodID dstPodCfg = some table) :
    table.Typ = TableType.Local := by
  unfold buildLocalTable at h
  simp only at h
  split at h
  · simp only [Option.some.injEq] at h; rw [← h]; rfl
  · cases hi : installAllLocalRules deps rc.orientation (rct.GetPodConfig rc) dstPodCfg
        (rct.GetAllPods rc)
        ((if rc.orientation = Orientation.EgressOrientation then dstPodCfg.Egress
          else dstPodCfg.Ingress).foldl (fun t rule => (t.InsertRule deps.Compare rule).1)
          { NewContivRuleTable TableType.Local with
            Pods := PodSet.Add (NewContivRuleTable TableType.Local).Pods dstPodID }) with
    | none => rw [hi] at h; cases h
    | some t2 =>
      rw [hi] at h
      simp only at h
      have ht2 : t2.Typ = TableType.Local := by
        rw [installAllLocalRules_typ deps _ _ _ _ _ _ hi,
          foldl_InsertRule_typ deps.Compare (fun r => r)]
        rfl
      split at h
      · split at h
        · simp only [Option.some.injEq] at h; rw [← h]; exact ht2
        · simp only [Option.some.injEq] at h; rw [← h, InsertRule_typ]; exact ht2
      · simp only [Option.some.injEq] at h; rw [← h]; exact ht2

theorem installGlobalRules_typ (deps : CacheDeps) (orientation : Orientation)
    (globalTable table1 : ContivRuleTable) (podCfg : PodConfig)
    (h : installGlobalRules deps orientation globalTable podCfg = some table1) :
    table1.Typ = globalTable.Typ := by
  unfold installGlobalRules at h
  cases orientation
  all_goals
    simp only [reduceCtorEq, if_true, if_false] at h
    split at h
    · simp only [Option.some.injEq] at h; rw [← h]
    · cases hip : podCfg.PodIP with
      | none => rw [hip] at h; cases h
      | some ip =>
        rw [hip] at h
        simp only [Option.some.injEq] at h
        rw [← h]
        exact foldl_InsertRule_typ deps.Compare _ _ globalTable

theorem installAllGlobalRules_typ (deps : CacheDeps) (orientation : Orientation)
    (view : PodID → Option PodConfig) (pods : List PodID) (table table1 : ContivRuleTable)
    (h : installAllGlobalRules deps orientation view pods table = some table1) :
    table1.Typ = table.Typ := by
  induction pods generalizing table with
  | nil =>
    simp only [installAllGlobalRules, Option.some.injEq] at h
    rw [h]
  | cons p rest ih =>
    simp only [installAllGlobalRules] at h
    cases hv : view p with
    | none => rw [hv] at h; cases h
    | some cfg =>
      rw [hv] at h
      simp only at h
      cases hi : installGlobalRules deps orientation table cfg with
      | none => rw [hi] at h; cases h
      | some t =>
        rw [hi] at h
        simp only at h
        rw [ih t h, installGlobalRules_typ deps orientation table t cfg hi]

theorem rebuildGlobalTable_typ (deps : CacheDeps) (rc : RendererCache) (rct : RendererCacheTxn)
    (g : ContivRuleTable) (h : rebuildGlobalTable deps rc rct = some g) :
    g.Typ = TableType.Global := by
  unfold rebuildGlobalTable at h
  cases hi : installAllGlobalRules deps rc.orientation (rct.GetPodConfig rc) (rct.GetAllPods rc)
      (NewContivRuleTable TableType.Global) with
  | none => rw [hi] at h; cases h
  | some t =>
    rw [hi] at h
    simp only at h
    have ht := installAllGlobalRules_typ deps _ _ _ _ _ hi
    split at h
    · simp only [Option.some.injEq] at h; rw [← h, InsertRule_typ, ht]; rfl
    · simp only [Option.some.injEq] at h; rw [← h, ht]; rfl

theorem refreshPod_allLocal (deps : CacheDeps) (hk : KeepsLocal deps) (rc : RendererCache)
    (rct : RendererCacheTxn) (hrc : rc.localTables.AllLocal) (lt lt1 : LocalTables)
    (hlt : lt.AllLocal) (podID : PodID) (h : refreshPod deps rc rct lt podID = some lt1) :
    lt1.AllLocal := by
  unfold refreshPod at h
  cases hc : rct.GetPodConfig rc podID with
  | none => rw [hc] at h; cases h
  | some podCfg =>
    rw [hc] at h
    simp only at h
    cases hb : buildLocalTable deps rc rct podID podCfg with
    | none => rw [hb] at h; cases h
    | some newTable =>
      rw [hb] at h
      simp only at h
      have hnew := buildLocalTable_typ deps rc rct podID podCfg newTable hb
      have tail : ∀ lt2 : LocalTables, lt2.AllLocal → ∀ res : LocalTables,
          (match deps.LookupByRules lt2 newTable.Rules with
            | some txnTable => some (deps.AssignPod lt2 txnTable podID)
            | none =>
              match deps.LookupByRules rc.localTables newTable.Rules with
              | some cacheTable =>
                some (deps.Insert lt2
                  { Typ := cacheTable.Typ, Rules := cacheTable.Rules,
                    Pods := PodSet.Add cacheTable.Pods podID, Private := cacheTable.Private })
              | none => some (deps.Insert lt2 newTable)) = some res → res.AllLocal := by
        intro lt2 h1 res h
        cases hr : deps.LookupByRules lt2 newTable.Rules with
        | some txnTable =>
          rw [hr] at h
          simp only [Option.some.injEq] at h
          rw [← h]
          exact hk.assignPod _ _ _ h1
        | none =>
          rw [hr] at h
          simp only at h
          cases hcr : deps.LookupByRules rc.localTables newTable.Rules with
          | some cacheTable =>
            rw [hcr] at h
            simp only [Option.some.injEq] at h
            rw [← h]
            exact hk.insert _ _ h1 (hk.lookupByRules _ _ cacheTable hrc hcr)
          | none =>
            rw [hcr] at h
            simp only [Option.some.injEq] at h
            rw [← h]
            exact hk.insert _ _ h1 hnew
      cases ho : deps.LookupByPod rc.localTables podID with
      | none =>
        rw [ho] at h
        exact tail lt hlt lt1 h
      | some origTable =>
        rw [ho] at h
        simp only at h
        by_cases hid : (deps.LookupByID lt (deps.GetID origTable)).isNone = true
        · simp only [hid, if_true] at h
          exact tail _ (hk.insert lt _ hlt (hk.lookupByPod _ _ origTable hrc ho)) lt1 h
        · simp only [hid, if_false] at h
          exact tail lt hlt lt1 h

theorem refreshPods_allLocal (deps : CacheDeps) (hk : KeepsLocal deps) (rc : RendererCache)
    (rct : RendererCacheTxn) (hrc : rc.localTables.AllLocal) (pods : List PodID)
    (lt lt1 : LocalTables) (hlt : lt.AllLocal)
    (h : refreshPods deps rc rct pods lt = some lt1) : lt1.AllLocal := by
  induction pods generalizing lt with
  | nil =>
    simp only [refreshPods, Option.some.injEq] at h
    rw [← h]; exact hlt
  | cons p rest ih =>
    simp only [refreshPods] at h
    cases hp : refreshPod deps rc rct lt p with
    | none => rw [hp] at h; cases h
    | some lt2 =>
      rw [hp] at h
      simp only at h
      exact ih lt2 (refreshPod_allLocal deps hk rc rct hrc lt lt2 hlt p hp) h

/-- The transaction after `refreshTables`: Local tables in the store, and the
rebuilt global table, a Global table. -/
theorem refreshTables_spec (deps : CacheDeps) (hk : KeepsLocal deps) (rc : RendererCache)
    (rct rct1 : RendererCacheTxn) (hrc : rc.localTables.AllLocal)
    (hrct : rct.localTables.AllLocal) (h : refreshTables deps rc rct = some rct1) :
    rct1.localTables.AllLocal ∧
      ∃ g, rebuildGlobalTable deps rc rct = some g ∧ rct1.globalTable = some g ∧
        g.Typ = TableType.Global := by
  unfold refreshTables at h
  cases hp : refreshPods deps rc rct (PodSet.Join (rct.GetAllPods rc) rct.GetRemovedPods)
      rct.localTables with
  | none => rw [hp] at h; cases h
  | some lt =>
    rw [hp] at h
    simp only at h
    cases hg : rebuildGlobalTable deps rc rct with
    | none => rw [hg] at h; cases h
    | some g =>
      rw [hg] at h
      simp only [Option.some.injEq] at h
      rw [← h]
      exact ⟨refreshPods_allLocal deps hk rc rct hrc _ _ lt hrct hp, g, rfl, rfl,
        rebuildGlobalTable_typ deps rc rct g hg⟩

theorem localChanges_mem (deps : CacheDeps) (rc : RendererCache) (tables : List ContivRuleTable)
    (ch : TxnChange) (h : ch ∈ localChanges deps rc tables) : ch.Table ∈ tables := by
  induction tables with
  | nil => simp [localChanges] at h
  | cons t rest ih =>
    simp only [localChanges] at h
    split at h
    · exact List.mem_cons_of_mem _ (ih h)
    · split at h
      · exact List.mem_cons_of_mem _ (ih h)
      · split at h
        · exact List.mem_cons_of_mem _ (ih h)
        · rcases List.mem_cons.mp h with h1 | h1
          · rw [h1]; exact List.mem_cons_self _ _
          · exact List.mem_cons_of_mem _ (ih h1)

theorem upToDate_spec (deps : CacheDeps) (hk : KeepsLocal deps) (rc : RendererCache)
    (rct rct1 : RendererCacheTxn) (hrc : rc.localTables.AllLocal)
    (hrct : rct.localTables.AllLocal)
    (hglobal : rct.upToDateTables = true →
      ∃ g, rct.globalTable = some g ∧ g.Typ = TableType.Global)
    (h : upToDate deps rc rct = some rct1) :
    rct1.localTables.AllLocal ∧
      (∃ g, rct1.globalTable = some g ∧ g.Typ = TableType.Global) ∧
      (rct.upToDateTables = false → rebuildGlobalTable deps rc rct = rct1.globalTable) := by
  unfold upToDate at h
  by_cases hu : rct.upToDateTables = true
  · rw [if_pos hu] at h
    simp only [Option.some.injEq] at h
    rw [← h]
    exact ⟨hrct, hglobal hu, fun hf => by rw [hu] at hf; cases hf⟩
  · rw [if_neg hu] at h
    obtain ⟨h1, g, h2, h3, h4⟩ := refreshTables_spec deps hk rc rct rct1 hrc hrct h
    exact ⟨h1, ⟨g, h3, h4⟩, fun _ => by rw [h2, h3]⟩

/-- The changes that `GetChanges` returns hold a Global table exactly when the rule
list of the global table of the transaction differs from the one of the cache. -/
theorem getChanges_global (deps : CacheDeps)
    (hcmp : ∀ a b, deps.compareRuleLists a b = 0 ↔ a = b) (hk : KeepsLocal deps)
    (rc : RendererCache) (rct : RendererCacheTxn) (hrc : rc.localTables.AllLocal)
    (hrct : rct.localTables.AllLocal)
    (hglobal : rct.upToDateTables = true →
      ∃ g, rct.globalTable = some g ∧ g.Typ = TableType.Global)
    (changes : List TxnChange) (rct1 : RendererCacheTxn)
    (h : rct.GetChanges deps rc = some (changes, rct1)) :
    ∃ g cg, rct1.globalTable = some g ∧ rc.globalTable = some cg ∧
      (rct.upToDateTables = false → rebuildGlobalTable deps rc rct = some g) ∧
      ((∃ ch ∈ changes, ch.Table.Typ = TableType.Global) ↔ g.Rules ≠ cg.Rules) := by
  unfold RendererCacheTxn.GetChanges at h
  cases hu : upToDate deps rc rct with
  | none => rw [hu] at h; cases h
  | some r =>
    rw [hu] at h
    simp only at h
    obtain ⟨h1, ⟨g, h2, h3⟩, h4⟩ := upToDate_spec deps hk rc rct r hrc hrct hglobal hu
    cases hgc : globalChanges deps rc r with
    | none => rw [hgc] at h; cases h
    | some gl =>
      rw [hgc] at h
      simp only [Option.some.injEq, Prod.mk.injEq] at h
      obtain ⟨hch, hr⟩ := h
      subst hr
      unfold globalChanges at hgc
      rw [h2] at hgc
      simp only at hgc
      cases hcg : rc.globalTable with
      | none => rw [hcg] at hgc; cases hgc
      | some cg =>
        rw [hcg] at hgc
        simp only at hgc
        refine ⟨g, cg, h2, rfl, fun hf => by rw [h4 hf, h2], ?_⟩
        have hloc : ∀ ch ∈ localChanges deps rc r.localTables.tables,
            ch.Table.Typ ≠ TableType.Global := by
          intro ch hc
          rw [h1 _ (localChanges_mem deps rc _ ch hc)]
          exact fun hx => by cases hx
        by_cases hne : deps.compareRuleLists g.Rules cg.Rules = 0
        · rw [if_neg (not_not.mpr hne)] at hgc
          simp only [Option.some.injEq] at hgc
          rw [← hch, ← hgc, List.append_nil]
          constructor
          · rintro ⟨ch, hc, ht⟩
            exact absurd ht (hloc ch hc)
          · intro hd
            exact absurd ((hcmp _ _).mp hne) hd
        · rw [if_pos hne] at hgc
          simp only [Option.some.injEq] at hgc
          rw [← hch, ← hgc]
          constructor
          · intro _ he
            exact hne ((hcmp _ _).mpr he)
          · intro _
            exact ⟨{ Table := g, PreviousPods := [] }, by simp, h3⟩

/-! ### `GetChanges` returns -/

theorem mem_Join (s s2 : PodSet) (pod : PodID) :
    pod ∈ PodSet.Join s s2 ↔ pod ∈ s ∨ pod ∈ s2 := by
  unfold PodSet.Join
  induction s2 generalizing s with
  | nil => simp
  | cons p rest ih =>
    simp only [List.foldl_cons, List.mem_cons]
    rw [ih, PodSet.mem_Add]
    tauto

theorem mem_txn_GetAllPods_aux (entries : List (PodID × PodConfig)) (acc : PodSet) (pod : PodID)
    (h : pod ∈ entries.foldl
      (fun pods entry =>
        if !entry.2.Removed then PodSet.Add pods entry.1 else PodSet.Remove pods entry.1) acc) :
    pod ∈ acc ∨ pod ∈ entries.map Prod.fst := by
  induction entries generalizing acc with
  | nil => exact Or.inl h
  | cons e rest ih =>
    simp only [List.foldl_cons] at h
    rcases ih _ h with h1 | h1
    · by_cases hr : e.2.Removed = true
      · simp only [hr, Bool.not_true, Bool.false_eq_true, if_false] at h1
        exact Or.inl ((PodSet.mem_Remove _ _ _).mp h1).1
      · simp only [hr, Bool.not_false, if_true] at h1
        rcases (PodSet.mem_Add _ _ _).mp h1 with h2 | h2
        · exact Or.inl h2
        · right; rw [h2]; simp
    · right; simp only [List.map_cons, List.mem_cons]; exact Or.inr h1

theorem mem_GetRemovedPods_aux (entries : List (PodID × PodConfig)) (acc : PodSet) (pod : PodID)
    (h : pod ∈ entries.foldl
      (fun removed entry => if entry.2.Removed then PodSet.Add removed entry.1 else removed) acc) :
    pod ∈ acc ∨ pod ∈ entries.map Prod.fst := by
  induction entries generalizing acc with
  | nil => exact Or.inl h
  | cons e rest ih =>
    simp only [List.foldl_cons] at h
    rcases ih _ h with h1 | h1
    · by_cases hr : e.2.Removed = true
      · simp only [hr, if_true] at h1
        rcases (PodSet.mem_Add _ _ _).mp h1 with h2 | h2
        · exact Or.inl h2
        · right; rw [h2]; simp
      · simp only [hr, Bool.false_eq_true, if_false] at h1
        exact Or.inl h1
    · right; simp only [List.map_cons, List.mem_cons]; exact Or.inr h1

theorem getPodConfig_of_txn (rc : RendererCache) (rct : RendererCacheTxn) (pod : PodID)
    (h : pod ∈ rct.config.map Prod.fst ∨ pod ∈ rc.config.map Prod.fst) :
    ∃ podCfg, rct.GetPodConfig rc pod = some podCfg := by
  unfold RendererCacheTxn.GetPodConfig
  cases hc : Config.get rct.config pod with
  | some c => exact ⟨c, rfl⟩
  | none =>
    simp only
    rcases h with h | h
    · have := (Config.get_isSome_iff rct.config pod).mpr h
      rw [hc] at this
      cases this
    · have := (Config.get_isSome_iff rc.config pod).mpr h
      unfold RendererCache.GetPodConfig
      cases hg : Config.get rc.config pod with
      | none => rw [hg] at this; cases this
      | some c => exact ⟨c, rfl⟩

theorem getPodConfig_of_allPods (rc : RendererCache) (rct : RendererCacheTxn) (pod : PodID)
    (h : pod ∈ rct.GetAllPods rc) : ∃ podCfg, rct.GetPodConfig rc pod = some podCfg := by
  apply getPodConfig_of_txn
  rcases mem_txn_GetAllPods_aux rct.config rc.GetAllPods pod h with h1 | h1
  · exact Or.inr ((mem_GetAllPods rc pod).mp h1)
  · exact Or.inl h1

theorem getPodConfig_of_removed (rc : RendererCache) (rct : RendererCacheTxn) (pod : PodID)
    (h : pod ∈ rct.GetRemovedPods) : ∃ podCfg, rct.GetPodConfig rc pod = some podCfg := by
  apply getPodConfig_of_txn
  rcases mem_GetRemovedPods_aux rct.config NewPodSet pod h with h1 | h1
  · cases h1
  · exact Or.inl h1

theorem installLocalRules_isSome (deps : CacheDeps) (orientation : Orientation)
    (dstTable : ContivRuleTable) (dstPodCfg srcPodCfg : PodConfig)
    (h : srcPodCfg.PodIP.isSome = true) :
    ∃ t, installLocalRules deps orientation dstTable dstPodCfg srcPodCfg = some t := by
  obtain ⟨ip, hip⟩ := Option.isSome_iff_exists.mp h
  unfold installLocalRules
  cases orientation
  all_goals
    simp only [hip, reduceCtorEq, if_true, if_false]
    split
    · exact ⟨_, rfl⟩
    · split
      · exact ⟨_, rfl⟩
      · exact ⟨_, rfl⟩

theorem installAllLocalRules_isSome (deps : CacheDeps) (orientation : Orientation)
    (view : PodID → Option PodConfig) (dstPodCfg : PodConfig) (pods : List PodID)
    (hv : ∀ p ∈ pods, ∃ cfg, view p = some cfg ∧ cfg.PodIP.isSome = true)
    (table : ContivRuleTable) :
    ∃ t, installAllLocalRules deps orientation view dstPodCfg pods table = some t := by
  induction pods generalizing table with
  | nil => exact ⟨table, rfl⟩
  | cons p rest ih =>
    obtain ⟨cfg, h1, h2⟩ := hv p (List.mem_cons_self _ _)
    obtain ⟨t, ht⟩ := installLocalRules_isSome deps orientation table dstPodCfg cfg h2
    simp only [installAllLocalRules, h1, ht]
    exact ih (fun q hq => hv q (List.mem_cons_of_mem _ hq)) t

theorem installGlobalRules_isSome (deps : CacheDeps) (orientation : Orientation)
    (globalTable : ContivRuleTable) (podCfg : PodConfig) (h : podCfg.PodIP.isSome = true) :
    ∃ t, installGlobalRules deps orientation globalTable podCfg = some t := by
  obtain ⟨ip, hip⟩ := Option.isSome_iff_exists.mp h
  unfold installGlobalRules
  cases orientation
  all_goals
    simp only [hip, reduceCtorEq, if_true, if_false]
    split
    · exact ⟨_, rfl⟩
    · exact ⟨_, rfl⟩

theorem installAllGlobalRules_isSome (deps : CacheDeps) (orientation : Orientation)
    (view : PodID → Option PodConfig) (pods : List PodID)
    (hv : ∀ p ∈ pods, ∃ cfg, view p = some cfg ∧ cfg.PodIP.isSome = true)
    (table : ContivRuleTable) :
    ∃ t, installAllGlobalRules deps orientation view pods table = some t := by
  induction pods generalizing table with
  | nil => exact ⟨table, rfl⟩
  | cons p rest ih =>
    obtain ⟨cfg, h1, h2⟩ := hv p (List.mem_cons_self _ _)
    obtain ⟨t, ht⟩ := installGlobalRules_isSome deps orientation table cfg h2
    simp only [installAllGlobalRules, h1, ht]
    exact ih (fun q hq => hv q (List.mem_cons_of_mem _ hq)) t

theorem allPods_view (rc : RendererCache) (rct : RendererCacheTxn) (hip : PodIPsSet rc rct) :
    ∀ p ∈ rct.GetAllPods rc, ∃ cfg, rct.GetPodConfig rc p = some cfg ∧ cfg.PodIP.isSome = true := by
  intro p hp
  obtain ⟨cfg, hc⟩ := getPodConfig_of_allPods rc rct p hp
  exact ⟨cfg, hc, hip p cfg hc⟩

theorem buildLocalTable_isSome (deps : CacheDeps) (rc : RendererCache) (rct : RendererCacheTxn)
    (hip : PodIPsSet rc rct) (dstPodID : PodID) (dstPodCfg : PodConfig) :
    ∃ t, buildLocalTable deps rc rct dstPodID dstPodCfg = some t := by
  unfold buildLocalTable
  simp only
  split
  · exact ⟨_, rfl⟩
  · obtain ⟨t, ht⟩ := installAllLocalRules_isSome deps rc.orientation (rct.GetPodConfig rc)
      dstPodCfg (rct.GetAllPods rc) (allPods_view rc rct hip)
      ((if rc.orientation = Orientation.EgressOrientation then dstPodCfg.Egress
        else dstPodCfg.Ingress).foldl (fun t rule => (t.InsertRule deps.Compare rule).1)
        { NewContivRuleTable TableType.Local with
          Pods := PodSet.Add (NewContivRuleTable TableType.Local).Pods dstPodID })
    rw [ht]
    simp only
    split
    · split
      · exact ⟨_, rfl⟩
      · exact ⟨_, rfl⟩
    · exact ⟨_, rfl⟩

theorem rebuildGlobalTable_isSome (deps : CacheDeps) (rc : RendererCache)
    (rct : RendererCacheTxn) (hip : PodIPsSet rc rct) :
    ∃ g, rebuildGlobalTable deps rc rct = some g := by
  unfold rebuildGlobalTable
  obtain ⟨t, ht⟩ := installAllGlobalRules_isSome deps rc.orientation (rct.GetPodConfig rc)
    (rct.GetAllPods rc) (allPods_view rc rct hip) (NewContivRuleTable TableType.Global)
  rw [ht]
  simp only
  split
  · exact ⟨_, rfl⟩
  · exact ⟨_, rfl⟩

theorem refreshPod_isSome (deps : CacheDeps) (rc : RendererCache) (rct : RendererCacheTxn)
    (hip : PodIPsSet rc rct) (lt : LocalTables) (podID : PodID)
    (hp : ∃ podCfg, rct.GetPodConfig rc podID = some podCfg) :
    ∃ lt1, refreshPod deps rc rct lt podID = some lt1 := by
  obtain ⟨podCfg, hc⟩ := hp
  obtain ⟨t, ht⟩ := buildLocalTable_isSome deps rc rct hip podID podCfg
  unfold refreshPod
  rw [hc]
  simp only [ht]
  split
  · exact ⟨_, rfl⟩
  · split
    · exact ⟨_, rfl⟩
    · exact ⟨_, rfl⟩

theorem refreshPods_isSome (deps : CacheDeps) (rc : RendererCache) (rct : RendererCacheTxn)
    (hip : PodIPsSet rc rct) (pods : List PodID)
    (hp : ∀ p ∈ pods, ∃ podCfg, rct.GetPodConfig rc p = some podCfg) (lt : LocalTables) :
    ∃ lt1, refreshPods deps rc rct pods lt = some lt1 := by
  induction pods generalizing lt with
  | nil => exact ⟨lt, rfl⟩
  | cons p rest ih =>
    obtain ⟨lt1, h1⟩ := refreshPod_isSome deps rc rct hip lt p (hp p (List.mem_cons_self _ _))
    simp only [refreshPods, h1]
    exact ih (fun q hq => hp q (List.mem_cons_of_mem _ hq)) lt1

/-- When every pod configuration in sight has a pod IP, `refreshTables` returns. -/
theorem refreshTables_isSome (deps : CacheDeps) (rc : RendererCache) (rct : RendererCacheTxn)
    (hip : PodIPsSet rc rct) : ∃ rct1, refreshTables deps rc rct = some rct1 := by
  unfold refreshTables
  obtain ⟨lt, h1⟩ := refreshPods_isSome deps rc rct hip
    (PodSet.Join (rct.GetAllPods rc) rct.GetRemovedPods)
    (fun p hp => by
      rcases (mem_Join _ _ _).mp hp with h | h
      · exact getPodConfig_of_allPods rc rct p h
      · exact getPodConfig_of_removed rc rct p h)
    rct.localTables
  obtain ⟨g, h2⟩ := rebuildGlobalTable_isSome deps rc rct hip
  rw [h1]
  simp only [h2]
  exact ⟨_, rfl⟩

/-- On a cache with a global table, and with a pod IP in every pod configuration in
sight, `GetChanges` returns. -/
theorem getChanges_isSome (deps : CacheDeps) (rc : RendererCache) (rct : RendererCacheTxn)
    (hg : rc.globalTable.isSome = true) (hip : PodIPsSet rc rct) :
    ∃ changes rct1, rct.GetChanges deps rc = some (changes, rct1) := by
  have hu : ∃ r, upToDate deps rc rct = some r := by
    unfold upToDate
    split
    · exact ⟨rct, rfl⟩
    · exact refreshTables_isSome deps rc rct hip
  obtain ⟨r, hr⟩ := hu
  obtain ⟨cg, hcg⟩ := Option.isSome_iff_exists.mp hg
  unfold RendererCacheTxn.GetChanges
  rw [hr]
  simp only
  have : ∃ gl, globalChanges deps rc r = some gl := by
    unfold globalChanges
    rw [hcg]
    cases r.globalTable with
    | none => exact ⟨_, rfl⟩
    | some g =>
      simp only
      split
      · exact ⟨_, rfl⟩
      · exact ⟨_, rfl⟩
  obtain ⟨gl, hgl⟩ := this
  rw [hgl]
  exact ⟨_, _, rfl⟩


/-! ## The test instance of the cache -/

theorem ruleListsCompare_eq_iff (a b : List ContivRule) : ruleListsCompare a b = 0 ↔ a = b := by
  induction a generalizing b with
  | nil =>
    cases b with
    | nil => simp [ruleListsCompare]
    | cons y ys => simp [ruleListsCompare]
  | cons x xs ih =>
    cases b with
    | nil => simp [ruleListsCompare]
    | cons y ys =>
      simp only [ruleListsCompare, List.cons.injEq]
      by_cases h : ruleCompare x y = 0
      · simp only [h, ne_eq, not_true_eq_false, if_false]
        rw [ih ys, (lawful_ruleCompare.eq_iff x y).mp h]
        simp
      · simp only [ne_eq, h, not_false_eq_true, if_true, false_iff, not_and]
        intro hxy
        exact absurd ((lawful_ruleCompare.eq_iff x y).mpr hxy) h

theorem unassign_typs (lt : LocalTables) (pod : PodID) (h : lt.AllLocal) :
    (lt.unassign pod).AllLocal := by
  intro t hmem
  simp only [LocalTables.unassign, List.mem_map] at hmem
  obtain ⟨x, hx, rfl⟩ := hmem
  exact h x hx

theorem foldl_unassign_typs (pods : List PodID) (lt : LocalTables) (h : lt.AllLocal) :
    (pods.foldl LocalTables.unassign lt).AllLocal := by
  induction pods generalizing lt with
  | nil => exact h
  | cons p rest ih => exact ih _ (unassign_typs lt p h)

theorem keepsLocal_testDeps : KeepsLocal testDeps where
  insert := by
    intro lt table hlt ht t hmem
    simp only [testDeps, LocalTables.Insert, List.mem_append, List.mem_singleton] at hmem
    rcases hmem with h | h
    · exact foldl_unassign_typs table.Pods lt hlt t h
    · rw [h]; exact ht
  assignPod := by
    intro lt table pod hlt t hmem
    simp only [testDeps, LocalTables.AssignPod, List.mem_map] at hmem
    obtain ⟨x, hx, rfl⟩ := hmem
    split
    · exact hlt x hx
    · exact hlt x hx
  lookupByPod := by
    intro lt pod table hlt h
    exact hlt table (List.mem_of_find?_eq_some h)
  lookupByRules := by
    intro lt rules table hlt h
    exact hlt table (List.mem_of_find?_eq_some h)

theorem podIPsSet_test : PodIPsSet testCache testCacheTxn := by
  intro pod podCfg h
  unfold RendererCacheTxn.GetPodConfig at h
  have hc : testCacheTxn.config = [(podA, denyIngressConfig)] := rfl
  have hr : testCache.config = [] := rfl
  rw [hc] at h
  unfold RendererCache.GetPodConfig at h
  rw [hr] at h
  by_cases hp : podA = pod
  · simp [Config.get, hp] at h
    rw [← h]
    rfl
  · simp [Config.get, hp] at h


/-! ## The claims -/

/-- C1 (the code falls short of it): `subtractSubnet` asks `net.IPNet.Contains` whether
one prefix lies inside the other, and `Contains` takes an IPv4-mapped IPv6 address
for an IPv4 address.  For the IPv6 prefixes `::/0` and `::ffff:0:0/96`, both as
`net.ParseCIDR` builds them, it returns `[::/0]`: the address `::ffff:1.2.3.4` is
covered by the result although it lies in the subtracted prefix. -/
theorem C1_subtractSubnet_keeps_mapped_range :
    (cidr6 (List.replicate 16 0) 0).WF ∧ (cidr6 (v4InV6Prefix ++ [0, 0, 0, 0]) 96).WF ∧
      subtractSubnet (cidr6 (List.replicate 16 0) 0) (cidr6 (v4InV6Prefix ++ [0, 0, 0, 0]) 96) =
        some [cidr6 (List.replicate 16 0) 0] ∧
      (cidr6 (List.replicate 16 0) 0).covers (v4InV6Prefix ++ [1, 2, 3, 4]) ∧
      (cidr6 (v4InV6Prefix ++ [0, 0, 0, 0]) 96).covers (v4InV6Prefix ++ [1, 2, 3, 4]) := by
  decide

/-- The same defect with coverage read through `net.IPNet.Contains`: `::/0` without
`::fffe:0:0/96` yields the sibling `::ffff:0:0/96`, which contains the IPv4 address
1.2.3.4, an address that `::/0` does not contain. -/
theorem subtractSubnet_mapped_sibling :
    ∃ r, subtractSubnet (cidr6 (List.replicate 16 0) 0)
        (cidr6 ([0, 0, 0, 0, 0, 0, 0, 0, 0, 0, 0xff, 0xfe] ++ [0, 0, 0, 0]) 96) = some r ∧
      cidr6 (v4InV6Prefix ++ [0, 0, 0, 0]) 96 ∈ r ∧
      (cidr6 (v4InV6Prefix ++ [0, 0, 0, 0]) 96).Contains [1, 2, 3, 4] = true ∧
      (cidr6 (List.replicate 16 0) 0).Contains [1, 2, 3, 4] = false :=
  ⟨_, rfl, by decide, by decide, by decide⟩

/-- C2: for every prefix `A` and every prefix `B` whose address and mask have the
same length (4 or 16 bytes), `subtractSubnet A B` returns a list of prefixes that
are pairwise disjoint: no address is covered by two elements of the list. -/
theorem C2_subtractSubnet_pairwise_disjoint (A B : IPNet) (hB : B.Sized) :
    ∃ r, subtractSubnet A B = some r ∧
      r.Pairwise (fun p q => ∀ a, ¬ (p.covers a ∧ q.covers a)) :=
  subtractSubnet_disjoint A B hB

/-- Witness of C2: 10.0.0.0/8 without 10.1.2.128/25. -/
theorem C2_witness :
    (cidr4 10 1 2 128 25).Sized ∧
      ∃ r, subtractSubnet (cidr4 10 0 0 0 8) (cidr4 10 1 2 128 25) = some r ∧
        r.Pairwise (fun p q => ∀ a, ¬ (p.covers a ∧ q.covers a)) :=
  ⟨by decide, C2_subtractSubnet_pairwise_disjoint _ _ (by decide)⟩

/-- C3 (the code falls short of it, by the defect of C1): for the IP block
`::/0` except `::ffff:0:0/96` the list derived in `generateRules` is `[::/0]`,
which covers `::ffff:1.2.3.4`, an address of the exception.  For the block
10.0.0.0/24 except 10.0.0.128/25 the list is `[10.0.0.0/25]`, as claimed. -/
theorem C3_collectSubnets_keeps_mapped_range :
    collectSubnets [{ Network := cidr6 (List.replicate 16 0) 0,
                      Except := [cidr6 (v4InV6Prefix ++ [0, 0, 0, 0]) 96] }] =
        some [cidr6 (List.replicate 16 0) 0] ∧
      (cidr6 (List.replicate 16 0) 0).covers (v4InV6Prefix ++ [1, 2, 3, 4]) ∧
      (cidr6 (v4InV6Prefix ++ [0, 0, 0, 0]) 96).covers (v4InV6Prefix ++ [1, 2, 3, 4]) ∧
      collectSubnets [{ Network := cidr4 10 0 0 0 24, Except := [cidr4 10 0 0 128 25] }] =
        some [cidr4 10 0 0 0 25] := by
  decide

/-- C4: if no policy of the list applies to the direction, `generateRules`
returns the empty rule list.  Let `Compare` be zero only on equal rules and let
the exceptions of the IP blocks be well-sized: if some policy applies and no
processed match names neither pods nor IP blocks nor ports, `generateRules` returns
a list whose last rule, in insertion order, is Deny, protocol ANY, empty source
and destination networks, ports 0. -/
theorem C4_generateRules_empty_or_final_deny (env : Env) (d : MatchType)
    (ps : List ContivPolicy) :
    ((∀ p ∈ ps, policySkipped d p = true) →
        generateRules env d ps = some { rules := [], orderedRules := [] }) ∧
      ((∀ a b, env.Compare a b = 0 → a = b) → ExceptsSized ps →
        (∃ p ∈ ps, policySkipped d p = false) →
        (∀ p ∈ ps, policySkipped d p = false → ∀ m ∈ p.Matches, m.Typ = d →
          ¬ (m.Pods = none ∧ m.IPBlocks = none ∧ m.Ports = [])) →
        ∃ cr, generateRules env d ps = some cr ∧
          cr.rules.getLast? = some
            { Action := renderer.ActionType.ActionDeny,
              Protocol := renderer.ProtocolType.ANY,
              SrcNetwork := { IP := [], Mask := [] },
              DestNetwork := { IP := [], Mask := [] },
              SrcPort := 0, DestPort := 0 }) := by
  refine ⟨generateRules_skipped env d ps, ?_⟩
  intro hE hS happ hna
  have hna2 : anyAllowsAll d ps = false := by
    apply anyAllowsAll_false
    intro p hp hs m hm hd
    unfold matchAllowsAll
    rw [decide_eq_false_iff_not, List.length_eq_zero]
    exact hna p hp hs m hm hd
  obtain ⟨cr, rs, h1, _, h3, _⟩ :=
    generateRules_default_deny env d ps hE hS (anyApplies_true d ps happ) hna2
  exact ⟨cr, h1, h3⟩

/-- Witness of C4: the ingress policy of the test environment, both directions. -/
theorem C4_witness :
    (∀ p ∈ [ingressPolicy], policySkipped MatchType.MatchEgress p = true) ∧
      generateRules testEnv MatchType.MatchEgress [ingressPolicy] =
        some { rules := [], orderedRules := [] } ∧
      (∀ a b, testEnv.Compare a b = 0 → a = b) ∧ ExceptsSized [ingressPolicy] ∧
      (∃ p ∈ [ingressPolicy], policySkipped MatchType.MatchIngress p = false) ∧
      ∃ cr, generateRules testEnv MatchType.MatchIngress [ingressPolicy] = some cr ∧
        cr.rules.getLast? = some
          { Action := renderer.ActionType.ActionDeny,
            Protocol := renderer.ProtocolType.ANY,
            SrcNetwork := { IP := [], Mask := [] },
            DestNetwork := { IP := [], Mask := [] },
            SrcPort := 0, DestPort := 0 } :=
  ⟨by decide,
    (C4_generateRules_empty_or_final_deny testEnv MatchType.MatchEgress [ingressPolicy]).1
      (by decide),
    fun a b => (lawful_ruleCompare.eq_iff a b).mp, by decide, by decide,
    (C4_generateRules_empty_or_final_deny testEnv MatchType.MatchIngress [ingressPolicy]).2
      (fun a b => (lawful_ruleCompare.eq_iff a b).mp) (by decide) (by decide) (by decide)⟩


theorem memoSound_singleton (env : Env) (e : PodID × List ContivPolicy) : MemoSound env [e] := by
  intro e1 h1 e2 h2 _
  rw [List.mem_singleton] at h1 h2
  rw [h1, h2]

theorem applies_of_perm (d : MatchType) (l l2 : List ContivPolicy) (hp : l2.Perm l)
    (happ : ∃ p ∈ l, policySkipped d p = false) : ∃ p ∈ l2, policySkipped d p = false := by
  obtain ⟨p, hp1, hp2⟩ := happ
  exact ⟨p, hp.mem_iff.mpr hp1, hp2⟩

/-- C5, counterexample: in the test environment `podA` has one policy of type
IngressAndEgress with an ingress and an egress match.  Default-deny is injected
in both directions (a policy applies, nothing allows all, both lists end with the
deny rule), and the list that `Commit` passes to `Render` as ingress holds no
NAT-loopback permit: the permit is in the egress list.  And when `podB` with a
policy of the same ID that allows all ingress comes before `podA` with the
ingress policy, `Commit` passes the egress list of `podB` for `podA` as well:
default-deny would be injected for the policies of `podA`, and no list of its
`Render` call holds the NAT-loopback permit. -/
theorem C5_counterexample :
    anyApplies MatchType.MatchEgress (testEnv.SortPolicies [bothPolicy]) = true ∧
      anyAllowsAll MatchType.MatchEgress (testEnv.SortPolicies [bothPolicy]) = false ∧
      anyApplies MatchType.MatchIngress (testEnv.SortPolicies [bothPolicy]) = true ∧
      anyAllowsAll MatchType.MatchIngress (testEnv.SortPolicies [bothPolicy]) = false ∧
      commitCalls testEnv (fun _ => none) [(podA, [bothPolicy])] =
        some [{ pod := podA, podIPNet := some (cidr4 10 0 0 1 32),
                ingress := [ruleAnyFor MatchType.MatchEgress (cidr4 10 0 0 2 32), ruleNone],
                egress := [rulePortFor MatchType.MatchIngress (cidr4 10 0 0 2 32)
                             { Protocol := ProtocolType.TCP, Number := 80 },
                           ruleNatLoop testEnv, ruleNone],
                removed := false }] ∧
      ¬ ({ Action := renderer.ActionType.ActionPermit,
           Protocol := renderer.ProtocolType.ANY,
           SrcNetwork := testEnv.GetOneHostSubnetFromIP testEnv.NatLoopbackIP,
           DestNetwork := { IP := [], Mask := [] },
           SrcPort := 0, DestPort := 0 } ∈
          [ruleAnyFor MatchType.MatchEgress (cidr4 10 0 0 2 32), ruleNone]) ∧
      anyApplies MatchType.MatchIngress (testEnv.SortPolicies [ingressPolicy]) = true ∧
      anyAllowsAll MatchType.MatchIngress (testEnv.SortPolicies [ingressPolicy]) = false ∧
      commitCalls testEnv (fun _ => none) [(podB, [sameIDPolicy]), (podA, [ingressPolicy])] =
        some [{ pod := podB, podIPNet := some (cidr4 10 0 0 2 32), ingress := [],
                egress := [ruleAllowAll], removed := false },
              { pod := podA, podIPNet := some (cidr4 10 0 0 1 32), ingress := [],
                egress := [ruleAllowAll], removed := false }] ∧
      ¬ ({ Action := renderer.ActionType.ActionPermit,
           Protocol := renderer.ProtocolType.ANY,
           SrcNetwork := testEnv.GetOneHostSubnetFromIP testEnv.NatLoopbackIP,
           DestNetwork := { IP := [], Mask := [] },
           SrcPort := 0, DestPort := 0 } ∈ [ruleAllowAll]) := by
  decide

/-- C6: let `Compare` be zero only on equal rules and `sort.Sort` sort.  Let the
cache know `podA` with an IP that parses to 10.0.0.1/32 and `podB` with an IP that
parses to 10.0.0.2/32.  When `podA` is configured with a single policy of type
Ingress whose one ingress match lists pods `[podB]` and ports `[{80, TCP}]`
(`singlePeerPolicy`),
`Commit` issues one `Render` call, for `podA` with 10.0.0.1/32, an empty ingress
list and the egress list: Permit TCP from 10.0.0.2/32 to port 80; Permit ANY from
the NAT loopback subnet; Deny ANY. -/
theorem C6_single_ingress_policy (env : Env) (hE : ∀ a b, env.Compare a b = 0 → a = b)
    (hsort : SortContract env.SortPolicies) (ips : PodID → Option IPNet) (pA pB : PodID)
    (id : PolicyID) (dataA dataB : Pod)
    (hA : env.LookupPod pA = some dataA) (hipA : dataA.IpAddress ≠ "")
    (hnA : env.GetOneHostSubnet dataA.IpAddress = some (cidr4 10 0 0 1 32))
    (hB : env.LookupPod pB = some dataB) (hipB : dataB.IpAddress ≠ "")
    (hnB : env.GetOneHostSubnet dataB.IpAddress = some (cidr4 10 0 0 2 32)) :
    commitCalls env ips
        [(pA, [singlePeerPolicy id pB])] =
      some [{ pod := pA, podIPNet := some (cidr4 10 0 0 1 32), ingress := [],
              egress :=
                [{ Action := renderer.ActionType.ActionPermit,
                   Protocol := renderer.ProtocolType.TCP,
                   SrcNetwork := cidr4 10 0 0 2 32,
                   DestNetwork := { IP := [], Mask := [] },
                   SrcPort := 0, DestPort := 80 },
                 { Action := renderer.ActionType.ActionPermit,
                   Protocol := renderer.ProtocolType.ANY,
                   SrcNetwork := env.GetOneHostSubnetFromIP env.NatLoopbackIP,
                   DestNetwork := { IP := [], Mask := [] },
                   SrcPort := 0, DestPort := 0 },
                 { Action := renderer.ActionType.ActionDeny,
                   Protocol := renderer.ProtocolType.ANY,
                   SrcNetwork := { IP := [], Mask := [] },
                   DestNetwork := { IP := [], Mask := [] },
                   SrcPort := 0, DestPort := 0 }],
              removed := false }] := by
  have hsized : ∀ e ∈ [(pA, [singlePeerPolicy id pB])],
      ExceptsSized e.2 := by
    intro e he
    rw [List.mem_singleton] at he
    subst he
    intro p hp m hm block hb
    simp only [List.mem_singleton] at hp
    subst hp
    simp only [singlePeerPolicy, List.mem_singleton] at hm
    subst hm
    simp at hb
  rw [commitCalls_eq env hsort ips _ (memoSound_singleton _ _) hsized (by simp)]
  have hegress : generateRules env MatchType.MatchEgress
      [singlePeerPolicy id pB] =
      some { rules := [], orderedRules := [] } := by
    apply generateRules_skipped
    intro p hp
    simp only [List.mem_singleton] at hp
    subst hp
    simp [policySkipped, singlePeerPolicy]
  have hrules : policiesRules env MatchType.MatchIngress
      [singlePeerPolicy id pB] =
      some [rulePortFor MatchType.MatchIngress (cidr4 10 0 0 2 32)
        { Protocol := ProtocolType.TCP, Number := 80 }] := by
    simp [singlePeerPolicy, policiesRules, policySkipped, matchesRules, collectSubnets, matchRules, undefinedRules,
      collectPeers, hB, hipB, hnB, networkRules]
  have hingress : ∃ cr, generateRules env MatchType.MatchIngress
      [singlePeerPolicy id pB] = some cr ∧
      cr.rules = [rulePortFor MatchType.MatchIngress (cidr4 10 0 0 2 32)
        { Protocol := ProtocolType.TCP, Number := 80 }, ruleNatLoop env, ruleNone] := by
    refine ⟨_, by rw [generateRules_eq, hrules]; rfl, ?_⟩
    have hfin : finalRules env MatchType.MatchIngress
        (anyApplies MatchType.MatchIngress
          [singlePeerPolicy id pB])
        (anyAllowsAll MatchType.MatchIngress
          [singlePeerPolicy id pB]) =
        [ruleNatLoop env, ruleNone] := by
      simp [singlePeerPolicy, finalRules, anyApplies, anyAllowsAll, policySkipped, matchAllowsAll]
    rw [hfin]
    rw [insertAll_rules_fresh env.Compare hE _ _ sameRules_empty]
    · rfl
    · simp [rulePortFor, ruleNatLoop, ruleNone, portProtocol]
    · intro r _; simp
  obtain ⟨cr, hcr, hcrules⟩ := hingress
  simp only [List.flatMap_cons, List.flatMap_nil, List.append_nil]
  unfold expectedCalls
  simp only [hA, if_neg hipA, hnA, sort_singleton env.SortPolicies hsort, hegress, hcr, hcrules]
  rfl

/-- Witness of C6: the test environment. -/
theorem C6_witness :
    (∀ a b, testEnv.Compare a b = 0 → a = b) ∧ SortContract testEnv.SortPolicies ∧
      commitCalls testEnv (fun _ => none) [(podA, [ingressPolicy])] =
        some [{ pod := podA, podIPNet := some (cidr4 10 0 0 1 32), ingress := [],
                egress :=
                  [{ Action := renderer.ActionType.ActionPermit,
                     Protocol := renderer.ProtocolType.TCP,
                     SrcNetwork := cidr4 10 0 0 2 32,
                     DestNetwork := { IP := [], Mask := [] },
                     SrcPort := 0, DestPort := 80 },
                   { Action := renderer.ActionType.ActionPermit,
                     Protocol := renderer.ProtocolType.ANY,
                     SrcNetwork := { IP := [10, 1, 255, 254], Mask := [255, 255, 255, 255] },
                     DestNetwork := { IP := [], Mask := [] },
                     SrcPort := 0, DestPort := 0 },
                   { Action := renderer.ActionType.ActionDeny,
                     Protocol := renderer.ProtocolType.ANY,
                     SrcNetwork := { IP := [], Mask := [] },
                     DestNetwork := { IP := [], Mask := [] },
                     SrcPort := 0, DestPort := 0 }],
                removed := false }] :=
  ⟨fun a b => (lawful_ruleCompare.eq_iff a b).mp, sortContract_sortPolicies,
    C6_single_ingress_policy testEnv (fun a b => (lawful_ruleCompare.eq_iff a b).mp)
      sortContract_sortPolicies (fun _ => none) podA podB { Name := "p1", Namespace := "default" }
      { IpAddress := "10.0.0.1" } { IpAddress := "10.0.0.2" } (by decide) (by decide) (by decide)
      (by decide) (by decide) (by decide)⟩


/-- C7: let `Compare` be zero only on equal rules and let the exceptions of the
IP blocks be well-sized.  If some policy that applies to the direction has a
match of the direction with no pods (nil), no IP blocks (nil) and no ports, then
`generateRules` returns a list that holds the rule Permit ANY from anywhere to
anywhere with ports 0 and holds no Deny rule; every rule of it was inserted for a
match, none by the default-deny step. -/
theorem C7_allow_all_suppresses_default_deny (env : Env) (d : MatchType)
    (ps : List ContivPolicy) (hE : ∀ a b, env.Compare a b = 0 → a = b) (hS : ExceptsSized ps)
    (hall : ∃ p ∈ ps, policySkipped d p = false ∧ ∃ m ∈ p.Matches, m.Typ = d ∧
      m.Pods = none ∧ m.IPBlocks = none ∧ m.Ports = []) :
    ∃ cr rs, generateRules env d ps = some cr ∧ policiesRules env d ps = some rs ∧
      { Action := renderer.ActionType.ActionPermit,
        Protocol := renderer.ProtocolType.ANY,
        SrcNetwork := { IP := [], Mask := [] },
        DestNetwork := { IP := [], Mask := [] },
        SrcPort := 0, DestPort := 0 } ∈ cr.rules ∧
      (∀ r ∈ cr.rules, r.Action ≠ renderer.ActionType.ActionDeny) ∧
      (∀ r ∈ cr.rules, r ∈ rs) := by
  have hall2 : ∃ p ∈ ps, policySkipped d p = false ∧ ∃ m ∈ p.Matches, m.Typ = d ∧
      matchAllowsAll m = true := by
    obtain ⟨p, hp, hs, m, hm, hd, h1, h2, h3⟩ := hall
    refine ⟨p, hp, hs, m, hm, hd, ?_⟩
    unfold matchAllowsAll
    rw [decide_eq_true_iff]
    exact ⟨h1, h2, by rw [h3]; rfl⟩
  obtain ⟨cr, rs, h1, h2, h3, h4⟩ := generateRules_all_allowed env d ps hE hS hall2
  refine ⟨cr, rs, h1, h2, h4, ?_, fun r hr => (h3 r).mp hr⟩
  intro r hr
  rw [policiesRules_permit env d ps rs h2 r ((h3 r).mp hr)]
  decide

/-- Witness of C7: the allow-all test policy after the ingress policy. -/
theorem C7_witness :
    (∀ a b, testEnv.Compare a b = 0 → a = b) ∧ ExceptsSized [ingressPolicy, allowAllPolicy] ∧
      ∃ cr rs, generateRules testEnv MatchType.MatchIngress [ingressPolicy, allowAllPolicy] =
          some cr ∧
        policiesRules testEnv MatchType.MatchIngress [ingressPolicy, allowAllPolicy] = some rs ∧
        { Action := renderer.ActionType.ActionPermit,
          Protocol := renderer.ProtocolType.ANY,
          SrcNetwork := { IP := [], Mask := [] },
          DestNetwork := { IP := [], Mask := [] },
          SrcPort := 0, DestPort := 0 } ∈ cr.rules ∧
        (∀ r ∈ cr.rules, r.Action ≠ renderer.ActionType.ActionDeny) ∧
        (∀ r ∈ cr.rules, r ∈ rs) :=
  ⟨fun a b => (lawful_ruleCompare.eq_iff a b).mp, by decide,
    C7_allow_all_suppresses_default_deny testEnv MatchType.MatchIngress
      [ingressPolicy, allowAllPolicy] (fun a b => (lawful_ruleCompare.eq_iff a b).mp)
      (by decide) (by decide)⟩

/-- C9: let `Compare` be a total order on rules and let the exceptions of the
IP blocks be well-sized.  If the policies `ps2` are the policies `ps` with the
peer pods of their matches listed in another order, `generateRules` returns for
both, and the two sorted rule lists (`orderedRules`) are equal. -/
theorem C9_peer_order_independence (env : Env) (hL : LawfulCompare env.Compare)
    (d : MatchType) (ps ps2 : List ContivPolicy) (hS : ExceptsSized ps)
    (h : List.Forall₂ ContivPolicy.PeersPermuted ps ps2) :
    ∃ cr cr2, generateRules env d ps = some cr ∧ generateRules env d ps2 = some cr2 ∧
      cr2.orderedRules = cr.orderedRules := by
  obtain ⟨cr, hcr⟩ := generateRules_isSome env d ps hS
  have heq := generateRules_peersPermuted env hL d ps ps2 h
  rw [hcr] at heq
  cases hcr2 : generateRules env d ps2 with
  | none => rw [hcr2] at heq; cases heq
  | some cr2 =>
    rw [hcr2] at heq
    simp only [Option.map_some', Option.some.injEq] at heq
    exact ⟨cr, cr2, hcr, rfl, heq⟩

/-- Witness of C9: the peers `[podA, podB]` against `[podB, podA]`. -/
theorem C9_witness :
    LawfulCompare testEnv.Compare ∧ ExceptsSized [peersPolicy [podA, podB]] ∧
      List.Forall₂ ContivPolicy.PeersPermuted [peersPolicy [podA, podB]]
        [peersPolicy [podB, podA]] ∧
      ∃ cr cr2, generateRules testEnv MatchType.MatchIngress [peersPolicy [podA, podB]] = some cr ∧
        generateRules testEnv MatchType.MatchIngress [peersPolicy [podB, podA]] = some cr2 ∧
        cr2.orderedRules = cr.orderedRules :=
  have hperm : List.Forall₂ ContivPolicy.PeersPermuted [peersPolicy [podA, podB]]
      [peersPolicy [podB, podA]] :=
    List.Forall₂.cons
      ⟨rfl, rfl, List.Forall₂.cons
        ⟨rfl, rfl, rfl, Or.inr ⟨[podA, podB], [podB, podA], rfl, rfl, List.Perm.swap _ _ _⟩⟩
        List.Forall₂.nil⟩
      List.Forall₂.nil
  ⟨lawful_ruleCompare, by decide, hperm,
    C9_peer_order_independence testEnv lawful_ruleCompare MatchType.MatchIngress
      [peersPolicy [podA, podB]] [peersPolicy [podB, podA]] (by decide) hperm⟩

/-- C10: let `sort.Sort` sort and let the exceptions of the IP blocks be
well-sized.  If the policies configured for a pod have pairwise distinct IDs, then
for every permutation of that list `Commit` returns and issues the same `Render`
calls, with the same ingress and egress rule lists in the same order. -/
theorem C10_policy_order_independence (env : Env) (hsort : SortContract env.SortPolicies)
    (ips : PodID → Option IPNet) (before after : List (PodID × List ContivPolicy))
    (pod : PodID) (l l2 : List ContivPolicy) (hperm : l2.Perm l)
    (hids : (l.map ContivPolicy.ID).Nodup)
    (hs : ∀ e ∈ before ++ (pod, l) :: after, ExceptsSized e.2) :
    ∃ calls, commitCalls env ips (before ++ (pod, l) :: after) = some calls ∧
      commitCalls env ips (before ++ (pod, l2) :: after) = some calls := by
  obtain ⟨calls, hc⟩ := commitCalls_isSome env hsort ips _ hs
  refine ⟨calls, hc, ?_⟩
  rw [commitCalls_congr env ips before after pod l l2
    (sort_unique env.SortPolicies hsort l l2 hperm hids)]
  exact hc

/-- Witness of C10: the ingress and the egress policy of `podA` in both orders. -/
theorem C10_witness :
    SortContract testEnv.SortPolicies ∧
      [egressPolicy, ingressPolicy].Perm [ingressPolicy, egressPolicy] ∧
      ([ingressPolicy, egressPolicy].map ContivPolicy.ID).Nodup ∧
      (∀ e ∈ [] ++ (podA, [ingressPolicy, egressPolicy]) :: [(podB, [egressPolicy])],
        ExceptsSized e.2) ∧
      ∃ calls, commitCalls testEnv (fun _ => none)
          ([] ++ (podA, [ingressPolicy, egressPolicy]) :: [(podB, [egressPolicy])]) = some calls ∧
        commitCalls testEnv (fun _ => none)
          ([] ++ (podA, [egressPolicy, ingressPolicy]) :: [(podB, [egressPolicy])]) = some calls :=
  ⟨sortContract_sortPolicies, List.Perm.swap _ _ _, by decide, by decide,
    C10_policy_order_independence testEnv sortContract_sortPolicies (fun _ => none) []
      [(podB, [egressPolicy])] podA [ingressPolicy, egressPolicy] [egressPolicy, ingressPolicy]
      (List.Perm.swap _ _ _) (by decide) (by decide)⟩

/-- C11: let `Compare` be a total order on rules and let the sorted list of the
set be strictly increasing.  `Insert(r)` returns false exactly when the set holds
a rule that compares equal to `r`, and then the set (both lists) is unchanged;
when it returns true, `r` is appended to the insertion-order list and the sorted
list is the old one with `r` put in at an index such that the list is strictly
increasing again. -/
theorem C11_insert_result (cmp : ContivRule → ContivRule → Int) (hL : LawfulCompare cmp)
    (cr : ContivRules) (r : ContivRule) (hs : cr.Sorted cmp) :
    ((cr.Insert cmp r).2 = false ↔ ∃ x ∈ cr.orderedRules, cmp r x = 0) ∧
      ((cr.Insert cmp r).2 = false → (cr.Insert cmp r).1 = cr) ∧
      ((cr.Insert cmp r).2 = true →
        (cr.Insert cmp r).1.rules = cr.rules ++ [r] ∧
        (cr.Insert cmp r).1.Sorted cmp ∧
        ∃ idx, idx ≤ cr.orderedRules.length ∧
          (cr.Insert cmp r).1.orderedRules =
            cr.orderedRules.take idx ++ r :: cr.orderedRules.drop idx) := by
  refine ⟨Insert_false_iff cmp hL cr r hs, ?_, ?_⟩
  · intro h
    rcases Insert_cases_sorted cmp hL cr r hs with ⟨e, _⟩ | ⟨idx, e, _, _⟩
    · rw [e]
    · rw [e] at h; cases h
  · intro h
    obtain ⟨h1, idx, h2, h3, _, _⟩ := Insert_true_spec cmp hL cr r hs h
    exact ⟨h1, Insert_sorted cmp hL cr r hs, idx, h2, h3⟩

/-- Witness of C11: the allow-all rule inserted into the set that holds the deny-all
rule. -/
theorem C11_witness :
    LawfulCompare ruleCompare ∧
      ContivRules.Sorted ruleCompare { rules := [ruleNone], orderedRules := [ruleNone] } ∧
      ((ContivRules.Insert ruleCompare { rules := [ruleNone], orderedRules := [ruleNone] }
          ruleAllowAll).2 = false ↔
        ∃ x ∈ [ruleNone], ruleCompare ruleAllowAll x = 0) :=
  ⟨lawful_ruleCompare, List.pairwise_singleton _ _,
    (C11_insert_result ruleCompare lawful_ruleCompare
      { rules := [ruleNone], orderedRules := [ruleNone] } ruleAllowAll
      (List.pairwise_singleton _ _)).1⟩

/-- C12 as the code has it: let `sort.Sort` sort and the exceptions of the IP
blocks be well-sized.  In sequential mode `Commit` returns, and when the opened
renderer transactions are `pre`, then one whose `Commit` fails with `err`, then
transactions that all commit without error, the returned error is `err`: the
error of the last renderer that failed, whatever the transactions of `pre`
returned. -/
theorem C12_last_error_returned (env : Env) (hsort : SortContract env.SortPolicies)
    (pc : PolicyConfigurator) (pct : PolicyConfiguratorTxn)
    (arrival : List (Option String) → List (Option String))
    (hs : ∀ e ∈ pct.config, ExceptsSized e.2) (hseq : pc.parallelRendering = false) :
    ∃ out, pct.Commit env pc arrival = some out ∧
      ∀ (pre post : List RendererTxn) (t : RendererTxn) (err : String),
        out.opened = pre ++ t :: post → t.Commit = some err →
        (∀ u ∈ post, u.Commit = none) → out.wasError = some err := by
  obtain ⟨out, h1, _, h3, _⟩ := commit_sequential_total env hsort pc pct arrival hs hseq
  refine ⟨out, h1, ?_⟩
  intro pre post t err hopen hfail hpost
  rw [h3, hopen, List.map_append, List.map_cons, hfail]
  apply receiveErrors_last
  intro e he
  obtain ⟨u, hu, rfl⟩ := List.mem_map.mp he
  exact hpost u hu

/-- Witness of C12: the test transaction of the sequential test configurator. -/
theorem C12_witness :
    SortContract testEnv.SortPolicies ∧ (∀ e ∈ (testTxn false).config, ExceptsSized e.2) ∧
      testConfigurator.parallelRendering = false ∧
      ∃ out, (testTxn false).Commit testEnv testConfigurator id = some out ∧
        ∀ (pre post : List RendererTxn) (t : RendererTxn) (err : String),
          out.opened = pre ++ t :: post → t.Commit = some err →
          (∀ u ∈ post, u.Commit = none) → out.wasError = some err :=
  ⟨sortContract_sortPolicies, by decide, rfl,
    C12_last_error_returned testEnv sortContract_sortPolicies testConfigurator (testTxn false) id
      (by decide) rfl⟩

/-- Counterexample to C12: the renderers fail with "e1", fail with "e2" and succeed,
in this order; sequential `Commit` returns "e2", the error of the second one. -/
theorem C12_counterexample :
    testConfigurator.parallelRendering = false ∧
      ((testTxn false).Commit testEnv testConfigurator id).map
          (fun out => out.opened.map RendererTxn.Commit) =
        some [some "e1", some "e2", none] ∧
      ((testTxn false).Commit testEnv testConfigurator id).map CommitOutcome.wasError =
        some (some "e2") := by
  decide

/-- C13: let `sort.Sort` sort and the exceptions of the IP blocks be well-sized.
In sequential mode `Commit` returns; the renderer transactions it called `Commit`
on are all the opened ones, which are none or one per registered renderer in
registration order; the returned error is nil exactly when all of them returned
nil, and it is the last of the non-nil errors in that order. -/
theorem C13_sequential_commit_all (env : Env) (hsort : SortContract env.SortPolicies)
    (pc : PolicyConfigurator) (pct : PolicyConfiguratorTxn)
    (arrival : List (Option String) → List (Option String))
    (hs : ∀ e ∈ pct.config, ExceptsSized e.2) (hseq : pc.parallelRendering = false) :
    ∃ out, pct.Commit env pc arrival = some out ∧ out.committed = out.opened ∧
      (out.opened = [] ∨ out.opened.map RendererTxn.renderer = pc.renderers) ∧
      (out.wasError = none ↔ ∀ t ∈ out.opened, t.Commit = none) ∧
      out.wasError = ((out.opened.map RendererTxn.Commit).filterMap id).getLast? := by
  obtain ⟨out, h1, h2, h3, h4⟩ := commit_sequential_total env hsort pc pct arrival hs hseq
  refine ⟨out, h1, h2, h4, ?_, ?_⟩
  · rw [h3, receiveErrors_none_iff]
    simp only [List.mem_map, forall_exists_index, and_imp, forall_apply_eq_imp_iff₂]
  · rw [h3, receiveErrors_eq]
    cases ((out.opened.map RendererTxn.Commit).filterMap id).getLast? <;> rfl

/-- Witness of C13: the test transaction of the sequential test configurator. -/
theorem C13_witness :
    SortContract testEnv.SortPolicies ∧ (∀ e ∈ (testTxn false).config, ExceptsSized e.2) ∧
      testConfigurator.parallelRendering = false ∧
      ∃ out, (testTxn false).Commit testEnv testConfigurator id = some out ∧
        out.committed = out.opened ∧
        (out.opened = [] ∨ out.opened.map RendererTxn.renderer = testConfigurator.renderers) ∧
        (out.wasError = none ↔ ∀ t ∈ out.opened, t.Commit = none) ∧
        out.wasError = ((out.opened.map RendererTxn.Commit).filterMap id).getLast? :=
  ⟨sortContract_sortPolicies, by decide, rfl,
    C13_sequential_commit_all testEnv sortContract_sortPolicies testConfigurator (testTxn false)
      id (by decide) rfl⟩

/-- C14: let `sort.Sort` sort, the exceptions of the IP blocks be well-sized and
the pods of the transaction distinct.  For a pod of the transaction that the
policy cache reports as unknown or with an empty IP, `Commit` returns and the
saved pod-IP map has no entry for the pod.  If the map of the transaction had no
entry for it, no renderer transaction received a `Render` call for the pod.  If
it had the entry `podIPNet`, one transaction was opened per registered renderer
and each received for the pod exactly one call: `podIPNet`, empty ingress and
egress, `delPodConfig = true`. -/
theorem C14_gone_pod (env : Env) (hsort : SortContract env.SortPolicies)
    (pc : PolicyConfigurator) (pct : PolicyConfiguratorTxn)
    (arrival : List (Option String) → List (Option String))
    (hs : ∀ e ∈ pct.config, ExceptsSized e.2) (hnodup : (pct.config.map Prod.fst).Nodup)
    (pod : PodID) (hmem : pod ∈ pct.config.map Prod.fst) (hgone : podGone env pod = true) :
    ∃ out, pct.Commit env pc arrival = some out ∧
      out.configurator.podIPAddresses pod = none ∧
      (pct.podIPAddresses pod = none → ∀ t ∈ out.opened, ∀ c ∈ t.calls, c.pod ≠ pod) ∧
      (∀ podIPNet, pct.podIPAddresses pod = some podIPNet →
        out.opened.map RendererTxn.renderer = pc.renderers ∧
        ∀ t ∈ out.opened, t.calls.filter (fun c => decide (c.pod = pod)) =
          [{ pod := pod, podIPNet := some podIPNet, ingress := [], egress := [],
             removed := true }]) :=
  commit_gone_pod env hsort pc pct arrival hs hnodup pod hmem hgone

/-- Witness of C14: `podC`, unknown to the test environment and recorded with
10.0.0.3 in the pod-IP map. -/
theorem C14_witness :
    SortContract testEnv.SortPolicies ∧ (∀ e ∈ (testTxn false).config, ExceptsSized e.2) ∧
      ((testTxn false).config.map Prod.fst).Nodup ∧
      podC ∈ (testTxn false).config.map Prod.fst ∧ podGone testEnv podC = true ∧
      (testTxn false).podIPAddresses podC = some (cidr4 10 0 0 3 32) ∧
      ∃ out, (testTxn false).Commit testEnv testConfigurator id = some out ∧
        out.configurator.podIPAddresses podC = none ∧
        out.opened.map RendererTxn.renderer = testConfigurator.renderers ∧
        ∀ t ∈ out.opened, t.calls.filter (fun c => decide (c.pod = podC)) =
          [{ pod := podC, podIPNet := some (cidr4 10 0 0 3 32), ingress := [], egress := [],
             removed := true }] := by
  refine ⟨sortContract_sortPolicies, by decide, by decide, by decide, by decide, by decide, ?_⟩
  obtain ⟨out, h1, h2, _, h4⟩ :=
    C14_gone_pod testEnv sortContract_sortPolicies testConfigurator (testTxn false) id
      (by decide) (by decide) podC (by decide) (by decide)
  exact ⟨out, h1, h2, h4 _ (by decide)⟩

/-- C15: let `sort.Sort` sort, the exceptions of the IP blocks be well-sized and
the pods of the transaction distinct; the transaction is one that `NewTxn(resync)`
opened and that holds the entries `entries`.  `Commit` returns.  With
`resync = true` the saved pod-IP map has for a pod of the transaction that the
policy cache reports with a valid IP that IP, and no entry for any other pod.
With `resync = false` the entry of every pod that is not in the transaction is
the one of the map before. -/
theorem C15_saved_pod_ips (env : Env) (hsort : SortContract env.SortPolicies)
    (pc : PolicyConfigurator) (resync : Bool) (entries : List (PodID × List ContivPolicy))
    (arrival : List (Option String) → List (Option String))
    (hs : ∀ e ∈ entries, ExceptsSized e.2) (hnodup : (entries.map Prod.fst).Nodup) :
    ∃ out, PolicyConfiguratorTxn.Commit env pc { pc.NewTxn resync with config := entries }
        arrival = some out ∧
      (resync = true → ∀ p, out.configurator.podIPAddresses p =
        if p ∈ entries.map Prod.fst then validIP env p else none) ∧
      (resync = false → ∀ p, p ∉ entries.map Prod.fst →
        out.configurator.podIPAddresses p = pc.podIPAddresses p) := by
  obtain ⟨out, h1, h2⟩ := commit_saved_map env hsort pc
    { pc.NewTxn resync with config := entries } arrival hs hnodup
  refine ⟨out, h1, ?_, ?_⟩
  · intro hr p
    subst hr
    rw [h2 p]
    simp only [PolicyConfigurator.NewTxn, if_true]
    rw [expectedIP_none]
  · intro hr p hp
    subst hr
    rw [h2 p]
    simp only [PolicyConfigurator.NewTxn]
    rw [if_neg hp]
    rfl

/-- Witness of C15: a resync transaction of the test configurator with `podA` and
`podC`. -/
theorem C15_witness :
    SortContract testEnv.SortPolicies ∧
      (∀ e ∈ [(podA, [ingressPolicy]), (podC, [])], ExceptsSized e.2) ∧
      ([(podA, [ingressPolicy]), (podC, [])].map Prod.fst).Nodup ∧
      ∃ out, PolicyConfiguratorTxn.Commit testEnv testConfigurator
          { testConfigurator.NewTxn true with config := [(podA, [ingressPolicy]), (podC, [])] }
          id = some out ∧
        (true = true → ∀ p, out.configurator.podIPAddresses p =
          if p ∈ [(podA, [ingressPolicy]), (podC, [])].map Prod.fst then validIP testEnv p
          else none) ∧
        (true = false → ∀ p, p ∉ [(podA, [ingressPolicy]), (podC, [])].map Prod.fst →
          out.configurator.podIPAddresses p = testConfigurator.podIPAddresses p) :=
  ⟨sortContract_sortPolicies, by decide, by decide,
    C15_saved_pod_ips testEnv sortContract_sortPolicies testConfigurator true
      [(podA, [ingressPolicy]), (podC, [])] id (by decide) (by decide)⟩

/-- C16: if `RendererCache.Resync` returns an error, the local tables, the global
table and the pod configuration of the cache after the call are the ones before
the call. -/
theorem C16_resync_error_keeps_cache (deps : CacheDeps) (rc : RendererCache)
    (tables : List (Option ContivRuleTable)) (h : (rc.Resync deps tables).2 ≠ none) :
    (rc.Resync deps tables).1.localTables = rc.localTables ∧
      (rc.Resync deps tables).1.globalTable = rc.globalTable ∧
      (rc.Resync deps tables).1.config = rc.config := by
  rw [resync_error_keeps deps rc tables h]
  exact ⟨rfl, rfl, rfl⟩

/-- Witness of C16: two Local tables that share `podA`. -/
theorem C16_witness :
    (testCache.Resync testDeps sharedTables).2 ≠ none ∧
      (testCache.Resync testDeps sharedTables).1.localTables = testCache.localTables ∧
      (testCache.Resync testDeps sharedTables).1.globalTable = testCache.globalTable ∧
      (testCache.Resync testDeps sharedTables).1.config = testCache.config :=
  ⟨by decide, C16_resync_error_keeps_cache testDeps testCache sharedTables (by decide)⟩

/-- C17: let the pod set of every table of the input list its pods once.
`RendererCache.Resync` returns an error exactly when some pod belongs to the pod
sets of two entries of the input that are non-nil Local tables; when it returns
nil, a pod is tracked by the cache (`GetAllPods`) exactly when it belongs to the
pod set of a Local table of the input. -/
theorem C17_resync_error_iff_shared_pod (deps : CacheDeps) (rc : RendererCache)
    (tables : List (Option ContivRuleTable)) (hn : ∀ t, some t ∈ tables → t.Pods.Nodup) :
    ((rc.Resync deps tables).2 ≠ none ↔ SharedPod tables) ∧
      ((rc.Resync deps tables).2 = none →
        ∀ pod, pod ∈ (rc.Resync deps tables).1.GetAllPods ↔
          ∃ t, some t ∈ tables ∧ t.Typ = TableType.Local ∧ pod ∈ t.Pods) :=
  resync_spec deps rc tables hn

/-- Witness of C17: two Global tables and the Local table of `podA`. -/
theorem C17_witness :
    (∀ t, some t ∈ twoGlobals → t.Pods.Nodup) ∧
      (testCache.Resync testDeps twoGlobals).2 = none ∧
      ((testCache.Resync testDeps twoGlobals).2 ≠ none ↔ SharedPod twoGlobals) ∧
      ((testCache.Resync testDeps twoGlobals).2 = none →
        ∀ pod, pod ∈ (testCache.Resync testDeps twoGlobals).1.GetAllPods ↔
          ∃ t, some t ∈ twoGlobals ∧ t.Typ = TableType.Local ∧ pod ∈ t.Pods) :=
  have hn : ∀ t, some t ∈ twoGlobals → t.Pods.Nodup := by
    intro t ht
    simp only [twoGlobals, List.mem_cons, Option.some.injEq, List.mem_singleton,
      List.not_mem_nil, or_false] at ht
    rcases ht with h | h | h <;> (rw [h]; decide)
  ⟨hn, by decide, C17_resync_error_iff_shared_pod testDeps testCache twoGlobals hn⟩

/-- C18 as the code has it: `Resync` does not look at the number of Global tables.
The error that it returns is the one that it returns for the input without its
Global tables, and when it returns nil on an input whose last Global table is
`g`, then `g` is the global table of the cache afterwards. -/
theorem C18_global_tables_not_validated (deps : CacheDeps) (rc : RendererCache)
    (tables : List (Option ContivRuleTable)) :
    (rc.Resync deps tables).2 = (rc.Resync deps (tables.filter (fun t => !isGlobal t))).2 ∧
      ∀ pre post g, tables = pre ++ some g :: post → g.Typ = TableType.Global →
        (∀ t, some t ∈ post → t.Typ ≠ TableType.Global) →
        (rc.Resync deps tables).2 = none →
        (rc.Resync deps tables).1.globalTable = some g :=
  resync_globals deps rc tables

/-- Witness of C18: two Global tables and the Local table of `podA`. -/
theorem C18_witness :
    twoGlobals =
        [some (globalWith ruleNone), some (localFor [podA])] ++
          some (globalWith ruleAllowAll) :: [] ∧
      (globalWith ruleAllowAll).Typ = TableType.Global ∧
      (testCache.Resync testDeps twoGlobals).2 = none ∧
      (testCache.Resync testDeps twoGlobals).1.globalTable = some (globalWith ruleAllowAll) :=
  ⟨rfl, rfl, by decide,
    (C18_global_tables_not_validated testDeps testCache twoGlobals).2
      [some (globalWith ruleNone), some (localFor [podA])] [] (globalWith ruleAllowAll) rfl rfl
      (fun _ h => by cases h) (by decide)⟩

/-- Counterexample to C18: on an input with two Global tables `Resync` returns nil,
and the cache is not left untouched: the second Global table is its global table
and `podA` is tracked. -/
theorem C18_counterexample :
    (twoGlobals.filter isGlobal).length = 2 ∧
      (testCache.Resync testDeps twoGlobals).2 = none ∧
      (testCache.Resync testDeps twoGlobals).1 ≠ testCache ∧
      (testCache.Resync testDeps twoGlobals).1.globalTable = some (globalWith ruleAllowAll) ∧
      (testCache.Resync testDeps twoGlobals).1.GetAllPods = [podA] := by
  decide

/-- C19: in every state of the cache that is reached from `Init` or `Flush` through
`Resync` calls with any input and `Commit`s of any transactions, `GetGlobalTable`
returns a table, not nil. -/
theorem C19_global_table_never_nil (deps : CacheDeps) (rc : RendererCache)
    (h : Reachable deps rc) : rc.GetGlobalTable.isSome = true :=
  reachable_global deps rc h

/-- Witness of C19: the test cache after a failed `Resync` and the `Commit` of the
test transaction. -/
theorem C19_witness :
    ∃ rc1 rct1,
      testCacheTxn.Commit testDeps (testCache.Resync testDeps sharedTables).1 = some (rc1, rct1) ∧
      Reachable testDeps rc1 ∧ rc1.GetGlobalTable.isSome = true := by
  have h : (testCacheTxn.Commit testDeps (testCache.Resync testDeps sharedTables).1).isSome =
      true := by decide
  obtain ⟨res, h1⟩ := Option.isSome_iff_exists.mp h
  have hr : Reachable testDeps res.1 :=
    Reachable.commit (testCache.Resync testDeps sharedTables).1 res.1 testCacheTxn res.2
      (Reachable.resync _ _ (Reachable.init zeroCache Orientation.EgressOrientation)) h1
  exact ⟨res.1, res.2, h1, hr, C19_global_table_never_nil testDeps res.1 hr⟩

/-- C20: let `compareRuleLists` be zero exactly on equal rule lists, let the
operations of `LocalTables` keep Local tables Local, let the local tables of the
cache and of the transaction be Local tables, and let a transaction with
up-to-date tables hold a Global table as its global table.  Whenever `GetChanges`
returns, the transaction holds a global table `g` (the one that
`rebuildGlobalTable` built, if the tables were stale), the cache holds a global
table `cg`, and the changes hold an entry with a Global table exactly when the
rule lists of `g` and `cg` differ.  `GetChanges` does return when the cache has a
global table and every pod configuration in sight has a pod IP. -/
theorem C20_global_change_iff_rules_differ (deps : CacheDeps)
    (hcmp : ∀ a b, deps.compareRuleLists a b = 0 ↔ a = b) (hk : KeepsLocal deps)
    (rc : RendererCache) (rct : RendererCacheTxn) (hrc : rc.localTables.AllLocal)
    (hrct : rct.localTables.AllLocal)
    (hglobal : rct.upToDateTables = true →
      ∃ g, rct.globalTable = some g ∧ g.Typ = TableType.Global) :
    (∀ changes rct1, rct.GetChanges deps rc = some (changes, rct1) →
      ∃ g cg, rct1.globalTable = some g ∧ rc.globalTable = some cg ∧
        (rct.upToDateTables = false → rebuildGlobalTable deps rc rct = some g) ∧
        ((∃ ch ∈ changes, ch.Table.Typ = TableType.Global) ↔ g.Rules ≠ cg.Rules)) ∧
      (rc.globalTable.isSome = true → PodIPsSet rc rct →
        ∃ changes rct1, rct.GetChanges deps rc = some (changes, rct1)) :=
  ⟨fun changes rct1 h =>
      getChanges_global deps hcmp hk rc rct hrc hrct hglobal changes rct1 h,
    fun hg hip => getChanges_isSome deps rc rct hg hip⟩

/-- Witness of C20: the test transaction, which denies all ingress of `podA`, on
the test cache. -/
theorem C20_witness :
    (∀ a b, testDeps.compareRuleLists a b = 0 ↔ a = b) ∧ KeepsLocal testDeps ∧
      testCache.localTables.AllLocal ∧ testCacheTxn.localTables.AllLocal ∧
      testCacheTxn.upToDateTables = false ∧ testCache.globalTable.isSome = true ∧
      PodIPsSet testCache testCacheTxn ∧
      ∃ changes rct1 g cg, testCacheTxn.GetChanges testDeps testCache = some (changes, rct1) ∧
        rct1.globalTable = some g ∧ testCache.globalTable = some cg ∧
        rebuildGlobalTable testDeps testCache testCacheTxn = some g ∧
        ((∃ ch ∈ changes, ch.Table.Typ = TableType.Global) ↔ g.Rules ≠ cg.Rules) := by
  have hmain := C20_global_change_iff_rules_differ testDeps ruleListsCompare_eq_iff
    keepsLocal_testDeps testCache testCacheTxn (by decide) (by decide)
    (fun h => by cases h)
  obtain ⟨changes, rct1, h1⟩ := hmain.2 rfl podIPsSet_test
  obtain ⟨g, cg, h2, h3, h4, h5⟩ := hmain.1 changes rct1 h1
  exact ⟨ruleListsCompare_eq_iff, keepsLocal_testDeps, by decide, by decide, rfl, rfl,
    podIPsSet_test, changes, rct1, g, cg, h1, h2, h3, h4 rfl, h5⟩


/-! ## `subtractSubnet` branch by branch, and the invariant of `ContivRules` -/

/-- The sibling branch of `subtractSubnet`: one prefix per bit from the mask of
`net1` up to the mask of `net2`. -/
theorem subtractSubnet_siblings (net1 net2 : IPNet) (hs : net2.Sized)
    (hlt : maskSize net1.Mask < maskSize net2.Mask) (hc : net1.Contains net2.IP = true) :
    subtractSubnet net1 net2 =
      some ((List.range' (maskSize net1.Mask) (maskSize net2.Mask - maskSize net1.Mask)).map
        (fun c => (siblingSubnet net2 c).getD emptyNet)) := by
  unfold subtractSubnet
  rw [if_neg (by omega), if_neg (by omega)]
  simp only [hc, Bool.not_true, Bool.false_eq_true, if_false]
  have h2 := maskSize_le net2.Mask
  rw [hs.2] at h2
  exact siblingLoop_eq net2 hs _ _ (by omega)

/-- The prefixes of the sibling branch, one by one. -/
theorem subtractSubnet_sibling_list (net1 net2 : IPNet) (hs : net2.Sized)
    (hlt : maskSize net1.Mask < maskSize net2.Mask) (hc : net1.Contains net2.IP = true) :
    ∃ r, subtractSubnet net1 net2 = some r ∧
      r.length = maskSize net2.Mask - maskSize net1.Mask ∧
      (∀ k s, r[k]? = some s →
        maskSize s.Mask = maskSize net1.Mask + k + 1 ∧
        s.Mask = CIDRMask (maskSize net1.Mask + k + 1) (net2.Mask.length * 8) ∧
        s.IP.length = net2.IP.length ∧
        ∀ i, bitOf s.IP i =
          xor (bitOf net2.IP i &&
                decide (i < maskSize net1.Mask + k + 1 ∧ i < 8 * net2.IP.length))
            (decide (i = maskSize net1.Mask + k))) ∧
      r.Pairwise (fun p q => maskSize p.Mask < maskSize q.Mask) := by
  have h2 := maskSize_le net2.Mask
  rw [hs.2] at h2
  have helem : ∀ k s,
      ((List.range' (maskSize net1.Mask) (maskSize net2.Mask - maskSize net1.Mask)).map
        (fun c => (siblingSubnet net2 c).getD emptyNet))[k]? = some s →
      k < maskSize net2.Mask - maskSize net1.Mask ∧
        siblingSubnet net2 (maskSize net1.Mask + k) = some s := by
    intro k s hk
    rw [List.getElem?_map] at hk
    cases hr : (List.range' (maskSize net1.Mask) (maskSize net2.Mask - maskSize net1.Mask))[k]? with
    | none => rw [hr] at hk; cases hk
    | some c =>
      rw [hr] at hk
      simp only [Option.map_some', Option.some.injEq] at hk
      obtain ⟨hk1, hk2⟩ := List.getElem?_eq_some_iff.mp hr
      rw [List.length_range'] at hk1
      rw [List.getElem_range'] at hk2
      have hcv : c = maskSize net1.Mask + k := by omega
      refine ⟨hk1, ?_⟩
      rw [← hcv, ← hk, siblingSubnet_eq net2 hs c (by omega)]
      rfl
  refine ⟨_, subtractSubnet_siblings net1 net2 hs hlt hc, by simp, ?_, ?_⟩
  · intro k s hk
    obtain ⟨hk1, hsib⟩ := helem k s hk
    obtain ⟨hm, hl, hb⟩ := siblingSubnet_bits net2 s hs (maskSize net1.Mask + k) (by omega) hsib
    refine ⟨?_, ?_, hl, hb⟩
    · rw [hm, maskSize_cidrBytes _ _ (by omega)]
    · rw [hm, hs.2, CIDRMask_eq_cidrBytes _ _ hs.1 (by omega)]
  · rw [List.pairwise_iff_getElem]
    intro i j hi hj hij
    obtain ⟨hi1, hsi⟩ := helem i _ (List.getElem?_eq_getElem hi)
    obtain ⟨hj1, hsj⟩ := helem j _ (List.getElem?_eq_getElem hj)
    obtain ⟨hmi, _, _⟩ := siblingSubnet_bits net2 _ hs (maskSize net1.Mask + i) (by omega) hsi
    obtain ⟨hmj, _, _⟩ := siblingSubnet_bits net2 _ hs (maskSize net1.Mask + j) (by omega) hsj
    rw [hmi, hmj, maskSize_cidrBytes _ _ (by omega), maskSize_cidrBytes _ _ (by omega)]
    omega

/-- The branches of `subtractSubnet` outside the sibling loop. -/
theorem subtractSubnet_outside (net1 net2 : IPNet) :
    (maskSize net1.Mask > maskSize net2.Mask →
      subtractSubnet net1 net2 = some (if net2.Contains net1.IP then [] else [net1])) ∧
    (maskSize net1.Mask = maskSize net2.Mask →
      subtractSubnet net1 net2 = some (if ipEqual net1.IP net2.IP then [] else [net1])) ∧
    (maskSize net1.Mask < maskSize net2.Mask → net1.Contains net2.IP = false →
      subtractSubnet net1 net2 = some [net1]) := by
  refine ⟨fun h => ?_, fun h => ?_, fun h hc => ?_⟩
  · unfold subtractSubnet
    rw [if_pos h]
    cases net2.Contains net1.IP <;> rfl
  · unfold subtractSubnet
    rw [if_neg (by omega), if_pos h]
    cases ipEqual net1.IP net2.IP <;> rfl
  · unfold subtractSubnet
    rw [if_neg (by omega), if_neg (by omega), hc]
    rfl

/-- The rule lists of a `ContivRules` hold each rule once. -/
theorem Insert_nodup (cmp : ContivRule → ContivRule → Int) (hL : LawfulCompare cmp)
    (cr : ContivRules) (r : ContivRule) (hs : cr.Sorted cmp) (hsame : cr.SameRules)
    (hn : cr.rules.Nodup) : (cr.Insert cmp r).1.rules.Nodup := by
  rcases Insert_cases_sorted cmp hL cr r hs with ⟨e, _⟩ | ⟨idx, e, hlo, hhi⟩
  · rw [e]; exact hn
  · rw [e]
    show (cr.rules ++ [r]).Nodup
    rw [List.nodup_append]
    refine ⟨hn, List.nodup_singleton r, ?_⟩
    intro x hx hx2
    rw [List.mem_singleton] at hx2
    subst hx2
    have hx3 := (hsame x).mpr hx
    rw [← List.take_append_drop idx cr.orderedRules, List.mem_append] at hx3
    have hxx : cmp x x = 0 := (hL.eq_iff x x).mpr rfl
    rcases hx3 with h | h
    · have := hlo x h; omega
    · have := hhi x h; omega

/-- After any run of `Insert` calls on the empty set the sorted list is strictly
increasing and a rearrangement of the insertion-order list. -/
theorem insertAll_invariant (cmp : ContivRule → ContivRule → Int) (hL : LawfulCompare cmp)
    (rs : List ContivRule) :
    (insertAll cmp { rules := [], orderedRules := [] } rs).Sorted cmp ∧
      (insertAll cmp { rules := [], orderedRules := [] } rs).orderedRules.Perm
        (insertAll cmp { rules := [], orderedRules := [] } rs).rules := by
  have hempty : ({ rules := [], orderedRules := [] } : ContivRules).Sorted cmp := by
    simp [ContivRules.Sorted]
  have hinv : ∀ (rs : List ContivRule) (cr : ContivRules), cr.Sorted cmp → cr.SameRules →
      cr.rules.Nodup → (insertAll cmp cr rs).rules.Nodup := by
    intro rs
    induction rs with
    | nil => intro cr _ _ hn; exact hn
    | cons r rest ih =>
      intro cr hs hsame hn
      rw [insertAll_cons]
      exact ih _ (Insert_sorted cmp hL cr r hs) (Insert_sameRules cmp cr r hsame)
        (Insert_nodup cmp hL cr r hs hsame hn)
  have hs := insertAll_sorted cmp hL rs _ hempty
  refine ⟨hs, ?_⟩
  have hne : ∀ a b, cmp a b < 0 → a ≠ b := by
    intro a b hab e
    rw [e, (hL.eq_iff b b).mpr rfl] at hab
    exact absurd hab (by decide)
  have n1 : (insertAll cmp { rules := [], orderedRules := [] } rs).orderedRules.Nodup :=
    hs.imp (fun {a b} hab => hne a b hab)
  exact (List.perm_ext_iff_of_nodup n1 (hinv rs _ hempty sameRules_empty List.nodup_nil)).mpr
    (insertAll_sameRules cmp rs _ sameRules_empty)


/-! ## `Commit` of a cache transaction: the global table and the configuration -/

theorem upToDate_flag (deps : CacheDeps) (rc : RendererCache) (rct rct1 : RendererCacheTxn)
    (h : upToDate deps rc rct = some rct1) :
    rct1.upToDateTables = true ∧ rct1.config = rct.config := by
  unfold upToDate at h
  by_cases hu : rct.upToDateTables = true
  · rw [if_pos hu] at h
    simp only [Option.some.injEq] at h
    rw [← h]
    exact ⟨hu, rfl⟩
  · rw [if_neg hu] at h
    unfold refreshTables at h
    cases hp : refreshPods deps rc rct (PodSet.Join (rct.GetAllPods rc) rct.GetRemovedPods)
        rct.localTables with
    | none => rw [hp] at h; cases h
    | some lt =>
      rw [hp] at h
      simp only at h
      cases hg : rebuildGlobalTable deps rc rct with
      | none => rw [hg] at h; cases h
      | some g =>
        rw [hg] at h
        simp only [Option.some.injEq] at h
        rw [← h]
        exact ⟨rfl, rfl⟩

theorem upToDate_idem (deps : CacheDeps) (rc : RendererCache) (rct rct1 : RendererCacheTxn)
    (h : upToDate deps rc rct = some rct1) : upToDate deps rc rct1 = some rct1 := by
  have := (upToDate_flag deps rc rct rct1 h).1
  unfold upToDate
  rw [if_pos this]

theorem cacheCommit_eq (deps : CacheDeps) (rc : RendererCache) (rct r : RendererCacheTxn)
    (g : Option ContivRuleTable) (hu : upToDate deps rc rct = some r)
    (hc : commitGlobalTable deps rc.globalTable r.globalTable = some g) :
    rct.Commit deps rc =
      some ({ rc with
          localTables := (commitConfig deps r.config
            (rc.config, r.localTables.tables.foldl (commitLocalTable deps) rc.localTables)).2,
          globalTable := g,
          config := (commitConfig deps r.config
            (rc.config, r.localTables.tables.foldl (commitLocalTable deps) rc.localTables)).1 },
        r) := by
  unfold RendererCacheTxn.Commit
  rw [hu]
  simp only [hc]

/-- `Commit` right after `GetGlobalTable`: the cache ends up with a global table
that has the rules of the table that `GetGlobalTable` returned; it is that table
when the rules differ from the ones of the cache, and the table of the cache
otherwise. -/
theorem commit_global_rules (deps : CacheDeps)
    (hcmp : ∀ a b, deps.compareRuleLists a b = 0 ↔ a = b) (rc : RendererCache)
    (rct rct1 : RendererCacheTxn) (tbl : Option ContivRuleTable)
    (hget : rct.GetGlobalTable deps rc = some (tbl, rct1))
    (hg : rc.globalTable.isSome = true) :
    ∃ rc1 rct2 t g cg, rct1.Commit deps rc = some (rc1, rct2) ∧ tbl = some t ∧
      rc.globalTable = some cg ∧ rc1.globalTable = some g ∧ g.Rules = t.Rules ∧
      (t.Rules ≠ cg.Rules → g = t) ∧ (t.Rules = cg.Rules → g = cg) := by
  obtain ⟨cg, hcg⟩ := Option.isSome_iff_exists.mp hg
  unfold RendererCacheTxn.GetGlobalTable at hget
  cases hu : upToDate deps rc rct with
  | none => rw [hu] at hget; cases hget
  | some r =>
    rw [hu] at hget
    simp only at hget
    have hidem := upToDate_idem deps rc rct r hu
    cases hrg : r.globalTable with
    | none =>
      rw [hrg] at hget
      simp only [Option.some.injEq, Prod.mk.injEq] at hget
      obtain ⟨h1, h2⟩ := hget
      subst h2
      have hc : commitGlobalTable deps rc.globalTable r.globalTable = some (some cg) := by
        simp only [commitGlobalTable, hrg, hcg]
      exact ⟨_, r, cg, cg, cg, cacheCommit_eq deps rc r r _ hidem hc, by rw [← h1, hcg], hcg,
        rfl, rfl, fun h => absurd rfl h, fun _ => rfl⟩
    | some g =>
      rw [hrg] at hget
      simp only [Option.some.injEq, Prod.mk.injEq] at hget
      obtain ⟨h1, h2⟩ := hget
      subst h2
      by_cases hne : deps.compareRuleLists g.Rules cg.Rules = 0
      · have he : g.Rules = cg.Rules := (hcmp _ _).mp hne
        have hc : commitGlobalTable deps rc.globalTable r.globalTable = some (some cg) := by
          simp only [commitGlobalTable, hrg, hcg, hne, ne_eq, not_true_eq_false, if_false]
        exact ⟨_, r, g, cg, cg, cacheCommit_eq deps rc r r _ hidem hc, h1.symm, hcg, rfl,
          he.symm, fun h => absurd he h, fun _ => rfl⟩
      · have he : g.Rules ≠ cg.Rules := fun c => hne ((hcmp _ _).mpr c)
        have hc : commitGlobalTable deps rc.globalTable r.globalTable = some (some g) := by
          simp only [commitGlobalTable, hrg, hcg, ne_eq, hne, not_false_eq_true, if_true]
        exact ⟨_, r, g, g, cg, cacheCommit_eq deps rc r r _ hidem hc, h1.symm, hcg, rfl, rfl,
          fun _ => rfl, fun h => absurd h he⟩

/-! ### The configuration overlay -/

theorem find_filter_ne (config : Config) (pod p : PodID) (hp : p ≠ pod) :
    (config.filter (fun entry => decide (entry.1 ≠ pod))).find?
        (fun entry => decide (entry.1 = p)) =
      config.find? (fun entry => decide (entry.1 = p)) := by
  induction config with
  | nil => rfl
  | cons e rest ih =>
    by_cases he : e.1 = pod
    · have hep : ¬ e.1 = p := fun c => hp (c.symm.trans he)
      rw [List.filter_cons_of_neg (by simpa using he), List.find?_cons_of_neg _ (by simpa using hep)]
      exact ih
    · rw [List.filter_cons_of_pos (by simpa using he)]
      by_cases hep : e.1 = p
      · rw [List.find?_cons_of_pos _ (by simpa using hep),
          List.find?_cons_of_pos _ (by simpa using hep)]
      · rw [List.find?_cons_of_neg _ (by simpa using hep),
          List.find?_cons_of_neg _ (by simpa using hep)]
        exact ih

theorem Config.get_set (config : Config) (pod p : PodID) (podCfg : PodConfig) :
    Config.get (Config.set config pod podCfg) p =
      if p = pod then some podCfg else Config.get config p := by
  unfold Config.get Config.set
  rw [List.find?_append]
  by_cases hp : p = pod
  · subst hp
    have : (config.filter (fun entry => decide (entry.1 ≠ p))).find?
        (fun entry => decide (entry.1 = p)) = none := by
      rw [List.find?_eq_none]
      intro x hx
      have := (List.mem_filter.mp hx).2
      simpa using this
    rw [this]
    simp
  · rw [if_neg hp]
    have h1 := find_filter_ne config pod p hp
    rw [h1]
    cases config.find? (fun entry => decide (entry.1 = p)) with
    | some e => rfl
    | none =>
      have : ¬ pod = p := fun c => hp c.symm
      simp [this]

theorem Config.get_delete (config : Config) (pod p : PodID) :
    Config.get (Config.delete config pod) p = if p = pod then none else Config.get config p := by
  unfold Config.get Config.delete
  by_cases hp : p = pod
  · subst hp
    have : (config.filter (fun entry => decide (entry.1 ≠ p))).find?
        (fun entry => decide (entry.1 = p)) = none := by
      rw [List.find?_eq_none]
      intro x hx
      have := (List.mem_filter.mp hx).2
      simpa using this
    rw [this]
    simp
  · rw [if_neg hp]
    have h1 := find_filter_ne config pod p hp
    rw [h1]

/-- The configuration of the cache after the loop of `Commit` over the
configuration of a transaction whose pods are distinct. -/
theorem commitConfig_get (deps : CacheDeps) (entries : List (PodID × PodConfig))
    (hn : (entries.map Prod.fst).Nodup) (acc : Config × LocalTables) (p : PodID) :
    Config.get (commitConfig deps entries acc).1 p =
      match Config.get entries p with
      | some podCfg => if podCfg.Removed then none else some podCfg
      | none => Config.get acc.1 p := by
  induction entries generalizing acc with
  | nil => simp [commitConfig, Config.get]
  | cons e rest ih =>
    rw [List.map_cons, List.nodup_cons] at hn
    have hrest : e.1 = p → Config.get rest p = none := by
      intro hep
      cases hc : Config.get rest p with
      | none => rfl
      | some c =>
        have := (Config.get_isSome_iff rest p).mp (by rw [hc]; rfl)
        rw [← hep] at this
        exact absurd this hn.1
    have hget : Config.get (e :: rest) p = if e.1 = p then some e.2 else Config.get rest p := by
      unfold Config.get
      by_cases hep : e.1 = p
      · simp [hep]
      · simp [hep]
    rw [hget]
    simp only [commitConfig]
    by_cases hr : e.2.Removed = true
    · rw [if_pos hr, ih hn.2]
      by_cases hep : e.1 = p
      · rw [if_pos hep, hrest hep]
        simp only [hr, if_true]
        rw [Config.get_delete, if_pos hep.symm]
      · rw [if_neg hep]
        simp only
        rw [Config.get_delete, if_neg (fun c => hep c.symm)]
    · rw [if_neg hr, ih hn.2]
      by_cases hep : e.1 = p
      · rw [if_pos hep, hrest hep]
        simp only [hr, Bool.false_eq_true, if_false]
        rw [Config.get_set, if_pos hep.symm]
      · rw [if_neg hep]
        simp only
        rw [Config.get_set, if_neg (fun c => hep c.symm)]

theorem mem_keys_iff_get (config : Config) (p : PodID) :
    p ∈ config.map Prod.fst ↔ ∃ podCfg, Config.get config p = some podCfg := by
  rw [← Config.get_isSome_iff, Option.isSome_iff_exists]

/-- The pods that `GetAllPods` of a transaction returns: the pods of the cache and
the pods of the transaction, without the pods that the transaction removes. -/
theorem mem_txn_GetAllPods (rc : RendererCache) (rct : RendererCacheTxn)
    (hn : (rct.config.map Prod.fst).Nodup) (p : PodID) :
    p ∈ rct.GetAllPods rc ↔
      match Config.get rct.config p with
      | some podCfg => podCfg.Removed = false
      | none => p ∈ rc.config.map Prod.fst := by
  unfold RendererCacheTxn.GetAllPods
  have key : ∀ (entries : List (PodID × PodConfig)) (acc : PodSet),
      (entries.map Prod.fst).Nodup →
      (p ∈ entries.foldl
          (fun pods entry =>
            if !entry.2.Removed then PodSet.Add pods entry.1 else PodSet.Remove pods entry.1) acc ↔
        match Config.get entries p with
        | some podCfg => podCfg.Removed = false
        | none => p ∈ acc) := by
    intro entries
    induction entries with
    | nil => intro acc _; simp [Config.get]
    | cons e rest ih =>
      intro acc hn
      rw [List.map_cons, List.nodup_cons] at hn
      simp only [List.foldl_cons]
      rw [ih _ hn.2]
      have hget : Config.get (e :: rest) p = if e.1 = p then some e.2 else Config.get rest p := by
        unfold Config.get
        by_cases hep : e.1 = p
        · simp [hep]
        · simp [hep]
      rw [hget]
      by_cases hep : e.1 = p
      · have hrest : Config.get rest p = none := by
          cases hc : Config.get rest p with
          | none => rfl
          | some c =>
            have := (Config.get_isSome_iff rest p).mp (by rw [hc]; rfl)
            rw [← hep] at this
            exact absurd this hn.1
        rw [if_pos hep, hrest]
        simp only
        by_cases hr : e.2.Removed = true
        · simp only [hr, Bool.not_true, Bool.false_eq_true, if_false, PodSet.mem_Remove]
          simp [hep]
        · simp only [hr, Bool.not_false, if_true, PodSet.mem_Add]
          simp [hep, hr]
      · rw [if_neg hep]
        cases hc : Config.get rest p with
        | some c => rfl
        | none =>
          simp only
          by_cases hr : e.2.Removed = true
          · simp only [hr, Bool.not_true, Bool.false_eq_true, if_false, PodSet.mem_Remove]
            exact ⟨fun h => h.1, fun h => ⟨h, fun c => hep c.symm⟩⟩
          · simp only [hr, Bool.not_false, if_true, PodSet.mem_Add]
            exact ⟨fun h => h.resolve_right (fun c => hep c.symm), Or.inl⟩
  rw [key rct.config rc.GetAllPods hn]
  cases Config.get rct.config p with
  | some c => rfl
  | none => simp only [mem_GetAllPods]

/-- `Commit` returns on a cache with a global table when every pod configuration in
sight has a pod IP. -/
theorem cacheCommit_isSome (deps : CacheDeps) (rc : RendererCache) (rct : RendererCacheTxn)
    (hg : rc.globalTable.isSome = true) (hip : PodIPsSet rc rct) :
    ∃ rc1 rct1, rct.Commit deps rc = some (rc1, rct1) := by
  have hu : ∃ r, upToDate deps rc rct = some r := by
    unfold upToDate
    split
    · exact ⟨rct, rfl⟩
    · exact refreshTables_isSome deps rc rct hip
  obtain ⟨r, hr⟩ := hu
  obtain ⟨cg, hcg⟩ := Option.isSome_iff_exists.mp hg
  unfold RendererCacheTxn.Commit
  rw [hr]
  simp only
  have : ∃ g, commitGlobalTable deps rc.globalTable r.globalTable = some g := by
    unfold commitGlobalTable
    rw [hcg]
    cases r.globalTable with
    | none => exact ⟨_, rfl⟩
    | some g =>
      simp only
      split
      · exact ⟨_, rfl⟩
      · exact ⟨_, rfl⟩
  obtain ⟨g, hgl⟩ := this
  rw [hgl]
  exact ⟨_, _, rfl⟩

/-- The configuration of the cache after `Commit` of a transaction whose pods are
distinct: the overlay of the transaction on the configuration before. -/
theorem commit_overlay (deps : CacheDeps) (rc rc1 : RendererCache)
    (rct rct1 : RendererCacheTxn) (hn : (rct.config.map Prod.fst).Nodup)
    (h : rct.Commit deps rc = some (rc1, rct1)) :
    (∀ p, rc1.GetPodConfig p =
      match Config.get rct.config p with
      | some podCfg => if podCfg.Removed then none else some podCfg
      | none => rc.GetPodConfig p) ∧
    ∀ p, p ∈ rc1.GetAllPods ↔ p ∈ rct.GetAllPods rc := by
  unfold RendererCacheTxn.Commit at h
  cases hu : upToDate deps rc rct with
  | none => rw [hu] at h; cases h
  | some r =>
    rw [hu] at h
    simp only at h
    have hcfg := (upToDate_flag deps rc rct r hu).2
    cases hc : commitGlobalTable deps rc.globalTable r.globalTable with
    | none => rw [hc] at h; cases h
    | some g =>
      rw [hc] at h
      simp only [Option.some.injEq, Prod.mk.injEq] at h
      obtain ⟨h1, _⟩ := h
      have hget : ∀ p, rc1.GetPodConfig p =
          match Config.get rct.config p with
          | some podCfg => if podCfg.Removed then none else some podCfg
          | none => rc.GetPodConfig p := by
        intro p
        rw [← h1]
        unfold RendererCache.GetPodConfig
        simp only
        rw [commitConfig_get deps r.config (by rw [hcfg]; exact hn), hcfg]
      refine ⟨hget, fun p => ?_⟩
      rw [mem_GetAllPods, mem_keys_iff_get, mem_txn_GetAllPods rc rct hn]
      have := hget p
      unfold RendererCache.GetPodConfig at this
      rw [this]
      cases hcp : Config.get rct.config p with
      | some c =>
        simp only
        by_cases hr : c.Removed = true
        · simp [hr]
        · simp [hr]
      | none =>
        simp only
        rw [mem_keys_iff_get]


/-! ## The local tables in the result of `GetChanges` -/

theorem PodSet.Equals_iff (s s2 : PodSet) :
    PodSet.Equals s s2 = true ↔ ∀ p, p ∈ s ↔ p ∈ s2 := by
  unfold PodSet.Equals
  simp only [Bool.and_eq_true, List.all_eq_true, decide_eq_true_eq]
  constructor
  · rintro ⟨h1, h2⟩ p
    exact ⟨h1 p, h2 p⟩
  · intro h
    exact ⟨fun p hp => (h p).mp hp, fun p hp => (h p).mpr hp⟩

/-- The loop of `GetChanges` over the local tables reports a table exactly when it
has rules and either no table of the cache has its ID and it has pods, or the
table of the cache with its ID has other pods. -/
theorem localChanges_iff (deps : CacheDeps) (rc : RendererCache) (tables : List ContivRuleTable)
    (ch : TxnChange) :
    ch ∈ localChanges deps rc tables ↔
      ∃ t ∈ tables, t.NumOfRules ≠ 0 ∧
        ((deps.LookupByID rc.localTables (deps.GetID t) = none ∧ t.Pods ≠ [] ∧
            ch = { Table := t, PreviousPods := [] }) ∨
          ∃ orig, deps.LookupByID rc.localTables (deps.GetID t) = some orig ∧
            PodSet.Equals t.Pods orig.Pods = false ∧
            ch = { Table := t, PreviousPods := orig.Pods }) := by
  induction tables with
  | nil => simp [localChanges]
  | cons t rest ih =>
    simp only [localChanges, List.mem_cons, exists_eq_or_imp]
    by_cases hn : t.NumOfRules = 0
    · rw [if_pos hn, ih]
      simp [hn]
    · rw [if_neg hn]
      cases ho : deps.LookupByID rc.localTables (deps.GetID t) with
      | none =>
        simp only [and_true, Bool.false_eq_true, if_false, reduceCtorEq, false_and,
          exists_false, or_false, true_and, ne_eq, hn, not_false_eq_true]
        by_cases hp : t.Pods.length = 0
        · rw [if_pos hp, ih]
          have : t.Pods = [] := List.length_eq_zero.mp hp
          simp [this]
        · rw [if_neg hp, List.mem_cons, ih]
          have : t.Pods ≠ [] := fun c => hp (by rw [c]; rfl)
          simp [this, NewPodSet]
      | some orig =>
        simp only [reduceCtorEq, and_false, if_false, false_and, Option.some.injEq,
          exists_eq_left', false_or, ne_eq, hn, not_false_eq_true, true_and]
        by_cases he : PodSet.Equals t.Pods orig.Pods = true
        · rw [if_pos he, ih]
          simp [he]
        · rw [if_neg he, List.mem_cons, ih]
          simp [he]

theorem upToDate_global (deps : CacheDeps) (rc : RendererCache) (rct r : RendererCacheTxn)
    (hglobal : ∀ g, rct.upToDateTables = true → rct.globalTable = some g →
      g.Typ = TableType.Global)
    (hu : upToDate deps rc rct = some r) (g : ContivRuleTable) (hg : r.globalTable = some g) :
    g.Typ = TableType.Global := by
  unfold upToDate at hu
  by_cases hf : rct.upToDateTables = true
  · rw [if_pos hf] at hu
    simp only [Option.some.injEq] at hu
    rw [← hu] at hg
    exact hglobal g hf hg
  · rw [if_neg hf] at hu
    unfold refreshTables at hu
    cases hp : refreshPods deps rc rct (PodSet.Join (rct.GetAllPods rc) rct.GetRemovedPods)
        rct.localTables with
    | none => rw [hp] at hu; cases hu
    | some lt =>
      rw [hp] at hu
      simp only at hu
      cases hr : rebuildGlobalTable deps rc rct with
      | none => rw [hr] at hu; cases hu
      | some g2 =>
        rw [hr] at hu
        simp only [Option.some.injEq] at hu
        rw [← hu] at hg
        simp only [Option.some.injEq] at hg
        rw [← hg]
        exact rebuildGlobalTable_typ deps rc rct g2 hr

theorem globalChanges_table (deps : CacheDeps) (rc : RendererCache) (r : RendererCacheTxn)
    (gl : List TxnChange) (h : globalChanges deps rc r = some gl) (ch : TxnChange)
    (hc : ch ∈ gl) : r.globalTable = some ch.Table := by
  unfold globalChanges at h
  cases hg : r.globalTable with
  | none =>
    rw [hg] at h
    simp only [Option.some.injEq] at h
    rw [← h] at hc
    cases hc
  | some g =>
    rw [hg] at h
    simp only at h
    cases hcg : rc.globalTable with
    | none => rw [hcg] at h; cases h
    | some cg =>
      rw [hcg] at h
      simp only at h
      split at h
      · simp only [Option.some.injEq] at h
        rw [← h, List.mem_singleton] at hc
        rw [hc]
      · simp only [Option.some.injEq] at h
        rw [← h] at hc
        cases hc

/-- The result of `GetChanges` holds a Local table of the transaction exactly when
the table has rules and either no table of the cache has its ID and it has pods,
or the table of the cache with its ID has other pods. -/
theorem getChanges_local (deps : CacheDeps) (rc : RendererCache) (rct rct1 : RendererCacheTxn)
    (hglobal : ∀ g, rct.upToDateTables = true → rct.globalTable = some g →
      g.Typ = TableType.Global)
    (changes : List TxnChange) (h : rct.GetChanges deps rc = some (changes, rct1))
    (t : ContivRuleTable) (ht : t ∈ rct1.localTables.tables) (hl : t.Typ = TableType.Local) :
    (∃ ch ∈ changes, ch.Table = t) ↔
      t.NumOfRules ≠ 0 ∧
        ((deps.LookupByID rc.localTables (deps.GetID t) = none ∧ t.Pods ≠ []) ∨
          ∃ orig, deps.LookupByID rc.localTables (deps.GetID t) = some orig ∧
            ¬ ∀ p, p ∈ t.Pods ↔ p ∈ orig.Pods) := by
  unfold RendererCacheTxn.GetChanges at h
  cases hu : upToDate deps rc rct with
  | none => rw [hu] at h; cases h
  | some r =>
    rw [hu] at h
    simp only at h
    cases hgc : globalChanges deps rc r with
    | none => rw [hgc] at h; cases h
    | some gl =>
      rw [hgc] at h
      simp only [Option.some.injEq, Prod.mk.injEq] at h
      obtain ⟨hch, hr⟩ := h
      subst hr
      rw [← hch]
      constructor
      · rintro ⟨ch, hc, hct⟩
        rcases List.mem_append.mp hc with hc | hc
        · obtain ⟨t2, _, hn, hcase⟩ := (localChanges_iff deps rc _ ch).mp hc
          rcases hcase with ⟨h1, h2, h3⟩ | ⟨orig, h1, h2, h3⟩
          · have : t2 = t := by rw [← hct, h3]
            subst this
            exact ⟨hn, Or.inl ⟨h1, h2⟩⟩
          · have : t2 = t := by rw [← hct, h3]
            subst this
            refine ⟨hn, Or.inr ⟨orig, h1, ?_⟩⟩
            rw [← PodSet.Equals_iff, h2]
            exact fun c => by cases c
        · have hg := globalChanges_table deps rc r gl hgc ch hc
          have := upToDate_global deps rc rct r hglobal hu ch.Table hg
          rw [hct, hl] at this
          cases this
      · rintro ⟨hn, hcase⟩
        rcases hcase with ⟨h1, h2⟩ | ⟨orig, h1, h2⟩
        · exact ⟨{ Table := t, PreviousPods := [] },
            List.mem_append_left _ ((localChanges_iff deps rc _ _).mpr
              ⟨t, ht, hn, Or.inl ⟨h1, h2, rfl⟩⟩), rfl⟩
        · refine ⟨{ Table := t, PreviousPods := orig.Pods },
            List.mem_append_left _ ((localChanges_iff deps rc _ _).mpr
              ⟨t, ht, hn, Or.inr ⟨orig, h1, ?_, rfl⟩⟩), rfl⟩
          rw [← PodSet.Equals_iff] at h2
          simpa using h2


/-! ## `installLocalRules` on sorted tables, and the order of the source pods -/

theorem InsertRule_sorted (cmp : ContivRule → ContivRule → Int) (hL : LawfulCompare cmp)
    (table : ContivRuleTable) (rule : ContivRule) (hs : table.Sorted cmp) :
    (table.InsertRule cmp rule).1.Sorted cmp :=
  Insert_sorted cmp hL { rules := [], orderedRules := table.Rules } rule hs

theorem InsertRule_mem (cmp : ContivRule → ContivRule → Int)
    (hE : ∀ a b, cmp a b = 0 → a = b) (table : ContivRuleTable) (rule x : ContivRule) :
    x ∈ (table.InsertRule cmp rule).1.Rules ↔ x ∈ table.Rules ∨ x = rule := by
  unfold ContivRuleTable.InsertRule
  simp only
  rcases Insert_cases cmp { rules := [], orderedRules := table.Rules } rule with
    ⟨e, y, hy, hc⟩ | ⟨idx, _, e⟩
  · rw [e]
    simp only
    constructor
    · exact Or.inl
    · rintro (h | h)
      · exact h
      · rw [h, hE rule y hc]; exact hy
  · rw [e]
    exact mem_take_drop _ _ _ _

theorem InsertRule_fields (cmp : ContivRule → ContivRule → Int) (table : ContivRuleTable)
    (rule : ContivRule) :
    (table.InsertRule cmp rule).1.Typ = table.Typ ∧
      (table.InsertRule cmp rule).1.Pods = table.Pods ∧
      (table.InsertRule cmp rule).1.Private = table.Private := ⟨rfl, rfl, rfl⟩

theorem insertRules_sorted (cmp : ContivRule → ContivRule → Int) (hL : LawfulCompare cmp)
    (rs : List ContivRule) (table : ContivRuleTable) (hs : table.Sorted cmp) :
    (insertRules cmp table rs).Sorted cmp := by
  induction rs generalizing table with
  | nil => exact hs
  | cons r rest ih => exact ih _ (InsertRule_sorted cmp hL table r hs)

theorem insertRules_mem (cmp : ContivRule → ContivRule → Int)
    (hE : ∀ a b, cmp a b = 0 → a = b) (rs : List ContivRule) (table : ContivRuleTable)
    (x : ContivRule) : x ∈ (insertRules cmp table rs).Rules ↔ x ∈ table.Rules ∨ x ∈ rs := by
  induction rs generalizing table with
  | nil => simp [insertRules]
  | cons r rest ih =>
    show x ∈ (insertRules cmp (table.InsertRule cmp r).1 rest).Rules ↔ _
    rw [ih, InsertRule_mem cmp hE]
    simp only [List.mem_cons]
    tauto

theorem insertRules_fields (cmp : ContivRule → ContivRule → Int) (rs : List ContivRule)
    (table : ContivRuleTable) :
    (insertRules cmp table rs).Typ = table.Typ ∧ (insertRules cmp table rs).Pods = table.Pods ∧
      (insertRules cmp table rs).Private = table.Private := by
  induction rs generalizing table with
  | nil => exact ⟨rfl, rfl, rfl⟩
  | cons r rest ih =>
    have := ih (table.InsertRule cmp r).1
    exact this

theorem insertRules_append (cmp : ContivRule → ContivRule → Int) (rs rs2 : List ContivRule)
    (table : ContivRuleTable) :
    insertRules cmp table (rs ++ rs2) = insertRules cmp (insertRules cmp table rs) rs2 := by
  unfold insertRules; rw [List.foldl_append]

theorem installAllowedPorts_eq (deps : CacheDeps) (orientation : Orientation)
    (dstTable : ContivRuleTable) (srcPodIP : IPNet) (allowedPorts : Ports)
    (protocol : renderer.ProtocolType) :
    installAllowedPorts deps orientation dstTable srcPodIP allowedPorts protocol =
      insertRules deps.Compare dstTable
        (allowedPortRules deps orientation srcPodIP allowedPorts protocol) := by
  unfold installAllowedPorts allowedPortRules
  simp only
  by_cases h : deps.HasExplicit allowedPorts AnyPort = true
  · rw [if_pos h, if_pos h]; rfl
  · rw [if_neg h, if_neg h]
    unfold insertRules
    rw [List.foldl_map]
    rfl

/-- What `installLocalRules` does: nothing unless it restricts the pair; then the
rules anchored on the source pod leave the table and the rules of the pair are
inserted. -/
theorem installLocalRules_eq (deps : CacheDeps) (orientation : Orientation)
    (dstTable : ContivRuleTable) (dstPodCfg srcPodCfg : PodConfig) :
    installLocalRules deps orientation dstTable dstPodCfg srcPodCfg =
      if restricts deps orientation dstPodCfg srcPodCfg then
        match srcPodCfg.PodIP with
        | none => none
        | some srcPodIP =>
          some (insertRules deps.Compare
            (dstTable.RemoveByPredicate (anchoredOn orientation srcPodIP))
            (restrictRules deps orientation dstPodCfg srcPodCfg srcPodIP))
      else some dstTable := by
  unfold installLocalRules restricts restrictRules
  simp only [srcPorts, dstPorts]
  cases orientation
  all_goals
    simp only [reduceCtorEq, if_true, if_false]
    split
    · rename_i h
      simp [h]
    · rename_i h
      simp only [h, Bool.not_false, Bool.true_and]
      split
      · cases srcPodCfg.PodIP with
        | none => rfl
        | some ip =>
          simp only
          rw [installAllowedPorts_eq, installAllowedPorts_eq, insertRules_append,
            insertRules_append]
          rfl
      · rfl

theorem table_eq (a b : ContivRuleTable) (h1 : a.Typ = b.Typ) (h2 : a.Rules = b.Rules)
    (h3 : a.Pods = b.Pods) (h4 : a.Private = b.Private) : a = b := by
  cases a; cases b
  simp only at h1 h2 h3 h4
  simp [h1, h2, h3, h4]

theorem RemoveByPredicate_sorted (cmp : ContivRule → ContivRule → Int) (table : ContivRuleTable)
    (p : ContivRule → Bool) (hs : table.Sorted cmp) : (table.RemoveByPredicate p).Sorted cmp :=
  List.Pairwise.sublist (List.filter_sublist _) hs

theorem RemoveByPredicate_mem (table : ContivRuleTable) (p : ContivRule → Bool) (x : ContivRule) :
    x ∈ (table.RemoveByPredicate p).Rules ↔ x ∈ table.Rules ∧ p x = false := by
  unfold ContivRuleTable.RemoveByPredicate
  simp

theorem allowedPortRules_anchor (deps : CacheDeps) (orientation : Orientation) (srcPodIP : IPNet)
    (allowedPorts : Ports) (protocol : renderer.ProtocolType) (x : ContivRule)
    (hx : x ∈ allowedPortRules deps orientation srcPodIP allowedPorts protocol) :
    anchor orientation x = srcPodIP := by
  unfold allowedPortRules at hx
  split at hx
  · rw [List.mem_singleton] at hx
    rw [hx]
    cases orientation <;> rfl
  · obtain ⟨port, _, rfl⟩ := List.mem_map.mp hx
    cases orientation <;> rfl

theorem restrictRules_anchor (deps : CacheDeps) (orientation : Orientation)
    (dstPodCfg srcPodCfg : PodConfig) (srcPodIP : IPNet) (x : ContivRule)
    (hx : x ∈ restrictRules deps orientation dstPodCfg srcPodCfg srcPodIP) :
    anchor orientation x = srcPodIP := by
  unfold restrictRules at hx
  simp only [List.mem_append, List.mem_singleton] at hx
  rcases hx with (h | h) | h
  · exact allowedPortRules_anchor deps orientation srcPodIP _ _ x h
  · exact allowedPortRules_anchor deps orientation srcPodIP _ _ x h
  · rw [h]
    cases orientation <;> rfl

theorem anchoredOn_of_distinct (orientation : Orientation) (ip ip2 : IPNet) (x : ContivRule)
    (hx : anchor orientation x = ip) (hd : ipEqual ip.IP ip2.IP = false) :
    anchoredOn orientation ip2 x = false := by
  unfold anchoredOn
  unfold anchor at hx
  simp only [hx, hd, or_true, if_true]
  split <;> rfl

/-- The table after `installLocalRules` restricted a pair. -/
theorem restricted_spec (deps : CacheDeps) (hL : LawfulCompare deps.Compare)
    (orientation : Orientation) (table : ContivRuleTable) (rs : List ContivRule) (ip : IPNet)
    (hs : table.Sorted deps.Compare) :
    (insertRules deps.Compare (table.RemoveByPredicate (anchoredOn orientation ip)) rs).Sorted
        deps.Compare ∧
      (∀ x, x ∈ (insertRules deps.Compare
          (table.RemoveByPredicate (anchoredOn orientation ip)) rs).Rules ↔
        (x ∈ table.Rules ∧ anchoredOn orientation ip x = false) ∨ x ∈ rs) := by
  refine ⟨insertRules_sorted _ hL rs _ (RemoveByPredicate_sorted _ table _ hs), fun x => ?_⟩
  rw [insertRules_mem _ (fun a b => (hL.eq_iff a b).mp), RemoveByPredicate_mem]

/-- Two restrictions for source pods with different IPs commute. -/
theorem restricted_comm (deps : CacheDeps) (hL : LawfulCompare deps.Compare)
    (orientation : Orientation) (table : ContivRuleTable) (rs1 rs2 : List ContivRule)
    (ip1 ip2 : IPNet) (hs : table.Sorted deps.Compare)
    (h1 : ∀ x ∈ rs1, anchor orientation x = ip1) (h2 : ∀ x ∈ rs2, anchor orientation x = ip2)
    (hd12 : ipEqual ip1.IP ip2.IP = false) (hd21 : ipEqual ip2.IP ip1.IP = false) :
    insertRules deps.Compare
        ((insertRules deps.Compare (table.RemoveByPredicate (anchoredOn orientation ip1))
          rs1).RemoveByPredicate (anchoredOn orientation ip2)) rs2 =
      insertRules deps.Compare
        ((insertRules deps.Compare (table.RemoveByPredicate (anchoredOn orientation ip2))
          rs2).RemoveByPredicate (anchoredOn orientation ip1)) rs1 := by
  obtain ⟨s1, m1⟩ := restricted_spec deps hL orientation table rs1 ip1 hs
  obtain ⟨s2, m2⟩ := restricted_spec deps hL orientation table rs2 ip2 hs
  obtain ⟨s12, m12⟩ := restricted_spec deps hL orientation _ rs2 ip2 s1
  obtain ⟨s21, m21⟩ := restricted_spec deps hL orientation _ rs1 ip1 s2
  apply table_eq
  · rw [(insertRules_fields _ _ _).1, (insertRules_fields _ _ _).1]
    show (insertRules _ _ _).Typ = (insertRules _ _ _).Typ
    rw [(insertRules_fields _ _ _).1, (insertRules_fields _ _ _).1]
    rfl
  · apply sorted_unique deps.Compare hL _ _ s12 s21
    intro x
    rw [m12, m21, m1, m2]
    have a12 : x ∈ rs1 → anchoredOn orientation ip2 x = false :=
      fun hx => anchoredOn_of_distinct orientation ip1 ip2 x (h1 x hx) hd12
    have a21 : x ∈ rs2 → anchoredOn orientation ip1 x = false :=
      fun hx => anchoredOn_of_distinct orientation ip2 ip1 x (h2 x hx) hd21
    tauto
  · rw [(insertRules_fields _ _ _).2.1, (insertRules_fields _ _ _).2.1]
    show (insertRules _ _ _).Pods = (insertRules _ _ _).Pods
    rw [(insertRules_fields _ _ _).2.1, (insertRules_fields _ _ _).2.1]
    rfl
  · rw [(insertRules_fields _ _ _).2.2, (insertRules_fields _ _ _).2.2]
    show (insertRules _ _ _).Private = (insertRules _ _ _).Private
    rw [(insertRules_fields _ _ _).2.2, (insertRules_fields _ _ _).2.2]
    rfl

theorem installLocalRules_sorted (deps : CacheDeps) (hL : LawfulCompare deps.Compare)
    (orientation : Orientation) (table table1 : ContivRuleTable) (dstPodCfg srcPodCfg : PodConfig)
    (hs : table.Sorted deps.Compare)
    (h : installLocalRules deps orientation table dstPodCfg srcPodCfg = some table1) :
    table1.Sorted deps.Compare := by
  rw [installLocalRules_eq] at h
  split at h
  · cases hip : srcPodCfg.PodIP with
    | none => rw [hip] at h; cases h
    | some ip =>
      rw [hip] at h
      simp only [Option.some.injEq] at h
      rw [← h]
      exact (restricted_spec deps hL orientation table _ ip hs).1
  · simp only [Option.some.injEq] at h
    rw [← h]; exact hs

/-- Two steps of the loop over the source pods commute when the two pods are the
same or have different pod IPs. -/
theorem installAllLocalRules_swap (deps : CacheDeps) (hL : LawfulCompare deps.Compare)
    (orientation : Orientation) (view : PodID → Option PodConfig) (dstPodCfg : PodConfig)
    (x y : PodID) (rest : List PodID) (table : ContivRuleTable)
    (hs : table.Sorted deps.Compare)
    (hd : ∀ cx cy ipx ipy, view x = some cx → view y = some cy → cx.PodIP = some ipx →
      cy.PodIP = some ipy → x ≠ y → ipEqual ipx.IP ipy.IP = false ∧ ipEqual ipy.IP ipx.IP = false) :
    installAllLocalRules deps orientation view dstPodCfg (y :: x :: rest) table =
      installAllLocalRules deps orientation view dstPodCfg (x :: y :: rest) table := by
  by_cases hxy : x = y
  · rw [hxy]
  simp only [installAllLocalRules]
  cases hvx : view x with
  | none =>
    simp only
    cases hvy : view y with
    | none => rfl
    | some cy =>
      simp only
      cases installLocalRules deps orientation table dstPodCfg cy with
      | none => rfl
      | some t1 => simp only [hvx]
  | some cx =>
    cases hvy : view y with
    | none =>
      simp only
      cases installLocalRules deps orientation table dstPodCfg cx with
      | none => rfl
      | some t1 => simp only [hvy]
    | some cy =>
      simp only [installLocalRules_eq]
      by_cases hrx : restricts deps orientation dstPodCfg cx = true
      · by_cases hry : restricts deps orientation dstPodCfg cy = true
        · simp only [hrx, hry, if_true]
          cases hix : cx.PodIP with
          | none =>
            simp only
            cases cy.PodIP <;> rfl
          | some ipx =>
            cases hiy : cy.PodIP with
            | none => rfl
            | some ipy =>
              simp only
              obtain ⟨d1, d2⟩ := hd cx cy ipx ipy hvx hvy hix hiy hxy
              rw [restricted_comm deps hL orientation table
                (restrictRules deps orientation dstPodCfg cy ipy)
                (restrictRules deps orientation dstPodCfg cx ipx) ipy ipx hs
                (fun r hr => restrictRules_anchor deps orientation dstPodCfg cy ipy r hr)
                (fun r hr => restrictRules_anchor deps orientation dstPodCfg cx ipx r hr) d2 d1]
        · simp only [hrx, hry, if_true, Bool.false_eq_true, if_false]
      · by_cases hry : restricts deps orientation dstPodCfg cy = true
        · simp only [hrx, hry, if_true, Bool.false_eq_true, if_false]
        · simp only [hrx, hry, Bool.false_eq_true, if_false]

theorem distinctPodIPs_perm (view : PodID → Option PodConfig) (l l2 : List PodID)
    (hp : l.Perm l2) (h : DistinctPodIPs view l) : DistinctPodIPs view l2 :=
  fun p hp1 q hq1 => h p (hp.mem_iff.mpr hp1) q (hp.mem_iff.mpr hq1)

/-- The loop over the source pods gives the same table for every order of the
pods, when different pods have different pod IPs. -/
theorem installAllLocalRules_perm (deps : CacheDeps) (hL : LawfulCompare deps.Compare)
    (orientation : Orientation) (view : PodID → Option PodConfig) (dstPodCfg : PodConfig)
    (l l2 : List PodID) (hp : l.Perm l2) (hd : DistinctPodIPs view l)
    (table : ContivRuleTable) (hs : table.Sorted deps.Compare) :
    installAllLocalRules deps orientation view dstPodCfg l table =
      installAllLocalRules deps orientation view dstPodCfg l2 table := by
  induction hp generalizing table with
  | nil => rfl
  | cons x hp ih =>
    rename_i l1 l3
    simp only [installAllLocalRules]
    cases hv : view x with
    | none => rfl
    | some cx =>
      simp only
      cases hi : installLocalRules deps orientation table dstPodCfg cx with
      | none => rfl
      | some t1 =>
        simp only
        exact ih (fun p hp1 q hq1 => hd p (List.mem_cons_of_mem _ hp1) q
          (List.mem_cons_of_mem _ hq1)) t1
          (installLocalRules_sorted deps hL orientation table t1 dstPodCfg cx hs hi)
  | swap x y l =>
    apply installAllLocalRules_swap deps hL orientation view dstPodCfg x y l table hs
    intro cx cy ipx ipy h1 h2 h3 h4 hne
    exact ⟨hd x (by simp) y (by simp) hne cx cy ipx ipy h1 h2 h3 h4,
      hd y (by simp) x (by simp) (fun c => hne c.symm) cy cx ipy ipx h2 h1 h4 h3⟩
  | trans hp1 hp2 ih1 ih2 =>
    rw [ih1 hd table hs]
    exact ih2 (distinctPodIPs_perm view _ _ hp1 hd) table hs

/-- The table that `buildLocalTable` builds does not depend on the order in which
`GetAllPods` lists the pods, when different pods have different pod IPs. -/
theorem buildLocalTable_order (deps : CacheDeps) (hL : LawfulCompare deps.Compare)
    (rc rc2 : RendererCache) (rct rct2 : RendererCacheTxn)
    (ho : rc2.orientation = rc.orientation)
    (hview : ∀ p, rct2.GetPodConfig rc2 p = rct.GetPodConfig rc p)
    (hperm : (rct.GetAllPods rc).Perm (rct2.GetAllPods rc2))
    (hd : DistinctPodIPs (rct.GetPodConfig rc) (rct.GetAllPods rc))
    (dstPodID : PodID) (dstPodCfg : PodConfig) :
    buildLocalTable deps rc2 rct2 dstPodID dstPodCfg =
      buildLocalTable deps rc rct dstPodID dstPodCfg := by
  have hv : rct2.GetPodConfig rc2 = rct.GetPodConfig rc := funext hview
  unfold buildLocalTable
  simp only [ho, hv]
  split
  · rfl
  · have hsorted : ContivRuleTable.Sorted deps.Compare
        ((if rc.orientation = Orientation.EgressOrientation then dstPodCfg.Egress
          else dstPodCfg.Ingress).foldl (fun t rule => (t.InsertRule deps.Compare rule).1)
          { NewContivRuleTable TableType.Local with
            Pods := PodSet.Add (NewContivRuleTable TableType.Local).Pods dstPodID }) := by
      apply insertRules_sorted deps.Compare hL
      exact List.Pairwise.nil
    rw [installAllLocalRules_perm deps hL rc.orientation (rct.GetPodConfig rc) dstPodCfg
      (rct.GetAllPods rc) (rct2.GetAllPods rc2) hperm hd _ hsorted]


/-! ## The asymmetry of `installLocalRules` -/

/-- When the destination allows no more than the source does, `installLocalRules`
leaves the table as it is. -/
theorem installLocalRules_subset (deps : CacheDeps) (orientation : Orientation)
    (table : ContivRuleTable) (dstPodCfg srcPodCfg : PodConfig)
    (hany : (dstPorts deps orientation dstPodCfg srcPodCfg).2.2 = false)
    (htcp : deps.IsSubsetOf (dstPorts deps orientation dstPodCfg srcPodCfg).1
      (srcPorts deps orientation dstPodCfg srcPodCfg).1 = true)
    (hudp : deps.IsSubsetOf (dstPorts deps orientation dstPodCfg srcPodCfg).2.1
      (srcPorts deps orientation dstPodCfg srcPodCfg).2.1 = true) :
    installLocalRules deps orientation table dstPodCfg srcPodCfg = some table := by
  rw [installLocalRules_eq]
  have : restricts deps orientation dstPodCfg srcPodCfg = false := by
    unfold restricts
    rw [hany, htcp, hudp]
    simp
  rw [this]
  rfl

/-- When the source does not allow any traffic and the destination allows a TCP
port that the source does not allow, `installLocalRules` installs the rules of
the pair: the table holds a rule exactly when it is a rule of the pair or it was
in the table and is not anchored on the source pod. -/
theorem installLocalRules_restricted (deps : CacheDeps)
    (hE : ∀ a b, deps.Compare a b = 0 → a = b) (orientation : Orientation)
    (table : ContivRuleTable) (dstPodCfg srcPodCfg : PodConfig) (srcPodIP : IPNet)
    (hip : srcPodCfg.PodIP = some srcPodIP)
    (hany : (srcPorts deps orientation dstPodCfg srcPodCfg).2.2 = false)
    (htcp : deps.IsSubsetOf (dstPorts deps orientation dstPodCfg srcPodCfg).1
      (srcPorts deps orientation dstPodCfg srcPodCfg).1 = false) :
    ∃ t, installLocalRules deps orientation table dstPodCfg srcPodCfg = some t ∧
      ∀ x, x ∈ t.Rules ↔
        (x ∈ table.Rules ∧ anchoredOn orientation srcPodIP x = false) ∨
          x ∈ restrictRules deps orientation dstPodCfg srcPodCfg srcPodIP := by
  rw [installLocalRules_eq]
  have : restricts deps orientation dstPodCfg srcPodCfg = true := by
    unfold restricts
    rw [hany, htcp]
    simp
  rw [this, hip]
  refine ⟨_, rfl, fun x => ?_⟩
  rw [insertRules_mem _ hE, RemoveByPredicate_mem]


/-! ## Facts about the test data of the cache -/

theorem pairTxn_view (portsA portsB : List Nat) (p : PodID) :
    (pairTxn portsA portsB).GetPodConfig testCache p =
      if p = podB then some (allowsFrom portsB)
      else if p = podA then some (allowsTo portsA) else none := by
  unfold RendererCacheTxn.GetPodConfig pairTxn RendererCacheTxn.Update
  simp only [Config.get_set]
  by_cases hb : p = podB
  · simp [hb]
  · by_cases ha : p = podA
    · subst ha
      simp [(by decide : ¬ podA = podB)]
    · simp [hb, ha, RendererCache.NewTxn, Config.get, RendererCache.GetPodConfig, testCache,
        RendererCache.Init, RendererCache.Flush]

theorem pairTxn_swapped_view (portsA portsB : List Nat) (p : PodID) :
    RendererCacheTxn.GetPodConfig testCache
        ((testCache.NewTxn.Update podB (allowsFrom portsB)).Update podA (allowsTo portsA)) p =
      (pairTxn portsA portsB).GetPodConfig testCache p := by
  rw [pairTxn_view]
  unfold RendererCacheTxn.GetPodConfig RendererCacheTxn.Update
  simp only [Config.get_set]
  by_cases hb : p = podB
  · have : ¬ podB = podA := by decide
    simp [hb, this]
  · by_cases ha : p = podA
    · subst ha
      simp [(by decide : ¬ podA = podB)]
    · simp [hb, ha, RendererCache.NewTxn, Config.get, RendererCache.GetPodConfig, testCache,
        RendererCache.Init, RendererCache.Flush]

theorem pairTxn_distinct (portsA portsB : List Nat) :
    DistinctPodIPs ((pairTxn portsA portsB).GetPodConfig testCache)
      ((pairTxn portsA portsB).GetAllPods testCache) := by
  have hpods : (pairTxn portsA portsB).GetAllPods testCache = [podA, podB] := rfl
  rw [hpods]
  intro p hp q hq hne cp cq ip iq h1 h2 h3 h4
  rw [pairTxn_view] at h1 h2
  simp only [List.mem_cons, List.mem_singleton, List.not_mem_nil, or_false] at hp hq
  rcases hp with rfl | rfl <;> rcases hq with rfl | rfl
  · exact absurd rfl hne
  · simp only [if_true, (by decide : ¬ podA = podB), if_false, Option.some.injEq] at h1 h2
    subst h1 h2
    simp only [allowsTo, allowsFrom, Option.some.injEq] at h3 h4
    subst h3 h4
    decide
  · simp only [if_true, (by decide : ¬ podA = podB), if_false, Option.some.injEq] at h1 h2
    subst h1 h2
    simp only [allowsTo, allowsFrom, Option.some.injEq] at h3 h4
    subst h3 h4
    decide
  · exact absurd rfl hne

theorem pairTxn_podIPs (portsA portsB : List Nat) : PodIPsSet testCache (pairTxn portsA portsB) := by
  intro p cfg h
  rw [pairTxn_view] at h
  by_cases hb : p = podB
  · simp only [hb, if_true, Option.some.injEq] at h
    rw [← h]; rfl
  · by_cases ha : p = podA
    · subst ha
      simp only [(by decide : ¬ podA = podB), if_false, if_true, Option.some.injEq] at h
      subst h; rfl
    · simp [hb, ha] at h


/-! ## Claims C21 to C23: what `Commit` and `GetChanges` of the cache do -/

/-- C21: let `compareRuleLists` be zero exactly on equal rule lists and let the
cache hold a global table.  When the transaction's `GetGlobalTable` returns the
table `t`, the `Commit` that follows returns as well, and the global table `g` of
the cache after it has the rule list of `t`: `g` is the table `t` itself when the
rule lists of `t` and of the former global table `cg` differ, and the former table
`cg` is kept when they are equal. -/
theorem C21_commit_global_rules (deps : CacheDeps)
    (hcmp : ∀ a b, deps.compareRuleLists a b = 0 ↔ a = b) (rc : RendererCache)
    (rct rct1 : RendererCacheTxn) (tbl : Option ContivRuleTable)
    (hget : rct.GetGlobalTable deps rc = some (tbl, rct1))
    (hg : rc.globalTable.isSome = true) :
    ∃ rc1 rct2 t g cg, rct1.Commit deps rc = some (rc1, rct2) ∧ tbl = some t ∧
      rc.globalTable = some cg ∧ rc1.globalTable = some g ∧ g.Rules = t.Rules ∧
      (t.Rules ≠ cg.Rules → g = t) ∧ (t.Rules = cg.Rules → g = cg) :=
  commit_global_rules deps hcmp rc rct rct1 tbl hget hg

theorem C21_witness :
    ∃ tbl rct1, testCacheTxn.GetGlobalTable testDeps testCache = some (tbl, rct1) ∧
      ∃ rc1 rct2 t g cg, rct1.Commit testDeps testCache = some (rc1, rct2) ∧ tbl = some t ∧
        testCache.globalTable = some cg ∧ rc1.globalTable = some g ∧ g.Rules = t.Rules ∧
        (t.Rules ≠ cg.Rules → g = t) ∧ (t.Rules = cg.Rules → g = cg) := by
  have h : (testCacheTxn.GetGlobalTable testDeps testCache).isSome = true := by decide
  obtain ⟨res, h1⟩ := Option.isSome_iff_exists.mp h
  exact ⟨res.1, res.2, h1,
    C21_commit_global_rules testDeps ruleListsCompare_eq_iff testCache testCacheTxn res.2 res.1
      h1 (by decide)⟩

/-- C22, as amended: let a transaction with up-to-date tables hold a Global table
as its global table.  When `GetChanges` returns, it reports a staged Local table
exactly when the table has at least one rule and differs from the committed
state: no committed table has its ID and its pod set is not empty, or the
committed table with its ID has a different pod set (the pod set of the staged
table may then be empty).  `GetChanges` does return when the cache holds a global
table and every pod configuration in sight has a pod IP. -/
theorem C22_local_changes (deps : CacheDeps) (rc : RendererCache) (rct : RendererCacheTxn)
    (hglobal : ∀ g, rct.upToDateTables = true → rct.globalTable = some g →
      g.Typ = TableType.Global) :
    (∀ changes rct1, rct.GetChanges deps rc = some (changes, rct1) →
      ∀ t, t ∈ rct1.localTables.tables → t.Typ = TableType.Local →
        ((∃ ch ∈ changes, ch.Table = t) ↔
          t.NumOfRules ≠ 0 ∧
            ((deps.LookupByID rc.localTables (deps.GetID t) = none ∧ t.Pods ≠ []) ∨
              ∃ orig, deps.LookupByID rc.localTables (deps.GetID t) = some orig ∧
                ¬ ∀ p, p ∈ t.Pods ↔ p ∈ orig.Pods))) ∧
    (rc.globalTable.isSome = true → PodIPsSet rc rct →
      ∃ changes rct1, rct.GetChanges deps rc = some (changes, rct1)) :=
  ⟨fun changes rct1 h t ht hl => getChanges_local deps rc rct rct1 hglobal changes h t ht hl,
    fun hg hip => getChanges_isSome deps rc rct hg hip⟩

theorem C22_witness :
    ∃ changes rct1, (pairTxn [80] [80, 443]).GetChanges testDeps testCache =
        some (changes, rct1) ∧
      ∀ t, t ∈ rct1.localTables.tables → t.Typ = TableType.Local →
        ((∃ ch ∈ changes, ch.Table = t) ↔
          t.NumOfRules ≠ 0 ∧
            ((testDeps.LookupByID testCache.localTables (testDeps.GetID t) = none ∧
                t.Pods ≠ []) ∨
              ∃ orig, testDeps.LookupByID testCache.localTables (testDeps.GetID t) = some orig ∧
                ¬ ∀ p, p ∈ t.Pods ↔ p ∈ orig.Pods)) :=
  let ⟨changes, rct1, h⟩ :=
    (C22_local_changes testDeps testCache (pairTxn [80] [80, 443])
      (fun _ hu => absurd hu (by decide))).2 (by decide) (pairTxn_podIPs [80] [80, 443])
  ⟨changes, rct1, h,
    (C22_local_changes testDeps testCache (pairTxn [80] [80, 443])
      (fun _ hu => absurd hu (by decide))).1 changes rct1 h⟩

/-- C22, the claim as stated fails in both directions.  First, `podA` is
committed with a deny-all egress policy and the next transaction removes `podA`:
`GetChanges` reports the Local table of `podA` with an empty pod set.  Second, a
transaction gives `podA` a configuration without rules: the staged Local table
of `podA` has the pod set of `podA`, no committed table has its ID, and
`GetChanges` does not report it, because it has no rules. -/
theorem C22_counterexample :
    ((txnOf (committed testDeps testCache (txnOf testCache [(podA, denyEgressConfig false)]))
        [(podA, denyEgressConfig true)]).GetChanges testDeps
      (committed testDeps testCache (txnOf testCache [(podA, denyEgressConfig false)]))).map
        Prod.fst =
      some [{ Table := { Typ := TableType.Local, Rules := [ruleNone], Pods := [],
                         Private := none },
              PreviousPods := [podA] }] ∧
    ((txnOf testCache [(podA, noPolicyConfig)]).GetChanges testDeps testCache).map
        (fun res => (res.1, res.2.localTables.tables)) =
      some ([], [{ Typ := TableType.Local, Rules := [], Pods := [podA], Private := none }]) ∧
    testDeps.LookupByID testCache.localTables
      (testDeps.GetID { Typ := TableType.Local, Rules := [], Pods := [podA], Private := none }) =
        none := by
  decide

/-- C23: let the transaction hold one configuration per updated pod.  When
`Commit` returns, the cache holds afterwards, for every pod, the configuration
that the transaction holds for it if the pod was updated with `Removed = false`,
no configuration if it was updated with `Removed = true`, and its former
configuration if the transaction did not update it; and `GetAllPods` of the cache
holds exactly the pods that `GetAllPods` of the transaction held.  `Commit` does
return when the cache has a global table and every pod configuration in sight has
a pod IP. -/
theorem C23_commit_overlay (deps : CacheDeps) (rc : RendererCache) (rct : RendererCacheTxn)
    (hn : (rct.config.map Prod.fst).Nodup) :
    (∀ rc1 rct1, rct.Commit deps rc = some (rc1, rct1) →
      (∀ p, rc1.GetPodConfig p =
        match Config.get rct.config p with
        | some podCfg => if podCfg.Removed then none else some podCfg
        | none => rc.GetPodConfig p) ∧
      ∀ p, p ∈ rc1.GetAllPods ↔ p ∈ rct.GetAllPods rc) ∧
    (rc.globalTable.isSome = true → PodIPsSet rc rct →
      ∃ rc1 rct1, rct.Commit deps rc = some (rc1, rct1)) :=
  ⟨fun rc1 rct1 h => commit_overlay deps rc rc1 rct rct1 hn h,
    fun hg hip => cacheCommit_isSome deps rc rct hg hip⟩

theorem C23_witness :
    ((pairTxn [80] [80, 443]).config.map Prod.fst).Nodup ∧
    ∃ rc1 rct1, (pairTxn [80] [80, 443]).Commit testDeps testCache = some (rc1, rct1) ∧
      (∀ p, rc1.GetPodConfig p =
        match Config.get (pairTxn [80] [80, 443]).config p with
        | some podCfg => if podCfg.Removed then none else some podCfg
        | none => testCache.GetPodConfig p) ∧
      ∀ p, p ∈ rc1.GetAllPods ↔ p ∈ (pairTxn [80] [80, 443]).GetAllPods testCache := by
  have hn : ((pairTxn [80] [80, 443]).config.map Prod.fst).Nodup := by decide
  obtain ⟨rc1, rct1, h⟩ :=
    (C23_commit_overlay testDeps testCache (pairTxn [80] [80, 443]) hn).2 (by decide)
      (pairTxn_podIPs [80] [80, 443])
  exact ⟨hn, rc1, rct1, h,
    (C23_commit_overlay testDeps testCache (pairTxn [80] [80, 443]) hn).1 rc1 rct1 h⟩


/-! ## Claims C26 to C30: peer order, port intersection, subnets, rule sets -/

/-- C26: let the rule comparison be a lawful total order and let the tracked pods
have pairwise distinct pod IPs.  Two states that show the same pod
configurations, the same orientation, and the same tracked pods in two different
orders build the same local table (the same sorted rule list) for every
destination pod. -/
theorem C26_peer_order_invariant (deps : CacheDeps) (hL : LawfulCompare deps.Compare)
    (rc rc2 : RendererCache) (rct rct2 : RendererCacheTxn)
    (ho : rc2.orientation = rc.orientation)
    (hview : ∀ p, rct2.GetPodConfig rc2 p = rct.GetPodConfig rc p)
    (hperm : (rct.GetAllPods rc).Perm (rct2.GetAllPods rc2))
    (hd : DistinctPodIPs (rct.GetPodConfig rc) (rct.GetAllPods rc))
    (dstPodID : PodID) (dstPodCfg : PodConfig) :
    buildLocalTable deps rc2 rct2 dstPodID dstPodCfg =
      buildLocalTable deps rc rct dstPodID dstPodCfg :=
  buildLocalTable_order deps hL rc rc2 rct rct2 ho hview hperm hd dstPodID dstPodCfg

theorem C26_witness :
    RendererCacheTxn.GetAllPods testCache (pairTxn [80] [80, 443]) = [podA, podB] ∧
    RendererCacheTxn.GetAllPods testCache
      ((testCache.NewTxn.Update podB (allowsFrom [80, 443])).Update podA (allowsTo [80])) =
        [podB, podA] ∧
    buildLocalTable testDeps testCache
        ((testCache.NewTxn.Update podB (allowsFrom [80, 443])).Update podA (allowsTo [80]))
        podB (allowsFrom [80, 443]) =
      buildLocalTable testDeps testCache (pairTxn [80] [80, 443]) podB (allowsFrom [80, 443]) :=
  ⟨by decide, by decide,
    C26_peer_order_invariant testDeps lawful_ruleCompare testCache testCache
      (pairTxn [80] [80, 443])
      ((testCache.NewTxn.Update podB (allowsFrom [80, 443])).Update podA (allowsTo [80]))
      rfl (pairTxn_swapped_view [80] [80, 443]) (by decide) (pairTxn_distinct [80] [80, 443])
      podB (allowsFrom [80, 443])⟩

/-- C27, as amended: `installLocalRules` leaves the table of the destination pod
as it is when the destination pod does not allow every port and the TCP and UDP
ports it allows from the source pod are subsets of the ports the source pod
allows towards it (the case of the claim: the permit for port 80 and the absence
of a rule for port 443 come from the rules of `podB` itself, and no deny rule with
the IP of `podA` is added).  When the source pod has a pod IP, does not allow
every port, and the TCP ports of the destination pod are not a subset of the TCP
ports of the source pod, the rules of the table are afterwards its rules that are
not anchored on the source pod IP, together with the permit rules for the ports
both pods allow and the deny rule for the rest of the traffic of the source
pod. -/
theorem C27_port_intersection (deps : CacheDeps) (hE : ∀ a b, deps.Compare a b = 0 → a = b)
    (orientation : Orientation) (table : ContivRuleTable) (dstPodCfg srcPodCfg : PodConfig) :
    ((dstPorts deps orientation dstPodCfg srcPodCfg).2.2 = false →
      deps.IsSubsetOf (dstPorts deps orientation dstPodCfg srcPodCfg).1
        (srcPorts deps orientation dstPodCfg srcPodCfg).1 = true →
      deps.IsSubsetOf (dstPorts deps orientation dstPodCfg srcPodCfg).2.1
        (srcPorts deps orientation dstPodCfg srcPodCfg).2.1 = true →
      installLocalRules deps orientation table dstPodCfg srcPodCfg = some table) ∧
    (∀ srcPodIP, srcPodCfg.PodIP = some srcPodIP →
      (srcPorts deps orientation dstPodCfg srcPodCfg).2.2 = false →
      deps.IsSubsetOf (dstPorts deps orientation dstPodCfg srcPodCfg).1
        (srcPorts deps orientation dstPodCfg srcPodCfg).1 = false →
      ∃ t, installLocalRules deps orientation table dstPodCfg srcPodCfg = some t ∧
        denyRest orientation srcPodIP ∈ t.Rules ∧
        ∀ x, x ∈ t.Rules ↔
          (x ∈ table.Rules ∧ anchoredOn orientation srcPodIP x = false) ∨
            x ∈ restrictRules deps orientation dstPodCfg srcPodCfg srcPodIP) := by
  refine ⟨fun hany htcp hudp =>
    installLocalRules_subset deps orientation table dstPodCfg srcPodCfg hany htcp hudp, ?_⟩
  intro srcPodIP hip hany htcp
  obtain ⟨t, ht, hmem⟩ :=
    installLocalRules_restricted deps hE orientation table dstPodCfg srcPodCfg srcPodIP hip
      hany htcp
  refine ⟨t, ht, (hmem _).mpr (Or.inr ?_), hmem⟩
  unfold restrictRules
  simp

theorem C27_witness :
    (installLocalRules testDeps Orientation.EgressOrientation
        { Typ := TableType.Local,
          Rules := [permitTCPFrom (cidr4 10 0 0 1 32) 80, ruleNone], Pods := [podB],
          Private := none }
        (allowsFrom [80]) (allowsTo [80, 443]) =
      some { Typ := TableType.Local,
             Rules := [permitTCPFrom (cidr4 10 0 0 1 32) 80, ruleNone], Pods := [podB],
             Private := none }) ∧
    (∃ t, installLocalRules testDeps Orientation.EgressOrientation
        { Typ := TableType.Local,
          Rules := [permitTCPFrom (cidr4 10 0 0 1 32) 80,
                    permitTCPFrom (cidr4 10 0 0 1 32) 443, ruleNone],
          Pods := [podB], Private := none }
        (allowsFrom [80, 443]) (allowsTo [80]) = some t ∧
      denyRest Orientation.EgressOrientation (cidr4 10 0 0 1 32) ∈ t.Rules ∧
      ∀ x, x ∈ t.Rules ↔
        (x ∈ [permitTCPFrom (cidr4 10 0 0 1 32) 80, permitTCPFrom (cidr4 10 0 0 1 32) 443,
              ruleNone] ∧
          anchoredOn Orientation.EgressOrientation (cidr4 10 0 0 1 32) x = false) ∨
        x ∈ restrictRules testDeps Orientation.EgressOrientation (allowsFrom [80, 443])
              (allowsTo [80]) (cidr4 10 0 0 1 32)) ∧
    buildLocalTable testDeps testCache (pairTxn [80] [80, 443]) podB (allowsFrom [80, 443]) =
      some { Typ := TableType.Local,
             Rules := [permitTCPFrom (cidr4 10 0 0 1 32) 80, ruleNone,
                       denyRest Orientation.EgressOrientation (cidr4 10 0 0 1 32)],
             Pods := [podB], Private := none } :=
  ⟨(C27_port_intersection testDeps (fun a b => (lawful_ruleCompare.eq_iff a b).mp)
      Orientation.EgressOrientation _ (allowsFrom [80]) (allowsTo [80, 443])).1
      (by decide) (by decide) (by decide),
    (C27_port_intersection testDeps (fun a b => (lawful_ruleCompare.eq_iff a b).mp)
      Orientation.EgressOrientation _ (allowsFrom [80, 443]) (allowsTo [80])).2
      (cidr4 10 0 0 1 32) rfl (by decide) (by decide),
    by decide⟩

/-- C27, the claim as stated fails: `podA` allows TCP 80 and 443 to `podB`, `podB`
allows only TCP 80 from `podA` (egress orientation).  The local table built for
`podB` holds the permit for TCP 80 from `podA` and the deny-all rule of `podB`, and
no deny rule with the IP of `podA` as its source. -/
theorem C27_counterexample :
    buildLocalTable testDeps testCache (pairTxn [80, 443] [80]) podB (allowsFrom [80]) =
        some { Typ := TableType.Local,
               Rules := [permitTCPFrom (cidr4 10 0 0 1 32) 80, ruleNone], Pods := [podB],
               Private := none } ∧
      ruleNone.SrcNetwork = emptyNet ∧
      ¬ ∃ t, buildLocalTable testDeps testCache (pairTxn [80, 443] [80]) podB
            (allowsFrom [80]) = some t ∧
          ∃ r ∈ t.Rules, r.Action = renderer.ActionType.ActionDeny ∧
            r.SrcNetwork = cidr4 10 0 0 1 32 := by
  decide

/-- C28: let `net2` have an IP and a mask of one length (4 or 16 bytes), let the
mask of `net1` be shorter than the mask of `net2`, and let `net1` contain the
address of `net2`.  Then `subtractSubnet net1 net2` returns exactly
`mask(net2) - mask(net1)` prefixes; the prefix number `k` has the prefix length
`mask(net1) + k + 1`, and its address is the address of `net2` cut to that length
with the bit number `mask(net1) + k` (counted from the most significant bit)
flipped; the prefix lengths are strictly ascending. -/
theorem C28_sibling_prefixes (net1 net2 : IPNet) (hs : net2.Sized)
    (hlt : maskSize net1.Mask < maskSize net2.Mask) (hc : net1.Contains net2.IP = true) :
    ∃ r, subtractSubnet net1 net2 = some r ∧
      r.length = maskSize net2.Mask - maskSize net1.Mask ∧
      (∀ k s, r[k]? = some s →
        maskSize s.Mask = maskSize net1.Mask + k + 1 ∧
        s.Mask = CIDRMask (maskSize net1.Mask + k + 1) (net2.Mask.length * 8) ∧
        s.IP.length = net2.IP.length ∧
        ∀ i, bitOf s.IP i =
          xor (bitOf net2.IP i &&
                decide (i < maskSize net1.Mask + k + 1 ∧ i < 8 * net2.IP.length))
            (decide (i = maskSize net1.Mask + k))) ∧
      r.Pairwise (fun p q => maskSize p.Mask < maskSize q.Mask) :=
  subtractSubnet_sibling_list net1 net2 hs hlt hc

theorem C28_witness :
    subtractSubnet (cidr4 10 0 0 0 22) (cidr4 10 0 2 128 25) =
        some [cidr4 10 0 0 0 23, cidr4 10 0 3 0 24, cidr4 10 0 2 0 25] ∧
    ∃ r, subtractSubnet (cidr4 10 0 0 0 22) (cidr4 10 0 2 128 25) = some r ∧
      r.length = maskSize (cidr4 10 0 2 128 25).Mask - maskSize (cidr4 10 0 0 0 22).Mask ∧
      (∀ k s, r[k]? = some s →
        maskSize s.Mask = maskSize (cidr4 10 0 0 0 22).Mask + k + 1 ∧
        s.Mask = CIDRMask (maskSize (cidr4 10 0 0 0 22).Mask + k + 1)
          ((cidr4 10 0 2 128 25).Mask.length * 8) ∧
        s.IP.length = (cidr4 10 0 2 128 25).IP.length ∧
        ∀ i, bitOf s.IP i =
          xor (bitOf (cidr4 10 0 2 128 25).IP i &&
                decide (i < maskSize (cidr4 10 0 0 0 22).Mask + k + 1 ∧
                  i < 8 * (cidr4 10 0 2 128 25).IP.length))
            (decide (i = maskSize (cidr4 10 0 0 0 22).Mask + k))) ∧
      r.Pairwise (fun p q => maskSize p.Mask < maskSize q.Mask) :=
  ⟨by decide,
    C28_sibling_prefixes (cidr4 10 0 0 0 22) (cidr4 10 0 2 128 25) (by decide) (by decide)
      (by decide)⟩

/-- C29: outside the sibling case `subtractSubnet net1 net2` returns `[]` or
`[net1]`.  When the mask of `net1` is longer than the mask of `net2`, it returns
`[]` if `net2` contains the address of `net1` and `[net1]` otherwise; when the
masks are equally long, it returns `[]` if the two IPs are equal and `[net1]`
otherwise; when the mask of `net1` is shorter and `net1` does not contain the
address of `net2`, it returns `[net1]`. -/
theorem C29_outside_sibling_case (net1 net2 : IPNet) :
    (maskSize net1.Mask > maskSize net2.Mask →
      subtractSubnet net1 net2 = some (if net2.Contains net1.IP then [] else [net1])) ∧
    (maskSize net1.Mask = maskSize net2.Mask →
      subtractSubnet net1 net2 = some (if ipEqual net1.IP net2.IP then [] else [net1])) ∧
    (maskSize net1.Mask < maskSize net2.Mask → net1.Contains net2.IP = false →
      subtractSubnet net1 net2 = some [net1]) :=
  subtractSubnet_outside net1 net2

theorem C29_witness :
    subtractSubnet (cidr4 10 0 2 128 25) (cidr4 10 0 0 0 22) = some [] ∧
    subtractSubnet (cidr4 10 0 2 128 25) (cidr4 10 0 4 0 22) = some [cidr4 10 0 2 128 25] ∧
    subtractSubnet (cidr4 10 0 0 0 22) (cidr4 10 0 0 0 22) = some [] ∧
    subtractSubnet (cidr4 10 0 0 0 22) (cidr4 10 0 4 0 22) = some [cidr4 10 0 0 0 22] ∧
    subtractSubnet (cidr4 10 0 0 0 22) (cidr4 10 0 4 128 25) = some [cidr4 10 0 0 0 22] :=
  ⟨(C29_outside_sibling_case (cidr4 10 0 2 128 25) (cidr4 10 0 0 0 22)).1 (by decide),
    (C29_outside_sibling_case (cidr4 10 0 2 128 25) (cidr4 10 0 4 0 22)).1 (by decide),
    (C29_outside_sibling_case (cidr4 10 0 0 0 22) (cidr4 10 0 0 0 22)).2.1 (by decide),
    (C29_outside_sibling_case (cidr4 10 0 0 0 22) (cidr4 10 0 4 0 22)).2.1 (by decide),
    (C29_outside_sibling_case (cidr4 10 0 0 0 22) (cidr4 10 0 4 128 25)).2.2 (by decide)
      (by decide)⟩

/-- C30: let the rule comparison be a lawful total order.  Starting from the empty
set, after any sequence of `Insert` calls the list `orderedRules` is strictly
increasing under the comparison, and it is a permutation of the insertion-order
list `rules`. -/
theorem C30_insert_invariant (cmp : ContivRule → ContivRule → Int) (hL : LawfulCompare cmp)
    (rs : List ContivRule) :
    (insertAll cmp { rules := [], orderedRules := [] } rs).Sorted cmp ∧
      (insertAll cmp { rules := [], orderedRules := [] } rs).orderedRules.Perm
        (insertAll cmp { rules := [], orderedRules := [] } rs).rules :=
  insertAll_invariant cmp hL rs

theorem C30_witness :
    insertAll ruleCompare { rules := [], orderedRules := [] }
        [ruleNone, permitTCPFrom (cidr4 10 0 0 1 32) 80, ruleNone, allowAll] =
      { rules := [ruleNone, permitTCPFrom (cidr4 10 0 0 1 32) 80, allowAll],
        orderedRules := [allowAll, permitTCPFrom (cidr4 10 0 0 1 32) 80, ruleNone] } ∧
    (insertAll ruleCompare { rules := [], orderedRules := [] }
        [ruleNone, permitTCPFrom (cidr4 10 0 0 1 32) 80, ruleNone, allowAll]).Sorted
        ruleCompare ∧
    (insertAll ruleCompare { rules := [], orderedRules := [] }
        [ruleNone, permitTCPFrom (cidr4 10 0 0 1 32) 80, ruleNone, allowAll]).orderedRules.Perm
      (insertAll ruleCompare { rules := [], orderedRules := [] }
        [ruleNone, permitTCPFrom (cidr4 10 0 0 1 32) 80, ruleNone, allowAll]).rules :=
  ⟨by decide,
    C30_insert_invariant ruleCompare lawful_ruleCompare
      [ruleNone, permitTCPFrom (cidr4 10 0 0 1 32) 80, ruleNone, allowAll]⟩


/-! ## The operations of the list model of `LocalTables`, read as a finite map -/

theorem has_unassign (lt : LocalTables) (pod : PodID) (r : List ContivRule) :
    (lt.unassign pod).has r ↔ lt.has r := by
  unfold LocalTables.has LocalTables.unassign
  simp only [List.mem_map]
  constructor
  · rintro ⟨t, ⟨t0, h0, rfl⟩, h⟩
    exact ⟨t0, h0, h⟩
  · rintro ⟨t, h0, h⟩
    exact ⟨_, ⟨t, h0, rfl⟩, h⟩

theorem holds_unassign (lt : LocalTables) (pod : PodID) (r : List ContivRule) (q : PodID) :
    (lt.unassign pod).holds r q ↔ lt.holds r q ∧ q ≠ pod := by
  unfold LocalTables.holds LocalTables.unassign
  simp only [List.mem_map]
  constructor
  · rintro ⟨t, ⟨t0, h0, rfl⟩, h, hq⟩
    rw [PodSet.mem_Remove] at hq
    exact ⟨⟨t0, h0, h, hq.1⟩, hq.2⟩
  · rintro ⟨⟨t, h0, h, hq⟩, hne⟩
    exact ⟨_, ⟨t, h0, rfl⟩, h, (PodSet.mem_Remove _ _ _).mpr ⟨hq, hne⟩⟩

theorem rules_unassign (lt : LocalTables) (pod : PodID) :
    (lt.unassign pod).tables.map (fun t => t.Rules) = lt.tables.map (fun t => t.Rules) := by
  unfold LocalTables.unassign
  simp [List.map_map, Function.comp_def]

theorem typ_unassign (lt : LocalTables) (pod : PodID) (h : lt.AllLocal) :
    (lt.unassign pod).AllLocal := by
  intro t ht
  unfold LocalTables.unassign at ht
  simp only [List.mem_map] at ht
  obtain ⟨t0, h0, rfl⟩ := ht
  exact h t0 h0

theorem has_foldl_unassign (pods : List PodID) (lt : LocalTables) (r : List ContivRule) :
    (pods.foldl LocalTables.unassign lt).has r ↔ lt.has r := by
  induction pods generalizing lt with
  | nil => rfl
  | cons p rest ih => rw [List.foldl_cons, ih, has_unassign]

theorem holds_foldl_unassign (pods : List PodID) (lt : LocalTables) (r : List ContivRule)
    (q : PodID) : (pods.foldl LocalTables.unassign lt).holds r q ↔ lt.holds r q ∧ q ∉ pods := by
  induction pods generalizing lt with
  | nil => simp
  | cons p rest ih =>
    rw [List.foldl_cons, ih, holds_unassign, List.mem_cons]
    tauto

theorem rules_foldl_unassign (pods : List PodID) (lt : LocalTables) :
    (pods.foldl LocalTables.unassign lt).tables.map (fun t => t.Rules) =
      lt.tables.map (fun t => t.Rules) := by
  induction pods generalizing lt with
  | nil => rfl
  | cons p rest ih => rw [List.foldl_cons, ih, rules_unassign]

theorem typ_foldl_unassign (pods : List PodID) (lt : LocalTables) (h : lt.AllLocal) :
    (pods.foldl LocalTables.unassign lt).AllLocal := by
  induction pods generalizing lt with
  | nil => exact h
  | cons p rest ih => exact ih _ (typ_unassign lt p h)

theorem has_iff_mem_rules (lt : LocalTables) (r : List ContivRule) :
    lt.has r ↔ r ∈ lt.tables.map (fun t => t.Rules) := by
  unfold LocalTables.has
  simp [List.mem_map]

theorem holds_has (lt : LocalTables) (r : List ContivRule) (q : PodID) (h : lt.holds r q) :
    lt.has r := by
  obtain ⟨t, ht, hr, _⟩ := h
  exact ⟨t, ht, hr⟩

/-- In a store without two tables of one rule list, the table with a rule list is
the only one. -/
theorem table_unique (lt : LocalTables) (hn : (lt.tables.map (fun t => t.Rules)).Nodup)
    (t1 t2 : ContivRuleTable) (h1 : t1 ∈ lt.tables) (h2 : t2 ∈ lt.tables)
    (h : t1.Rules = t2.Rules) : t1 = t2 := by
  exact List.inj_on_of_nodup_map hn h1 h2 h

theorem holds_iff_of_mem (lt : LocalTables) (hn : (lt.tables.map (fun t => t.Rules)).Nodup)
    (t : ContivRuleTable) (ht : t ∈ lt.tables) (q : PodID) :
    lt.holds t.Rules q ↔ q ∈ t.Pods := by
  constructor
  · rintro ⟨t1, h1, hr, hq⟩
    rw [← table_unique lt hn t1 t h1 ht hr]
    exact hq
  · intro hq
    exact ⟨t, ht, rfl, hq⟩

theorem rules_AssignPod (lt : LocalTables) (table : ContivRuleTable) (pod : PodID) :
    (lt.AssignPod table pod).tables.map (fun t => t.Rules) = lt.tables.map (fun t => t.Rules) := by
  unfold LocalTables.AssignPod
  simp only [List.map_map]
  apply List.map_congr_left
  intro t _
  simp only [Function.comp_def]
  split <;> rfl

theorem typ_AssignPod (lt : LocalTables) (table : ContivRuleTable) (pod : PodID)
    (h : lt.AllLocal) : (lt.AssignPod table pod).AllLocal := by
  intro t ht
  unfold LocalTables.AssignPod at ht
  simp only [List.mem_map] at ht
  obtain ⟨t0, h0, rfl⟩ := ht
  split
  · exact h t0 h0
  · exact h t0 h0

theorem has_AssignPod (lt : LocalTables) (table : ContivRuleTable) (pod : PodID)
    (r : List ContivRule) : (lt.AssignPod table pod).has r ↔ lt.has r := by
  rw [has_iff_mem_rules, has_iff_mem_rules, rules_AssignPod]

theorem holds_AssignPod (lt : LocalTables) (table : ContivRuleTable) (pod : PodID)
    (r : List ContivRule) (q : PodID) :
    (lt.AssignPod table pod).holds r q ↔
      if r = table.Rules then lt.holds r q ∨ (q = pod ∧ lt.has r) else lt.holds r q ∧ q ≠ pod := by
  unfold LocalTables.holds LocalTables.has LocalTables.AssignPod
  simp only [List.mem_map]
  constructor
  · rintro ⟨t, ⟨t0, h0, rfl⟩, h, hq⟩
    by_cases ht : t0.Rules = table.Rules
    · simp only [ht, if_true] at h hq
      rw [PodSet.mem_Add] at hq
      rw [if_pos h.symm]
      rcases hq with hq | hq
      · exact Or.inl ⟨t0, h0, ht.trans h, hq⟩
      · exact Or.inr ⟨hq, t0, h0, ht.trans h⟩
    · simp only [ht, if_false] at h hq
      rw [PodSet.mem_Remove] at hq
      rw [if_neg (fun e => ht (h.trans e))]
      exact ⟨⟨t0, h0, h, hq.1⟩, hq.2⟩
  · intro h
    by_cases hr : r = table.Rules
    · rw [if_pos hr] at h
      rcases h with ⟨t, h0, h1, hq⟩ | ⟨hq, t, h0, h1⟩
      · refine ⟨_, ⟨t, h0, rfl⟩, ?_⟩
        rw [if_pos (h1.trans hr)]
        exact ⟨h1, (PodSet.mem_Add _ _ _).mpr (Or.inl hq)⟩
      · refine ⟨_, ⟨t, h0, rfl⟩, ?_⟩
        rw [if_pos (h1.trans hr)]
        exact ⟨h1, (PodSet.mem_Add _ _ _).mpr (Or.inr hq)⟩
    · rw [if_neg hr] at h
      obtain ⟨⟨t, h0, h1, hq⟩, hne⟩ := h
      refine ⟨_, ⟨t, h0, rfl⟩, ?_⟩
      rw [if_neg (fun e => hr (h1.symm.trans e))]
      exact ⟨h1, (PodSet.mem_Remove _ _ _).mpr ⟨hq, hne⟩⟩

theorem rules_UnassignPod (lt : LocalTables) (table : Option ContivRuleTable) (pod : PodID) :
    (lt.UnassignPod table pod).tables.map (fun t => t.Rules) =
      lt.tables.map (fun t => t.Rules) := by
  cases table with
  | none => exact rules_unassign lt pod
  | some table =>
    unfold LocalTables.UnassignPod
    simp only [List.map_map]
    apply List.map_congr_left
    intro t _
    simp only [Function.comp_def]
    split <;> rfl

theorem typ_UnassignPod (lt : LocalTables) (table : Option ContivRuleTable) (pod : PodID)
    (h : lt.AllLocal) : (lt.UnassignPod table pod).AllLocal := by
  cases table with
  | none => exact typ_unassign lt pod h
  | some table =>
    intro t ht
    unfold LocalTables.UnassignPod at ht
    simp only [List.mem_map] at ht
    obtain ⟨t0, h0, rfl⟩ := ht
    split
    · exact h t0 h0
    · exact h t0 h0

theorem has_UnassignPod (lt : LocalTables) (table : Option ContivRuleTable) (pod : PodID)
    (r : List ContivRule) : (lt.UnassignPod table pod).has r ↔ lt.has r := by
  rw [has_iff_mem_rules, has_iff_mem_rules, rules_UnassignPod]

theorem holds_UnassignPod (lt : LocalTables) (table : ContivRuleTable) (pod : PodID)
    (r : List ContivRule) (q : PodID) :
    (lt.UnassignPod (some table) pod).holds r q ↔
      lt.holds r q ∧ ¬ (r = table.Rules ∧ q = pod) := by
  unfold LocalTables.holds LocalTables.UnassignPod
  simp only [List.mem_map]
  constructor
  · rintro ⟨t, ⟨t0, h0, rfl⟩, h, hq⟩
    by_cases ht : t0.Rules = table.Rules
    · simp only [ht, if_true] at h hq
      rw [PodSet.mem_Remove] at hq
      exact ⟨⟨t0, h0, ht.trans h, hq.1⟩, fun e => hq.2 e.2⟩
    · simp only [ht, if_false] at h hq
      exact ⟨⟨t0, h0, h, hq⟩, fun e => ht (h.trans e.1)⟩
  · rintro ⟨⟨t, h0, h1, hq⟩, hne⟩
    refine ⟨_, ⟨t, h0, rfl⟩, ?_⟩
    by_cases ht : t.Rules = table.Rules
    · rw [if_pos ht]
      exact ⟨h1, (PodSet.mem_Remove _ _ _).mpr ⟨hq, fun e => hne ⟨h1.symm.trans ht, e⟩⟩⟩
    · rw [if_neg ht]
      exact ⟨h1, hq⟩

theorem rules_Insert (lt : LocalTables) (table : ContivRuleTable) :
    (lt.Insert table).tables.map (fun t => t.Rules) =
      lt.tables.map (fun t => t.Rules) ++ [table.Rules] := by
  unfold LocalTables.Insert
  simp only [List.map_append, List.map_cons, List.map_nil]
  rw [rules_foldl_unassign]

theorem typ_Insert (lt : LocalTables) (table : ContivRuleTable) (h : lt.AllLocal)
    (ht : table.Typ = TableType.Local) : (lt.Insert table).AllLocal := by
  intro t hm
  unfold LocalTables.Insert at hm
  simp only [List.mem_append, List.mem_singleton] at hm
  rcases hm with hm | rfl
  · exact typ_foldl_unassign _ _ h t hm
  · exact ht

theorem has_Insert (lt : LocalTables) (table : ContivRuleTable) (r : List ContivRule) :
    (lt.Insert table).has r ↔ lt.has r ∨ r = table.Rules := by
  rw [has_iff_mem_rules, has_iff_mem_rules, rules_Insert]
  simp

theorem holds_Insert (lt : LocalTables) (table : ContivRuleTable) (r : List ContivRule)
    (q : PodID) :
    (lt.Insert table).holds r q ↔
      (lt.holds r q ∧ q ∉ table.Pods) ∨ (r = table.Rules ∧ q ∈ table.Pods) := by
  rw [← holds_foldl_unassign]
  unfold LocalTables.holds LocalTables.Insert
  simp only [List.mem_append, List.mem_singleton]
  constructor
  · rintro ⟨t, h0 | rfl, h, hq⟩
    · exact Or.inl ⟨t, h0, h, hq⟩
    · exact Or.inr ⟨h.symm, hq⟩
  · rintro (⟨t, h0, h, hq⟩ | ⟨h, hq⟩)
    · exact ⟨t, Or.inl h0, h, hq⟩
    · exact ⟨table, Or.inr rfl, h.symm, hq⟩

theorem rules_Remove (lt : LocalTables) (table : ContivRuleTable) :
    (lt.Remove table).tables.map (fun t => t.Rules) =
      (lt.tables.map (fun t => t.Rules)).filter (fun r => decide (r ≠ table.Rules)) := by
  unfold LocalTables.Remove
  rw [List.filter_map]
  rfl

theorem typ_Remove (lt : LocalTables) (table : ContivRuleTable) (h : lt.AllLocal) :
    (lt.Remove table).AllLocal := by
  intro t hm
  unfold LocalTables.Remove at hm
  exact h t (List.mem_filter.mp hm).1

theorem has_Remove (lt : LocalTables) (table : ContivRuleTable) (r : List ContivRule) :
    (lt.Remove table).has r ↔ lt.has r ∧ r ≠ table.Rules := by
  rw [has_iff_mem_rules, has_iff_mem_rules, rules_Remove]
  simp [List.mem_filter]

theorem holds_Remove (lt : LocalTables) (table : ContivRuleTable) (r : List ContivRule)
    (q : PodID) : (lt.Remove table).holds r q ↔ lt.holds r q ∧ r ≠ table.Rules := by
  unfold LocalTables.holds LocalTables.Remove
  simp only [List.mem_filter, decide_eq_true_eq]
  constructor
  · rintro ⟨t, ⟨h0, hne⟩, h, hq⟩
    exact ⟨⟨t, h0, h, hq⟩, fun e => hne (h.trans e)⟩
  · rintro ⟨⟨t, h0, h, hq⟩, hne⟩
    exact ⟨t, ⟨h0, fun e => hne (h.symm.trans e)⟩, h, hq⟩

/-! ### Well-formed stores -/

theorem WF_empty : NewLocalTables.WF :=
  ⟨fun _ h => by simp [NewLocalTables] at h, by simp [NewLocalTables],
    fun _ _ _ h => by obtain ⟨t, ht, _⟩ := h; simp [NewLocalTables] at ht⟩

theorem WF_unassign (lt : LocalTables) (pod : PodID) (h : lt.WF) : (lt.unassign pod).WF := by
  refine ⟨typ_unassign lt pod h.typ, ?_, ?_⟩
  · rw [rules_unassign]; exact h.rules
  · intro r1 r2 q h1 h2
    rw [holds_unassign] at h1 h2
    exact h.pods r1 r2 q h1.1 h2.1

theorem WF_AssignPod (lt : LocalTables) (table : ContivRuleTable) (pod : PodID) (h : lt.WF) :
    (lt.AssignPod table pod).WF := by
  refine ⟨typ_AssignPod lt table pod h.typ, ?_, ?_⟩
  · rw [rules_AssignPod]; exact h.rules
  · intro r1 r2 q h1 h2
    rw [holds_AssignPod] at h1 h2
    by_cases e1 : r1 = table.Rules
    · by_cases e2 : r2 = table.Rules
      · rw [e1, e2]
      · rw [if_pos e1] at h1
        rw [if_neg e2] at h2
        rcases h1 with h1 | h1
        · exact h.pods r1 r2 q h1 h2.1
        · exact absurd h1.1 h2.2
    · by_cases e2 : r2 = table.Rules
      · rw [if_neg e1] at h1
        rw [if_pos e2] at h2
        rcases h2 with h2 | h2
        · exact h.pods r1 r2 q h1.1 h2
        · exact absurd h2.1 h1.2
      · rw [if_neg e1] at h1
        rw [if_neg e2] at h2
        exact h.pods r1 r2 q h1.1 h2.1

theorem WF_UnassignPod (lt : LocalTables) (table : Option ContivRuleTable) (pod : PodID)
    (h : lt.WF) : (lt.UnassignPod table pod).WF := by
  refine ⟨typ_UnassignPod lt table pod h.typ, ?_, ?_⟩
  · rw [rules_UnassignPod]; exact h.rules
  · cases table with
    | none => exact (WF_unassign lt pod h).pods
    | some table =>
      intro r1 r2 q h1 h2
      rw [holds_UnassignPod] at h1 h2
      exact h.pods r1 r2 q h1.1 h2.1

theorem WF_Insert (lt : LocalTables) (table : ContivRuleTable) (h : lt.WF)
    (hnew : ¬ lt.has table.Rules) (ht : table.Typ = TableType.Local) : (lt.Insert table).WF := by
  refine ⟨typ_Insert lt table h.typ ht, ?_, ?_⟩
  · rw [rules_Insert]
    refine List.Nodup.append h.rules (List.nodup_singleton _) ?_
    intro r h1 h2
    rw [List.mem_singleton] at h2
    subst h2
    exact hnew ((has_iff_mem_rules _ _).mpr h1)
  · intro r1 r2 q h1 h2
    rw [holds_Insert] at h1 h2
    rcases h1 with h1 | h1 <;> rcases h2 with h2 | h2
    · exact h.pods r1 r2 q h1.1 h2.1
    · exact absurd h2.2 h1.2
    · exact absurd h1.2 h2.2
    · rw [h1.1, h2.1]

theorem WF_Remove (lt : LocalTables) (table : ContivRuleTable) (h : lt.WF) :
    (lt.Remove table).WF := by
  refine ⟨typ_Remove lt table h.typ, ?_, ?_⟩
  · rw [rules_Remove]; exact h.rules.filter _
  · intro r1 r2 q h1 h2
    rw [holds_Remove] at h1 h2
    exact h.pods r1 r2 q h1.1 h2.1

/-! ### The lookups -/

theorem lookupByRules_some (lt : LocalTables) (r : List ContivRule) (t : ContivRuleTable)
    (h : lt.LookupByRules r = some t) : t ∈ lt.tables ∧ t.Rules = r := by
  unfold LocalTables.LookupByRules at h
  exact ⟨List.mem_of_find?_eq_some h, by simpa using List.find?_some h⟩

theorem lookupByRules_none (lt : LocalTables) (r : List ContivRule)
    (h : lt.LookupByRules r = none) : ¬ lt.has r := by
  unfold LocalTables.LookupByRules at h
  rw [List.find?_eq_none] at h
  rintro ⟨t, ht, hr⟩
  exact absurd hr (by simpa using h t ht)

theorem lookupByPod_some (lt : LocalTables) (pod : PodID) (t : ContivRuleTable)
    (h : lt.LookupByPod pod = some t) : t ∈ lt.tables ∧ pod ∈ t.Pods := by
  unfold LocalTables.LookupByPod at h
  exact ⟨List.mem_of_find?_eq_some h, by simpa using List.find?_some h⟩

theorem lookupByPod_none (lt : LocalTables) (pod : PodID) (h : lt.LookupByPod pod = none)
    (r : List ContivRule) : ¬ lt.holds r pod := by
  unfold LocalTables.LookupByPod at h
  rw [List.find?_eq_none] at h
  rintro ⟨t, ht, _, hq⟩
  exact absurd hq (by simpa using h t ht)

theorem lookupByID_some (getID : ContivRuleTable → String) (lt : LocalTables) (id : String)
    (t : ContivRuleTable) (h : lt.LookupByID getID id = some t) :
    t ∈ lt.tables ∧ getID t = id := by
  unfold LocalTables.LookupByID at h
  exact ⟨List.mem_of_find?_eq_some h, by simpa using List.find?_some h⟩

theorem lookupByID_none (getID : ContivRuleTable → String) (lt : LocalTables) (id : String)
    (h : lt.LookupByID getID id = none) (t : ContivRuleTable) (ht : t ∈ lt.tables) :
    getID t ≠ id := by
  unfold LocalTables.LookupByID at h
  rw [List.find?_eq_none] at h
  simpa using h t ht

/-- In a store of Local tables the by-id index finds a table for the ID of a
Local table exactly when the store holds a table with its rule list, and that is
the table found. -/
theorem lookupByID_spec (deps : CacheDeps) (hs : StoreContract deps) (lt : LocalTables)
    (hl : lt.AllLocal) (x : ContivRuleTable) (hx : x.Typ = TableType.Local) :
    (deps.LookupByID lt (deps.GetID x) = none ∧ ¬ lt.has x.Rules) ∨
      ∃ t, deps.LookupByID lt (deps.GetID x) = some t ∧ t ∈ lt.tables ∧ t.Rules = x.Rules := by
  rw [hs.lookupByID]
  cases h : lt.LookupByID deps.GetID (deps.GetID x) with
  | none =>
    refine Or.inl ⟨rfl, ?_⟩
    rintro ⟨t, ht, hr⟩
    exact lookupByID_none _ _ _ h t ht ((hs.id_iff t x (hl t ht) hx).mpr hr)
  | some t =>
    obtain ⟨ht, hid⟩ := lookupByID_some _ _ _ _ h
    exact Or.inr ⟨t, rfl, ht, (hs.id_iff t x (hl t ht) hx).mp hid⟩


/-! ## One round of `refreshTables`, read on the stores as finite maps -/

theorem refreshPod_eq (deps : CacheDeps) (rc : RendererCache) (rct : RendererCacheTxn)
    (localTables : LocalTables) (podID : PodID) :
    refreshPod deps rc rct localTables podID =
      match candidate deps rc rct podID with
      | none => none
      | some newTable =>
        some (withNewTable deps rc (withOrigTable deps rc localTables podID) newTable podID) := by
  unfold refreshPod candidate withNewTable withOrigTable
  cases rct.GetPodConfig rc podID with
  | none => rfl
  | some podCfg =>
    simp only
    cases buildLocalTable deps rc rct podID podCfg with
    | none => rfl
    | some newTable =>
      have tail : ∀ S1 : LocalTables,
          (match deps.LookupByRules S1 newTable.Rules with
            | some txnTable => some (deps.AssignPod S1 txnTable podID)
            | none =>
              match deps.LookupByRules rc.localTables newTable.Rules with
              | some cacheTable =>
                some (deps.Insert S1
                  { Typ := cacheTable.Typ, Rules := cacheTable.Rules,
                    Pods := PodSet.Add cacheTable.Pods podID, Private := cacheTable.Private })
              | none => some (deps.Insert S1 newTable)) =
            some (match deps.LookupByRules S1 newTable.Rules with
              | some txnTable => deps.AssignPod S1 txnTable podID
              | none =>
                match deps.LookupByRules rc.localTables newTable.Rules with
                | some cacheTable =>
                  deps.Insert S1
                    { Typ := cacheTable.Typ, Rules := cacheTable.Rules,
                      Pods := PodSet.Add cacheTable.Pods podID, Private := cacheTable.Private }
                | none => deps.Insert S1 newTable) := by
        intro S1
        cases deps.LookupByRules S1 newTable.Rules with
        | some txnTable => rfl
        | none =>
          cases deps.LookupByRules rc.localTables newTable.Rules with
          | some cacheTable => rfl
          | none => rfl
      exact tail _

/-- The first step of a round: the table that the cache assigns the pod to is
added to the transaction, with the pods that the cache assigns to it. -/
theorem withOrigTable_spec (deps : CacheDeps) (hs : StoreContract deps) (rc : RendererCache)
    (hC : rc.localTables.WF) (S : LocalTables) (hS : S.WF) (p : PodID) :
    (withOrigTable deps rc S p).WF ∧
    (∀ r, (withOrigTable deps rc S p).has r ↔ S.has r ∨ rc.localTables.holds r p) ∧
    (∀ r q, (withOrigTable deps rc S p).holds r q ↔
      (S.holds r q ∧ ¬ ∃ r0, rc.localTables.holds r0 p ∧ ¬ S.has r0 ∧
          rc.localTables.holds r0 q) ∨
        (rc.localTables.holds r p ∧ ¬ S.has r ∧ rc.localTables.holds r q)) := by
  unfold withOrigTable
  rw [hs.lookupByPod]
  cases h : rc.localTables.LookupByPod p with
  | none =>
    have hno := lookupByPod_none _ _ h
    refine ⟨hS, fun r => ?_, fun r q => ?_⟩
    · simp only [hno r, or_false]
    · constructor
      · intro hh
        exact Or.inl ⟨hh, fun ⟨r0, h0, _⟩ => hno r0 h0⟩
      · rintro (hh | hh)
        · exact hh.1
        · exact absurd hh.1 (hno r)
  | some T =>
    obtain ⟨hT, hp⟩ := lookupByPod_some _ _ _ h
    have hTp : rc.localTables.holds T.Rules p := ⟨T, hT, rfl, hp⟩
    have huniq : ∀ r0, rc.localTables.holds r0 p → r0 = T.Rules :=
      fun r0 h0 => hC.pods r0 T.Rules p h0 hTp
    have hmem : ∀ q, q ∈ T.Pods ↔ rc.localTables.holds T.Rules q :=
      fun q => (holds_iff_of_mem _ hC.rules T hT q).symm
    simp only
    rcases lookupByID_spec deps hs S hS.typ T (hC.typ T hT) with ⟨hid, hnot⟩ | ⟨t, hid, ht, htr⟩
    · rw [hid]
      simp only [Option.isNone_none, if_true]
      rw [hs.insert]
      refine ⟨WF_Insert _ _ hS hnot (hC.typ T hT), fun r => ?_, fun r q => ?_⟩
      · rw [has_Insert]
        constructor
        · rintro (hh | hh)
          · exact Or.inl hh
          · exact Or.inr (hh ▸ hTp)
        · rintro (hh | hh)
          · exact Or.inl hh
          · exact Or.inr (huniq r hh)
      · rw [holds_Insert]
        simp only [hmem]
        constructor
        · rintro (⟨h1, h2⟩ | ⟨h1, h2⟩)
          · refine Or.inl ⟨h1, ?_⟩
            rintro ⟨r0, h0, _, h3⟩
            rw [huniq r0 h0] at h3
            exact h2 h3
          · subst h1
            exact Or.inr ⟨hTp, hnot, h2⟩
        · rintro (⟨h1, h2⟩ | ⟨h1, h2, h3⟩)
          · exact Or.inl ⟨h1, fun h3 => h2 ⟨T.Rules, hTp, hnot, h3⟩⟩
          · have e := huniq r h1
            subst e
            exact Or.inr ⟨rfl, h3⟩
    · rw [hid]
      simp only [Option.isNone_some, Bool.false_eq_true, if_false]
      have hhas : S.has T.Rules := ⟨t, ht, htr⟩
      refine ⟨hS, fun r => ?_, fun r q => ?_⟩
      · constructor
        · exact fun hh => Or.inl hh
        · rintro (hh | hh)
          · exact hh
          · rw [huniq r hh]; exact hhas
      · constructor
        · intro hh
          refine Or.inl ⟨hh, ?_⟩
          rintro ⟨r0, h0, h1, _⟩
          rw [huniq r0 h0] at h1
          exact h1 hhas
        · rintro (hh | ⟨h1, h2, _⟩)
          · exact hh.1
          · rw [huniq r h1] at h2
            exact absurd hhas h2

/-- The second step of a round: the pod is given the table with the rule list of
its candidate table, which is taken from the transaction, else from the cache,
else it is the candidate table itself. -/
theorem withNewTable_spec (deps : CacheDeps) (hs : StoreContract deps) (rc : RendererCache)
    (hC : rc.localTables.WF) (S1 : LocalTables) (hS1 : S1.WF) (newTable : ContivRuleTable)
    (p : PodID) (hl : newTable.Typ = TableType.Local) (hp : ∀ q, q ∈ newTable.Pods ↔ q = p) :
    (withNewTable deps rc S1 newTable p).WF ∧
    (∀ r, (withNewTable deps rc S1 newTable p).has r ↔ S1.has r ∨ r = newTable.Rules) ∧
    (∀ r q, (withNewTable deps rc S1 newTable p).holds r q ↔
      if r = newTable.Rules then
        S1.holds r q ∨ q = p ∨ (¬ S1.has r ∧ rc.localTables.holds r q)
      else
        S1.holds r q ∧ q ≠ p ∧
          (S1.has newTable.Rules ∨ ¬ rc.localTables.holds newTable.Rules q)) := by
  unfold withNewTable
  rw [hs.lookupByRules, hs.lookupByRules]
  cases h1 : S1.LookupByRules newTable.Rules with
  | some X =>
    obtain ⟨hX, hXr⟩ := lookupByRules_some _ _ _ h1
    have hhas : S1.has newTable.Rules := ⟨X, hX, hXr⟩
    simp only
    rw [hs.assignPod]
    refine ⟨WF_AssignPod _ _ _ hS1, fun r => ?_, fun r q => ?_⟩
    · rw [has_AssignPod]
      constructor
      · exact fun hh => Or.inl hh
      · rintro (hh | hh)
        · exact hh
        · rw [hh]; exact hhas
    · rw [holds_AssignPod, hXr]
      by_cases e : r = newTable.Rules
      · subst e
        simp only [if_true, hhas, not_true_eq_false, false_and, or_false, and_true]
      · simp only [e, if_false, hhas, true_or, and_true]
  | none =>
    have hnot := lookupByRules_none _ _ h1
    simp only
    cases h2 : rc.localTables.LookupByRules newTable.Rules with
    | some T =>
      obtain ⟨hT, hTr⟩ := lookupByRules_some _ _ _ h2
      have hmem : ∀ q, q ∈ T.Pods ↔ rc.localTables.holds newTable.Rules q := by
        intro q
        rw [← hTr]
        exact (holds_iff_of_mem _ hC.rules T hT q).symm
      simp only
      rw [hs.insert]
      refine ⟨WF_Insert _ _ hS1 (by rw [hTr]; exact hnot) (hC.typ T hT), fun r => ?_,
        fun r q => ?_⟩
      · rw [has_Insert, hTr]
      · rw [holds_Insert]
        simp only [PodSet.mem_Add, hmem, hTr]
        by_cases e : r = newTable.Rules
        · subst e
          simp only [if_true, hnot, not_false_eq_true, true_and]
          have : ¬ S1.holds newTable.Rules q := fun hh => hnot (holds_has _ _ _ hh)
          tauto
        · simp only [e, if_false, hnot, false_or, false_and, or_false]
          tauto
    | none =>
      have hnotC := lookupByRules_none _ _ h2
      have hnh : ∀ q, ¬ rc.localTables.holds newTable.Rules q :=
        fun q hh => hnotC (holds_has _ _ _ hh)
      simp only
      rw [hs.insert]
      refine ⟨WF_Insert _ _ hS1 hnot hl, fun r => ?_, fun r q => ?_⟩
      · rw [has_Insert]
      · rw [holds_Insert]
        simp only [hp]
        by_cases e : r = newTable.Rules
        · subst e
          simp only [if_true, hnot, not_false_eq_true, true_and, hnh, or_false]
          have : ¬ S1.holds newTable.Rules q := fun hh => hnot (holds_has _ _ _ hh)
          tauto
        · simp only [e, if_false, hnot, false_or, false_and, or_false, hnh, not_false_eq_true,
            and_true]

/-! ### The candidate table -/

theorem foldl_InsertRule_pods {α : Type} (cmp : ContivRule → ContivRule → Int)
    (f : α → ContivRule) (l : List α) (table : ContivRuleTable) :
    (l.foldl (fun t x => (t.InsertRule cmp (f x)).1) table).Pods = table.Pods := by
  induction l generalizing table with
  | nil => rfl
  | cons x rest ih =>
    simp only [List.foldl_cons]
    rw [ih]
    rfl

theorem installLocalRules_pods (deps : CacheDeps) (orientation : Orientation)
    (dstTable table1 : ContivRuleTable) (dstPodCfg srcPodCfg : PodConfig)
    (h : installLocalRules deps orientation dstTable dstPodCfg srcPodCfg = some table1) :
    table1.Pods = dstTable.Pods := by
  rw [installLocalRules_eq] at h
  split at h
  · cases hip : srcPodCfg.PodIP with
    | none => rw [hip] at h; cases h
    | some ip =>
      rw [hip] at h
      simp only [Option.some.injEq] at h
      rw [← h, (insertRules_fields _ _ _).2.1]
      rfl
  · simp only [Option.some.injEq] at h
    rw [h]

theorem installAllLocalRules_pods (deps : CacheDeps) (orientation : Orientation)
    (view : PodID → Option PodConfig) (dstPodCfg : PodConfig) (pods : List PodID)
    (table table1 : ContivRuleTable)
    (h : installAllLocalRules deps orientation view dstPodCfg pods table = some table1) :
    table1.Pods = table.Pods := by
  induction pods generalizing table with
  | nil =>
    simp only [installAllLocalRules, Option.some.injEq] at h
    rw [h]
  | cons p rest ih =>
    simp only [installAllLocalRules] at h
    cases hv : view p with
    | none => rw [hv] at h; cases h
    | some cfg =>
      rw [hv] at h
      simp only at h
      cases hi : installLocalRules deps orientation table dstPodCfg cfg with
      | none => rw [hi] at h; cases h
      | some t =>
        rw [hi] at h
        simp only at h
        rw [ih t h, installLocalRules_pods deps orientation table t dstPodCfg cfg hi]

theorem buildLocalTable_pods (deps : CacheDeps) (rc : RendererCache) (rct : RendererCacheTxn)
    (dstPodID : PodID) (dstPodCfg : PodConfig) (table : ContivRuleTable)
    (h : buildLocalTable deps rc rct dstPodID dstPodCfg = some table) :
    table.Pods = [dstPodID] := by
  unfold buildLocalTable at h
  simp only at h
  split at h
  · simp only [Option.some.injEq] at h; rw [← h]; rfl
  · cases hi : installAllLocalRules deps rc.orientation (rct.GetPodConfig rc) dstPodCfg
        (rct.GetAllPods rc)
        ((if rc.orientation = Orientation.EgressOrientation then dstPodCfg.Egress
          else dstPodCfg.Ingress).foldl (fun t rule => (t.InsertRule deps.Compare rule).1)
          { NewContivRuleTable TableType.Local with
            Pods := PodSet.Add (NewContivRuleTable TableType.Local).Pods dstPodID }) with
    | none => rw [hi] at h; cases h
    | some t2 =>
      rw [hi] at h
      simp only at h
      have ht2 : t2.Pods = [dstPodID] := by
        rw [installAllLocalRules_pods deps _ _ _ _ _ _ hi,
          foldl_InsertRule_pods deps.Compare (fun r => r)]
        rfl
      split at h
      · split at h
        · simp only [Option.some.injEq] at h; rw [← h]; exact ht2
        · simp only [Option.some.injEq] at h; rw [← h]; exact ht2
      · simp only [Option.some.injEq] at h; rw [← h]; exact ht2

theorem buildLocalTable_removed (deps : CacheDeps) (rc : RendererCache) (rct : RendererCacheTxn)
    (dstPodID : PodID) (dstPodCfg : PodConfig) (hr : dstPodCfg.Removed = true) :
    ∃ table, buildLocalTable deps rc rct dstPodID dstPodCfg = some table ∧ table.Rules = [] := by
  unfold buildLocalTable
  simp only [hr, if_true]
  exact ⟨_, rfl, rfl⟩

theorem candidate_fields (deps : CacheDeps) (rc : RendererCache) (rct : RendererCacheTxn)
    (p : PodID) (tp : ContivRuleTable) (h : candidate deps rc rct p = some tp) :
    tp.Typ = TableType.Local ∧ ∀ q, q ∈ tp.Pods ↔ q = p := by
  unfold candidate at h
  cases hv : rct.GetPodConfig rc p with
  | none => rw [hv] at h; cases h
  | some cfg =>
    rw [hv] at h
    simp only at h
    refine ⟨buildLocalTable_typ deps rc rct p cfg tp h, fun q => ?_⟩
    rw [buildLocalTable_pods deps rc rct p cfg tp h, List.mem_singleton]

/-- One round of `refreshTables` on well-formed stores: the store of the
transaction afterwards, as a finite map. -/
theorem refreshPod_spec (deps : CacheDeps) (hs : StoreContract deps) (rc : RendererCache)
    (rct : RendererCacheTxn) (hC : rc.localTables.WF) (S S2 : LocalTables) (hS : S.WF)
    (p : PodID) (h : refreshPod deps rc rct S p = some S2) :
    ∃ tp, candidate deps rc rct p = some tp ∧
      S2 = withNewTable deps rc (withOrigTable deps rc S p) tp p ∧ S2.WF ∧
      S2.holds tp.Rules p ∧
      (∀ r, S2.has r ↔ S.has r ∨ rc.localTables.holds r p ∨ r = tp.Rules) := by
  rw [refreshPod_eq] at h
  cases hc : candidate deps rc rct p with
  | none => rw [hc] at h; cases h
  | some tp =>
    rw [hc] at h
    simp only [Option.some.injEq] at h
    obtain ⟨hl, hp⟩ := candidate_fields deps rc rct p tp hc
    obtain ⟨hw1, hhas1, _⟩ := withOrigTable_spec deps hs rc hC S hS p
    obtain ⟨hw2, hhas2, hholds2⟩ := withNewTable_spec deps hs rc hC _ hw1 tp p hl hp
    refine ⟨tp, rfl, h.symm, h ▸ hw2, ?_, fun r => ?_⟩
    · rw [← h, hholds2]
      simp only [if_true, true_or, or_true]
    · rw [← h, hhas2, hhas1, or_assoc]


/-! ## The loop of `refreshTables` -/

theorem refreshed_step (deps : CacheDeps) (hs : StoreContract deps) (rc : RendererCache)
    (rct : RendererCacheTxn) (hC : rc.localTables.WF) (S S2 : LocalTables)
    (visited : List PodID) (hR : Refreshed deps rc rct S visited) (p : PodID)
    (h : refreshPod deps rc rct S p = some S2) :
    Refreshed deps rc rct S2 (p :: visited) := by
  obtain ⟨tp, hc, hS2, hw, hholds, hhas⟩ := refreshPod_spec deps hs rc rct hC S S2 hR.wf p h
  obtain ⟨hl, hp⟩ := candidate_fields deps rc rct p tp hc
  obtain ⟨hw1, hhas1, hholds1⟩ := withOrigTable_spec deps hs rc hC S hR.wf p
  obtain ⟨_, _, hholds2⟩ := withNewTable_spec deps hs rc hC _ hw1 tp p hl hp
  refine ⟨hw, ?_, ?_⟩
  · intro q hq
    by_cases e : q = p
    · subst e
      exact ⟨tp, hc, hholds⟩
    · have hq1 : q ∈ visited := by
        rcases List.mem_cons.mp hq with h1 | h1
        · exact absurd h1 e
        · exact h1
      obtain ⟨tq, hcq, hSq⟩ := hR.cand q hq1
      refine ⟨tq, hcq, ?_⟩
      have h1 : (withOrigTable deps rc S p).holds tq.Rules q := by
        rw [hholds1]
        refine Or.inl ⟨hSq, ?_⟩
        rintro ⟨r0, _, hn, h0⟩
        exact hn (hR.orig q hq1 r0 h0)
      rw [hS2, hholds2]
      by_cases er : tq.Rules = tp.Rules
      · rw [if_pos er]
        exact Or.inl h1
      · rw [if_neg er]
        refine ⟨h1, e, ?_⟩
        by_cases hcq2 : rc.localTables.holds tp.Rules q
        · exact Or.inl ((hhas1 _).mpr (Or.inl (hR.orig q hq1 _ hcq2)))
        · exact Or.inr hcq2
  · intro q hq r hr
    rw [hhas]
    rcases List.mem_cons.mp hq with h1 | h1
    · subst h1
      exact Or.inr (Or.inl hr)
    · exact Or.inl (hR.orig q h1 r hr)

theorem refreshed_loop (deps : CacheDeps) (hs : StoreContract deps) (rc : RendererCache)
    (rct : RendererCacheTxn) (hC : rc.localTables.WF) (pods : List PodID) (S S2 : LocalTables)
    (visited : List PodID) (hR : Refreshed deps rc rct S visited)
    (h : refreshPods deps rc rct pods S = some S2) :
    Refreshed deps rc rct S2 (pods ++ visited) := by
  induction pods generalizing S visited with
  | nil =>
    simp only [refreshPods, Option.some.injEq] at h
    subst h
    exact hR
  | cons p rest ih =>
    simp only [refreshPods] at h
    cases h1 : refreshPod deps rc rct S p with
    | none => rw [h1] at h; cases h
    | some S1 =>
      rw [h1] at h
      simp only at h
      have := ih S1 (p :: visited) (refreshed_step deps hs rc rct hC S S1 visited hR p h1) h
      refine ⟨this.wf, fun q hq => this.cand q ?_, fun q hq => this.orig q ?_⟩
      · simp only [List.mem_append, List.mem_cons] at hq ⊢
        tauto
      · simp only [List.mem_append, List.mem_cons] at hq ⊢
        tauto

theorem refreshPods_pods (deps : CacheDeps) (hs : StoreContract deps) (rc : RendererCache)
    (rct : RendererCacheTxn) (hC : rc.localTables.WF) (pods : List PodID) (S S2 : LocalTables)
    (hS : S.WF) (h : refreshPods deps rc rct pods S = some S2) (r : List ContivRule) (q : PodID)
    (hq : S2.holds r q) :
    (∃ r0, S.holds r0 q) ∨ (∃ r0, rc.localTables.holds r0 q) ∨ q ∈ pods := by
  induction pods generalizing S with
  | nil =>
    simp only [refreshPods, Option.some.injEq] at h
    subst h
    exact Or.inl ⟨r, hq⟩
  | cons p rest ih =>
    simp only [refreshPods] at h
    cases h1 : refreshPod deps rc rct S p with
    | none => rw [h1] at h; cases h
    | some S1 =>
      rw [h1] at h
      simp only at h
      obtain ⟨tp, hc, hS1, hw, _, _⟩ := refreshPod_spec deps hs rc rct hC S S1 hS p h1
      obtain ⟨hl, hp⟩ := candidate_fields deps rc rct p tp hc
      obtain ⟨hw0, _, hholds0⟩ := withOrigTable_spec deps hs rc hC S hS p
      obtain ⟨_, _, hholds1⟩ := withNewTable_spec deps hs rc hC _ hw0 tp p hl hp
      rcases ih S1 hw h with ⟨r0, h0⟩ | h0 | h0
      · rw [hS1, hholds1] at h0
        have key : (withOrigTable deps rc S p).holds r0 q ∨ q = p ∨
            rc.localTables.holds r0 q := by
          split at h0
          · rcases h0 with a | a | a
            · exact Or.inl a
            · exact Or.inr (Or.inl a)
            · exact Or.inr (Or.inr a.2)
          · exact Or.inl h0.1
        rcases key with a | a | a
        · rw [hholds0] at a
          rcases a with a | a
          · exact Or.inl ⟨r0, a.1⟩
          · exact Or.inr (Or.inl ⟨r0, a.2.2⟩)
        · exact Or.inr (Or.inr (a ▸ List.mem_cons_self _ _))
        · exact Or.inr (Or.inl ⟨r0, a⟩)
      · exact Or.inr (Or.inl h0)
      · exact Or.inr (Or.inr (List.mem_cons_of_mem _ h0))


/-! ## The invariant of a transaction -/

theorem candidate_congr (deps : CacheDeps) (rc : RendererCache) (rct rct1 : RendererCacheTxn)
    (h : rct1.config = rct.config) : candidate deps rc rct1 = candidate deps rc rct := by
  funext p
  unfold candidate buildLocalTable RendererCacheTxn.GetPodConfig RendererCacheTxn.GetAllPods
  rw [h]

theorem rebuildGlobalTable_congr (deps : CacheDeps) (rc : RendererCache)
    (rct rct1 : RendererCacheTxn) (h : rct1.config = rct.config) :
    rebuildGlobalTable deps rc rct1 = rebuildGlobalTable deps rc rct := by
  unfold rebuildGlobalTable RendererCacheTxn.GetPodConfig RendererCacheTxn.GetAllPods
  rw [h]

theorem refreshTables_config (deps : CacheDeps) (rc : RendererCache)
    (rct rct1 : RendererCacheTxn) (h : refreshTables deps rc rct = some rct1) :
    rct1.config = rct.config ∧ rct1.upToDateTables = true ∧
      refreshPods deps rc rct (PodSet.Join (rct.GetAllPods rc) rct.GetRemovedPods)
        rct.localTables = some rct1.localTables ∧
      ∃ g, rebuildGlobalTable deps rc rct = some g ∧ rct1.globalTable = some g := by
  unfold refreshTables at h
  cases h1 : refreshPods deps rc rct (PodSet.Join (rct.GetAllPods rc) rct.GetRemovedPods)
      rct.localTables with
  | none => rw [h1] at h; cases h
  | some S =>
    rw [h1] at h
    simp only at h
    cases h2 : rebuildGlobalTable deps rc rct with
    | none => rw [h2] at h; cases h
    | some g =>
      rw [h2] at h
      simp only [Option.some.injEq] at h
      subst h
      exact ⟨rfl, rfl, rfl, g, rfl, rfl⟩

theorem refreshed_congr (deps : CacheDeps) (rc : RendererCache) (rct rct1 : RendererCacheTxn)
    (h : rct1.config = rct.config) (S : LocalTables) (visited : List PodID)
    (hR : Refreshed deps rc rct S visited) : Refreshed deps rc rct1 S visited := by
  refine ⟨hR.wf, ?_, hR.orig⟩
  rw [candidate_congr deps rc rct rct1 h]
  exact hR.cand

theorem mem_keys_set (config : Config) (pod : PodID) (podConfig : PodConfig) (q : PodID) :
    q ∈ (Config.set config pod podConfig).map Prod.fst ↔ q ∈ config.map Prod.fst ∨ q = pod := by
  unfold Config.set
  simp only [List.map_append, List.map_cons, List.map_nil, List.mem_append, List.mem_map,
    List.mem_filter, decide_eq_true_eq, List.mem_singleton]
  constructor
  · rintro (⟨e, ⟨he, _⟩, rfl⟩ | h)
    · exact Or.inl ⟨e, he, rfl⟩
    · exact Or.inr h
  · rintro (⟨e, he, rfl⟩ | h)
    · by_cases hp : e.1 = pod
      · exact Or.inr hp
      · exact Or.inl ⟨e, ⟨he, hp⟩, rfl⟩
    · exact Or.inr h

/-- The pods that the loop of `refreshTables` visits are pods of the cache or of
the transaction. -/
theorem mem_allPods_keys (rc : RendererCache) (rct : RendererCacheTxn) (q : PodID)
    (h : q ∈ PodSet.Join (rct.GetAllPods rc) rct.GetRemovedPods) :
    q ∈ rc.config.map Prod.fst ∨ q ∈ rct.config.map Prod.fst := by
  rcases (mem_Join _ _ _).mp h with h1 | h1
  · rcases mem_txn_GetAllPods_aux rct.config rc.GetAllPods q h1 with h2 | h2
    · exact Or.inl ((mem_GetAllPods rc q).mp h2)
    · exact Or.inr h2
  · rcases mem_GetRemovedPods_aux rct.config NewPodSet q h1 with h2 | h2
    · cases h2
    · exact Or.inr h2

theorem txnInv_new (deps : CacheDeps) (rc : RendererCache) : TxnInv deps rc rc.NewTxn :=
  ⟨WF_empty, fun h => by simp [RendererCache.NewTxn] at h,
    fun h => by simp [RendererCache.NewTxn] at h,
    fun r q h => by
      obtain ⟨t, ht, _⟩ := h
      simp [RendererCache.NewTxn, NewLocalTables] at ht⟩

theorem txnInv_update (deps : CacheDeps) (rc : RendererCache) (rct : RendererCacheTxn)
    (pod : PodID) (podConfig : PodConfig) (h : TxnInv deps rc rct) :
    TxnInv deps rc (rct.Update pod podConfig) :=
  ⟨h.wf, fun hu => by simp [RendererCacheTxn.Update] at hu,
    fun hu => by simp [RendererCacheTxn.Update] at hu,
    fun r q hq => by
      rcases h.pods r q hq with h1 | h1
      · exact Or.inl h1
      · exact Or.inr ((mem_keys_set _ _ _ _).mpr (Or.inl h1))⟩

theorem txnInv_upToDate (deps : CacheDeps) (hs : StoreContract deps) (rc : RendererCache)
    (hC : CacheInv rc) (rct rct1 : RendererCacheTxn) (h : TxnInv deps rc rct)
    (hu : upToDate deps rc rct = some rct1) :
    TxnInv deps rc rct1 ∧ rct1.config = rct.config ∧ rct1.upToDateTables = true := by
  unfold upToDate at hu
  split at hu
  · rename_i hup
    simp only [Option.some.injEq] at hu
    subst hu
    exact ⟨h, rfl, hup⟩
  · obtain ⟨hc, hup, hl, hg⟩ := refreshTables_config deps rc rct rct1 hu
    have hR := refreshed_loop deps hs rc rct hC.wf _ _ _ []
      ⟨h.wf, fun q hq => by simp at hq, fun q hq => by simp at hq⟩ hl
    rw [List.append_nil] at hR
    have hR1 := refreshed_congr deps rc rct rct1 hc _ _ hR
    have hpods : PodSet.Join (rct1.GetAllPods rc) rct1.GetRemovedPods =
        PodSet.Join (rct.GetAllPods rc) rct.GetRemovedPods := by
      unfold RendererCacheTxn.GetAllPods RendererCacheTxn.GetRemovedPods
      rw [hc]
    refine ⟨⟨hR1.wf, fun _ => hpods ▸ hR1, fun _ => ?_, fun r q hq => ?_⟩, hc, hup⟩
    · rw [rebuildGlobalTable_congr deps rc rct rct1 hc]
      exact hg
    · rw [hc]
      rcases refreshPods_pods deps hs rc rct hC.wf _ _ _ h.wf hl r q hq with
        ⟨r0, h0⟩ | ⟨r0, h0⟩ | h0
      · exact h.pods r0 q h0
      · exact Or.inl (hC.pods r0 q h0)
      · exact mem_allPods_keys rc rct q h0

theorem txn_inv (deps : CacheDeps) (hs : StoreContract deps) (rc : RendererCache)
    (hC : CacheInv rc) (updates : List (PodID × PodConfig)) (rct : RendererCacheTxn)
    (h : Txn deps rc updates rct) : TxnInv deps rc rct := by
  induction h with
  | new => exact txnInv_new deps rc
  | update us rct pod cfg _ ih => exact txnInv_update deps rc rct pod cfg ih
  | refresh us rct rct1 _ hu ih => exact (txnInv_upToDate deps hs rc hC rct rct1 ih hu).1


/-! ## `Commit` on the stores as finite maps -/

theorem setPrivate_tables (deps : CacheDeps) (lt : LocalTables) (id : String)
    (priv : Option Nat) :
    (∀ r, (setPrivate deps lt id priv).has r ↔ lt.has r) ∧
    (∀ r q, (setPrivate deps lt id priv).holds r q ↔ lt.holds r q) ∧
    (lt.WF → (setPrivate deps lt id priv).WF) := by
  have hholds : ∀ r q, (setPrivate deps lt id priv).holds r q ↔ lt.holds r q := by
    intro r q
    unfold LocalTables.holds setPrivate
    simp only [List.mem_map]
    constructor
    · rintro ⟨t, ⟨t0, h0, rfl⟩, h, hq⟩
      refine ⟨t0, h0, ?_⟩
      split at h <;> exact ⟨h, by split at hq <;> exact hq⟩
    · rintro ⟨t, h0, h, hq⟩
      refine ⟨_, ⟨t, h0, rfl⟩, ?_⟩
      split <;> exact ⟨h, hq⟩
  have hrules : (setPrivate deps lt id priv).tables.map (fun t => t.Rules) =
      lt.tables.map (fun t => t.Rules) := by
    unfold setPrivate
    simp only [List.map_map]
    apply List.map_congr_left
    intro t _
    simp only [Function.comp_def]
    split <;> rfl
  refine ⟨fun r => ?_, hholds, fun h => ⟨?_, ?_, ?_⟩⟩
  · rw [has_iff_mem_rules, has_iff_mem_rules, hrules]
  · intro t ht
    unfold setPrivate at ht
    simp only [List.mem_map] at ht
    obtain ⟨t0, h0, rfl⟩ := ht
    split
    · exact h.typ t0 h0
    · exact h.typ t0 h0
  · rw [hrules]; exact h.rules
  · intro r1 r2 q h1 h2
    rw [hholds] at h1 h2
    exact h.pods r1 r2 q h1 h2

theorem unassignLoop_spec (deps : CacheDeps) (hs : StoreContract deps)
    (orig : ContivRuleTable) (keep : PodSet) (pods : List PodID) (lt : LocalTables) :
    (lt.WF → (pods.foldl (fun lt pod =>
        if !PodSet.Has keep pod then deps.UnassignPod lt (some orig) pod else lt) lt).WF) ∧
    (∀ r, (pods.foldl (fun lt pod =>
        if !PodSet.Has keep pod then deps.UnassignPod lt (some orig) pod else lt) lt).has r ↔
      lt.has r) ∧
    (∀ r q, (pods.foldl (fun lt pod =>
        if !PodSet.Has keep pod then deps.UnassignPod lt (some orig) pod else lt) lt).holds r q ↔
      lt.holds r q ∧ ¬ (r = orig.Rules ∧ q ∈ pods ∧ q ∉ keep)) := by
  induction pods generalizing lt with
  | nil => simp
  | cons p rest ih =>
    simp only [List.foldl_cons]
    by_cases hk : p ∈ keep
    · have e : (!PodSet.Has keep p) = false := by simp [PodSet.Has, hk]
      simp only [e, Bool.false_eq_true, if_false]
      obtain ⟨h1, h2, h3⟩ := ih lt
      refine ⟨h1, h2, fun r q => ?_⟩
      rw [h3, List.mem_cons]
      constructor
      · rintro ⟨a, b⟩
        refine ⟨a, ?_⟩
        rintro ⟨c, d | d, f⟩
        · exact f (d ▸ hk)
        · exact b ⟨c, d, f⟩
      · rintro ⟨a, b⟩
        exact ⟨a, fun ⟨c, d, f⟩ => b ⟨c, Or.inr d, f⟩⟩
    · have e : (!PodSet.Has keep p) = true := by simp [PodSet.Has, hk]
      simp only [e, if_true]
      rw [hs.unassignPod]
      obtain ⟨h1, h2, h3⟩ := ih (lt.UnassignPod (some orig) p)
      refine ⟨fun hw => h1 (WF_UnassignPod _ _ _ hw), fun r => ?_, fun r q => ?_⟩
      · rw [h2, has_UnassignPod]
      · rw [h3, holds_UnassignPod, List.mem_cons]
        constructor
        · rintro ⟨⟨a, b⟩, c⟩
          refine ⟨a, ?_⟩
          rintro ⟨d, f | f, g⟩
          · exact b ⟨d, f⟩
          · exact c ⟨d, f, g⟩
        · rintro ⟨a, b⟩
          refine ⟨⟨a, fun ⟨c, d⟩ => b ⟨c, Or.inl d, d ▸ hk⟩⟩, fun ⟨c, d, f⟩ => b ⟨c, Or.inr d, f⟩⟩

theorem assignLoop_spec (deps : CacheDeps) (hs : StoreContract deps)
    (orig : ContivRuleTable) (skip : PodSet) (pods : List PodID) (lt : LocalTables) :
    (lt.WF → (pods.foldl (fun lt pod =>
        if !PodSet.Has skip pod then deps.AssignPod lt orig pod else lt) lt).WF) ∧
    (∀ r, (pods.foldl (fun lt pod =>
        if !PodSet.Has skip pod then deps.AssignPod lt orig pod else lt) lt).has r ↔
      lt.has r) ∧
    (∀ r q, (pods.foldl (fun lt pod =>
        if !PodSet.Has skip pod then deps.AssignPod lt orig pod else lt) lt).holds r q ↔
      if r = orig.Rules then lt.holds r q ∨ (q ∈ pods ∧ q ∉ skip ∧ lt.has r)
      else lt.holds r q ∧ ¬ (q ∈ pods ∧ q ∉ skip)) := by
  induction pods generalizing lt with
  | nil =>
    refine ⟨fun h => h, fun r => Iff.rfl, fun r q => ?_⟩
    simp
  | cons p rest ih =>
    simp only [List.foldl_cons]
    by_cases hk : p ∈ skip
    · have e : (!PodSet.Has skip p) = false := by simp [PodSet.Has, hk]
      simp only [e, Bool.false_eq_true, if_false]
      obtain ⟨h1, h2, h3⟩ := ih lt
      refine ⟨h1, h2, fun r q => ?_⟩
      rw [h3]
      have hq : (q ∈ p :: rest ∧ q ∉ skip) ↔ (q ∈ rest ∧ q ∉ skip) := by
        rw [List.mem_cons]
        constructor
        · rintro ⟨a | a, b⟩
          · exact absurd (a ▸ hk) b
          · exact ⟨a, b⟩
        · rintro ⟨a, b⟩
          exact ⟨Or.inr a, b⟩
      by_cases er : r = orig.Rules
      · simp only [er, if_true]
        rw [← and_assoc, ← and_assoc, hq]
      · simp only [er, if_false, hq]
    · have e : (!PodSet.Has skip p) = true := by simp [PodSet.Has, hk]
      simp only [e, if_true]
      rw [hs.assignPod]
      obtain ⟨h1, h2, h3⟩ := ih (lt.AssignPod orig p)
      refine ⟨fun hw => h1 (WF_AssignPod _ _ _ hw), fun r => ?_, fun r q => ?_⟩
      · rw [h2, has_AssignPod]
      · rw [h3]
        by_cases er : r = orig.Rules
        · simp only [er, if_true, holds_AssignPod, has_AssignPod, List.mem_cons]
          constructor
          · rintro ((a | ⟨a, b⟩) | ⟨a, b, c⟩)
            · exact Or.inl a
            · exact Or.inr ⟨Or.inl a, a ▸ hk, b⟩
            · exact Or.inr ⟨Or.inr a, b, c⟩
          · rintro (a | ⟨a | a, b, c⟩)
            · exact Or.inl (Or.inl a)
            · exact Or.inl (Or.inr ⟨a, c⟩)
            · exact Or.inr ⟨a, b, c⟩
        · simp only [er, if_false, holds_AssignPod, List.mem_cons]
          constructor
          · rintro ⟨⟨a, b⟩, c⟩
            refine ⟨a, ?_⟩
            rintro ⟨d | d, f⟩
            · exact b d
            · exact c ⟨d, f⟩
          · rintro ⟨a, b⟩
            exact ⟨⟨a, fun d => b ⟨Or.inl d, d ▸ hk⟩⟩, fun ⟨d, f⟩ => b ⟨Or.inr d, f⟩⟩

/-- One round of the loop of `Commit` over the local tables of the transaction:
afterwards the cache assigns to the rule list of the table exactly the pods of
the table, and these pods to no other table. -/
theorem commitLocalTable_spec (deps : CacheDeps) (hs : StoreContract deps) (C : LocalTables)
    (hC : C.WF) (X : ContivRuleTable) (hX : X.Typ = TableType.Local) :
    (commitLocalTable deps C X).WF ∧
    (∀ r q, (commitLocalTable deps C X).holds r q ↔
      if r = X.Rules then q ∈ X.Pods else C.holds r q ∧ q ∉ X.Pods) := by
  unfold commitLocalTable
  rcases lookupByID_spec deps hs C hC.typ X hX with ⟨hid, hnot⟩ | ⟨orig, hid, ho, hor⟩
  · rw [hid]
    simp only
    have hnh : ∀ q, ¬ C.holds X.Rules q := fun q hh => hnot (holds_has _ _ _ hh)
    by_cases hp : X.Pods.length = 0
    · have hp0 : X.Pods = [] := List.length_eq_zero.mp hp
      simp only [hp, ne_eq, not_true_eq_false, if_false]
      refine ⟨hC, fun r q => ?_⟩
      by_cases er : r = X.Rules
      · subst er
        simp [hnh, hp0]
      · simp [er, hp0]
    · simp only [ne_eq, hp, not_false_eq_true, if_true]
      rw [hs.insert]
      refine ⟨WF_Insert _ _ hC hnot hX, fun r q => ?_⟩
      rw [holds_Insert]
      by_cases er : r = X.Rules
      · subst er
        simp [hnh]
      · simp [er]
  · rw [hid]
    simp only
    have hmem : ∀ q, q ∈ orig.Pods ↔ C.holds X.Rules q := by
      intro q
      rw [← hor]
      exact (holds_iff_of_mem _ hC.rules orig ho q).symm
    have hdisj : ∀ r q, r ≠ X.Rules → C.holds r q → q ∉ orig.Pods :=
      fun r q hne h1 h2 => hne (hC.pods r X.Rules q h1 ((hmem q).mp h2))
    by_cases hp : X.Pods.length = 0
    · have hp0 : X.Pods = [] := List.length_eq_zero.mp hp
      simp only [hp, if_true]
      rw [hs.remove]
      refine ⟨WF_Remove _ _ hC, fun r q => ?_⟩
      rw [holds_Remove]
      by_cases er : r = X.Rules
      · subst er
        simp [hp0]
      · simp [er, hp0]
    · simp only [hp, if_false]
      by_cases he : PodSet.Equals X.Pods orig.Pods = true
      · simp only [he, Bool.not_true, Bool.false_eq_true, if_false]
        rw [PodSet.Equals_iff] at he
        refine ⟨hC, fun r q => ?_⟩
        by_cases er : r = X.Rules
        · subst er
          simp only [if_true, he, hmem]
        · simp only [er, if_false]
          constructor
          · intro h1
            exact ⟨h1, fun h2 => hdisj r q er h1 ((he q).mp h2)⟩
          · exact fun h1 => h1.1
      · have he2 : (!PodSet.Equals X.Pods orig.Pods) = true := by
          simp only [Bool.not_eq_true] at he
          simp [he]
        simp only [he2, if_true]
        obtain ⟨u1, u2, u3⟩ := unassignLoop_spec deps hs orig X.Pods orig.Pods C
        obtain ⟨a1, a2, a3⟩ := assignLoop_spec deps hs orig orig.Pods X.Pods
          (orig.Pods.foldl (fun lt pod =>
            if !PodSet.Has X.Pods pod then deps.UnassignPod lt (some orig) pod else lt) C)
        obtain ⟨p1, p2, p3⟩ := setPrivate_tables deps
          (X.Pods.foldl (fun lt pod =>
            if !PodSet.Has orig.Pods pod then deps.AssignPod lt orig pod else lt)
            (orig.Pods.foldl (fun lt pod =>
              if !PodSet.Has X.Pods pod then deps.UnassignPod lt (some orig) pod else lt) C))
          (deps.GetID orig) X.Private
        refine ⟨p3 (a1 (u1 hC)), fun r q => ?_⟩
        rw [p2, a3, u3, u2, hor]
        by_cases er : r = X.Rules
        · subst er
          simp only [if_true, true_and]
          have hhas : C.has X.Rules := ⟨orig, ho, hor⟩
          rw [← hmem]
          simp only [hhas, and_true]
          tauto
        · simp only [er, if_false, false_and, not_false_eq_true, and_true]
          constructor
          · rintro ⟨h1, h2⟩
            exact ⟨h1, fun h3 => h2 ⟨h3, hdisj r q er h1⟩⟩
          · rintro ⟨h1, h2⟩
            exact ⟨h1, fun h3 => h2 h3.1⟩

/-- The loop of `Commit` over the local tables of the transaction, for a
well-formed store of the transaction: afterwards the cache assigns a pod to a
rule list if the transaction does, or if the transaction has no table with the
rule list, assigns the pod to no table, and the cache assigned it so before. -/
theorem commitTables_spec (deps : CacheDeps) (hs : StoreContract deps) (L : List ContivRuleTable)
    (hL : LocalTables.WF { tables := L }) (C : LocalTables) (hC : C.WF) :
    (L.foldl (commitLocalTable deps) C).WF ∧
    (∀ r q, (L.foldl (commitLocalTable deps) C).holds r q ↔
      LocalTables.holds { tables := L } r q ∨
        (¬ LocalTables.has { tables := L } r ∧ C.holds r q ∧
          ∀ r1, ¬ LocalTables.holds { tables := L } r1 q)) := by
  induction L generalizing C with
  | nil =>
    refine ⟨hC, fun r q => ?_⟩
    simp [LocalTables.holds, LocalTables.has]
  | cons X rest ih =>
    have hXl : X.Typ = TableType.Local := hL.typ X (List.mem_cons_self _ _)
    have hrules := hL.rules
    simp only [List.map_cons, List.nodup_cons] at hrules
    have hrest : LocalTables.WF { tables := rest } := by
      refine ⟨fun t ht => hL.typ t (List.mem_cons_of_mem _ ht), hrules.2, ?_⟩
      rintro r1 r2 q ⟨t1, h1, e1, q1⟩ ⟨t2, h2, e2, q2⟩
      exact hL.pods r1 r2 q ⟨t1, List.mem_cons_of_mem _ h1, e1, q1⟩
        ⟨t2, List.mem_cons_of_mem _ h2, e2, q2⟩
    have hnot : ¬ LocalTables.has { tables := rest } X.Rules := by
      rw [has_iff_mem_rules]
      exact hrules.1
    have hdisj : ∀ q, q ∈ X.Pods → ∀ r, ¬ LocalTables.holds { tables := rest } r q := by
      rintro q hq r ⟨t, h1, e1, q1⟩
      have := hL.pods r X.Rules q ⟨t, List.mem_cons_of_mem _ h1, e1, q1⟩
        ⟨X, List.mem_cons_self _ _, rfl, hq⟩
      exact hnot (this ▸ ⟨t, h1, e1⟩)
    have hcons : ∀ r q, LocalTables.holds { tables := X :: rest } r q ↔
        (X.Rules = r ∧ q ∈ X.Pods) ∨ LocalTables.holds { tables := rest } r q := by
      intro r q
      simp [LocalTables.holds]
    have hconsHas : ∀ r, LocalTables.has { tables := X :: rest } r ↔
        X.Rules = r ∨ LocalTables.has { tables := rest } r := by
      intro r
      simp [LocalTables.has]
    obtain ⟨w1, c1⟩ := commitLocalTable_spec deps hs C hC X hXl
    obtain ⟨w2, c2⟩ := ih hrest (commitLocalTable deps C X) w1
    simp only [List.foldl_cons]
    refine ⟨w2, fun r q => ?_⟩
    rw [c2, c1]
    simp only [hcons, hconsHas]
    by_cases er : r = X.Rules
    · subst er
      simp only [if_true, true_and, hnot, not_false_eq_true, true_or, not_true_eq_false,
        false_and, or_false]
      constructor
      · rintro (h1 | ⟨h1, _⟩)
        · exact Or.inr h1
        · exact Or.inl h1
      · rintro (h1 | h1)
        · exact Or.inr ⟨h1, fun r1 => hdisj q h1 r1⟩
        · exact Or.inl h1
    · have er2 : ¬ X.Rules = r := fun e => er e.symm
      simp only [er, if_false, er2, false_and, false_or]
      constructor
      · rintro (h1 | ⟨h1, ⟨h2, h3⟩, h4⟩)
        · exact Or.inl h1
        · exact Or.inr ⟨h1, h2, fun r1 hh => by
            rcases hh with hh | hh
            · exact h3 hh.2
            · exact h4 r1 hh⟩
      · rintro (h1 | ⟨h1, h2, h3⟩)
        · exact Or.inl h1
        · refine Or.inr ⟨h1, ⟨h2, fun hq => h3 X.Rules (Or.inl ⟨rfl, hq⟩)⟩,
            fun r1 hh => h3 r1 (Or.inr hh)⟩

theorem commitConfig_tables (deps : CacheDeps) (hs : StoreContract deps)
    (entries : List (PodID × PodConfig)) (acc : Config × LocalTables) :
    (acc.2.WF → (commitConfig deps entries acc).2.WF) ∧
    (∀ r q, (commitConfig deps entries acc).2.holds r q ↔
      acc.2.holds r q ∧ ¬ ∃ e ∈ entries, e.2.Removed = true ∧ e.1 = q) := by
  induction entries generalizing acc with
  | nil =>
    refine ⟨fun h => h, fun r q => ?_⟩
    simp [commitConfig]
  | cons e rest ih =>
    by_cases hr : e.2.Removed = true
    · simp only [commitConfig, hr, if_true]
      obtain ⟨h1, h2⟩ := ih (Config.delete acc.1 e.1, deps.UnassignPod acc.2 none e.1)
      simp only at h1 h2
      rw [hs.unassignPod] at h1 h2
      rw [hs.unassignPod]
      refine ⟨fun hw => h1 (WF_UnassignPod _ _ _ hw), fun r q => ?_⟩
      rw [h2]
      simp only [LocalTables.UnassignPod, holds_unassign, List.mem_cons]
      constructor
      · rintro ⟨⟨a, b⟩, c⟩
        refine ⟨a, ?_⟩
        rintro ⟨x, rfl | hx, hx1, hx2⟩
        · exact b hx2.symm
        · exact c ⟨x, hx, hx1, hx2⟩
      · rintro ⟨a, b⟩
        exact ⟨⟨a, fun hq => b ⟨e, Or.inl rfl, hr, hq.symm⟩⟩,
          fun ⟨x, hx, hx1, hx2⟩ => b ⟨x, Or.inr hx, hx1, hx2⟩⟩
    · simp only [commitConfig, hr, Bool.false_eq_true, if_false]
      obtain ⟨h1, h2⟩ := ih (Config.set acc.1 e.1 e.2, acc.2)
      simp only at h1 h2
      refine ⟨h1, fun r q => ?_⟩
      rw [h2]
      simp only [List.mem_cons]
      constructor
      · rintro ⟨a, b⟩
        refine ⟨a, ?_⟩
        rintro ⟨x, rfl | hx, hx1, hx2⟩
        · exact hr hx1
        · exact b ⟨x, hx, hx1, hx2⟩
      · rintro ⟨a, b⟩
        exact ⟨a, fun ⟨x, hx, hx1, hx2⟩ => b ⟨x, Or.inr hx, hx1, hx2⟩⟩

theorem Config.get_of_mem (config : Config) (hn : (config.map Prod.fst).Nodup)
    (e : PodID × PodConfig) (he : e ∈ config) : Config.get config e.1 = some e.2 := by
  induction config with
  | nil => cases he
  | cons x rest ih =>
    rw [List.map_cons, List.nodup_cons] at hn
    unfold Config.get
    rcases List.mem_cons.mp he with rfl | h1
    · rw [List.find?_cons_of_pos _ (by simp)]
    · have hne : ¬ x.1 = e.1 := fun h => hn.1 (h ▸ List.mem_map_of_mem Prod.fst h1)
      rw [List.find?_cons_of_neg _ (by simpa using hne)]
      exact ih hn.2 h1

theorem Config.set_nodup (config : Config) (pod : PodID) (podConfig : PodConfig)
    (hn : (config.map Prod.fst).Nodup) :
    ((Config.set config pod podConfig).map Prod.fst).Nodup := by
  unfold Config.set
  rw [List.map_append, List.map_cons, List.map_nil]
  refine List.Nodup.append ((hn.sublist ((List.filter_sublist _).map _))) (List.nodup_singleton _)
    ?_
  intro k h1 h2
  rw [List.mem_singleton] at h2
  subst h2
  obtain ⟨x, hx, rfl⟩ := List.mem_map.mp h1
  have := (List.mem_filter.mp hx).2
  simp at this

theorem Config.delete_nodup (config : Config) (pod : PodID)
    (hn : (config.map Prod.fst).Nodup) : ((Config.delete config pod).map Prod.fst).Nodup := by
  unfold Config.delete
  exact hn.sublist ((List.filter_sublist _).map _)

theorem txn_config_nodup (deps : CacheDeps) (rc : RendererCache)
    (updates : List (PodID × PodConfig)) (rct : RendererCacheTxn) (h : Txn deps rc updates rct) :
    (rct.config.map Prod.fst).Nodup := by
  induction h with
  | new => simp [RendererCache.NewTxn]
  | update us rct pod cfg _ ih => exact Config.set_nodup _ _ _ ih
  | refresh us rct rct1 _ hu ih =>
    rw [(upToDate_flag deps rc rct rct1 hu).2]
    exact ih

theorem commit_parts (deps : CacheDeps) (rc rc1 : RendererCache) (rct rct1 : RendererCacheTxn)
    (h : rct.Commit deps rc = some (rc1, rct1)) :
    upToDate deps rc rct = some rct1 ∧
    rc1.orientation = rc.orientation ∧
    rc1.localTables = (commitConfig deps rct1.config
      (rc.config, rct1.localTables.tables.foldl (commitLocalTable deps) rc.localTables)).2 ∧
    rc1.config = (commitConfig deps rct1.config
      (rc.config, rct1.localTables.tables.foldl (commitLocalTable deps) rc.localTables)).1 ∧
    commitGlobalTable deps rc.globalTable rct1.globalTable = some rc1.globalTable := by
  unfold RendererCacheTxn.Commit at h
  cases hu : upToDate deps rc rct with
  | none => rw [hu] at h; cases h
  | some r =>
    rw [hu] at h
    simp only at h
    cases hg : commitGlobalTable deps rc.globalTable r.globalTable with
    | none => rw [hg] at h; cases h
    | some g =>
      rw [hg] at h
      simp only [Option.some.injEq, Prod.mk.injEq] at h
      obtain ⟨h1, h2⟩ := h
      subst h1 h2
      exact ⟨rfl, rfl, rfl, rfl, hg⟩

theorem commitConfig_nodup (deps : CacheDeps) (entries : List (PodID × PodConfig))
    (acc : Config × LocalTables) (hn : (acc.1.map Prod.fst).Nodup) :
    ((commitConfig deps entries acc).1.map Prod.fst).Nodup := by
  induction entries generalizing acc with
  | nil => exact hn
  | cons e rest ih =>
    unfold commitConfig
    split
    · exact ih _ (Config.delete_nodup _ _ hn)
    · exact ih _ (Config.set_nodup _ _ _ hn)

/-- After `Commit` of a transaction on a cache that satisfies the invariant, the
cache satisfies the invariant, every tracked pod is assigned to the table with
the rule list of its candidate table, and a pod that the transaction removes is
assigned to no table. -/
theorem commit_assigned (deps : CacheDeps) (hs : StoreContract deps)
    (rc rc1 : RendererCache) (rct rct1 : RendererCacheTxn) (hC : CacheInv rc)
    (hT : TxnInv deps rc rct) (hn : (rct.config.map Prod.fst).Nodup)
    (h : rct.Commit deps rc = some (rc1, rct1)) :
    CacheInv rc1 ∧
    (∀ p ∈ rct.GetAllPods rc, ∃ tp, candidate deps rc rct p = some tp ∧
      rc1.localTables.holds tp.Rules p) ∧
    (∀ q cfg, Config.get rct.config q = some cfg → cfg.Removed = true →
      ∀ r, ¬ rc1.localTables.holds r q) := by
  obtain ⟨hu, _, hlt, hcf, _⟩ := commit_parts deps rc rc1 rct rct1 h
  obtain ⟨hT1, hcfg, hup⟩ := txnInv_upToDate deps hs rc hC rct rct1 hT hu
  have hR := hT1.fresh hup
  obtain ⟨w, c⟩ := commitTables_spec deps hs rct1.localTables.tables hT1.wf rc.localTables hC.wf
  obtain ⟨w2, c2⟩ := commitConfig_tables deps hs rct1.config
    (rc.config, rct1.localTables.tables.foldl (commitLocalTable deps) rc.localTables)
  simp only at w2 c2
  have hkeys : (rc1.config.map Prod.fst).Nodup := by
    rw [hcf]
    exact commitConfig_nodup deps _ _ hC.keys
  have hget : ∀ q, Config.get rc1.config q =
      match Config.get rct.config q with
      | some podCfg => if podCfg.Removed then none else some podCfg
      | none => Config.get rc.config q := by
    intro q
    rw [hcf, commitConfig_get deps rct1.config (hcfg ▸ hn), hcfg]
  have hwf : rc1.localTables.WF := by rw [hlt]; exact w2 w
  have hholds : ∀ r q, rc1.localTables.holds r q ↔
      (rct1.localTables.tables.foldl (commitLocalTable deps) rc.localTables).holds r q ∧
        ¬ ∃ e ∈ rct1.config, e.2.Removed = true ∧ e.1 = q := by
    intro r q
    rw [hlt]
    exact c2 r q
  refine ⟨⟨hwf, hkeys, ?_⟩, ?_, ?_⟩
  · intro r q hh
    rw [hholds, c] at hh
    obtain ⟨hh1, hh2⟩ := hh
    rw [← Config.get_isSome_iff, hget]
    cases hq : Config.get rct.config q with
    | some cfg =>
      simp only
      by_cases hrem : cfg.Removed = true
      · exact absurd ⟨(q, cfg), hcfg ▸ Config.get_mem _ _ _ hq, hrem, rfl⟩ hh2
      · simp [hrem]
    | none =>
      simp only
      rw [Config.get_isSome_iff]
      have hnot : q ∉ rct.config.map Prod.fst := by
        intro hm
        have := (Config.get_isSome_iff _ _).mpr hm
        rw [hq] at this
        cases this
      rcases hh1 with hh1 | ⟨_, hh1, _⟩
      · rcases hT1.pods r q hh1 with h3 | h3
        · exact h3
        · exact absurd (hcfg ▸ h3) hnot
      · exact hC.pods r q hh1
  · intro p hp
    have hp1 : p ∈ rct1.GetAllPods rc := by
      unfold RendererCacheTxn.GetAllPods at hp ⊢
      rw [hcfg]; exact hp
    obtain ⟨tp, hc, hh⟩ := hR.cand p ((mem_Join _ _ _).mpr (Or.inl hp1))
    rw [candidate_congr deps rc rct rct1 hcfg] at hc
    refine ⟨tp, hc, ?_⟩
    rw [hholds, c]
    refine ⟨Or.inl hh, ?_⟩
    rintro ⟨e, he, hrem, rfl⟩
    rw [hcfg] at he
    have hget := Config.get_of_mem _ hn e he
    have := (mem_txn_GetAllPods rc rct hn e.1).mp hp
    rw [hget] at this
    simp only at this
    rw [hrem] at this
    cases this
  · intro q cfg hget hrem r hh
    rw [hholds] at hh
    exact hh.2 ⟨(q, cfg), hcfg ▸ Config.get_mem _ _ _ hget, hrem, rfl⟩


/-! ## The test instance satisfies the contract of the store -/

theorem letters_a_inj (n m : Nat) (r1 r2 : List Char)
    (h : List.replicate n 'a' ++ 'b' :: r1 = List.replicate m 'a' ++ 'b' :: r2) :
    n = m ∧ r1 = r2 := by
  induction n generalizing m with
  | zero =>
    cases m with
    | zero => simpa using h
    | succ m =>
      simp only [List.replicate, List.nil_append, List.cons_append, List.cons.injEq] at h
      exact absurd h.1 (by decide)
  | succ n ih =>
    cases m with
    | zero =>
      simp only [List.replicate, List.nil_append, List.cons_append, List.cons.injEq] at h
      exact absurd h.1 (by decide)
    | succ m =>
      simp only [List.replicate, List.cons_append, List.cons.injEq, true_and] at h
      obtain ⟨h1, h2⟩ := ih m h
      exact ⟨by rw [h1], h2⟩

theorem letters_c_inj (n m a b : Nat) (r1 r2 : List Char)
    (h : List.replicate n 'c' ++ (List.replicate a 'a' ++ 'b' :: r1) =
      List.replicate m 'c' ++ (List.replicate b 'a' ++ 'b' :: r2)) :
    n = m ∧ List.replicate a 'a' ++ 'b' :: r1 = List.replicate b 'a' ++ 'b' :: r2 := by
  induction n generalizing m with
  | zero =>
    cases m with
    | zero => simpa using h
    | succ m =>
      cases a with
      | zero =>
        simp only [List.replicate, List.nil_append, List.cons_append, List.cons.injEq] at h
        exact absurd h.1 (by decide)
      | succ a =>
        simp only [List.replicate, List.nil_append, List.cons_append, List.cons.injEq] at h
        exact absurd h.1 (by decide)
  | succ n ih =>
    cases m with
    | zero =>
      cases b with
      | zero =>
        simp only [List.replicate, List.nil_append, List.cons_append, List.cons.injEq] at h
        exact absurd h.1 (by decide)
      | succ b =>
        simp only [List.replicate, List.nil_append, List.cons_append, List.cons.injEq] at h
        exact absurd h.1 (by decide)
    | succ m =>
      simp only [List.replicate, List.cons_append, List.cons.injEq, true_and] at h
      obtain ⟨h1, h2⟩ := ih m h
      exact ⟨by rw [h1], h2⟩

theorem letterCode_inj (l1 l2 : List Nat) (h : letterCode l1 = letterCode l2) : l1 = l2 := by
  induction l1 generalizing l2 with
  | nil =>
    cases l2 with
    | nil => rfl
    | cons m r2 =>
      simp only [letterCode] at h
      have := congrArg List.length h
      simp only [List.length_nil, List.length_append, List.length_replicate,
        List.length_cons] at this
      omega
  | cons n r1 ih =>
    cases l2 with
    | nil =>
      simp only [letterCode] at h
      have := congrArg List.length h
      simp only [List.length_nil, List.length_append, List.length_replicate,
        List.length_cons] at this
      omega
    | cons m r2 =>
      simp only [letterCode] at h
      obtain ⟨h1, h2⟩ := letters_c_inj _ _ _ _ _ _ h
      obtain ⟨h3, h4⟩ := letters_a_inj _ _ _ _ h2
      have e : n = m := by
        have := Nat.div_add_mod n 16
        have := Nat.div_add_mod m 16
        omega
      rw [e, ih r2 h4]

theorem flatCode_inj (l1 l2 : List (List Nat)) (h : flatCode l1 = flatCode l2) : l1 = l2 := by
  induction l1 generalizing l2 with
  | nil =>
    cases l2 with
    | nil => rfl
    | cons b r2 => simp [flatCode] at h
  | cons a r1 ih =>
    cases l2 with
    | nil => simp [flatCode] at h
    | cons b r2 =>
      simp only [flatCode, List.flatMap_cons, List.cons_append, List.cons.injEq] at h
      obtain ⟨hlen, happ⟩ := h
      obtain ⟨e1, e2⟩ := List.append_inj happ hlen
      rw [e1, ih r2 e2]

theorem ruleNumbers_inj (a b : ContivRule) (h : ruleNumbers a = ruleNumbers b) : a = b := by
  have h1 := flatCode_inj _ _ h
  simp only [List.cons.injEq, and_true] at h1
  obtain ⟨⟨e1, e2, e3, e4⟩, e5, e6, e7, e8⟩ := h1
  apply ruleKey_injective
  cases a with
  | mk a1 a2 a3 a4 a5 a6 =>
    cases b with
    | mk b1 b2 b3 b4 b5 b6 =>
      simp only at e1 e2 e3 e4 e5 e6 e7 e8
      have n1 : a3 = b3 := by
        cases a3; cases b3
        simp only at e5 e6
        rw [e5, e6]
      have n2 : a4 = b4 := by
        cases a4; cases b4
        simp only at e7 e8
        rw [e7, e8]
      simp only [ruleKey, e1, e2, e3, e4, n1, n2]

theorem testID_iff (t1 t2 : ContivRuleTable) : testID t1 = testID t2 ↔ t1.Rules = t2.Rules := by
  constructor
  · intro h
    unfold testID at h
    have h1 := flatCode_inj _ _ (letterCode_inj _ _ (congrArg String.data h))
    exact List.map_injective_iff.mpr (fun a b => ruleNumbers_inj a b) h1
  · intro h
    unfold testID
    rw [h]

theorem storeContract_testDeps : StoreContract testDeps :=
  ⟨fun _ _ => rfl, fun _ _ => rfl, fun _ _ => rfl, fun _ _ => rfl, fun _ _ => rfl,
    fun _ _ _ => rfl, fun _ _ _ => rfl, fun t1 t2 _ _ => testID_iff t1 t2⟩


/-! ## The invariant of the cache -/

/-- A cache reached from `Init` by committing transactions satisfies the invariant
of the cache. -/
theorem committed_inv (deps : CacheDeps) (hs : StoreContract deps) (rc : RendererCache)
    (h : Committed deps rc) : CacheInv rc := by
  induction h with
  | init rc orientation =>
    exact ⟨WF_empty, by simp [RendererCache.Init, RendererCache.Flush],
      fun r q hq => by
        obtain ⟨t, ht, _⟩ := hq
        simp [RendererCache.Init, RendererCache.Flush, NewLocalTables] at ht⟩
  | commit rc rc1 updates rct rct1 _ ht hc ih =>
    have hT := txn_inv deps hs rc ih updates rct ht
    have hn := txn_config_nodup deps rc updates rct ht
    exact (commit_assigned deps hs rc rc1 rct rct1 ih hT hn hc).1

theorem lookupByPod_of_holds (lt : LocalTables) (hw : lt.WF) (r : List ContivRule) (p : PodID)
    (h : lt.holds r p) :
    ∃ t, t ∈ lt.tables ∧ lt.LookupByPod p = some t ∧ t.Rules = r ∧ p ∈ t.Pods := by
  cases hl : lt.LookupByPod p with
  | none => exact absurd h (lookupByPod_none lt p hl r)
  | some t =>
    obtain ⟨ht, hp⟩ := lookupByPod_some lt p t hl
    exact ⟨t, ht, rfl, hw.pods t.Rules r p ⟨t, ht, rfl, hp⟩ h, hp⟩

/-- Structural sharing: the tables of a cache reached from `Init` by commits have
pairwise different rule lists, and after a commit two tracked pods whose
candidate tables have one rule list are assigned to one table of the cache. -/
theorem structural_sharing (deps : CacheDeps) (hs : StoreContract deps) (rc : RendererCache)
    (h : Committed deps rc) :
    rc.localTables.tables.Pairwise (fun t1 t2 => t1.Rules ≠ t2.Rules) ∧
    ∀ updates rct rc1 rct1, Txn deps rc updates rct → rct.Commit deps rc = some (rc1, rct1) →
      ∀ p q tp tq, p ∈ rc1.GetAllPods → q ∈ rc1.GetAllPods →
        candidate deps rc rct p = some tp → candidate deps rc rct q = some tq →
        tp.Rules = tq.Rules →
        ∃ t, t ∈ rc1.localTables.tables ∧ deps.LookupByPod rc1.localTables p = some t ∧
          deps.LookupByPod rc1.localTables q = some t ∧ t.Rules = tp.Rules ∧
          p ∈ t.Pods ∧ q ∈ t.Pods := by
  have hw := committed_inv deps hs rc h
  refine ⟨List.pairwise_map.mp hw.wf.rules, ?_⟩
  intro updates rct rc1 rct1 ht hc p q tp tq hp hq hcp hcq hr
  have hT := txn_inv deps hs rc hw updates rct ht
  have hn := txn_config_nodup deps rc updates rct ht
  obtain ⟨⟨hw1, _, _⟩, hass, _⟩ := commit_assigned deps hs rc rc1 rct rct1 hw hT hn hc
  have hall := (commit_overlay deps rc rc1 rct rct1 hn hc).2
  obtain ⟨tp1, hcp1, hhp⟩ := hass p ((hall p).mp hp)
  obtain ⟨tq1, hcq1, hhq⟩ := hass q ((hall q).mp hq)
  rw [hcp] at hcp1
  rw [hcq] at hcq1
  simp only [Option.some.injEq] at hcp1 hcq1
  subst hcp1 hcq1
  obtain ⟨t, ht1, hl1, hr1, hp1⟩ := lookupByPod_of_holds _ hw1 _ _ hhp
  obtain ⟨t2, ht2, hl2, hr2, hp2⟩ := lookupByPod_of_holds _ hw1 _ _ hhq
  have e : t2 = t := table_unique _ hw1.rules t2 t ht2 ht1 (by rw [hr1, hr2, hr])
  subst e
  rw [hs.lookupByPod, hs.lookupByPod]
  exact ⟨t2, ht1, hl1, hl2, hr1, hp1, hp2⟩


/-! ## Transactions made of `Update` calls -/

theorem txn_txnOf (deps : CacheDeps) (rc : RendererCache) (updates : List (PodID × PodConfig)) :
    Txn deps rc updates (txnOf rc updates) := by
  induction updates using List.reverseRecOn with
  | nil => exact Txn.new
  | append_singleton us u ih =>
    have e : txnOf rc (us ++ [u]) = (txnOf rc us).Update u.1 u.2 := by
      unfold txnOf
      rw [List.foldl_append]
      rfl
    rw [e]
    exact Txn.update us _ u.1 u.2 ih

theorem committed_eq (deps : CacheDeps) (rc rc1 : RendererCache) (rct rct1 : RendererCacheTxn)
    (h : rct.Commit deps rc = some (rc1, rct1)) : committed deps rc rct = rc1 := by
  unfold committed
  rw [h]


/-! ## A transaction that repeats the committed configuration -/

theorem mem_GetRemovedPods (rct : RendererCacheTxn) (q : PodID) :
    q ∈ rct.GetRemovedPods ↔ ∃ e ∈ rct.config, e.2.Removed = true ∧ e.1 = q := by
  unfold RendererCacheTxn.GetRemovedPods
  have key : ∀ (entries : List (PodID × PodConfig)) (acc : PodSet),
      q ∈ entries.foldl
          (fun removed entry => if entry.2.Removed then PodSet.Add removed entry.1 else removed)
          acc ↔
        q ∈ acc ∨ ∃ e ∈ entries, e.2.Removed = true ∧ e.1 = q := by
    intro entries
    induction entries with
    | nil => intro acc; simp
    | cons e rest ih =>
      intro acc
      simp only [List.foldl_cons, List.mem_cons, exists_eq_or_imp]
      rw [ih]
      by_cases hr : e.2.Removed = true
      · simp only [hr, if_true, PodSet.mem_Add, true_and]
        constructor
        · rintro ((a | a) | a)
          · exact Or.inl a
          · exact Or.inr (Or.inl a.symm)
          · exact Or.inr (Or.inr a)
        · rintro (a | a | a)
          · exact Or.inl (Or.inl a)
          · exact Or.inl (Or.inr a.symm)
          · exact Or.inr a
      · simp only [hr, Bool.false_eq_true, if_false, false_and, false_or]
  rw [key]
  simp [NewPodSet]

/-- A pod of the cache or of the transaction is visited by the loop of
`refreshTables`. -/
theorem keys_mem_allPods (rc : RendererCache) (rct : RendererCacheTxn)
    (hn : (rct.config.map Prod.fst).Nodup) (q : PodID)
    (h : q ∈ rc.config.map Prod.fst ∨ q ∈ rct.config.map Prod.fst) :
    q ∈ rct.GetAllPods rc ∨ q ∈ rct.GetRemovedPods := by
  rw [mem_txn_GetAllPods rc rct hn, mem_GetRemovedPods]
  cases hq : Config.get rct.config q with
  | some cfg =>
    simp only
    by_cases hr : cfg.Removed = true
    · exact Or.inr ⟨(q, cfg), Config.get_mem _ _ _ hq, hr, rfl⟩
    · exact Or.inl (by simpa using hr)
  | none =>
    simp only
    rcases h with h | h
    · exact Or.inl h
    · have := (Config.get_isSome_iff _ _).mpr h
      rw [hq] at this
      cases this

theorem candidate_removed (deps : CacheDeps) (rc : RendererCache) (rct : RendererCacheTxn)
    (hn : (rct.config.map Prod.fst).Nodup) (q : PodID) (h : q ∈ rct.GetRemovedPods) :
    ∃ tq, candidate deps rc rct q = some tq ∧ tq.Rules = [] := by
  obtain ⟨e, he, hr, rfl⟩ := (mem_GetRemovedPods rct _).mp h
  have hg := Config.get_of_mem _ hn e he
  unfold candidate RendererCacheTxn.GetPodConfig
  rw [hg]
  exact buildLocalTable_removed deps rc rct e.1 e.2 hr

/-- The loop of `GetChanges` over the local tables reports nothing when every
tracked pod is assigned in the cache to the table with the rule list of its
candidate table. -/
theorem localChanges_settled (deps : CacheDeps) (hs : StoreContract deps) (rc : RendererCache)
    (hC : CacheInv rc) (r : RendererCacheTxn) (hT : TxnInv deps rc r)
    (hup : r.upToDateTables = true) (hn : (r.config.map Prod.fst).Nodup)
    (hG : ∀ p ∈ r.GetAllPods rc, ∃ tp, candidate deps rc r p = some tp ∧
      rc.localTables.holds tp.Rules p)
    (hsub : ∀ R q, rc.localTables.holds R q → q ∈ r.GetAllPods rc) :
    localChanges deps rc r.localTables.tables = [] := by
  have hR := hT.fresh hup
  have key : ∀ t ∈ r.localTables.tables, t.NumOfRules ≠ 0 →
      ∀ q, q ∈ t.Pods ↔ rc.localTables.holds t.Rules q := by
    intro t ht hne q
    rw [← holds_iff_of_mem _ hT.wf.rules t ht q]
    constructor
    · intro hq
      rcases keys_mem_allPods rc r hn q (hT.pods _ _ hq) with h1 | h1
      · obtain ⟨tq, hc, hh⟩ := hR.cand q ((mem_Join _ _ _).mpr (Or.inl h1))
        obtain ⟨tp, hc2, hh2⟩ := hG q h1
        rw [hc] at hc2
        simp only [Option.some.injEq] at hc2
        subst hc2
        rw [hT.wf.pods _ _ q hq hh]
        exact hh2
      · obtain ⟨tq, hc, hh⟩ := hR.cand q ((mem_Join _ _ _).mpr (Or.inr h1))
        obtain ⟨tq2, hc2, he⟩ := candidate_removed deps rc r hn q h1
        rw [hc] at hc2
        simp only [Option.some.injEq] at hc2
        subst hc2
        have := hT.wf.pods _ _ q hq hh
        rw [he] at this
        exact absurd (by rw [ContivRuleTable.NumOfRules, this]; rfl) hne
    · intro hq
      have h1 := hsub _ _ hq
      obtain ⟨tq, hc, hh⟩ := hR.cand q ((mem_Join _ _ _).mpr (Or.inl h1))
      obtain ⟨tp, hc2, hh2⟩ := hG q h1
      rw [hc] at hc2
      simp only [Option.some.injEq] at hc2
      subst hc2
      rw [hC.wf.pods _ _ q hq hh2]
      exact hh
  apply List.eq_nil_iff_forall_not_mem.mpr
  intro ch hch
  obtain ⟨t, ht, hne, hcase⟩ := (localChanges_iff deps rc _ ch).mp hch
  have hpods := key t ht hne
  rcases lookupByID_spec deps hs rc.localTables hC.wf.typ t (hT.wf.typ t ht) with
    ⟨hid, hnot⟩ | ⟨orig, hid, ho, hor⟩
  · rcases hcase with ⟨_, hp, _⟩ | ⟨orig, h1, _⟩
    · cases hp0 : t.Pods with
      | nil => exact hp hp0
      | cons q rest =>
        have : q ∈ t.Pods := by rw [hp0]; exact List.mem_cons_self _ _
        exact hnot (holds_has _ _ _ ((hpods q).mp this))
    · rw [hid] at h1
      cases h1
  · rcases hcase with ⟨h1, _⟩ | ⟨orig2, h1, he, _⟩
    · rw [hid] at h1
      cases h1
    · rw [hid] at h1
      simp only [Option.some.injEq] at h1
      subst h1
      have : PodSet.Equals t.Pods orig.Pods = true := by
        rw [PodSet.Equals_iff]
        intro q
        rw [hpods q, ← hor]
        exact holds_iff_of_mem _ hC.wf.rules orig ho q
      rw [this] at he
      cases he

theorem txn_config (deps : CacheDeps) (rc : RendererCache) (updates : List (PodID × PodConfig))
    (rct : RendererCacheTxn) (h : Txn deps rc updates rct) :
    rct.config = updates.foldl (fun c u => Config.set c u.1 u.2) [] := by
  induction h with
  | new => rfl
  | update us rct pod cfg _ ih =>
    rw [List.foldl_append, ← ih]
    rfl
  | refresh us rct rct1 _ hu ih =>
    rw [(upToDate_flag deps rc rct rct1 hu).2]
    exact ih

theorem nodup_Add (s : PodSet) (p : PodID) (h : s.Nodup) : (PodSet.Add s p).Nodup := by
  unfold PodSet.Add
  split
  · exact h
  · rename_i hp
    exact List.Nodup.append h (List.nodup_singleton _)
      (fun x h1 h2 => hp ((List.mem_singleton.mp h2) ▸ h1))

theorem nodup_Remove (s : PodSet) (p : PodID) (h : s.Nodup) : (PodSet.Remove s p).Nodup :=
  h.filter _

theorem nodup_GetAllPods (rc : RendererCache) : rc.GetAllPods.Nodup := by
  unfold RendererCache.GetAllPods
  have key : ∀ (entries : List (PodID × PodConfig)) (acc : PodSet), acc.Nodup →
      (entries.foldl (fun pods entry => PodSet.Add pods entry.1) acc).Nodup := by
    intro entries
    induction entries with
    | nil => exact fun acc h => h
    | cons e rest ih => exact fun acc h => ih _ (nodup_Add acc e.1 h)
  exact key _ _ List.nodup_nil

theorem nodup_txn_GetAllPods (rc : RendererCache) (rct : RendererCacheTxn) :
    (rct.GetAllPods rc).Nodup := by
  unfold RendererCacheTxn.GetAllPods
  have key : ∀ (entries : List (PodID × PodConfig)) (acc : PodSet), acc.Nodup →
      (entries.foldl (fun pods entry =>
        if !entry.2.Removed then PodSet.Add pods entry.1 else PodSet.Remove pods entry.1)
        acc).Nodup := by
    intro entries
    induction entries with
    | nil => exact fun acc h => h
    | cons e rest ih =>
      intro acc h
      simp only [List.foldl_cons]
      apply ih
      split
      · exact nodup_Add acc e.1 h
      · exact nodup_Remove acc e.1 h
  exact key _ _ (nodup_GetAllPods rc)

/-- After `Commit`, a transaction with the same configuration sees the same pod
configurations as the committed transaction did. -/
theorem repeat_view (deps : CacheDeps) (rc rc1 : RendererCache)
    (rct rct1 rct2 : RendererCacheTxn) (hn : (rct.config.map Prod.fst).Nodup)
    (h : rct.Commit deps rc = some (rc1, rct1)) (hcfg : rct2.config = rct.config) (p : PodID) :
    rct2.GetPodConfig rc1 p = rct.GetPodConfig rc p := by
  unfold RendererCacheTxn.GetPodConfig
  rw [hcfg, (commit_overlay deps rc rc1 rct rct1 hn h).1 p]
  cases Config.get rct.config p with
  | some c => rfl
  | none => rfl

/-- After `Commit`, a transaction with the same configuration has the same tracked
pods as the committed transaction had. -/
theorem repeat_pods (deps : CacheDeps) (rc rc1 : RendererCache)
    (rct rct1 rct2 : RendererCacheTxn) (hn : (rct.config.map Prod.fst).Nodup)
    (h : rct.Commit deps rc = some (rc1, rct1)) (hcfg : rct2.config = rct.config) (p : PodID) :
    p ∈ rct2.GetAllPods rc1 ↔ p ∈ rct.GetAllPods rc := by
  rw [mem_txn_GetAllPods rc1 rct2 (hcfg ▸ hn), mem_txn_GetAllPods rc rct hn, hcfg]
  cases hq : Config.get rct.config p with
  | some c => rfl
  | none =>
    simp only
    rw [← mem_GetAllPods, (commit_overlay deps rc rc1 rct rct1 hn h).2 p,
      mem_txn_GetAllPods rc rct hn, hq]

theorem repeat_perm (deps : CacheDeps) (rc rc1 : RendererCache)
    (rct rct1 rct2 : RendererCacheTxn) (hn : (rct.config.map Prod.fst).Nodup)
    (h : rct.Commit deps rc = some (rc1, rct1)) (hcfg : rct2.config = rct.config) :
    (rct.GetAllPods rc).Perm (rct2.GetAllPods rc1) :=
  (List.perm_ext_iff_of_nodup (nodup_txn_GetAllPods rc rct) (nodup_txn_GetAllPods rc1 rct2)).mpr
    (fun p => (repeat_pods deps rc rc1 rct rct1 rct2 hn h hcfg p).symm)

/-- After `Commit`, a transaction with the same configuration builds the same
candidate tables as the committed transaction did, when the tracked pods have
different pod IPs. -/
theorem repeat_candidate (deps : CacheDeps) (hL : LawfulCompare deps.Compare)
    (rc rc1 : RendererCache) (rct rct1 rct2 : RendererCacheTxn)
    (hn : (rct.config.map Prod.fst).Nodup) (h : rct.Commit deps rc = some (rc1, rct1))
    (hcfg : rct2.config = rct.config)
    (hd : DistinctPodIPs (rct.GetPodConfig rc) (rct.GetAllPods rc)) :
    candidate deps rc1 rct2 = candidate deps rc rct := by
  funext p
  unfold candidate
  rw [repeat_view deps rc rc1 rct rct1 rct2 hn h hcfg p]
  cases rct.GetPodConfig rc p with
  | none => rfl
  | some cfg =>
    simp only
    exact buildLocalTable_order deps hL rc rc1 rct rct2
      (commit_parts deps rc rc1 rct rct1 h).2.1
      (repeat_view deps rc rc1 rct rct1 rct2 hn h hcfg)
      (repeat_perm deps rc rc1 rct rct1 rct2 hn h hcfg) hd p cfg


/-! ## The global table does not depend on the order of the pods -/

theorem installGlobalRules_eq (deps : CacheDeps) (orientation : Orientation)
    (globalTable : ContivRuleTable) (podCfg : PodConfig) :
    installGlobalRules deps orientation globalTable podCfg =
      (globalRulesOf orientation podCfg).map (insertRules deps.Compare globalTable) := by
  unfold installGlobalRules globalRulesOf insertRules
  cases orientation
  all_goals
    simp only [reduceCtorEq, if_true, if_false]
    split
    · rfl
    · cases podCfg.PodIP with
      | none => rfl
      | some ip =>
        simp only [Option.map_some', List.foldl_map]

theorem insertRules_comm (cmp : ContivRule → ContivRule → Int) (hL : LawfulCompare cmp)
    (table : ContivRuleTable) (rs1 rs2 : List ContivRule) (hs : table.Sorted cmp) :
    insertRules cmp (insertRules cmp table rs1) rs2 =
      insertRules cmp (insertRules cmp table rs2) rs1 := by
  have hE : ∀ a b, cmp a b = 0 → a = b := fun a b => (hL.eq_iff a b).mp
  apply table_eq
  · simp only [(insertRules_fields _ _ _).1]
  · apply sorted_unique cmp hL
    · exact insertRules_sorted cmp hL _ _ (insertRules_sorted cmp hL _ _ hs)
    · exact insertRules_sorted cmp hL _ _ (insertRules_sorted cmp hL _ _ hs)
    · intro x
      simp only [insertRules_mem cmp hE]
      tauto
  · simp only [(insertRules_fields _ _ _).2.1]
  · simp only [(insertRules_fields _ _ _).2.2]

theorem installAllGlobalRules_perm (deps : CacheDeps) (hL : LawfulCompare deps.Compare)
    (orientation : Orientation) (view : PodID → Option PodConfig) (l l2 : List PodID)
    (hp : l.Perm l2) (table : ContivRuleTable) (hs : table.Sorted deps.Compare) :
    installAllGlobalRules deps orientation view l table =
      installAllGlobalRules deps orientation view l2 table := by
  induction hp generalizing table with
  | nil => rfl
  | cons x hp ih =>
    simp only [installAllGlobalRules]
    cases hv : view x with
    | none => rfl
    | some cx =>
      simp only [installGlobalRules_eq]
      cases globalRulesOf orientation cx with
      | none => rfl
      | some rs =>
        simp only [Option.map_some']
        exact ih _ (insertRules_sorted deps.Compare hL _ _ hs)
  | swap x y l =>
    simp only [installAllGlobalRules, installGlobalRules_eq]
    cases hvx : view x with
    | none =>
      cases hvy : view y with
      | none => rfl
      | some cy =>
        simp only
        cases globalRulesOf orientation cy <;> rfl
    | some cx =>
      cases hvy : view y with
      | none =>
        simp only
        cases globalRulesOf orientation cx <;> rfl
      | some cy =>
        simp only
        cases globalRulesOf orientation cx with
        | none =>
          cases globalRulesOf orientation cy <;> rfl
        | some rx =>
          cases globalRulesOf orientation cy with
          | none => rfl
          | some ry =>
            simp only [Option.map_some']
            rw [insertRules_comm deps.Compare hL table ry rx hs]
  | trans hp1 hp2 ih1 ih2 =>
    rw [ih1 table hs]
    exact ih2 table hs

/-- The table that `rebuildGlobalTable` builds does not depend on the order in
which `GetAllPods` lists the pods. -/
theorem rebuildGlobalTable_order (deps : CacheDeps) (hL : LawfulCompare deps.Compare)
    (rc rc2 : RendererCache) (rct rct2 : RendererCacheTxn)
    (ho : rc2.orientation = rc.orientation)
    (hview : ∀ p, rct2.GetPodConfig rc2 p = rct.GetPodConfig rc p)
    (hperm : (rct.GetAllPods rc).Perm (rct2.GetAllPods rc2)) :
    rebuildGlobalTable deps rc2 rct2 = rebuildGlobalTable deps rc rct := by
  have hv : rct2.GetPodConfig rc2 = rct.GetPodConfig rc := funext hview
  have hsorted : ContivRuleTable.Sorted deps.Compare (NewContivRuleTable TableType.Global) :=
    List.Pairwise.nil
  unfold rebuildGlobalTable
  rw [ho, hv, installAllGlobalRules_perm deps hL rc.orientation (rct.GetPodConfig rc)
    (rct.GetAllPods rc) (rct2.GetAllPods rc2) hperm _ hsorted]


/-! ## Idempotence -/

theorem refreshPods_isSome_of (deps : CacheDeps) (rc : RendererCache) (rct : RendererCacheTxn)
    (pods : List PodID) (h : ∀ q ∈ pods, ∃ t, candidate deps rc rct q = some t)
    (S : LocalTables) : ∃ S2, refreshPods deps rc rct pods S = some S2 := by
  induction pods generalizing S with
  | nil => exact ⟨S, rfl⟩
  | cons p rest ih =>
    obtain ⟨t, ht⟩ := h p (List.mem_cons_self _ _)
    simp only [refreshPods, refreshPod_eq, ht]
    exact ih (fun q hq => h q (List.mem_cons_of_mem _ hq)) _

theorem upToDate_isSome_of (deps : CacheDeps) (rc : RendererCache) (rct : RendererCacheTxn)
    (h : ∀ q ∈ PodSet.Join (rct.GetAllPods rc) rct.GetRemovedPods,
      ∃ t, candidate deps rc rct q = some t)
    (hg : ∃ g, rebuildGlobalTable deps rc rct = some g) :
    ∃ r, upToDate deps rc rct = some r := by
  unfold upToDate
  split
  · exact ⟨rct, rfl⟩
  · obtain ⟨S2, h2⟩ := refreshPods_isSome_of deps rc rct _ h rct.localTables
    obtain ⟨g, h3⟩ := hg
    unfold refreshTables
    rw [h2, h3]
    exact ⟨_, rfl⟩

/-- The global table of the cache after `Commit` has the rule list of the global
table of the transaction. -/
theorem commitGlobalTable_rules (deps : CacheDeps)
    (hcmp : ∀ a b, deps.compareRuleLists a b = 0 ↔ a = b)
    (cacheTable res : Option ContivRuleTable) (g : ContivRuleTable)
    (h : commitGlobalTable deps cacheTable (some g) = some res) :
    ∃ g1, res = some g1 ∧ g1.Rules = g.Rules := by
  unfold commitGlobalTable at h
  cases cacheTable with
  | none => cases h
  | some cg =>
    simp only at h
    split at h
    · simp only [Option.some.injEq] at h
      exact ⟨g, h.symm, rfl⟩
    · rename_i hz
      simp only [Option.some.injEq] at h
      refine ⟨cg, h.symm, ?_⟩
      have : deps.compareRuleLists g.Rules cg.Rules = 0 := by
        by_contra hne
        exact hz hne
      exact ((hcmp _ _).mp this).symm

/-- Idempotence: after the commit of a transaction whose tracked pods have
different pod IPs, `GetChanges` of a transaction of the new cache that made the
same `Update` calls returns no change. -/
theorem getChanges_repeat (deps : CacheDeps) (hs : StoreContract deps)
    (hL : LawfulCompare deps.Compare) (hcmp : ∀ a b, deps.compareRuleLists a b = 0 ↔ a = b)
    (rc rc1 : RendererCache) (updates : List (PodID × PodConfig))
    (rct rct1 rct2 : RendererCacheTxn) (hCI : CacheInv rc)
    (ht : Txn deps rc updates rct) (hcommit : rct.Commit deps rc = some (rc1, rct1))
    (hd : DistinctPodIPs (rct.GetPodConfig rc) (rct.GetAllPods rc))
    (ht2 : Txn deps rc1 updates rct2) :
    ∃ rct3, rct2.GetChanges deps rc1 = some ([], rct3) := by
  have hT := txn_inv deps hs rc hCI updates rct ht
  have hn := txn_config_nodup deps rc updates rct ht
  obtain ⟨hC1, hass, _⟩ := commit_assigned deps hs rc rc1 rct rct1 hCI hT hn hcommit
  obtain ⟨hu, ho, _, _, hglob⟩ := commit_parts deps rc rc1 rct rct1 hcommit
  obtain ⟨hT1, hcfg1, hup1⟩ := txnInv_upToDate deps hs rc hCI rct rct1 hT hu
  have hcfg : rct2.config = rct.config := by
    rw [txn_config deps rc1 updates rct2 ht2, txn_config deps rc updates rct ht]
  have hT2 := txn_inv deps hs rc1 hC1 updates rct2 ht2
  -- the global table that the committed transaction built
  obtain ⟨g, hg, hg1⟩ := hT1.global hup1
  rw [rebuildGlobalTable_congr deps rc rct rct1 hcfg1] at hg
  rw [hg1] at hglob
  obtain ⟨cg, hcg, hcgr⟩ := commitGlobalTable_rules deps hcmp _ _ g hglob
  -- what a transaction with the same configuration sees
  have hsame : ∀ r : RendererCacheTxn, r.config = rct.config →
      candidate deps rc1 r = candidate deps rc rct ∧
      rebuildGlobalTable deps rc1 r = some g ∧
      (∀ p, p ∈ r.GetAllPods rc1 ↔ p ∈ rct.GetAllPods rc) := by
    intro r hr
    refine ⟨repeat_candidate deps hL rc rc1 rct rct1 r hn hcommit hr hd, ?_,
      repeat_pods deps rc rc1 rct rct1 r hn hcommit hr⟩
    rw [rebuildGlobalTable_order deps hL rc rc1 rct r ho
      (repeat_view deps rc rc1 rct rct1 r hn hcommit hr)
      (repeat_perm deps rc rc1 rct rct1 r hn hcommit hr)]
    exact hg
  -- the refresh of the second transaction returns
  obtain ⟨hc2, hg2, hp2⟩ := hsame rct2 hcfg
  obtain ⟨r2, hr2⟩ := upToDate_isSome_of deps rc1 rct2 (by
    intro q hq
    rw [hc2]
    rcases (mem_Join _ _ _).mp hq with h1 | h1
    · obtain ⟨tp, hc, _⟩ := hass q ((hp2 q).mp h1)
      exact ⟨tp, hc⟩
    · have h2 : q ∈ rct.GetRemovedPods := by
        unfold RendererCacheTxn.GetRemovedPods at h1 ⊢
        rw [← hcfg]; exact h1
      obtain ⟨tq, hc, _⟩ := candidate_removed deps rc rct hn q h2
      exact ⟨tq, hc⟩) ⟨g, hg2⟩
  obtain ⟨hTr, hcfgr, hupr⟩ := txnInv_upToDate deps hs rc1 hC1 rct2 r2 hT2 hr2
  have hr : r2.config = rct.config := hcfgr.trans hcfg
  obtain ⟨hc3, hg3, hp3⟩ := hsame r2 hr
  -- no local change
  have hlocal : localChanges deps rc1 r2.localTables.tables = [] := by
    apply localChanges_settled deps hs rc1 hC1 r2 hTr hupr (hr ▸ hn)
    · intro p hp
      rw [hc3]
      exact hass p ((hp3 p).mp hp)
    · intro R q hq
      rw [hp3, ← (commit_overlay deps rc rc1 rct rct1 hn hcommit).2 q, mem_GetAllPods]
      exact hC1.pods R q hq
  -- no global change
  obtain ⟨g2, hg4, hg5⟩ := hTr.global hupr
  rw [hg3] at hg4
  simp only [Option.some.injEq] at hg4
  subst hg4
  have hglobal : globalChanges deps rc1 r2 = some [] := by
    unfold globalChanges
    rw [hg5, hcg]
    simp only
    rw [if_neg]
    rw [not_not, hcmp, hcgr]
  refine ⟨r2, ?_⟩
  unfold RendererCacheTxn.GetChanges
  rw [hr2]
  simp only
  rw [hglobal, hlocal]
  rfl


/-! ## Claim C24: idempotence -/

/-- C24, as amended: let the operations of `LocalTables` be those of the list
model, let two Local tables have equal IDs exactly when they have equal rule
lists, let the rule comparison be a lawful total order and `compareRuleLists` be
zero exactly on equal rule lists.  Let the cache satisfy the invariant of the
cache (as every cache reached from `Init` by commits does), and let the tracked
pods of a transaction have pairwise different pod IPs.  After the transaction
has been committed, a new transaction that issues the same `Update` calls gets
from `GetChanges` a result of length zero. -/
theorem C24_idempotence (deps : CacheDeps) (hs : StoreContract deps)
    (hL : LawfulCompare deps.Compare) (hcmp : ∀ a b, deps.compareRuleLists a b = 0 ↔ a = b)
    (rc rc1 : RendererCache) (updates : List (PodID × PodConfig))
    (rct rct1 rct2 : RendererCacheTxn) (hC : CacheInv rc)
    (ht : Txn deps rc updates rct) (hcommit : rct.Commit deps rc = some (rc1, rct1))
    (hd : DistinctPodIPs (rct.GetPodConfig rc) (rct.GetAllPods rc))
    (ht2 : Txn deps rc1 updates rct2) :
    ∃ rct3, rct2.GetChanges deps rc1 = some ([], rct3) :=
  getChanges_repeat deps hs hL hcmp rc rc1 updates rct rct1 rct2 hC ht hcommit hd ht2

theorem C24_witness :
    ∃ rc1 rct1, (txnOf testCache pairUpdates).Commit testDeps testCache = some (rc1, rct1) ∧
      ∃ rct3, (txnOf rc1 pairUpdates).GetChanges testDeps rc1 = some ([], rct3) := by
  obtain ⟨rc1, rct1, h⟩ := cacheCommit_isSome testDeps testCache (txnOf testCache pairUpdates)
    (by decide) (pairTxn_podIPs [80] [80, 443])
  exact ⟨rc1, rct1, h,
    C24_idempotence testDeps storeContract_testDeps lawful_ruleCompare ruleListsCompare_eq_iff
      testCache rc1 pairUpdates (txnOf testCache pairUpdates) rct1 (txnOf rc1 pairUpdates)
      (committed_inv testDeps storeContract_testDeps testCache
        (Committed.init zeroCache Orientation.EgressOrientation))
      (txn_txnOf testDeps testCache pairUpdates) h (pairTxn_distinct [80] [80, 443])
      (txn_txnOf testDeps rc1 pairUpdates)⟩

set_option maxRecDepth 4000 in
/-- C24, the claim as stated fails when two pods have the same pod IP: `podA` and
`podC` have the pod IP 10.0.0.1 and allow different ports to `podB`.  The
configuration is committed, and then a transaction that updates `podA` with the
configuration it has; this commit changes the order in which `GetAllPods` lists
the pods.  A new transaction with the same `Update` call builds the table of
`podB` from the rules of `podA` instead of those of `podC`, and `GetChanges`
returns two changes. -/
theorem C24_counterexample :
    ((txnOf testCache sameIPUpdates).Commit testDeps testCache).isSome = true ∧
    ((txnOf sameIPCache [(podA, allowsTo [80])]).Commit testDeps sameIPCache).isSome = true ∧
    ((txnOf sameIPCache2 [(podA, allowsTo [80])]).GetChanges testDeps sameIPCache2).map
      (fun res => res.1.length) = some 2 := by
  decide


/-! ## Claim C25: structural sharing -/

/-- C25: let the operations of `LocalTables` be those of the list model and let two
Local tables have equal IDs exactly when they have equal rule lists.  In every
cache reached from `Init` by committing transactions, the tables of the store at
two different places have different rule lists; and after the commit of a
transaction, two tracked pods whose candidate tables (the tables that
`refreshTables` built for them) have the same rule list are assigned to one and
the same table of the store, which has this rule list and both pods in its pod
set. -/
theorem C25_structural_sharing (deps : CacheDeps) (hs : StoreContract deps)
    (rc : RendererCache) (h : Committed deps rc) :
    rc.localTables.tables.Pairwise (fun t1 t2 => t1.Rules ≠ t2.Rules) ∧
    ∀ updates rct rc1 rct1, Txn deps rc updates rct → rct.Commit deps rc = some (rc1, rct1) →
      ∀ p q tp tq, p ∈ rc1.GetAllPods → q ∈ rc1.GetAllPods →
        candidate deps rc rct p = some tp → candidate deps rc rct q = some tq →
        tp.Rules = tq.Rules →
        ∃ t, t ∈ rc1.localTables.tables ∧ deps.LookupByPod rc1.localTables p = some t ∧
          deps.LookupByPod rc1.localTables q = some t ∧ t.Rules = tp.Rules ∧
          p ∈ t.Pods ∧ q ∈ t.Pods :=
  structural_sharing deps hs rc h

theorem C25_witness :
    (committed testDeps testCache (txnOf testCache sharingUpdates)).localTables.tables =
      [sharedDenyTable [podA, podB]] ∧
    ∃ t, t ∈ (committed testDeps testCache (txnOf testCache sharingUpdates)).localTables.tables ∧
      testDeps.LookupByPod
        (committed testDeps testCache (txnOf testCache sharingUpdates)).localTables podA =
          some t ∧
      testDeps.LookupByPod
        (committed testDeps testCache (txnOf testCache sharingUpdates)).localTables podB =
          some t ∧
      t.Rules = (sharedDenyTable [podA]).Rules ∧ podA ∈ t.Pods ∧ podB ∈ t.Pods := by
  have h : ((txnOf testCache sharingUpdates).Commit testDeps testCache).isSome = true := by
    decide
  obtain ⟨res, h1⟩ := Option.isSome_iff_exists.mp h
  have e := committed_eq testDeps testCache res.1 (txnOf testCache sharingUpdates) res.2 h1
  refine ⟨by decide, ?_⟩
  rw [e]
  exact (C25_structural_sharing testDeps storeContract_testDeps testCache
    (Committed.init zeroCache Orientation.EgressOrientation)).2 sharingUpdates
    (txnOf testCache sharingUpdates) res.1 res.2 (txn_txnOf testDeps testCache sharingUpdates) h1
    podA podB (sharedDenyTable [podA]) (sharedDenyTable [podB])
    (e ▸ (by decide : podA ∈ (committed testDeps testCache
      (txnOf testCache sharingUpdates)).GetAllPods))
    (e ▸ (by decide : podB ∈ (committed testDeps testCache
      (txnOf testCache sharingUpdates)).GetAllPods))
    (by decide) (by decide) rfl

/-! ## The rules of one match, and the fields of generated rules -/

theorem mem_flatMap_networkRules (d : MatchType) (ports : List Port) (nets : List IPNet)
    (r : ContivRule) :
    r ∈ nets.flatMap (networkRules d ports) ↔
      ∃ x ∈ nets, (ports = [] ∧ r = ruleAnyFor d x) ∨ ∃ q ∈ ports, r = rulePortFor d x q := by
  rw [List.mem_flatMap]
  constructor
  · rintro ⟨x, hx, hr⟩
    refine ⟨x, hx, ?_⟩
    unfold networkRules at hr
    split at hr
    · rename_i h0
      left
      exact ⟨List.length_eq_zero.mp h0, by simpa using hr⟩
    · right
      obtain ⟨q, hq, e⟩ := List.mem_map.mp hr
      exact ⟨q, hq, e.symm⟩
  · rintro ⟨x, hx, h⟩
    refine ⟨x, hx, ?_⟩
    unfold networkRules
    rcases h with ⟨h0, e⟩ | ⟨q, hq, e⟩
    · rw [if_pos (by rw [h0]; rfl), e]
      exact List.mem_singleton.mpr rfl
    · have hne : ¬ ports.length = 0 := by
        intro h0
        rw [List.length_eq_zero.mp h0] at hq
        exact List.not_mem_nil _ hq
      rw [if_neg hne, e]
      exact List.mem_map.mpr ⟨q, hq, rfl⟩

theorem undefinedRules_named (m : Match) (h : ¬ (m.Pods = none ∧ m.IPBlocks = none)) :
    undefinedRules m = [] := by
  unfold undefinedRules
  rw [if_neg h]

theorem matchAllowsAll_named (m : Match) (h : ¬ (m.Pods = none ∧ m.IPBlocks = none)) :
    matchAllowsAll m = false := by
  unfold matchAllowsAll
  simp only [decide_eq_false_iff_not]
  intro ⟨h1, h2, _⟩
  exact h ⟨h1, h2⟩

/-- A match of the requested direction that names pods or IP blocks: the state
afterwards holds the rules it held before and, for every resolved peer subnet and
every IP-block subnet, the rule without ports or the rules of the ports. -/
theorem processMatch_named (env : Env) (hE : ∀ a b, env.Compare a b = 0 → a = b)
    (d : MatchType) (st : GenState) (m : Match) (subs : List IPNet) (hm : m.Typ = d)
    (hn : ¬ (m.Pods = none ∧ m.IPBlocks = none))
    (hsubs : collectSubnets (m.IPBlocks.getD []) = some subs) (hsame : st.rules.SameRules) :
    ∃ st1, processMatch env d st m = some st1 ∧ st1.hasPolicy = st.hasPolicy ∧
      st1.allAllowed = st.allAllowed ∧
      ∀ r, r ∈ st1.rules.rules ↔ r ∈ st.rules.rules ∨
        ∃ x ∈ (collectPeers env (m.Pods.getD [])).map PeerPod.IPNet ++ subs,
          (m.Ports = [] ∧ r = ruleAnyFor d x) ∨ ∃ q ∈ m.Ports, r = rulePortFor d x q := by
  rw [processMatch_eq env d st m hm, hsubs]
  refine ⟨_, rfl, rfl, ?_, ?_⟩
  · simp [matchAllowsAll_named m hn]
  · intro r
    simp only
    rw [insertAll_mem_rules env.Compare hE _ _ hsame]
    unfold matchRules
    rw [undefinedRules_named m hn, List.nil_append, List.mem_append,
      mem_flatMap_networkRules, mem_flatMap_networkRules]
    constructor
    · rintro (h | ⟨x, hx, h⟩ | ⟨x, hx, h⟩)
      · exact Or.inl h
      · exact Or.inr ⟨x, List.mem_append_left _ hx, h⟩
      · exact Or.inr ⟨x, List.mem_append_right _ hx, h⟩
    · rintro (h | ⟨x, hx, h⟩)
      · exact Or.inl h
      · rcases List.mem_append.mp hx with hx | hx
        · exact Or.inr (Or.inl ⟨x, hx, h⟩)
        · exact Or.inr (Or.inr ⟨x, hx, h⟩)

/-- A peer that does not resolve is skipped: the resolved peers are those of the
list without it. -/
theorem collectPeers_skip (env : Env) (l1 l2 : List PodID) (p : PodID)
    (h : resolvePeer env p = none) :
    collectPeers env (l1 ++ p :: l2) = collectPeers env (l1 ++ l2) := by
  rw [collectPeers_eq_filterMap, collectPeers_eq_filterMap, List.filterMap_append,
    List.filterMap_append, List.filterMap_cons, h]

theorem collectPeers_none (env : Env) (l : List PodID) (h : ∀ p ∈ l, resolvePeer env p = none) :
    collectPeers env l = [] := by
  rw [collectPeers_eq_filterMap]
  induction l with
  | nil => rfl
  | cons p rest ih =>
    rw [List.filterMap_cons, h p (List.mem_cons_self _ _)]
    exact ih (fun q hq => h q (List.mem_cons_of_mem _ hq))

/-- The loop body depends on the pods of a match through the resolved peers
only (given that the pod list is not nil). -/
theorem processMatch_pods (env : Env) (d : MatchType) (st : GenState) (m : Match)
    (l l2 : List PodID) (h : collectPeers env l = collectPeers env l2) :
    processMatch env d st { m with Pods := some l } =
      processMatch env d st { m with Pods := some l2 } := by
  unfold processMatch insertUndefined
  simp only [Option.getD_some, h, reduceCtorEq, false_and, if_false]

/-- A match of the requested direction whose pod list is not nil and holds no pod
that resolves: the state afterwards is the state before with the rules of the
IP-block subnets inserted. -/
theorem processMatch_unresolved (env : Env) (d : MatchType) (st : GenState) (m : Match)
    (l : List PodID) (subs : List IPNet) (hm : m.Typ = d) (hp : m.Pods = some l)
    (hnone : ∀ p ∈ l, resolvePeer env p = none)
    (hsubs : collectSubnets (m.IPBlocks.getD []) = some subs) :
    processMatch env d st m =
      some { st with rules := subs.foldl (insertNetwork env d m.Ports) st.rules } := by
  unfold processMatch insertUndefined
  rw [if_neg (by simpa using hm), hsubs]
  simp only [hp, Option.getD_some, collectPeers_none env l hnone, reduceCtorEq, false_and,
    if_false, List.map_nil, List.foldl_nil]

theorem insertAll_rules_sub (cmp : ContivRule → ContivRule → Int) (rs : List ContivRule)
    (cr : ContivRules) (x : ContivRule) (h : x ∈ (insertAll cmp cr rs).rules) :
    x ∈ cr.rules ∨ x ∈ rs := by
  induction rs generalizing cr with
  | nil => exact Or.inl h
  | cons r rest ih =>
    rw [insertAll_cons] at h
    rcases ih _ h with h1 | h1
    · rcases Insert_cases cmp cr r with ⟨e, _⟩ | ⟨idx, _, e⟩
      · rw [e] at h1
        exact Or.inl h1
      · rw [e] at h1
        rcases List.mem_append.mp h1 with h2 | h2
        · exact Or.inl h2
        · exact Or.inr (by rw [List.mem_singleton.mp h2]; exact List.mem_cons_self _ _)
    · exact Or.inr (List.mem_cons_of_mem _ h1)

theorem insertAll_ordered_sub (cmp : ContivRule → ContivRule → Int) (rs : List ContivRule)
    (cr : ContivRules) (x : ContivRule) (h : x ∈ (insertAll cmp cr rs).orderedRules) :
    x ∈ cr.orderedRules ∨ x ∈ rs := by
  induction rs generalizing cr with
  | nil => exact Or.inl h
  | cons r rest ih =>
    rw [insertAll_cons] at h
    rcases ih _ h with h1 | h1
    · rcases Insert_cases cmp cr r with ⟨e, _⟩ | ⟨idx, _, e⟩
      · rw [e] at h1
        exact Or.inl h1
      · rw [e] at h1
        rcases (mem_take_drop cr.orderedRules idx r x).mp h1 with h2 | h2
        · exact Or.inl h2
        · exact Or.inr (by rw [h2]; exact List.mem_cons_self _ _)
    · exact Or.inr (List.mem_cons_of_mem _ h1)

theorem matchRules_fields (env : Env) (d : MatchType) (m : Match) (subs : List IPNet)
    (r : ContivRule) (h : r ∈ matchRules env d m subs) :
    r.SrcPort = 0 ∧ (d = MatchType.MatchIngress → r.DestNetwork = emptyNet) ∧
      (d = MatchType.MatchEgress → r.SrcNetwork = emptyNet) := by
  have hnet : ∀ nets : List IPNet, r ∈ nets.flatMap (networkRules d m.Ports) →
      r.SrcPort = 0 ∧ (d = MatchType.MatchIngress → r.DestNetwork = emptyNet) ∧
        (d = MatchType.MatchEgress → r.SrcNetwork = emptyNet) := by
    intro nets hr
    obtain ⟨x, _, hx⟩ := (mem_flatMap_networkRules d m.Ports nets r).mp hr
    rcases hx with ⟨_, e⟩ | ⟨q, _, e⟩
    · subst e
      cases d <;> simp [ruleAnyFor]
    · subst e
      cases d <;> simp [rulePortFor]
  unfold matchRules at h
  rcases List.mem_append.mp h with h1 | h1
  · rcases List.mem_append.mp h1 with h2 | h2
    · unfold undefinedRules at h2
      split at h2
      · split at h2
        · rw [List.mem_singleton.mp h2]
          exact ⟨rfl, fun _ => rfl, fun _ => rfl⟩
        · obtain ⟨q, _, e⟩ := List.mem_map.mp h2
          subst e
          exact ⟨rfl, fun _ => rfl, fun _ => rfl⟩
      · exact absurd h2 (List.not_mem_nil _)
    · exact hnet _ h2
  · exact hnet _ h1

theorem finalRules_fields (env : Env) (d : MatchType) (hasPolicy allAllowed : Bool)
    (r : ContivRule) (h : r ∈ finalRules env d hasPolicy allAllowed) :
    r.SrcPort = 0 ∧ (d = MatchType.MatchIngress → r.DestNetwork = emptyNet) ∧
      (d = MatchType.MatchEgress → r.SrcNetwork = emptyNet) := by
  unfold finalRules at h
  split at h
  · rcases List.mem_append.mp h with h1 | h1
    · split at h1
      · rename_i hd
        rw [List.mem_singleton.mp h1]
        exact ⟨rfl, fun _ => rfl, fun h2 => by rw [hd] at h2; cases h2⟩
      · exact absurd h1 (List.not_mem_nil _)
    · rw [List.mem_singleton.mp h1]
      exact ⟨rfl, fun _ => rfl, fun _ => rfl⟩
  · exact absurd h (List.not_mem_nil _)

/-- Every rule of the two lists that `generateRules` returns has source port 0
and an empty network on the side that is not the side of the peers. -/
theorem generateRules_fields (env : Env) (d : MatchType) (ps : List ContivPolicy)
    (cr : ContivRules) (h : generateRules env d ps = some cr) (r : ContivRule)
    (hr : r ∈ cr.rules ∨ r ∈ cr.orderedRules) :
    r.SrcPort = 0 ∧ (d = MatchType.MatchIngress → r.DestNetwork = emptyNet) ∧
      (d = MatchType.MatchEgress → r.SrcNetwork = emptyNet) := by
  rw [generateRules_eq] at h
  cases hrs : policiesRules env d ps with
  | none => rw [hrs] at h; cases h
  | some rs =>
    rw [hrs] at h
    simp only [Option.map_some', Option.some.injEq] at h
    subst h
    have hmem : r ∈ rs ++ finalRules env d (anyApplies d ps) (anyAllowsAll d ps) := by
      rcases hr with hr | hr
      · rcases insertAll_rules_sub _ _ _ _ hr with h1 | h1
        · exact absurd h1 (List.not_mem_nil _)
        · exact h1
      · rcases insertAll_ordered_sub _ _ _ _ hr with h1 | h1
        · exact absurd h1 (List.not_mem_nil _)
        · exact h1
    rcases List.mem_append.mp hmem with h1 | h1
    · obtain ⟨p, _, _, m, _, _, subs, _, h2⟩ := (mem_policiesRules env d ps rs hrs r).mp h1
      exact matchRules_fields env d m subs r h2
    · exact finalRules_fields env d _ _ r h1

/-- A match that names pods or IP blocks leaves the flags of the state as they
are. -/
theorem processMatch_flags (env : Env) (d : MatchType) (st st1 : GenState) (m : Match)
    (hn : ¬ (m.Pods = none ∧ m.IPBlocks = none)) (h : processMatch env d st m = some st1) :
    st1.allAllowed = st.allAllowed ∧ st1.hasPolicy = st.hasPolicy := by
  by_cases hm : m.Typ = d
  · rw [processMatch_eq env d st m hm] at h
    cases hs : collectSubnets (m.IPBlocks.getD []) with
    | none => rw [hs] at h; cases h
    | some subs =>
      rw [hs] at h
      simp only [Option.map_some', Option.some.injEq] at h
      subst h
      simp [matchAllowsAll_named m hn]
  · unfold processMatch at h
    rw [if_pos hm] at h
    simp only [Option.some.injEq] at h
    subst h
    exact ⟨rfl, rfl⟩

/-- A match with at most one IP block: the subnets that the rules are built for
are the network of the block minus its exceptions. -/
theorem collectSubnets_of_one (blocks : List IPBlock) (subs : List IPNet)
    (h : (blocks = [] ∧ subs = []) ∨
      ∃ block, blocks = [block] ∧ subtractExcepts [block.Network] block.Except = some subs) :
    collectSubnets blocks = some subs := by
  rcases h with ⟨h1, h2⟩ | ⟨block, h1, h2⟩
  · rw [h1, h2]; rfl
  · rw [h1, collectSubnets_single, h2]

/-! ## The memo of `Commit` compares policy sets by their IDs -/

theorem policies_equals_iff (a b : List ContivPolicy) :
    ContivPolicies.Equals a b = true ↔ a.map ContivPolicy.ID = b.map ContivPolicy.ID := by
  unfold ContivPolicies.Equals
  induction a generalizing b with
  | nil =>
    cases b with
    | nil => simp
    | cons y ys => simp
  | cons x xs ih =>
    cases b with
    | nil => simp
    | cons y ys =>
      have := ih ys
      by_cases hlen : xs.length = ys.length
      · simp only [hlen, ne_eq, not_true_eq_false, if_false] at this
        simp only [List.length_cons, hlen, ne_eq, not_true_eq_false, if_false, List.zip_cons_cons,
          List.all_cons, Bool.and_eq_true, decide_eq_true_eq, this, List.map_cons,
          List.cons.injEq]
      · have h1 : xs.map ContivPolicy.ID ≠ ys.map ContivPolicy.ID := by
          intro e
          exact hlen (by simpa using congrArg List.length e)
        simp [hlen, h1]

theorem policies_equals_refl (a : List ContivPolicy) : ContivPolicies.Equals a a = true :=
  (policies_equals_iff a a).mpr rfl

theorem policies_equals_symm (a b : List ContivPolicy) (h : ContivPolicies.Equals a b = true) :
    ContivPolicies.Equals b a = true :=
  (policies_equals_iff b a).mpr ((policies_equals_iff a b).mp h).symm

theorem policies_equals_trans (a b c : List ContivPolicy)
    (h1 : ContivPolicies.Equals a b = true) (h2 : ContivPolicies.Equals b c = true) :
    ContivPolicies.Equals a c = true :=
  (policies_equals_iff a c).mpr
    (((policies_equals_iff a b).mp h1).trans ((policies_equals_iff b c).mp h2))

theorem lookupProcessed_none (policies : List ContivPolicy)
    (processed : List ProcessedPolicySet) (h : lookupProcessed policies processed = none) :
    ∀ ps ∈ processed, ContivPolicies.Equals ps.policies policies = false := by
  induction processed using List.reverseRecOn with
  | nil => intro ps hps; exact absurd hps (List.not_mem_nil _)
  | append_singleton l ps ih =>
    rw [lookupProcessed_append] at h
    split at h
    · cases h
    · rename_i hne
      intro ps2 hps2
      rcases List.mem_append.mp hps2 with h2 | h2
      · exact ih h ps2 h2
      · rw [List.mem_singleton.mp h2]
        simpa using hne

theorem memoInv_removed (env : Env) (st : CommitState)
    (done : List (PodID × List ContivPolicy)) (e : PodID × List ContivPolicy)
    (hinv : MemoInv env st done) (st1 : CommitState)
    (h : (match st.podIPAddresses e.1 with
      | some podIPNet =>
        some { st with
          podIPAddresses := fun p => if p = e.1 then none else st.podIPAddresses p,
          calls := st.calls ++
            [{ pod := e.1, podIPNet := some podIPNet, ingress := [], egress := [],
               removed := true }] }
      | none => some st) = some st1) : MemoInv env st1 (done ++ [e]) := by
  have hold : ∀ c ∈ st.calls, c.removed = false → ∃ e2 ∈ done ++ [e], e2.1 = c.pod ∧
      ∃ ps ∈ st.processed,
        ContivPolicies.Equals ps.policies (env.SortPolicies e2.2) = true ∧
          c.ingress = ps.ingress.rules ∧ c.egress = ps.egress.rules := by
    intro c hc hr
    obtain ⟨e2, he2, h2⟩ := hinv.calls c hc hr
    exact ⟨e2, List.mem_append_left _ he2, h2⟩
  split at h
  · simp only [Option.some.injEq] at h
    subst h
    refine ⟨hinv.distinct, ?_⟩
    intro c hc hr
    rcases List.mem_append.mp hc with h1 | h1
    · exact hold c h1 hr
    · rw [List.mem_singleton.mp h1] at hr
      cases hr
  · simp only [Option.some.injEq] at h
    subst h
    exact ⟨hinv.distinct, hold⟩

/-- One round of the pod loop keeps the invariant of the memo. -/
theorem commitPod_memo (env : Env) (st st1 : CommitState)
    (done : List (PodID × List ContivPolicy)) (e : PodID × List ContivPolicy)
    (hinv : MemoInv env st done) (h : commitPod env st e.1 e.2 = some st1) :
    MemoInv env st1 (done ++ [e]) := by
  have hold : ∀ c ∈ st.calls, c.removed = false → ∃ e2 ∈ done ++ [e], e2.1 = c.pod ∧
      ∃ ps ∈ st.processed,
        ContivPolicies.Equals ps.policies (env.SortPolicies e2.2) = true ∧
          c.ingress = ps.ingress.rules ∧ c.egress = ps.egress.rules := by
    intro c hc hr
    obtain ⟨e2, he2, h2⟩ := hinv.calls c hc hr
    exact ⟨e2, List.mem_append_left _ he2, h2⟩
  unfold commitPod at h
  simp only at h
  cases hl : env.LookupPod e.1 with
  | none =>
    rw [hl] at h
    exact memoInv_removed env st done e hinv st1 h
  | some podData =>
    rw [hl] at h
    simp only at h
    by_cases hip : podData.IpAddress = ""
    · rw [if_pos hip] at h
      exact memoInv_removed env st done e hinv st1 h
    · rw [if_neg hip] at h
      cases hn : env.GetOneHostSubnet podData.IpAddress with
      | none =>
        rw [hn] at h
        simp only [Option.some.injEq] at h
        subst h
        exact ⟨hinv.distinct, hold⟩
      | some podIPNet =>
        rw [hn] at h
        simp only at h
        cases hlook : lookupProcessed (env.SortPolicies e.2) st.processed with
        | some res =>
          rw [hlook] at h
          obtain ⟨ps, hps, heq, hres⟩ := lookupProcessed_some _ _ res hlook
          obtain ⟨ingress, egress⟩ := res
          simp only [Option.some.injEq] at h
          subst h
          simp only [Prod.mk.injEq] at hres
          refine ⟨hinv.distinct, ?_⟩
          intro c hc hr
          rcases List.mem_append.mp hc with h1 | h1
          · exact hold c h1 hr
          · rw [List.mem_singleton.mp h1]
            exact ⟨e, List.mem_append_right _ (List.mem_singleton.mpr rfl), rfl, ps, hps, heq,
              by rw [hres.1]; rfl, by rw [hres.2]; rfl⟩
        | none =>
          rw [hlook] at h
          have hnone := lookupProcessed_none _ _ hlook
          cases hge : generateRules env MatchType.MatchIngress (env.SortPolicies e.2) with
          | none => rw [hge] at h; simp at h
          | some egress =>
            cases hgi : generateRules env MatchType.MatchEgress (env.SortPolicies e.2) with
            | none => rw [hge, hgi] at h; simp at h
            | some ingress =>
              rw [hge, hgi] at h
              simp only [Option.some.injEq] at h
              subst h
              constructor
              · intro ps1 h1 ps2 h2 heq
                rcases List.mem_append.mp h1 with h1 | h1
                · rcases List.mem_append.mp h2 with h2 | h2
                  · exact hinv.distinct ps1 h1 ps2 h2 heq
                  · rw [List.mem_singleton.mp h2] at heq
                    rw [hnone ps1 h1] at heq
                    cases heq
                · rcases List.mem_append.mp h2 with h2 | h2
                  · rw [List.mem_singleton.mp h1] at heq
                    have := policies_equals_symm _ _ heq
                    rw [hnone ps2 h2] at this
                    cases this
                  · rw [List.mem_singleton.mp h1, List.mem_singleton.mp h2]
              · intro c hc hr
                rcases List.mem_append.mp hc with h1 | h1
                · obtain ⟨e2, he2, hp, ps, hps, h3⟩ := hold c h1 hr
                  exact ⟨e2, he2, hp, ps, List.mem_append_left _ hps, h3⟩
                · rw [List.mem_singleton.mp h1]
                  exact ⟨e, List.mem_append_right _ (List.mem_singleton.mpr rfl), rfl, _,
                    List.mem_append_right _ (List.mem_singleton.mpr rfl),
                    policies_equals_refl _, rfl, rfl⟩

theorem commitPods_memo (env : Env) (entries : List (PodID × List ContivPolicy))
    (st st1 : CommitState) (done : List (PodID × List ContivPolicy))
    (hinv : MemoInv env st done) (h : commitPods env st entries = some st1) :
    MemoInv env st1 (done ++ entries) := by
  induction entries generalizing st done with
  | nil =>
    simp only [commitPods, Option.some.injEq] at h
    subst h
    simpa using hinv
  | cons e rest ih =>
    simp only [commitPods] at h
    cases hstep : commitPod env st e.1 e.2 with
    | none => rw [hstep] at h; cases h
    | some st2 =>
      rw [hstep] at h
      have := ih st2 (done ++ [e]) (commitPod_memo env st st2 done e hinv hstep) h
      simpa using this

/-- Two pods of one `Commit` whose sorted policy lists `Equals` takes for one
another are rendered with the same rule lists. -/
theorem commitCalls_memo (env : Env) (ips : PodID → Option IPNet)
    (entries : List (PodID × List ContivPolicy)) (hnodup : (entries.map Prod.fst).Nodup)
    (calls : List RenderCall) (h : commitCalls env ips entries = some calls)
    (c1 c2 : RenderCall) (hc1 : c1 ∈ calls) (hc2 : c2 ∈ calls) (hr1 : c1.removed = false)
    (hr2 : c2.removed = false) (l1 l2 : List ContivPolicy) (he1 : (c1.pod, l1) ∈ entries)
    (he2 : (c2.pod, l2) ∈ entries)
    (heq : ContivPolicies.Equals (env.SortPolicies l1) (env.SortPolicies l2) = true) :
    c1.ingress = c2.ingress ∧ c1.egress = c2.egress := by
  unfold commitCalls at h
  cases hst : commitPods env { processed := [], podIPAddresses := ips, calls := [] } entries with
  | none => rw [hst] at h; cases h
  | some st1 =>
    rw [hst] at h
    simp only [Option.map_some', Option.some.injEq] at h
    subst h
    have h0 : MemoInv env { processed := [], podIPAddresses := ips, calls := [] } [] :=
      ⟨fun _ h => absurd h (List.not_mem_nil _), fun _ h => absurd h (List.not_mem_nil _)⟩
    have hinv := commitPods_memo env entries _ st1 [] h0 hst
    rw [List.nil_append] at hinv
    have hkey : ∀ e ∈ entries, ∀ pod l, (pod, l) ∈ entries → e.1 = pod → e.2 = l := by
      intro e he pod l hm hp
      have := List.inj_on_of_nodup_map hnodup he hm hp
      rw [this]
    obtain ⟨e1, hm1, hp1, ps1, hps1, heq1, hi1, hg1⟩ := hinv.calls c1 hc1 hr1
    obtain ⟨e2, hm2, hp2, ps2, hps2, heq2, hi2, hg2⟩ := hinv.calls c2 hc2 hr2
    rw [hkey e1 hm1 c1.pod l1 he1 hp1] at heq1
    rw [hkey e2 hm2 c2.pod l2 he2 hp2] at heq2
    have h12 : ps1 = ps2 :=
      hinv.distinct ps1 hps1 ps2 hps2
        (policies_equals_trans _ _ _ (policies_equals_trans _ _ _ heq1 heq)
          (policies_equals_symm _ _ heq2))
    rw [hi1, hg1, hi2, hg2, h12]
    exact ⟨rfl, rfl⟩

/-! ## Single steps of the table builders -/

theorem InsertRule_sub (cmp : ContivRule → ContivRule → Int) (table : ContivRuleTable)
    (rule x : ContivRule) (h : x ∈ (table.InsertRule cmp rule).1.Rules) :
    x ∈ table.Rules ∨ x = rule := by
  unfold ContivRuleTable.InsertRule at h
  simp only at h
  rcases Insert_cases cmp { rules := [], orderedRules := table.Rules } rule with
    ⟨e, _⟩ | ⟨idx, _, e⟩
  · rw [e] at h
    exact Or.inl h
  · rw [e] at h
    exact (mem_take_drop _ _ _ _).mp h

theorem InsertRule_mono (cmp : ContivRule → ContivRule → Int) (table : ContivRuleTable)
    (rule x : ContivRule) (h : x ∈ table.Rules) : x ∈ (table.InsertRule cmp rule).1.Rules := by
  unfold ContivRuleTable.InsertRule
  simp only
  rcases Insert_cases cmp { rules := [], orderedRules := table.Rules } rule with
    ⟨e, _⟩ | ⟨idx, _, e⟩
  · rw [e]
    exact h
  · rw [e]
    exact (mem_take_drop _ _ _ _).mpr (Or.inl h)

theorem insertRules_sub (cmp : ContivRule → ContivRule → Int) (rs : List ContivRule)
    (table : ContivRuleTable) (x : ContivRule) (h : x ∈ (insertRules cmp table rs).Rules) :
    x ∈ table.Rules ∨ x ∈ rs := by
  induction rs generalizing table with
  | nil => exact Or.inl h
  | cons r rest ih =>
    rcases ih (table.InsertRule cmp r).1 h with h1 | h1
    · rcases InsertRule_sub cmp table r x h1 with h2 | h2
      · exact Or.inl h2
      · exact Or.inr (by rw [h2]; exact List.mem_cons_self _ _)
    · exact Or.inr (List.mem_cons_of_mem _ h1)

theorem insertRules_mono (cmp : ContivRule → ContivRule → Int) (rs : List ContivRule)
    (table : ContivRuleTable) (x : ContivRule) (h : x ∈ table.Rules) :
    x ∈ (insertRules cmp table rs).Rules := by
  induction rs generalizing table with
  | nil => exact h
  | cons r rest ih => exact ih (table.InsertRule cmp r).1 (InsertRule_mono cmp table r x h)

/-- A rule that carries a one-host network in its anchor field is anchored on
it. -/
theorem anchoredOn_of_anchor (orientation : Orientation) (ip : IPNet) (x : ContivRule)
    (hip : ip.OneHost) (hx : anchor orientation x = ip) : anchoredOn orientation ip x = true := by
  unfold anchoredOn
  unfold anchor at hx
  have he : ipEqual ip.IP ip.IP = true := by unfold ipEqual; simp
  simp only [hx, he, hip.1, hip.2, ne_eq, not_true_eq_false, Bool.true_eq_false, or_self,
    if_false]

/-- The frame of `installLocalRules`: a rule that is not anchored on the source
pod is in the table afterwards exactly if it was before. -/
theorem installLocalRules_frame (deps : CacheDeps) (orientation : Orientation)
    (table t : ContivRuleTable) (dstPodCfg srcPodCfg : PodConfig)
    (hip : ∀ ip, srcPodCfg.PodIP = some ip → ip.OneHost)
    (h : installLocalRules deps orientation table dstPodCfg srcPodCfg = some t) (x : ContivRule)
    (hx : ∀ ip, srcPodCfg.PodIP = some ip → anchoredOn orientation ip x = false) :
    x ∈ t.Rules ↔ x ∈ table.Rules := by
  rw [installLocalRules_eq] at h
  split at h
  · cases hp : srcPodCfg.PodIP with
    | none => rw [hp] at h; cases h
    | some ip =>
      rw [hp] at h
      simp only [Option.some.injEq] at h
      subst h
      constructor
      · intro hm
        rcases insertRules_sub _ _ _ _ hm with h1 | h1
        · exact ((RemoveByPredicate_mem _ _ _).mp h1).1
        · have ha := anchoredOn_of_anchor orientation ip x (hip ip hp)
            (restrictRules_anchor deps orientation dstPodCfg srcPodCfg ip x h1)
          rw [hx ip hp] at ha
          cases ha
      · intro hm
        exact insertRules_mono _ _ _ _ ((RemoveByPredicate_mem _ _ _).mpr ⟨hm, hx ip hp⟩)
  · simp only [Option.some.injEq] at h
    subst h
    exact Iff.rfl

/-- After a restriction, the rules anchored on the source pod are the rules that
the restriction inserts. -/
theorem installLocalRules_anchored (deps : CacheDeps)
    (hE : ∀ a b, deps.Compare a b = 0 → a = b) (orientation : Orientation)
    (table : ContivRuleTable) (dstPodCfg srcPodCfg : PodConfig) (ip : IPNet)
    (hp : srcPodCfg.PodIP = some ip) (hip : ip.OneHost)
    (hr : restricts deps orientation dstPodCfg srcPodCfg = true) :
    ∃ t, installLocalRules deps orientation table dstPodCfg srcPodCfg = some t ∧
      ∀ x, (x ∈ t.Rules ∧ anchoredOn orientation ip x = true) ↔
        x ∈ restrictRules deps orientation dstPodCfg srcPodCfg ip := by
  rw [installLocalRules_eq, if_pos hr, hp]
  refine ⟨_, rfl, fun x => ?_⟩
  rw [insertRules_mem _ hE, RemoveByPredicate_mem]
  constructor
  · rintro ⟨h1 | h1, h2⟩
    · rw [h1.2] at h2
      cases h2
    · exact h1
  · intro h1
    exact ⟨Or.inr h1, anchoredOn_of_anchor orientation ip x hip
      (restrictRules_anchor deps orientation dstPodCfg srcPodCfg ip x h1)⟩

theorem mem_allowedPortRules (deps : CacheDeps) (orientation : Orientation) (ip : IPNet)
    (allowedPorts : Ports) (protocol : renderer.ProtocolType) (x : ContivRule) :
    x ∈ allowedPortRules deps orientation ip allowedPorts protocol ↔
      (deps.HasExplicit allowedPorts AnyPort = true ∧ x = portTemplate orientation ip protocol) ∨
      (deps.HasExplicit allowedPorts AnyPort = false ∧ ∃ port ∈ allowedPorts,
        x = { portTemplate orientation ip protocol with DestPort := port }) := by
  unfold allowedPortRules
  cases he : deps.HasExplicit allowedPorts AnyPort with
  | true =>
    simp only [if_true, List.mem_singleton, true_and, Bool.true_eq_false, false_and, or_false]
  | false =>
    simp only [Bool.false_eq_true, if_false, List.mem_map, false_and, true_and, false_or]
    constructor
    · rintro ⟨port, h1, h2⟩
      exact ⟨port, h1, h2.symm⟩
    · rintro ⟨port, h1, h2⟩
      exact ⟨port, h1, h2.symm⟩

/-! ## The last step of `buildLocalTable` and of `rebuildGlobalTable` -/

/-- The table of a pod that is not removed: the table of lines 480-493, with the
allow-all rule inserted if it has rules and none of them matches all traffic. -/
theorem buildLocalTable_eq (deps : CacheDeps) (rc : RendererCache) (rct : RendererCacheTxn)
    (dstPodID : PodID) (dstPodCfg : PodConfig) (hr : dstPodCfg.Removed = false) :
    buildLocalTable deps rc rct dstPodID dstPodCfg =
      (localRulesTable deps rc rct dstPodID dstPodCfg).map (fun table2 =>
        if table2.Rules ≠ [] ∧ table2.Rules.any matchesAll = false then
          (table2.InsertRule deps.Compare allowAll).1
        else table2) := by
  unfold buildLocalTable localRulesTable
  simp only [hr, Bool.false_eq_true, if_false]
  cases installAllLocalRules deps rc.orientation (rct.GetPodConfig rc) dstPodCfg
      (rct.GetAllPods rc) _ with
  | none => rfl
  | some table2 =>
    simp only [Option.map_some']
    cases hrules : table2.Rules with
    | nil => simp
    | cons r rest =>
      cases hany : (r :: rest).any matchesAll with
      | true => simp [hany]
      | false => simp [hany]

theorem matchesAll_allowAll : matchesAll allowAll = true := by decide

/-- A table that `buildLocalTable` returns with rules holds a rule that matches
all traffic. -/
theorem buildLocalTable_matchAll (deps : CacheDeps) (hE : ∀ a b, deps.Compare a b = 0 → a = b)
    (rc : RendererCache) (rct : RendererCacheTxn) (dstPodID : PodID) (dstPodCfg : PodConfig)
    (t : ContivRuleTable) (h : buildLocalTable deps rc rct dstPodID dstPodCfg = some t)
    (hne : t.Rules ≠ []) : ∃ r ∈ t.Rules, matchesAll r = true := by
  cases hr : dstPodCfg.Removed with
  | true =>
    obtain ⟨t2, h2, h3⟩ := buildLocalTable_removed deps rc rct dstPodID dstPodCfg hr
    rw [h2] at h
    simp only [Option.some.injEq] at h
    rw [← h] at hne
    exact absurd h3 hne
  | false =>
    rw [buildLocalTable_eq deps rc rct dstPodID dstPodCfg hr] at h
    cases h2 : localRulesTable deps rc rct dstPodID dstPodCfg with
    | none => rw [h2] at h; cases h
    | some table2 =>
      rw [h2] at h
      simp only [Option.map_some', Option.some.injEq] at h
      split at h
      · subst h
        exact ⟨allowAll, (InsertRule_mem _ hE _ _ _).mpr (Or.inr rfl), matchesAll_allowAll⟩
      · rename_i hc
        subst h
        have hany : table2.Rules.any matchesAll = true := by
          by_contra hn
          exact hc ⟨hne, by simpa using hn⟩
        obtain ⟨r, hr1, hr2⟩ := List.any_eq_true.mp hany
        exact ⟨r, hr1, hr2⟩

theorem matchesAll_iff (r : ContivRule) :
    matchesAll r = true ↔ r.Protocol = renderer.ProtocolType.ANY ∧ r.DestPort = 0 ∧
      r.SrcNetwork.IP.length = 0 ∧ r.DestNetwork.IP.length = 0 := by
  unfold matchesAll
  simp only [Bool.and_eq_true, decide_eq_true_eq]
  tauto

theorem mem_globalRulesOf (orientation : Orientation) (podCfg : PodConfig)
    (rs : List ContivRule) (h : globalRulesOf orientation podCfg = some rs) (x : ContivRule) :
    x ∈ rs ↔ ∃ ip rule, podCfg.PodIP = some ip ∧
      rule ∈ (if orientation = Orientation.EgressOrientation then podCfg.Ingress
        else podCfg.Egress) ∧
      x = (if orientation = Orientation.EgressOrientation then { rule with SrcNetwork := ip }
        else { rule with DestNetwork := ip }) := by
  unfold globalRulesOf at h
  cases orientation
  all_goals
    simp only [reduceCtorEq, if_true, if_false] at h ⊢
    split at h
    · rename_i he
      simp only [Option.some.injEq] at h
      subst h
      rw [he]
      simp
    · cases hp : podCfg.PodIP with
      | none => rw [hp] at h; cases h
      | some ip =>
        rw [hp] at h
        simp only [Option.some.injEq] at h
        subst h
        constructor
        · intro hx
          obtain ⟨rule, h1, h2⟩ := List.mem_map.mp hx
          exact ⟨ip, rule, rfl, h1, h2.symm⟩
        · rintro ⟨ip2, rule, h0, h1, h2⟩
          simp only [Option.some.injEq] at h0
          subst h0
          exact List.mem_map.mpr ⟨rule, h1, h2.symm⟩

theorem installAllGlobalRules_mem (deps : CacheDeps) (hE : ∀ a b, deps.Compare a b = 0 → a = b)
    (orientation : Orientation) (view : PodID → Option PodConfig) (pods : List PodID)
    (table g : ContivRuleTable)
    (h : installAllGlobalRules deps orientation view pods table = some g) (x : ContivRule) :
    x ∈ g.Rules ↔ x ∈ table.Rules ∨ ∃ pod ∈ pods, ∃ cfg rs, view pod = some cfg ∧
      globalRulesOf orientation cfg = some rs ∧ x ∈ rs := by
  induction pods generalizing table with
  | nil =>
    simp only [installAllGlobalRules, Option.some.injEq] at h
    subst h
    simp
  | cons pod rest ih =>
    simp only [installAllGlobalRules] at h
    cases hv : view pod with
    | none => rw [hv] at h; cases h
    | some cfg =>
      rw [hv] at h
      simp only at h
      rw [installGlobalRules_eq] at h
      cases hg : globalRulesOf orientation cfg with
      | none => rw [hg] at h; cases h
      | some rs =>
        rw [hg] at h
        simp only [Option.map_some'] at h
        rw [ih _ h, insertRules_mem _ hE]
        constructor
        · rintro ((h1 | h1) | ⟨p, hp, c, rs2, h2⟩)
          · exact Or.inl h1
          · exact Or.inr ⟨pod, List.mem_cons_self _ _, cfg, rs, hv, hg, h1⟩
          · exact Or.inr ⟨p, List.mem_cons_of_mem _ hp, c, rs2, h2⟩
        · rintro (h1 | ⟨p, hp, c, rs2, h2, h3, h4⟩)
          · exact Or.inl (Or.inl h1)
          · rcases List.mem_cons.mp hp with e | hp
            · subst e
              rw [hv] at h2
              simp only [Option.some.injEq] at h2
              subst h2
              rw [hg] at h3
              simp only [Option.some.injEq] at h3
              subst h3
              exact Or.inl (Or.inr h4)
            · exact Or.inr ⟨p, hp, c, rs2, h2, h3, h4⟩

/-- The rules that the pod loop of `rebuildGlobalTable` leaves in the table: the
rules of the opposite direction of every tracked pod, with the pod IP in the
anchor field. -/
theorem installAllGlobalRules_copies (deps : CacheDeps)
    (hE : ∀ a b, deps.Compare a b = 0 → a = b) (rc : RendererCache) (rct : RendererCacheTxn)
    (table : ContivRuleTable)
    (h : installAllGlobalRules deps rc.orientation (rct.GetPodConfig rc) (rct.GetAllPods rc)
      (NewContivRuleTable TableType.Global) = some table) (x : ContivRule) :
    x ∈ table.Rules ↔ ∃ pod ∈ rct.GetAllPods rc, ∃ cfg ip rule,
      rct.GetPodConfig rc pod = some cfg ∧ cfg.PodIP = some ip ∧
      rule ∈ (if rc.orientation = Orientation.EgressOrientation then cfg.Ingress
        else cfg.Egress) ∧
      x = (if rc.orientation = Orientation.EgressOrientation then { rule with SrcNetwork := ip }
        else { rule with DestNetwork := ip }) := by
  rw [installAllGlobalRules_mem deps hE _ _ _ _ _ h]
  constructor
  · rintro (h1 | ⟨pod, hp, cfg, rs, h1, h2, h3⟩)
    · exact absurd h1 (List.not_mem_nil _)
    · obtain ⟨ip, rule, h4, h5, h6⟩ := (mem_globalRulesOf _ cfg rs h2 x).mp h3
      exact ⟨pod, hp, cfg, ip, rule, h1, h4, h5, h6⟩
  · rintro ⟨pod, hp, cfg, ip, rule, h1, h4, h5, h6⟩
    have hg : ∃ rs, globalRulesOf rc.orientation cfg = some rs := by
      unfold globalRulesOf
      simp only [h4]
      by_cases he : (if rc.orientation = Orientation.EgressOrientation then cfg.Ingress
          else cfg.Egress) = []
      · rw [if_pos he]; exact ⟨_, rfl⟩
      · rw [if_neg he]; exact ⟨_, rfl⟩
    obtain ⟨rs, hrs⟩ := hg
    exact Or.inr ⟨pod, hp, cfg, rs, h1, hrs,
      (mem_globalRulesOf _ cfg rs hrs x).mpr ⟨ip, rule, h4, h5, h6⟩⟩

theorem installAllGlobalRules_some (deps : CacheDeps) (orientation : Orientation)
    (view : PodID → Option PodConfig) (pods : List PodID) (table g : ContivRuleTable)
    (h : installAllGlobalRules deps orientation view pods table = some g) :
    ∀ pod ∈ pods, ∃ cfg rs, view pod = some cfg ∧ globalRulesOf orientation cfg = some rs := by
  induction pods generalizing table with
  | nil => intro pod hp; exact absurd hp (List.not_mem_nil _)
  | cons p rest ih =>
    simp only [installAllGlobalRules] at h
    cases hv : view p with
    | none => rw [hv] at h; cases h
    | some cfg =>
      rw [hv] at h
      simp only at h
      rw [installGlobalRules_eq] at h
      cases hg : globalRulesOf orientation cfg with
      | none => rw [hg] at h; cases h
      | some rs =>
        rw [hg] at h
        simp only [Option.map_some'] at h
        intro pod hp
        rcases List.mem_cons.mp hp with e | hp
        · rw [e]; exact ⟨cfg, rs, hv, hg⟩
        · exact ih _ h pod hp

theorem globalRulesOf_ip (orientation : Orientation) (cfg : PodConfig) (rs : List ContivRule)
    (h : globalRulesOf orientation cfg = some rs)
    (hne : (if orientation = Orientation.EgressOrientation then cfg.Ingress
      else cfg.Egress) ≠ []) : ∃ ip, cfg.PodIP = some ip := by
  unfold globalRulesOf at h
  simp only at h
  rw [if_neg hne] at h
  cases hp : cfg.PodIP with
  | none => rw [hp] at h; cases h
  | some ip => exact ⟨ip, rfl⟩

theorem globalRulesOf_isSome (orientation : Orientation) (cfg : PodConfig)
    (h : (if orientation = Orientation.EgressOrientation then cfg.Ingress
      else cfg.Egress) ≠ [] → ∃ ip, cfg.PodIP = some ip) :
    ∃ rs, globalRulesOf orientation cfg = some rs := by
  unfold globalRulesOf
  simp only
  by_cases he : (if orientation = Orientation.EgressOrientation then cfg.Ingress
      else cfg.Egress) = []
  · rw [if_pos he]; exact ⟨_, rfl⟩
  · rw [if_neg he]
    obtain ⟨ip, hi⟩ := h he
    rw [hi]
    exact ⟨_, rfl⟩

/-- The pod loop of `rebuildGlobalTable` returns when every pod of the list has a
configuration in view, with a pod IP if it has rules of the opposite direction. -/
theorem installAllGlobalRules_returns (deps : CacheDeps) (orientation : Orientation)
    (view : PodID → Option PodConfig) (pods : List PodID)
    (hv : ∀ pod ∈ pods, ∃ cfg, view pod = some cfg ∧
      ((if orientation = Orientation.EgressOrientation then cfg.Ingress
        else cfg.Egress) ≠ [] → ∃ ip, cfg.PodIP = some ip))
    (table : ContivRuleTable) :
    ∃ g, installAllGlobalRules deps orientation view pods table = some g := by
  induction pods generalizing table with
  | nil => exact ⟨table, rfl⟩
  | cons pod rest ih =>
    obtain ⟨cfg, h1, h2⟩ := hv pod (List.mem_cons_self _ _)
    obtain ⟨rs, hrs⟩ := globalRulesOf_isSome orientation cfg h2
    simp only [installAllGlobalRules, h1, installGlobalRules_eq, hrs, Option.map_some']
    exact ih (fun p hp => hv p (List.mem_cons_of_mem _ hp)) _

/-- The global table that `rebuildGlobalTable` returns. -/
theorem rebuildGlobalTable_spec (deps : CacheDeps) (hE : ∀ a b, deps.Compare a b = 0 → a = b)
    (rc : RendererCache) (rct : RendererCacheTxn) (g : ContivRuleTable)
    (h : rebuildGlobalTable deps rc rct = some g) :
    (∀ x, x ∈ g.Rules ↔
        (∃ pod ∈ rct.GetAllPods rc, ∃ cfg ip rule,
          rct.GetPodConfig rc pod = some cfg ∧ cfg.PodIP = some ip ∧
          rule ∈ (if rc.orientation = Orientation.EgressOrientation then cfg.Ingress
            else cfg.Egress) ∧
          x = (if rc.orientation = Orientation.EgressOrientation then
              { rule with SrcNetwork := ip }
            else { rule with DestNetwork := ip })) ∨
        (x = allowAll ∧ ∃ pod ∈ rct.GetAllPods rc, ∃ cfg, rct.GetPodConfig rc pod = some cfg ∧
          (if rc.orientation = Orientation.EgressOrientation then cfg.Ingress
            else cfg.Egress) ≠ [])) ∧
      (g.Rules = [] ↔ ∀ pod ∈ rct.GetAllPods rc, ∀ cfg, rct.GetPodConfig rc pod = some cfg →
        (if rc.orientation = Orientation.EgressOrientation then cfg.Ingress
          else cfg.Egress) = []) := by
  unfold rebuildGlobalTable at h
  cases ht : installAllGlobalRules deps rc.orientation (rct.GetPodConfig rc)
      (rct.GetAllPods rc) (NewContivRuleTable TableType.Global) with
  | none => rw [ht] at h; cases h
  | some table =>
  rw [ht] at h
  simp only at h
  have hmem := installAllGlobalRules_copies deps hE rc rct table ht
  have hsome := installAllGlobalRules_some deps rc.orientation (rct.GetPodConfig rc)
    (rct.GetAllPods rc) _ table ht
  have hex : table.Rules ≠ [] ↔ ∃ pod ∈ rct.GetAllPods rc, ∃ cfg,
      rct.GetPodConfig rc pod = some cfg ∧
      (if rc.orientation = Orientation.EgressOrientation then cfg.Ingress
        else cfg.Egress) ≠ [] := by
    constructor
    · intro hne
      obtain ⟨x, hx⟩ := List.exists_mem_of_ne_nil _ hne
      obtain ⟨pod, hp, cfg, ip, rule, h1, _, h5, _⟩ := (hmem x).mp hx
      exact ⟨pod, hp, cfg, h1, List.ne_nil_of_mem h5⟩
    · rintro ⟨pod, hp, cfg, h1, h2⟩
      obtain ⟨rule, hrule⟩ := List.exists_mem_of_ne_nil _ h2
      obtain ⟨cfg2, rs, h3, h4⟩ := hsome pod hp
      rw [h1] at h3
      simp only [Option.some.injEq] at h3
      subst h3
      obtain ⟨ip, hi⟩ := globalRulesOf_ip rc.orientation cfg rs h4 h2
      exact List.ne_nil_of_mem ((hmem _).mpr ⟨pod, hp, cfg, ip, rule, h1, hi, hrule, rfl⟩)
  by_cases hn : table.Rules = []
  · have h0 : ¬ table.NumOfRules > 0 := by
      unfold ContivRuleTable.NumOfRules
      rw [hn]
      simp
    rw [if_neg h0] at h
    simp only [Option.some.injEq] at h
    subst h
    refine ⟨fun x => ?_, ?_⟩
    · rw [hmem x]
      constructor
      · exact Or.inl
      · rintro (h1 | ⟨_, h2⟩)
        · exact h1
        · exact absurd hn (hex.mpr h2)
    · constructor
      · intro _ pod hp cfg h1
        by_contra h2
        exact hex.mpr ⟨pod, hp, cfg, h1, h2⟩ hn
      · intro _
        exact hn
  · have h0 : table.NumOfRules > 0 := by
      unfold ContivRuleTable.NumOfRules
      exact List.length_pos.mpr hn
    rw [if_pos h0] at h
    simp only [Option.some.injEq] at h
    subst h
    refine ⟨fun x => ?_, ?_⟩
    · rw [InsertRule_mem _ hE, hmem x]
      constructor
      · rintro (h1 | h1)
        · exact Or.inl h1
        · exact Or.inr ⟨h1, hex.mp hn⟩
      · rintro (h1 | ⟨h1, _⟩)
        · exact Or.inl h1
        · exact Or.inr h1
    · constructor
      · intro he
        have : allowAll ∈ (table.InsertRule deps.Compare allowAll).1.Rules :=
          (InsertRule_mem _ hE _ _ _).mpr (Or.inr rfl)
        rw [he] at this
        exact absurd this (List.not_mem_nil _)
      · intro hall
        obtain ⟨pod, hp, cfg, h1, h2⟩ := hex.mp hn
        exact absurd (hall pod hp cfg h1) h2

/-- `rebuildGlobalTable` returns when every tracked pod with rules of the opposite
direction has a pod IP. -/
theorem rebuildGlobalTable_returns (deps : CacheDeps) (rc : RendererCache)
    (rct : RendererCacheTxn)
    (hv : ∀ pod ∈ rct.GetAllPods rc, ∀ cfg, rct.GetPodConfig rc pod = some cfg →
      (if rc.orientation = Orientation.EgressOrientation then cfg.Ingress
        else cfg.Egress) ≠ [] → ∃ ip, cfg.PodIP = some ip) :
    ∃ g, rebuildGlobalTable deps rc rct = some g := by
  obtain ⟨table, ht⟩ := installAllGlobalRules_returns deps rc.orientation (rct.GetPodConfig rc)
    (rct.GetAllPods rc)
    (fun pod hp => by
      obtain ⟨cfg, hc⟩ := getPodConfig_of_allPods rc rct pod hp
      exact ⟨cfg, hc, hv pod hp cfg hc⟩)
    (NewContivRuleTable TableType.Global)
  unfold rebuildGlobalTable
  rw [ht]
  simp only
  split
  · exact ⟨_, rfl⟩
  · exact ⟨_, rfl⟩

/-- A table that `buildLocalTable` returns with rules holds the allow-all rule, or
it is the table of lines 480-493 and holds a rule that matches all traffic. -/
theorem buildLocalTable_cases (deps : CacheDeps) (hE : ∀ a b, deps.Compare a b = 0 → a = b)
    (rc : RendererCache) (rct : RendererCacheTxn) (dstPodID : PodID) (dstPodCfg : PodConfig)
    (hr : dstPodCfg.Removed = false) :
    ∀ t2, localRulesTable deps rc rct dstPodID dstPodCfg = some t2 →
      ((∃ r ∈ t2.Rules, matchesAll r = true) →
        buildLocalTable deps rc rct dstPodID dstPodCfg = some t2) ∧
      (t2.Rules = [] → buildLocalTable deps rc rct dstPodID dstPodCfg = some t2) ∧
      (t2.Rules ≠ [] → (¬ ∃ r ∈ t2.Rules, matchesAll r = true) →
        buildLocalTable deps rc rct dstPodID dstPodCfg =
            some (t2.InsertRule deps.Compare allowAll).1 ∧
          allowAll ∈ (t2.InsertRule deps.Compare allowAll).1.Rules) := by
  intro t2 h2
  rw [buildLocalTable_eq deps rc rct dstPodID dstPodCfg hr, h2]
  simp only [Option.map_some', Option.some.injEq]
  refine ⟨?_, ?_, ?_⟩
  · rintro ⟨r, h3, h4⟩
    have hany : t2.Rules.any matchesAll = true := List.any_eq_true.mpr ⟨r, h3, h4⟩
    rw [if_neg (by rw [hany]; simp)]
  · intro h3
    rw [if_neg (by rw [h3]; simp)]
  · intro h3 h4
    have hany : t2.Rules.any matchesAll = false := by
      cases h5 : t2.Rules.any matchesAll with
      | false => rfl
      | true =>
        obtain ⟨r, h6, h7⟩ := List.any_eq_true.mp h5
        exact absurd ⟨r, h6, h7⟩ h4
    rw [if_pos ⟨h3, hany⟩]
    exact ⟨rfl, (InsertRule_mem _ hE _ _ _).mpr (Or.inr rfl)⟩

theorem anchoredOn_eq_false_iff (orientation : Orientation) (ip : IPNet) (x : ContivRule) :
    anchoredOn orientation ip x = false ↔
      (anchor orientation x).IP.length = 0 ∨
        maskSize (anchor orientation x).Mask ≠ maskBits (anchor orientation x).Mask ∨
        ipEqual (anchor orientation x).IP ip.IP = false := by
  unfold anchoredOn anchor
  simp only
  by_cases h1 : (if orientation = Orientation.EgressOrientation then x.SrcNetwork
      else x.DestNetwork).IP.length = 0
  · simp [h1]
  · by_cases h2 : maskSize (if orientation = Orientation.EgressOrientation then x.SrcNetwork
        else x.DestNetwork).Mask ≠ maskBits (if orientation = Orientation.EgressOrientation
        then x.SrcNetwork else x.DestNetwork).Mask ∨
        ipEqual (if orientation = Orientation.EgressOrientation then x.SrcNetwork
          else x.DestNetwork).IP ip.IP = false
    · rw [if_neg h1, if_pos h2]
      simp only [true_iff]
      exact Or.inr h2
    · rw [if_neg h1, if_neg h2]
      simp only [Bool.true_eq_false, false_iff, not_or]
      exact ⟨h1, fun h => h2 (Or.inl h), fun h => h2 (Or.inr h)⟩

theorem restricts_iff (deps : CacheDeps) (orientation : Orientation)
    (dstPodCfg srcPodCfg : PodConfig) :
    restricts deps orientation dstPodCfg srcPodCfg = true ↔
      (srcPorts deps orientation dstPodCfg srcPodCfg).2.2 = false ∧
        ((dstPorts deps orientation dstPodCfg srcPodCfg).2.2 = true ∨
          deps.IsSubsetOf (dstPorts deps orientation dstPodCfg srcPodCfg).1
            (srcPorts deps orientation dstPodCfg srcPodCfg).1 = false ∨
          deps.IsSubsetOf (dstPorts deps orientation dstPodCfg srcPodCfg).2.1
            (srcPorts deps orientation dstPodCfg srcPodCfg).2.1 = false) := by
  unfold restricts
  simp only [Bool.and_eq_true, Bool.or_eq_true, Bool.not_eq_true', or_assoc]

theorem installLocalRules_unchanged (deps : CacheDeps) (orientation : Orientation)
    (table : ContivRuleTable) (dstPodCfg srcPodCfg : PodConfig)
    (h : restricts deps orientation dstPodCfg srcPodCfg = false) :
    installLocalRules deps orientation table dstPodCfg srcPodCfg = some table := by
  rw [installLocalRules_eq, h]
  rfl

/-! ## Claims C31 to C33 and C38: the rules of a match, the memo, the rule fields -/

/-- C31, as amended: let a match of the requested direction `d` name pods or IP
blocks (its pod list or its IP-block list is not nil) and list at most one IP
block.  Let `X` be its resolved peer subnets followed by its IP-block subnets (the
network of the block minus its exceptions) and `Q` its ports.  The loop body
returns, and the rules afterwards are the rules before and the rules of the
match: for an empty `Q` one Permit rule per `x` in `X` with protocol ANY and both
ports 0; otherwise one Permit rule per `x` in `X` and `q` in `Q` with protocol TCP
if the protocol of `q` is TCP and UDP otherwise, destination port `q.Number` and
source port 0.  The network `x` is the source network for `MatchIngress` and the
destination network for `MatchEgress`, and the other network is empty. -/
theorem C31_match_rules (env : Env) (hE : ∀ a b, env.Compare a b = 0 → a = b) (d : MatchType)
    (st : GenState) (m : Match) (subs : List IPNet) (hm : m.Typ = d)
    (hn : ¬ (m.Pods = none ∧ m.IPBlocks = none))
    (hsubs : (m.IPBlocks.getD [] = [] ∧ subs = []) ∨
      ∃ block, m.IPBlocks.getD [] = [block] ∧
        subtractExcepts [block.Network] block.Except = some subs)
    (hsame : st.rules.SameRules) :
    ∃ st1, processMatch env d st m = some st1 ∧
      ∀ r, r ∈ st1.rules.rules ↔ r ∈ st.rules.rules ∨
        ∃ x ∈ (collectPeers env (m.Pods.getD [])).map PeerPod.IPNet ++ subs,
          (m.Ports = [] ∧
            r = { Action := renderer.ActionType.ActionPermit,
                  Protocol := renderer.ProtocolType.ANY,
                  SrcNetwork := if d = MatchType.MatchIngress then x else emptyNet,
                  DestNetwork := if d = MatchType.MatchIngress then emptyNet else x,
                  SrcPort := 0, DestPort := 0 }) ∨
          ∃ q ∈ m.Ports,
            r = { Action := renderer.ActionType.ActionPermit,
                  Protocol := if q.Protocol = ProtocolType.TCP then renderer.ProtocolType.TCP
                    else renderer.ProtocolType.UDP,
                  SrcNetwork := if d = MatchType.MatchIngress then x else emptyNet,
                  DestNetwork := if d = MatchType.MatchIngress then emptyNet else x,
                  SrcPort := 0, DestPort := q.Number } := by
  obtain ⟨st1, h1, _, _, h2⟩ := processMatch_named env hE d st m subs hm hn
    (collectSubnets_of_one _ subs hsubs) hsame
  exact ⟨st1, h1, h2⟩

theorem C31_witness :
    processMatch testEnv MatchType.MatchIngress emptyGen (blockMatch [podB, podC]) =
      some { rules :=
               { rules := [ruleAnyFor MatchType.MatchIngress (cidr4 10 0 0 2 32),
                           ruleAnyFor MatchType.MatchIngress (cidr4 10 0 0 0 8)],
                 orderedRules := [ruleAnyFor MatchType.MatchIngress (cidr4 10 0 0 0 8),
                                  ruleAnyFor MatchType.MatchIngress (cidr4 10 0 0 2 32)] },
             hasPolicy := false, allAllowed := false } ∧
    ∃ st1, processMatch testEnv MatchType.MatchIngress emptyGen (blockMatch [podB, podC]) =
        some st1 ∧
      ∀ r, r ∈ st1.rules.rules ↔ r ∈ emptyGen.rules.rules ∨
        ∃ x ∈ (collectPeers testEnv ((blockMatch [podB, podC]).Pods.getD [])).map PeerPod.IPNet ++
            [cidr4 10 0 0 0 8],
          ((blockMatch [podB, podC]).Ports = [] ∧
            r = { Action := renderer.ActionType.ActionPermit,
                  Protocol := renderer.ProtocolType.ANY,
                  SrcNetwork :=
                    if MatchType.MatchIngress = MatchType.MatchIngress then x else emptyNet,
                  DestNetwork :=
                    if MatchType.MatchIngress = MatchType.MatchIngress then emptyNet else x,
                  SrcPort := 0, DestPort := 0 }) ∨
          ∃ q ∈ (blockMatch [podB, podC]).Ports,
            r = { Action := renderer.ActionType.ActionPermit,
                  Protocol := if q.Protocol = ProtocolType.TCP then renderer.ProtocolType.TCP
                    else renderer.ProtocolType.UDP,
                  SrcNetwork :=
                    if MatchType.MatchIngress = MatchType.MatchIngress then x else emptyNet,
                  DestNetwork :=
                    if MatchType.MatchIngress = MatchType.MatchIngress then emptyNet else x,
                  SrcPort := 0, DestPort := q.Number } :=
  ⟨by decide,
    C31_match_rules testEnv (fun a b => (lawful_ruleCompare.eq_iff a b).mp)
      MatchType.MatchIngress emptyGen (blockMatch [podB, podC]) [cidr4 10 0 0 0 8] rfl
      (by decide) (Or.inr ⟨{ Network := cidr4 10 0 0 0 8, Except := [] }, rfl, rfl⟩)
      sameRules_empty⟩

/-- C31, the claim as stated fails: the ingress match that names neither pods nor
IP blocks nor ports has no peer subnet and no IP-block subnet, and it contributes
the Permit rule for all traffic.  (For the match with the two IP blocks 10.0.0.0/8
and 192.168.0.0/16 the loop body inserts the rule of the second block only: both
pointers of `allSubnets` point to the variable of the `range` statement.) -/
theorem C31_counterexample :
    collectPeers testEnv (anyMatch.Pods.getD []) = [] ∧
    collectSubnets (anyMatch.IPBlocks.getD []) = some [] ∧
    processMatch testEnv MatchType.MatchIngress emptyGen anyMatch =
      some { rules := { rules := [ruleAllowAll], orderedRules := [ruleAllowAll] },
             hasPolicy := false, allAllowed := true } ∧
    ruleAllowAll.Action = renderer.ActionType.ActionPermit ∧
    processMatch testEnv MatchType.MatchIngress emptyGen twoBlockMatch =
      some { rules :=
               { rules := [ruleAnyFor MatchType.MatchIngress (cidr4 192 168 0 0 16)],
                 orderedRules := [ruleAnyFor MatchType.MatchIngress (cidr4 192 168 0 0 16)] },
             hasPolicy := false, allAllowed := false } ∧
    ¬ ∀ (m : Match) (subs : List IPNet) (st1 : GenState), m.Typ = MatchType.MatchIngress →
      ((m.IPBlocks.getD [] = [] ∧ subs = []) ∨
        ∃ block, m.IPBlocks.getD [] = [block] ∧
          subtractExcepts [block.Network] block.Except = some subs) →
      processMatch testEnv MatchType.MatchIngress emptyGen m = some st1 →
      ∀ r, r ∈ st1.rules.rules ↔
        ∃ x ∈ (collectPeers testEnv (m.Pods.getD [])).map PeerPod.IPNet ++ subs,
          (m.Ports = [] ∧ r = ruleAnyFor MatchType.MatchIngress x) ∨
          ∃ q ∈ m.Ports, r = rulePortFor MatchType.MatchIngress x q := by
  refine ⟨by decide, by decide, by decide, rfl, by decide, fun h => ?_⟩
  obtain ⟨x, hx, _⟩ := (h anyMatch []
    { rules := { rules := [ruleAllowAll], orderedRules := [ruleAllowAll] },
      hasPolicy := false, allAllowed := true } rfl (Or.inl ⟨rfl, rfl⟩) (by decide)
      ruleAllowAll).mp (List.mem_singleton.mpr rfl)
  have hnil : (collectPeers testEnv (anyMatch.Pods.getD [])).map PeerPod.IPNet ++ [] = [] := by
    decide
  rw [hnil] at hx
  exact absurd hx (List.not_mem_nil _)

/-- C32, as amended: a match whose pod list is not nil and holds no pod that
resolves to an IP (the pod is unknown to the policy cache, or its IP is empty or
invalid) contributes no rule for its pods: the loop body returns for it what it
returns for the same match with an empty pod list, and it does not set
`allAllowed`.  For a match of the requested direction this is the state it was
given when the match lists no IP block, and the state with the rules of the
subnets of the block inserted (the network of the block minus its exceptions)
when it lists one IP block.  A pod that does not resolve makes no difference to
the outcome: the loop body returns the same for the match with and without
it. -/
theorem C32_unresolved_peers (env : Env) (d : MatchType) (st : GenState) (m : Match) :
    (∀ l, m.Pods = some l → (∀ p ∈ l, resolvePeer env p = none) →
      processMatch env d st m = processMatch env d st { m with Pods := some [] } ∧
      (∀ st1, processMatch env d st m = some st1 →
        st1.allAllowed = st.allAllowed ∧ st1.hasPolicy = st.hasPolicy) ∧
      (m.Typ = d → m.IPBlocks.getD [] = [] → processMatch env d st m = some st) ∧
      (∀ block subs, m.Typ = d → m.IPBlocks.getD [] = [block] →
        subtractExcepts [block.Network] block.Except = some subs →
        processMatch env d st m =
          some { st with rules := subs.foldl (insertNetwork env d m.Ports) st.rules })) ∧
    (∀ l1 l2 p, resolvePeer env p = none →
      processMatch env d st { m with Pods := some (l1 ++ p :: l2) } =
        processMatch env d st { m with Pods := some (l1 ++ l2) }) := by
  refine ⟨fun l hp hnone => ⟨?_, fun st1 h => ?_, fun hm hb => ?_, fun block subs hm hb hs => ?_⟩,
    fun l1 l2 p hp => ?_⟩
  · have hm : m = { m with Pods := some l } := by rw [← hp]
    rw [hm]
    exact processMatch_pods env d st m l [] (collectPeers_none env l hnone)
  · exact processMatch_flags env d st st1 m (by rw [hp]; simp) h
  · exact processMatch_unresolved env d st m l [] hm hp hnone
      (collectSubnets_of_one _ [] (Or.inl ⟨hb, rfl⟩))
  · exact processMatch_unresolved env d st m l subs hm hp hnone
      (collectSubnets_of_one _ subs (Or.inr ⟨block, hb, hs⟩))
  · exact processMatch_pods env d st m _ _ (collectPeers_skip env l1 l2 p hp)

theorem C32_witness :
    (processMatch testEnv MatchType.MatchIngress emptyGen (portsMatch [podC]) =
        processMatch testEnv MatchType.MatchIngress emptyGen
          { portsMatch [podC] with Pods := some [] } ∧
      (∀ st1, processMatch testEnv MatchType.MatchIngress emptyGen (portsMatch [podC]) =
          some st1 →
        st1.allAllowed = emptyGen.allAllowed ∧ st1.hasPolicy = emptyGen.hasPolicy) ∧
      (MatchType.MatchIngress = MatchType.MatchIngress →
        (portsMatch [podC]).IPBlocks.getD [] = [] →
        processMatch testEnv MatchType.MatchIngress emptyGen (portsMatch [podC]) =
          some emptyGen) ∧
      (∀ block subs, MatchType.MatchIngress = MatchType.MatchIngress →
        (portsMatch [podC]).IPBlocks.getD [] = [block] →
        subtractExcepts [block.Network] block.Except = some subs →
        processMatch testEnv MatchType.MatchIngress emptyGen (portsMatch [podC]) =
          some { emptyGen with
            rules := subs.foldl
              (insertNetwork testEnv MatchType.MatchIngress (portsMatch [podC]).Ports)
              emptyGen.rules })) ∧
    processMatch testEnv MatchType.MatchIngress emptyGen (portsMatch [podC]) = some emptyGen ∧
    processMatch testEnv MatchType.MatchIngress emptyGen
        { portsMatch [podB] with Pods := some ([podB] ++ podC :: []) } =
      processMatch testEnv MatchType.MatchIngress emptyGen
        { portsMatch [podB] with Pods := some ([podB] ++ []) } :=
  ⟨(C32_unresolved_peers testEnv MatchType.MatchIngress emptyGen (portsMatch [podC])).1
      [podC] rfl (by decide),
    by decide,
    (C32_unresolved_peers testEnv MatchType.MatchIngress emptyGen (portsMatch [podB])).2
      [podB] [] podC (by decide)⟩

/-- C32, the claim as stated fails: the pod `podC` of the match does not resolve,
and the match contributes the Permit rule of its IP block 10.0.0.0/8. -/
theorem C32_counterexample :
    resolvePeer testEnv podC = none ∧
    processMatch testEnv MatchType.MatchIngress emptyGen (blockMatch [podC]) =
      some { rules :=
               { rules := [ruleAnyFor MatchType.MatchIngress (cidr4 10 0 0 0 8)],
                 orderedRules := [ruleAnyFor MatchType.MatchIngress (cidr4 10 0 0 0 8)] },
             hasPolicy := false, allAllowed := false } ∧
    (ruleAnyFor MatchType.MatchIngress (cidr4 10 0 0 0 8)).Action =
      renderer.ActionType.ActionPermit ∧
    ¬ ∀ (m : Match) (l : List PodID) (st1 : GenState), m.Typ = MatchType.MatchIngress →
      m.Pods = some l → (∀ p ∈ l, resolvePeer testEnv p = none) →
      processMatch testEnv MatchType.MatchIngress emptyGen m = some st1 →
      ∀ r ∈ st1.rules.rules, r.Action = renderer.ActionType.ActionPermit →
        r ∈ emptyGen.rules.rules := by
  refine ⟨by decide, by decide, rfl, fun h => ?_⟩
  have := h (blockMatch [podC]) [podC]
    { rules :=
        { rules := [ruleAnyFor MatchType.MatchIngress (cidr4 10 0 0 0 8)],
          orderedRules := [ruleAnyFor MatchType.MatchIngress (cidr4 10 0 0 0 8)] },
      hasPolicy := false, allAllowed := false } rfl rfl (by decide) (by decide)
    (ruleAnyFor MatchType.MatchIngress (cidr4 10 0 0 0 8)) (List.mem_singleton.mpr rfl) rfl
  exact absurd this (List.not_mem_nil _)

/-- C33: let the policy sort be a sort and the exceptions of the IP blocks be
well-sized (so that `generateRules` returns), and let the pods of the transaction
be the keys of a map.  `Commit` issues its `Render` calls, and any two calls for
pods that are not removed and whose sorted policy lists `Equals` takes for one
another (same length, pairwise equal policy IDs) carry the same ingress and the
same egress rule lists, whatever the types and matches of the policies are. -/
theorem C33_memo_by_id (env : Env) (hsort : SortContract env.SortPolicies)
    (ips : PodID → Option IPNet) (entries : List (PodID × List ContivPolicy))
    (hs : ∀ e ∈ entries, ExceptsSized e.2) (hnodup : (entries.map Prod.fst).Nodup) :
    ∃ calls, commitCalls env ips entries = some calls ∧
      ∀ c1 ∈ calls, ∀ c2 ∈ calls, c1.removed = false → c2.removed = false →
        ∀ l1 l2, (c1.pod, l1) ∈ entries → (c2.pod, l2) ∈ entries →
          ContivPolicies.Equals (env.SortPolicies l1) (env.SortPolicies l2) = true →
          c1.ingress = c2.ingress ∧ c1.egress = c2.egress := by
  obtain ⟨calls, hc⟩ := commitCalls_isSome env hsort ips entries hs
  exact ⟨calls, hc, fun c1 h1 c2 h2 hr1 hr2 l1 l2 he1 he2 heq =>
    commitCalls_memo env ips entries hnodup calls hc c1 c2 h1 h2 hr1 hr2 l1 l2 he1 he2 heq⟩

theorem C33_witness :
    ingressPolicy ≠ sameIDPolicy ∧
    generateRules testEnv MatchType.MatchIngress (sortPolicies [ingressPolicy]) ≠
      generateRules testEnv MatchType.MatchIngress (sortPolicies [sameIDPolicy]) ∧
    ContivPolicies.Equals (sortPolicies [ingressPolicy]) (sortPolicies [sameIDPolicy]) = true ∧
    (commitCalls testEnv (fun _ => none) [(podA, [ingressPolicy]), (podB, [sameIDPolicy])]).map
        (fun calls => calls.map (fun c => (c.pod, c.removed, c.egress.length))) =
      some [(podA, false, 3), (podB, false, 3)] ∧
    ∃ calls, commitCalls testEnv (fun _ => none)
        [(podA, [ingressPolicy]), (podB, [sameIDPolicy])] = some calls ∧
      ∀ c1 ∈ calls, ∀ c2 ∈ calls, c1.removed = false → c2.removed = false →
        ∀ l1 l2, (c1.pod, l1) ∈ [(podA, [ingressPolicy]), (podB, [sameIDPolicy])] →
          (c2.pod, l2) ∈ [(podA, [ingressPolicy]), (podB, [sameIDPolicy])] →
          ContivPolicies.Equals (testEnv.SortPolicies l1) (testEnv.SortPolicies l2) = true →
          c1.ingress = c2.ingress ∧ c1.egress = c2.egress :=
  ⟨by decide, by decide, by decide, by decide,
    C33_memo_by_id testEnv sortContract_sortPolicies (fun _ => none)
      [(podA, [ingressPolicy]), (podB, [sameIDPolicy])] (by decide) (by decide)⟩

/-- C38: when the exceptions of the IP blocks are well-sized, `generateRules`
returns, and every rule of the lists it returns has source port 0 and an empty
network on the side that is not the side of the peers: an empty destination
network for direction `MatchIngress`, an empty source network for direction
`MatchEgress`. -/
theorem C38_rule_fields (env : Env) (d : MatchType) (ps : List ContivPolicy)
    (hS : ExceptsSized ps) :
    ∃ cr, generateRules env d ps = some cr ∧
      ∀ r, r ∈ cr.rules ∨ r ∈ cr.orderedRules →
        r.SrcPort = 0 ∧ (d = MatchType.MatchIngress → r.DestNetwork = emptyNet) ∧
          (d = MatchType.MatchEgress → r.SrcNetwork = emptyNet) := by
  obtain ⟨cr, hcr⟩ := generateRules_isSome env d ps hS
  exact ⟨cr, hcr, fun r hr => generateRules_fields env d ps cr hcr r hr⟩

theorem C38_witness :
    ExceptsSized [ingressPolicy] ∧
    ∃ cr, generateRules testEnv MatchType.MatchIngress [ingressPolicy] = some cr ∧
      ∀ r, r ∈ cr.rules ∨ r ∈ cr.orderedRules →
        r.SrcPort = 0 ∧
          (MatchType.MatchIngress = MatchType.MatchIngress → r.DestNetwork = emptyNet) ∧
          (MatchType.MatchIngress = MatchType.MatchEgress → r.SrcNetwork = emptyNet) :=
  ⟨by decide, C38_rule_fields testEnv MatchType.MatchIngress [ingressPolicy] (by decide)⟩

/-! ## Claims C34 to C37, C39 and C40: the rules of the local and global tables -/

/-- C34, as amended: let the rule comparison take only equal rules for equal.  If
the table that `buildLocalTable` returns for a pod has at least one rule, then it
holds the allow-all rule (Permit, protocol ANY, empty networks, ports 0) or
another rule that matches all traffic (protocol ANY, destination port 0, empty
source and destination networks), such as the deny-all rule of a policy. -/
theorem C34_match_all_rule (deps : CacheDeps) (hE : ∀ a b, deps.Compare a b = 0 → a = b)
    (rc : RendererCache) (rct : RendererCacheTxn) (dstPodID : PodID) (dstPodCfg : PodConfig)
    (t : ContivRuleTable) (h : buildLocalTable deps rc rct dstPodID dstPodCfg = some t)
    (hne : t.Rules ≠ []) :
    { Action := renderer.ActionType.ActionPermit, Protocol := renderer.ProtocolType.ANY,
      SrcNetwork := emptyNet, DestNetwork := emptyNet, SrcPort := 0, DestPort := 0 } ∈ t.Rules ∨
    ∃ r ∈ t.Rules, r ≠ allowAll ∧ r.Protocol = renderer.ProtocolType.ANY ∧ r.DestPort = 0 ∧
      r.SrcNetwork.IP.length = 0 ∧ r.DestNetwork.IP.length = 0 := by
  obtain ⟨r, h1, h2⟩ := buildLocalTable_matchAll deps hE rc rct dstPodID dstPodCfg t h hne
  by_cases he : r = allowAll
  · left
    rw [he] at h1
    exact h1
  · exact Or.inr ⟨r, h1, he, (matchesAll_iff r).mp h2⟩

theorem C34_witness :
    buildLocalTable testDeps testCache
        (testCache.NewTxn.Update podA
          { noPolicyConfig with Egress := [permitTCPFrom (cidr4 10 0 0 2 32) 80] }) podA
        { noPolicyConfig with Egress := [permitTCPFrom (cidr4 10 0 0 2 32) 80] } =
      some { Typ := TableType.Local, Rules := [allowAll, permitTCPFrom (cidr4 10 0 0 2 32) 80],
             Pods := [podA], Private := none } ∧
    (({ Action := renderer.ActionType.ActionPermit, Protocol := renderer.ProtocolType.ANY,
        SrcNetwork := emptyNet, DestNetwork := emptyNet, SrcPort := 0, DestPort := 0 } :
          ContivRule) ∈ (sharedDenyTable [podA]).Rules ∨
      ∃ r ∈ (sharedDenyTable [podA]).Rules, r ≠ allowAll ∧
        r.Protocol = renderer.ProtocolType.ANY ∧ r.DestPort = 0 ∧
        r.SrcNetwork.IP.length = 0 ∧ r.DestNetwork.IP.length = 0) :=
  ⟨by decide,
    C34_match_all_rule testDeps (fun a b => (lawful_ruleCompare.eq_iff a b).mp) testCache
      (testCache.NewTxn.Update podA (denyEgressConfig false)) podA (denyEgressConfig false)
      (sharedDenyTable [podA]) (by decide) (by decide)⟩

/-- C34, the claim as stated fails: `podA` is not removed and its egress rules are
the deny-all rule of a policy (egress orientation).  The table built for it holds
this one rule, and not the allow-all rule. -/
theorem C34_counterexample :
    (denyEgressConfig false).Removed = false ∧
    buildLocalTable testDeps testCache (testCache.NewTxn.Update podA (denyEgressConfig false))
        podA (denyEgressConfig false) =
      some { Typ := TableType.Local, Rules := [ruleNone], Pods := [podA], Private := none } ∧
    ¬ ∀ t, buildLocalTable testDeps testCache
        (testCache.NewTxn.Update podA (denyEgressConfig false)) podA (denyEgressConfig false) =
          some t → t.Rules ≠ [] → allowAll ∈ t.Rules := by
  refine ⟨rfl, by decide, fun h => ?_⟩
  have := h { Typ := TableType.Local, Rules := [ruleNone], Pods := [podA], Private := none }
    (by decide) (by decide)
  exact absurd this (by decide)

/-- C35: `installLocalRules` returns the table it was given when the source pod
allows any traffic to the destination pod, and also when the destination pod does
not allow any traffic and its TCP ports and its UDP ports are subsets of those of
the source pod.  It returns another table, or fails, only if the source pod does
not allow any traffic and the destination pod allows any traffic or a TCP or a UDP
port that the source pod does not allow; in this case, for a source pod with a
pod IP, it returns the table without the rules anchored on the source pod IP and
with the rules of the restriction inserted. -/
theorem C35_restrict_condition (deps : CacheDeps) (orientation : Orientation)
    (table : ContivRuleTable) (dstPodCfg srcPodCfg : PodConfig) :
    ((srcPorts deps orientation dstPodCfg srcPodCfg).2.2 = true →
      installLocalRules deps orientation table dstPodCfg srcPodCfg = some table) ∧
    ((dstPorts deps orientation dstPodCfg srcPodCfg).2.2 = false →
      deps.IsSubsetOf (dstPorts deps orientation dstPodCfg srcPodCfg).1
        (srcPorts deps orientation dstPodCfg srcPodCfg).1 = true →
      deps.IsSubsetOf (dstPorts deps orientation dstPodCfg srcPodCfg).2.1
        (srcPorts deps orientation dstPodCfg srcPodCfg).2.1 = true →
      installLocalRules deps orientation table dstPodCfg srcPodCfg = some table) ∧
    (installLocalRules deps orientation table dstPodCfg srcPodCfg ≠ some table →
      (srcPorts deps orientation dstPodCfg srcPodCfg).2.2 = false ∧
        ((dstPorts deps orientation dstPodCfg srcPodCfg).2.2 = true ∨
          deps.IsSubsetOf (dstPorts deps orientation dstPodCfg srcPodCfg).1
            (srcPorts deps orientation dstPodCfg srcPodCfg).1 = false ∨
          deps.IsSubsetOf (dstPorts deps orientation dstPodCfg srcPodCfg).2.1
            (srcPorts deps orientation dstPodCfg srcPodCfg).2.1 = false)) ∧
    (∀ ip, srcPodCfg.PodIP = some ip →
      (srcPorts deps orientation dstPodCfg srcPodCfg).2.2 = false →
      ((dstPorts deps orientation dstPodCfg srcPodCfg).2.2 = true ∨
        deps.IsSubsetOf (dstPorts deps orientation dstPodCfg srcPodCfg).1
          (srcPorts deps orientation dstPodCfg srcPodCfg).1 = false ∨
        deps.IsSubsetOf (dstPorts deps orientation dstPodCfg srcPodCfg).2.1
          (srcPorts deps orientation dstPodCfg srcPodCfg).2.1 = false) →
      installLocalRules deps orientation table dstPodCfg srcPodCfg =
        some (insertRules deps.Compare (table.RemoveByPredicate (anchoredOn orientation ip))
          (restrictRules deps orientation dstPodCfg srcPodCfg ip))) := by
  have hno : restricts deps orientation dstPodCfg srcPodCfg = false →
      installLocalRules deps orientation table dstPodCfg srcPodCfg = some table :=
    installLocalRules_unchanged deps orientation table dstPodCfg srcPodCfg
  refine ⟨fun h => hno ?_, fun h1 h2 h3 => hno ?_, fun h => ?_, fun ip hp h1 h2 => ?_⟩
  · unfold restricts
    rw [h]
    rfl
  · unfold restricts
    rw [h1, h2, h3]
    simp
  · apply (restricts_iff deps orientation dstPodCfg srcPodCfg).mp
    cases hr : restricts deps orientation dstPodCfg srcPodCfg with
    | true => rfl
    | false => exact absurd (hno hr) h
  · rw [installLocalRules_eq, (restricts_iff deps orientation dstPodCfg srcPodCfg).mpr ⟨h1, h2⟩,
      hp]
    rfl

theorem C35_witness :
    installLocalRules testDeps Orientation.EgressOrientation
        (sharedDenyTable [podB]) (allowsFrom [80]) (allowsTo [80, 443]) =
      some (sharedDenyTable [podB]) ∧
    installLocalRules testDeps Orientation.EgressOrientation
        (sharedDenyTable [podB]) (allowsFrom [80, 443]) (allowsTo [80]) =
      some (insertRules testDeps.Compare
        ((sharedDenyTable [podB]).RemoveByPredicate
          (anchoredOn Orientation.EgressOrientation (cidr4 10 0 0 1 32)))
        (restrictRules testDeps Orientation.EgressOrientation (allowsFrom [80, 443])
          (allowsTo [80]) (cidr4 10 0 0 1 32))) :=
  ⟨(C35_restrict_condition testDeps Orientation.EgressOrientation (sharedDenyTable [podB])
      (allowsFrom [80]) (allowsTo [80, 443])).2.1 (by decide) (by decide) (by decide),
    (C35_restrict_condition testDeps Orientation.EgressOrientation (sharedDenyTable [podB])
      (allowsFrom [80, 443]) (allowsTo [80])).2.2.2 (cidr4 10 0 0 1 32) rfl (by decide)
      (by decide)⟩

/-- C36: let the rule comparison take only equal rules for equal, and let the
source pod `S` have a pod IP that passes the one-host test of the removal.  When
`installLocalRules` restricts the pair, it returns a table whose rules anchored on
the IP of `S` (by the test of the removal, and likewise by equality of the anchor
field with the pod IP) are exactly the rules of the restriction, which are: for
TCP and for UDP, the Permit rule of the protocol with both ports any if `AnyPort`
is in the intersection of the ports of the two pods, and otherwise one Permit rule
of the protocol per port of the intersection with this destination port; and the
Deny rule with protocol ANY and both ports any.  A rule of the table before that
is anchored on the IP of `S` and is none of these is not in the table
afterwards. -/
theorem C36_restricted_rules (deps : CacheDeps) (hE : ∀ a b, deps.Compare a b = 0 → a = b)
    (orientation : Orientation) (table : ContivRuleTable) (dstPodCfg srcPodCfg : PodConfig)
    (ip : IPNet) (hp : srcPodCfg.PodIP = some ip) (hip : ip.OneHost)
    (hr : restricts deps orientation dstPodCfg srcPodCfg = true) :
    ∃ t, installLocalRules deps orientation table dstPodCfg srcPodCfg = some t ∧
      (∀ x, (x ∈ t.Rules ∧ anchoredOn orientation ip x = true) ↔
        x ∈ restrictRules deps orientation dstPodCfg srcPodCfg ip) ∧
      (∀ x ∈ table.Rules, anchoredOn orientation ip x = true →
        x ∉ restrictRules deps orientation dstPodCfg srcPodCfg ip → x ∉ t.Rules) ∧
      (∀ x, (x ∈ t.Rules ∧ anchor orientation x = ip) ↔
        x ∈ restrictRules deps orientation dstPodCfg srcPodCfg ip) ∧
      (∀ x, x ∈ restrictRules deps orientation dstPodCfg srcPodCfg ip ↔
        ((deps.HasExplicit (deps.Intersection (dstPorts deps orientation dstPodCfg srcPodCfg).1
              (srcPorts deps orientation dstPodCfg srcPodCfg).1) AnyPort = true ∧
            x = portTemplate orientation ip renderer.ProtocolType.TCP) ∨
          (deps.HasExplicit (deps.Intersection (dstPorts deps orientation dstPodCfg srcPodCfg).1
              (srcPorts deps orientation dstPodCfg srcPodCfg).1) AnyPort = false ∧
            ∃ port ∈ deps.Intersection (dstPorts deps orientation dstPodCfg srcPodCfg).1
                (srcPorts deps orientation dstPodCfg srcPodCfg).1,
              x = { portTemplate orientation ip renderer.ProtocolType.TCP with
                    DestPort := port })) ∨
        ((deps.HasExplicit (deps.Intersection (dstPorts deps orientation dstPodCfg srcPodCfg).2.1
              (srcPorts deps orientation dstPodCfg srcPodCfg).2.1) AnyPort = true ∧
            x = portTemplate orientation ip renderer.ProtocolType.UDP) ∨
          (deps.HasExplicit (deps.Intersection (dstPorts deps orientation dstPodCfg srcPodCfg).2.1
              (srcPorts deps orientation dstPodCfg srcPodCfg).2.1) AnyPort = false ∧
            ∃ port ∈ deps.Intersection (dstPorts deps orientation dstPodCfg srcPodCfg).2.1
                (srcPorts deps orientation dstPodCfg srcPodCfg).2.1,
              x = { portTemplate orientation ip renderer.ProtocolType.UDP with
                    DestPort := port })) ∨
        x = { Action := renderer.ActionType.ActionDeny, Protocol := renderer.ProtocolType.ANY,
              SrcNetwork := if orientation = Orientation.EgressOrientation then ip else emptyNet,
              DestNetwork := if orientation = Orientation.EgressOrientation then emptyNet else ip,
              SrcPort := AnyPort, DestPort := AnyPort }) ∧
      (∀ protocol,
        portTemplate orientation ip protocol =
          { Action := renderer.ActionType.ActionPermit, Protocol := protocol,
            SrcNetwork := if orientation = Orientation.EgressOrientation then ip else emptyNet,
            DestNetwork := if orientation = Orientation.EgressOrientation then emptyNet else ip,
            SrcPort := AnyPort, DestPort := AnyPort }) := by
  obtain ⟨t, h1, h2⟩ := installLocalRules_anchored deps hE orientation table dstPodCfg srcPodCfg
    ip hp hip hr
  refine ⟨t, h1, h2, fun x _ ha hn hx => hn ((h2 x).mp ⟨hx, ha⟩), fun x => ?_, fun x => ?_,
    fun protocol => rfl⟩
  · constructor
    · rintro ⟨h3, h4⟩
      exact (h2 x).mp ⟨h3, anchoredOn_of_anchor orientation ip x hip h4⟩
    · intro h3
      exact ⟨((h2 x).mpr h3).1, restrictRules_anchor deps orientation dstPodCfg srcPodCfg ip x h3⟩
  · unfold restrictRules
    rw [List.mem_append, List.mem_append, mem_allowedPortRules, mem_allowedPortRules,
      List.mem_singleton, or_assoc]
    exact Iff.rfl

theorem C36_witness :
    (cidr4 10 0 0 1 32).OneHost ∧
    restricts testDeps Orientation.EgressOrientation (allowsFrom [80, 443]) (allowsTo [80]) =
      true ∧
    installLocalRules testDeps Orientation.EgressOrientation
        { Typ := TableType.Local,
          Rules := [permitTCPFrom (cidr4 10 0 0 1 32) 80,
                    permitTCPFrom (cidr4 10 0 0 1 32) 443, ruleNone],
          Pods := [podB], Private := none }
        (allowsFrom [80, 443]) (allowsTo [80]) =
      some { Typ := TableType.Local,
             Rules := [permitTCPFrom (cidr4 10 0 0 1 32) 80, ruleNone,
               denyRest Orientation.EgressOrientation (cidr4 10 0 0 1 32)],
             Pods := [podB], Private := none } ∧
    ∃ t, installLocalRules testDeps Orientation.EgressOrientation
        { Typ := TableType.Local,
          Rules := [permitTCPFrom (cidr4 10 0 0 1 32) 80,
                    permitTCPFrom (cidr4 10 0 0 1 32) 443, ruleNone],
          Pods := [podB], Private := none }
        (allowsFrom [80, 443]) (allowsTo [80]) = some t ∧
      ∀ x ∈ [permitTCPFrom (cidr4 10 0 0 1 32) 80, permitTCPFrom (cidr4 10 0 0 1 32) 443,
          ruleNone],
        anchoredOn Orientation.EgressOrientation (cidr4 10 0 0 1 32) x = true →
        x ∉ restrictRules testDeps Orientation.EgressOrientation (allowsFrom [80, 443])
          (allowsTo [80]) (cidr4 10 0 0 1 32) → x ∉ t.Rules :=
  ⟨by decide, by decide, by decide,
    let ⟨t, h1, _, h3, _⟩ :=
      C36_restricted_rules testDeps (fun a b => (lawful_ruleCompare.eq_iff a b).mp)
        Orientation.EgressOrientation
        { Typ := TableType.Local,
          Rules := [permitTCPFrom (cidr4 10 0 0 1 32) 80,
                    permitTCPFrom (cidr4 10 0 0 1 32) 443, ruleNone],
          Pods := [podB], Private := none }
        (allowsFrom [80, 443]) (allowsTo [80]) (cidr4 10 0 0 1 32) rfl (by decide) (by decide)
    ⟨t, h1, h3⟩⟩

/-- C37: let the rule comparison take only equal rules for equal.  A table that
`rebuildGlobalTable` returns has exactly these rules: for every pod that the
transaction tracks (`GetAllPods`, the removed pods left out) and every rule of
its list of the opposite direction (`Ingress` in egress orientation, `Egress` in
ingress orientation), the rule with the pod IP as its source network (egress
orientation) or destination network (ingress orientation); and the allow-all
rule, if some tracked pod has a rule of the opposite direction.  The allow-all
rule is in the table if and only if some tracked pod has such a rule, and the
table has no rules if and only if no tracked pod has one.  `rebuildGlobalTable`
does return when every tracked pod with rules of the opposite direction has a pod
IP. -/
theorem C37_global_table (deps : CacheDeps) (hE : ∀ a b, deps.Compare a b = 0 → a = b)
    (rc : RendererCache) (rct : RendererCacheTxn) :
    (∀ g, rebuildGlobalTable deps rc rct = some g →
      (∀ x, x ∈ g.Rules ↔
        (∃ pod ∈ rct.GetAllPods rc, ∃ cfg ip rule,
          rct.GetPodConfig rc pod = some cfg ∧ cfg.PodIP = some ip ∧
          rule ∈ (if rc.orientation = Orientation.EgressOrientation then cfg.Ingress
            else cfg.Egress) ∧
          x = (if rc.orientation = Orientation.EgressOrientation then
              { rule with SrcNetwork := ip }
            else { rule with DestNetwork := ip })) ∨
        (x = allowAll ∧ ∃ pod ∈ rct.GetAllPods rc, ∃ cfg, rct.GetPodConfig rc pod = some cfg ∧
          (if rc.orientation = Orientation.EgressOrientation then cfg.Ingress
            else cfg.Egress) ≠ [])) ∧
      (allowAll ∈ g.Rules ↔ ∃ pod ∈ rct.GetAllPods rc, ∃ cfg,
        rct.GetPodConfig rc pod = some cfg ∧
        (if rc.orientation = Orientation.EgressOrientation then cfg.Ingress
          else cfg.Egress) ≠ []) ∧
      (g.Rules = [] ↔ ∀ pod ∈ rct.GetAllPods rc, ∀ cfg, rct.GetPodConfig rc pod = some cfg →
        (if rc.orientation = Orientation.EgressOrientation then cfg.Ingress
          else cfg.Egress) = [])) ∧
    ((∀ pod ∈ rct.GetAllPods rc, ∀ cfg, rct.GetPodConfig rc pod = some cfg →
        (if rc.orientation = Orientation.EgressOrientation then cfg.Ingress
          else cfg.Egress) ≠ [] → ∃ ip, cfg.PodIP = some ip) →
      ∃ g, rebuildGlobalTable deps rc rct = some g) := by
  refine ⟨fun g h1 => ?_, rebuildGlobalTable_returns deps rc rct⟩
  obtain ⟨h2, h3⟩ := rebuildGlobalTable_spec deps hE rc rct g h1
  refine ⟨h2, ⟨fun h => ?_, fun h => (h2 allowAll).mpr (Or.inr ⟨rfl, h⟩)⟩, h3⟩
  rcases (h2 allowAll).mp h with ⟨pod, hp, cfg, ip, rule, h4, _, h5, _⟩ | ⟨_, h4⟩
  · exact ⟨pod, hp, cfg, h4, List.ne_nil_of_mem h5⟩
  · exact h4

theorem C37_witness :
    rebuildGlobalTable testDeps testCache (pairTxn [80] [80, 443]) =
      some { Typ := TableType.Global,
             Rules := [allowAll,
                       { permitTCPTo (cidr4 10 0 0 2 32) 80 with
                         SrcNetwork := cidr4 10 0 0 1 32 },
                       { ruleNone with SrcNetwork := cidr4 10 0 0 1 32 }],
             Pods := [], Private := none } ∧
    rebuildGlobalTable testDeps testCache
        ((testCache.NewTxn.Update podA (allowsTo [80])).Update podB
          { PodIP := none, Ingress := [], Egress := [], Removed := false }) =
      some { Typ := TableType.Global,
             Rules := [allowAll,
                       { permitTCPTo (cidr4 10 0 0 2 32) 80 with
                         SrcNetwork := cidr4 10 0 0 1 32 },
                       { ruleNone with SrcNetwork := cidr4 10 0 0 1 32 }],
             Pods := [], Private := none } ∧
    (allowAll ∈ [allowAll,
        { permitTCPTo (cidr4 10 0 0 2 32) 80 with SrcNetwork := cidr4 10 0 0 1 32 },
        { ruleNone with SrcNetwork := cidr4 10 0 0 1 32 }] ↔
      ∃ pod ∈ ((testCache.NewTxn.Update podA (allowsTo [80])).Update podB
          { PodIP := none, Ingress := [], Egress := [], Removed := false }).GetAllPods testCache,
        ∃ cfg, ((testCache.NewTxn.Update podA (allowsTo [80])).Update podB
            { PodIP := none, Ingress := [], Egress := [], Removed := false }).GetPodConfig
              testCache pod = some cfg ∧
          (if testCache.orientation = Orientation.EgressOrientation then cfg.Ingress
            else cfg.Egress) ≠ []) :=
  ⟨by decide, by decide,
    ((C37_global_table testDeps (fun a b => (lawful_ruleCompare.eq_iff a b).mp) testCache
      ((testCache.NewTxn.Update podA (allowsTo [80])).Update podB
        { PodIP := none, Ingress := [], Egress := [], Removed := false })).1
      { Typ := TableType.Global,
        Rules := [allowAll,
                  { permitTCPTo (cidr4 10 0 0 2 32) 80 with
                    SrcNetwork := cidr4 10 0 0 1 32 },
                  { ruleNone with SrcNetwork := cidr4 10 0 0 1 32 }],
        Pods := [], Private := none } (by decide)).2.1⟩

/-- C39: let the source pod `S` have a pod IP that passes the one-host test of
the removal.  `installLocalRules` returns a table, and every rule whose anchor
field (source network in egress orientation, destination network in ingress
orientation) has no address, or a mask that is not the mask of a one-host subnet,
or an address other than the IP of `S`, is in the table afterwards if and only if
it was in the table before. -/
theorem C39_frame (deps : CacheDeps) (orientation : Orientation) (table : ContivRuleTable)
    (dstPodCfg srcPodCfg : PodConfig) (ip : IPNet) (hp : srcPodCfg.PodIP = some ip)
    (hip : ip.OneHost) :
    ∃ t, installLocalRules deps orientation table dstPodCfg srcPodCfg = some t ∧
      ∀ x,
        ((if orientation = Orientation.EgressOrientation then x.SrcNetwork
            else x.DestNetwork).IP.length = 0 ∨
          maskSize (if orientation = Orientation.EgressOrientation then x.SrcNetwork
            else x.DestNetwork).Mask ≠
            maskBits (if orientation = Orientation.EgressOrientation then x.SrcNetwork
              else x.DestNetwork).Mask ∨
          ipEqual (if orientation = Orientation.EgressOrientation then x.SrcNetwork
            else x.DestNetwork).IP ip.IP = false) →
        (x ∈ t.Rules ↔ x ∈ table.Rules) := by
  obtain ⟨t, ht⟩ := installLocalRules_isSome deps orientation table dstPodCfg srcPodCfg
    (by rw [hp]; rfl)
  refine ⟨t, ht, fun x hx => ?_⟩
  refine installLocalRules_frame deps orientation table t dstPodCfg srcPodCfg ?_ ht x ?_
  · intro ip2 h2
    rw [hp] at h2
    simp only [Option.some.injEq] at h2
    rw [← h2]
    exact hip
  · intro ip2 h2
    rw [hp] at h2
    simp only [Option.some.injEq] at h2
    rw [← h2]
    exact (anchoredOn_eq_false_iff orientation ip x).mpr hx

theorem C39_witness :
    ∃ t, installLocalRules testDeps Orientation.EgressOrientation
        { Typ := TableType.Local,
          Rules := [permitTCPFrom (cidr4 10 0 0 1 32) 80,
                    permitTCPFrom (cidr4 10 0 0 1 32) 443, ruleNone],
          Pods := [podB], Private := none }
        (allowsFrom [80, 443]) (allowsTo [80]) = some t ∧
      (ruleNone ∈ t.Rules ↔
        ruleNone ∈ [permitTCPFrom (cidr4 10 0 0 1 32) 80,
          permitTCPFrom (cidr4 10 0 0 1 32) 443, ruleNone]) ∧
      (permitTCPFrom (cidr4 10 0 0 3 32) 80 ∈ t.Rules ↔
        permitTCPFrom (cidr4 10 0 0 3 32) 80 ∈ [permitTCPFrom (cidr4 10 0 0 1 32) 80,
          permitTCPFrom (cidr4 10 0 0 1 32) 443, ruleNone]) :=
  let ⟨t, h1, h2⟩ :=
    C39_frame testDeps Orientation.EgressOrientation
      { Typ := TableType.Local,
        Rules := [permitTCPFrom (cidr4 10 0 0 1 32) 80,
                  permitTCPFrom (cidr4 10 0 0 1 32) 443, ruleNone],
        Pods := [podB], Private := none }
      (allowsFrom [80, 443]) (allowsTo [80]) (cidr4 10 0 0 1 32) rfl (by decide)
  ⟨t, h1, h2 ruleNone (by decide), h2 (permitTCPFrom (cidr4 10 0 0 3 32) 80) (by decide)⟩

/-- C40: let the rule comparison take only equal rules for equal.  Every table
that `buildLocalTable` returns with at least one rule holds a rule that matches
all traffic: a rule of whatever action with protocol ANY, destination port 0 and
empty source and destination networks.  For a pod that is not removed the table
is the table of the rules of the pod and of its restrictions as it is, when this
table holds such a rule or has no rules, and this table with the allow-all rule
inserted when it has rules and none of them matches all traffic.  For a removed
pod `buildLocalTable` returns a table without rules.  It returns a table whenever
every pod configuration in the view of the transaction has a pod IP. -/
theorem C40_match_all_invariant (deps : CacheDeps)
    (hE : ∀ a b, deps.Compare a b = 0 → a = b) (rc : RendererCache) (rct : RendererCacheTxn)
    (dstPodID : PodID) (dstPodCfg : PodConfig) :
    (∀ t, buildLocalTable deps rc rct dstPodID dstPodCfg = some t → t.Rules ≠ [] →
      ∃ r ∈ t.Rules, r.Protocol = renderer.ProtocolType.ANY ∧ r.DestPort = 0 ∧
        r.SrcNetwork.IP.length = 0 ∧ r.DestNetwork.IP.length = 0) ∧
    (dstPodCfg.Removed = false →
      ∀ t2, localRulesTable deps rc rct dstPodID dstPodCfg = some t2 →
        ((∃ r ∈ t2.Rules, r.Protocol = renderer.ProtocolType.ANY ∧ r.DestPort = 0 ∧
            r.SrcNetwork.IP.length = 0 ∧ r.DestNetwork.IP.length = 0) →
          buildLocalTable deps rc rct dstPodID dstPodCfg = some t2) ∧
        (t2.Rules = [] → buildLocalTable deps rc rct dstPodID dstPodCfg = some t2) ∧
        (t2.Rules ≠ [] →
          (¬ ∃ r ∈ t2.Rules, r.Protocol = renderer.ProtocolType.ANY ∧ r.DestPort = 0 ∧
            r.SrcNetwork.IP.length = 0 ∧ r.DestNetwork.IP.length = 0) →
          buildLocalTable deps rc rct dstPodID dstPodCfg =
              some (t2.InsertRule deps.Compare allowAll).1 ∧
            allowAll ∈ (t2.InsertRule deps.Compare allowAll).1.Rules)) ∧
    (dstPodCfg.Removed = true →
      ∃ t, buildLocalTable deps rc rct dstPodID dstPodCfg = some t ∧ t.Rules = []) ∧
    (PodIPsSet rc rct → ∃ t, buildLocalTable deps rc rct dstPodID dstPodCfg = some t) := by
  refine ⟨fun t h hne => ?_, fun hr t2 h2 => ?_,
    buildLocalTable_removed deps rc rct dstPodID dstPodCfg,
    fun hip => buildLocalTable_isSome deps rc rct hip dstPodID dstPodCfg⟩
  · obtain ⟨r, h1, h2⟩ := buildLocalTable_matchAll deps hE rc rct dstPodID dstPodCfg t h hne
    exact ⟨r, h1, (matchesAll_iff r).mp h2⟩
  · obtain ⟨h3, h4, h5⟩ := buildLocalTable_cases deps hE rc rct dstPodID dstPodCfg hr t2 h2
    refine ⟨fun ⟨r, hr1, hr2⟩ => h3 ⟨r, hr1, (matchesAll_iff r).mpr hr2⟩, h4, fun h6 h7 => ?_⟩
    exact h5 h6 (fun ⟨r, hr1, hr2⟩ => h7 ⟨r, hr1, (matchesAll_iff r).mp hr2⟩)

theorem C40_witness :
    buildLocalTable testDeps testCache (pairTxn [80] [80, 443]) podA (allowsTo [80]) =
      some { Typ := TableType.Local, Rules := [], Pods := [podA], Private := none } ∧
    (∃ r ∈ [permitTCPFrom (cidr4 10 0 0 1 32) 80, ruleNone,
        denyRest Orientation.EgressOrientation (cidr4 10 0 0 1 32)],
      r.Protocol = renderer.ProtocolType.ANY ∧ r.DestPort = 0 ∧
        r.SrcNetwork.IP.length = 0 ∧ r.DestNetwork.IP.length = 0) ∧
    (∃ t, buildLocalTable testDeps testCache (pairTxn [80] [80, 443]) podB
      (denyEgressConfig true) = some t ∧ t.Rules = []) :=
  ⟨by decide,
    (C40_match_all_invariant testDeps (fun a b => (lawful_ruleCompare.eq_iff a b).mp) testCache
      (pairTxn [80] [80, 443]) podB (allowsFrom [80, 443])).1
      { Typ := TableType.Local,
        Rules := [permitTCPFrom (cidr4 10 0 0 1 32) 80, ruleNone,
          denyRest Orientation.EgressOrientation (cidr4 10 0 0 1 32)],
        Pods := [podB], Private := none } (by decide) (by decide),
    (C40_match_all_invariant testDeps (fun a b => (lawful_ruleCompare.eq_iff a b).mp) testCache
      (pairTxn [80] [80, 443]) podB (denyEgressConfig true)).2.2.1 rfl⟩

/-! ## The `Render` call of a pod, whatever the memo holds -/

/-- The outcomes of one round of the pod loop: no call or a removal, a call with
the rule lists of a remembered policy set, or a call with newly generated rule
lists, which are remembered. -/
theorem commitPod_cases (env : Env) (st st1 : CommitState) (pod : PodID)
    (l : List ContivPolicy) (h : commitPod env st pod l = some st1) :
    (st1.processed = st.processed ∧
      ∃ cs, st1.calls = st.calls ++ cs ∧ ∀ c ∈ cs, c.pod = pod ∧ c.removed = true) ∨
    (∃ podData n ps, env.LookupPod pod = some podData ∧ podData.IpAddress ≠ "" ∧
      env.GetOneHostSubnet podData.IpAddress = some n ∧ ps ∈ st.processed ∧
      ContivPolicies.Equals ps.policies (env.SortPolicies l) = true ∧
      st1.processed = st.processed ∧
      st1.calls = st.calls ++ [{ pod := pod, podIPNet := some n, ingress := ps.ingress.rules,
                                 egress := ps.egress.rules, removed := false }]) ∨
    (∃ podData n i e, env.LookupPod pod = some podData ∧ podData.IpAddress ≠ "" ∧
      env.GetOneHostSubnet podData.IpAddress = some n ∧
      generateRules env MatchType.MatchEgress (env.SortPolicies l) = some i ∧
      generateRules env MatchType.MatchIngress (env.SortPolicies l) = some e ∧
      st1.processed = st.processed ++
        [{ policies := env.SortPolicies l, ingress := i, egress := e }] ∧
      st1.calls = st.calls ++ [{ pod := pod, podIPNet := some n, ingress := i.rules,
                                 egress := e.rules, removed := false }]) := by
  have hrem : (match st.podIPAddresses pod with
      | some podIPNet =>
        some { st with
          podIPAddresses := fun p => if p = pod then none else st.podIPAddresses p,
          calls := st.calls ++
            [{ pod := pod, podIPNet := some podIPNet, ingress := [], egress := [],
               removed := true }] }
      | none => some st) = some st1 →
      st1.processed = st.processed ∧
        ∃ cs, st1.calls = st.calls ++ cs ∧ ∀ c ∈ cs, c.pod = pod ∧ c.removed = true := by
    intro h2
    split at h2
    · simp only [Option.some.injEq] at h2
      subst h2
      refine ⟨rfl, _, rfl, fun c hc => ?_⟩
      rw [List.mem_singleton.mp hc]
      exact ⟨rfl, rfl⟩
    · simp only [Option.some.injEq] at h2
      subst h2
      exact ⟨rfl, [], by simp, fun c hc => absurd hc (List.not_mem_nil _)⟩
  unfold commitPod at h
  simp only at h
  cases hl : env.LookupPod pod with
  | none =>
    rw [hl] at h
    exact Or.inl (hrem h)
  | some podData =>
    rw [hl] at h
    simp only at h
    by_cases hip : podData.IpAddress = ""
    · rw [if_pos hip] at h
      exact Or.inl (hrem h)
    · rw [if_neg hip] at h
      cases hn : env.GetOneHostSubnet podData.IpAddress with
      | none =>
        rw [hn] at h
        simp only [Option.some.injEq] at h
        subst h
        exact Or.inl ⟨rfl, [], by simp, fun c hc => absurd hc (List.not_mem_nil _)⟩
      | some n =>
        rw [hn] at h
        simp only at h
        cases hlook : lookupProcessed (env.SortPolicies l) st.processed with
        | some res =>
          rw [hlook] at h
          obtain ⟨ps, hps, heq, hres⟩ := lookupProcessed_some _ _ res hlook
          obtain ⟨ingress, egress⟩ := res
          simp only [Option.some.injEq] at h
          subst h
          simp only [Prod.mk.injEq] at hres
          refine Or.inr (Or.inl ⟨podData, n, ps, rfl, hip, hn, hps, heq, rfl, ?_⟩)
          simp only [hres.1, hres.2, ContivRules.CopySlice]
        | none =>
          rw [hlook] at h
          cases hge : generateRules env MatchType.MatchIngress (env.SortPolicies l) with
          | none => rw [hge] at h; simp at h
          | some egress =>
            cases hgi : generateRules env MatchType.MatchEgress (env.SortPolicies l) with
            | none => rw [hge, hgi] at h; simp at h
            | some ingress =>
              rw [hge, hgi] at h
              simp only [Option.some.injEq] at h
              subst h
              exact Or.inr (Or.inr ⟨podData, n, ingress, egress, rfl, hip, hn, rfl, rfl, rfl,
                rfl⟩)

/-- Every remembered policy set is the sorted policy list of an entry and holds
the rules generated for it, whatever the policies of the other entries are. -/
theorem commitPods_processed (env : Env) (all : List (PodID × List ContivPolicy))
    (entries : List (PodID × List ContivPolicy)) (hsub : ∀ e ∈ entries, e ∈ all)
    (st st1 : CommitState) (hok : ProcessedOK env all st.processed)
    (h : commitPods env st entries = some st1) : ProcessedOK env all st1.processed := by
  induction entries generalizing st with
  | nil =>
    simp only [commitPods, Option.some.injEq] at h
    subst h
    exact hok
  | cons e rest ih =>
    simp only [commitPods] at h
    cases hstep : commitPod env st e.1 e.2 with
    | none => rw [hstep] at h; cases h
    | some st2 =>
      rw [hstep] at h
      refine ih (fun x hx => hsub x (List.mem_cons_of_mem _ hx)) st2 ?_ h
      rcases commitPod_cases env st st2 e.1 e.2 hstep with ⟨h1, _⟩ |
        ⟨_, _, _, _, _, _, _, _, h1, _⟩ | ⟨_, _, i, g, _, _, _, hi, hg, h1, _⟩
      · rw [h1]; exact hok
      · rw [h1]; exact hok
      · rw [h1]
        intro ps hps
        rcases List.mem_append.mp hps with h2 | h2
        · exact hok ps h2
        · rw [List.mem_singleton.mp h2]
          exact ⟨⟨e, hsub e (List.mem_cons_self _ _), rfl⟩, hi, hg⟩

theorem commitPods_calls_pods (env : Env) (entries : List (PodID × List ContivPolicy))
    (st st1 : CommitState) (h : commitPods env st entries = some st1) :
    ∃ cs, st1.calls = st.calls ++ cs ∧ ∀ c ∈ cs, c.pod ∈ entries.map Prod.fst := by
  induction entries generalizing st with
  | nil =>
    simp only [commitPods, Option.some.injEq] at h
    subst h
    exact ⟨[], by simp, fun c hc => absurd hc (List.not_mem_nil _)⟩
  | cons e rest ih =>
    simp only [commitPods] at h
    cases hstep : commitPod env st e.1 e.2 with
    | none => rw [hstep] at h; cases h
    | some st2 =>
      rw [hstep] at h
      obtain ⟨cs2, h2, h3⟩ := ih st2 h
      have hcs : ∃ cs, st2.calls = st.calls ++ cs ∧ ∀ c ∈ cs, c.pod = e.1 := by
        rcases commitPod_cases env st st2 e.1 e.2 hstep with ⟨_, cs, h4, h5⟩ |
          ⟨_, _, _, _, _, _, _, _, _, h4⟩ | ⟨_, _, _, _, _, _, _, _, _, _, h4⟩
        · exact ⟨cs, h4, fun c hc => (h5 c hc).1⟩
        · exact ⟨_, h4, fun c hc => by rw [List.mem_singleton.mp hc]⟩
        · exact ⟨_, h4, fun c hc => by rw [List.mem_singleton.mp hc]⟩
      obtain ⟨cs, h4, h5⟩ := hcs
      refine ⟨cs ++ cs2, by rw [h2, h4, List.append_assoc], fun c hc => ?_⟩
      rcases List.mem_append.mp hc with h6 | h6
      · rw [List.map_cons, h5 c h6]
        exact List.mem_cons_self _ _
      · exact List.mem_cons_of_mem _ (h3 c h6)

/-- The one call of a pod that the cache knows with a valid IP. -/
theorem commitPods_call (env : Env) (entries : List (PodID × List ContivPolicy))
    (hnodup : (entries.map Prod.fst).Nodup) (pod : PodID) (l : List ContivPolicy)
    (hmem : (pod, l) ∈ entries) (podData : Pod) (n : IPNet)
    (hl : env.LookupPod pod = some podData) (hip : podData.IpAddress ≠ "")
    (hg : env.GetOneHostSubnet podData.IpAddress = some n) (st st1 : CommitState)
    (hst : ∀ c ∈ st.calls, c.pod ≠ pod) (h : commitPods env st entries = some st1) :
    ∃ c ∈ st1.calls, c.pod = pod ∧ c.podIPNet = some n ∧ c.removed = false ∧
      ∀ c2 ∈ st1.calls, c2.pod = pod → c2 = c := by
  induction entries generalizing st with
  | nil => exact absurd hmem (List.not_mem_nil _)
  | cons e rest ih =>
    simp only [commitPods] at h
    rw [List.map_cons, List.nodup_cons] at hnodup
    cases hstep : commitPod env st e.1 e.2 with
    | none => rw [hstep] at h; cases h
    | some st2 =>
      rw [hstep] at h
      rcases List.mem_cons.mp hmem with he | hrest
      · subst he
        obtain ⟨cs2, h2, h3⟩ := commitPods_calls_pods env rest st2 st1 h
        have hone : ∃ c, st2.calls = st.calls ++ [c] ∧ c.pod = pod ∧ c.podIPNet = some n ∧
            c.removed = false := by
          rcases commitPod_cases env st st2 pod l hstep with ⟨_, cs, h4, h5⟩ |
            ⟨pd, n2, _, h5, _, h6, _, _, _, h4⟩ | ⟨pd, n2, _, _, h5, _, h6, _, _, _, h4⟩
          · exfalso
            unfold commitPod at hstep
            simp only [hl, if_neg hip, hg] at hstep
            cases hlook : lookupProcessed (env.SortPolicies l) st.processed with
            | some res =>
              rw [hlook] at hstep
              simp only [Option.some.injEq] at hstep
              rw [← hstep] at h4
              have := List.append_cancel_left h4
              have h7 := h5 _ (by rw [← this]; exact List.mem_singleton.mpr rfl)
              exact absurd h7.2 (by simp)
            | none =>
              rw [hlook] at hstep
              cases hge : generateRules env MatchType.MatchIngress (env.SortPolicies l) with
              | none => rw [hge] at hstep; simp at hstep
              | some egress =>
                cases hgi : generateRules env MatchType.MatchEgress (env.SortPolicies l) with
                | none => rw [hge, hgi] at hstep; simp at hstep
                | some ingress =>
                  rw [hge, hgi] at hstep
                  simp only [Option.some.injEq] at hstep
                  rw [← hstep] at h4
                  have := List.append_cancel_left h4
                  have h7 := h5 _ (by rw [← this]; exact List.mem_singleton.mpr rfl)
                  exact absurd h7.2 (by simp)
          · rw [hl] at h5
            simp only [Option.some.injEq] at h5
            subst h5
            rw [hg] at h6
            simp only [Option.some.injEq] at h6
            subst h6
            exact ⟨_, h4, rfl, rfl, rfl⟩
          · rw [hl] at h5
            simp only [Option.some.injEq] at h5
            subst h5
            rw [hg] at h6
            simp only [Option.some.injEq] at h6
            subst h6
            exact ⟨_, h4, rfl, rfl, rfl⟩
        obtain ⟨c, h4, h5, h6, h7⟩ := hone
        refine ⟨c, by rw [h2, h4]; simp, h5, h6, h7, fun c2 hc2 hp => ?_⟩
        rw [h2, h4] at hc2
        rcases List.mem_append.mp hc2 with h8 | h8
        · rcases List.mem_append.mp h8 with h9 | h9
          · exact absurd hp (hst c2 h9)
          · exact List.mem_singleton.mp h9
        · exact absurd (by rw [← hp]; exact h3 c2 h8) hnodup.1
      · have hne : e.1 ≠ pod := by
          intro hp
          apply hnodup.1
          rw [hp]
          exact List.mem_map.mpr ⟨(pod, l), hrest, rfl⟩
        refine ih hnodup.2 hrest st2 ?_ h
        intro c hc
        have hcs : ∃ cs, st2.calls = st.calls ++ cs ∧ ∀ c ∈ cs, c.pod = e.1 := by
          rcases commitPod_cases env st st2 e.1 e.2 hstep with ⟨_, cs, h4, h5⟩ |
            ⟨_, _, _, _, _, _, _, _, _, h4⟩ | ⟨_, _, _, _, _, _, _, _, _, _, h4⟩
          · exact ⟨cs, h4, fun c hc => (h5 c hc).1⟩
          · exact ⟨_, h4, fun c hc => by rw [List.mem_singleton.mp hc]⟩
          · exact ⟨_, h4, fun c hc => by rw [List.mem_singleton.mp hc]⟩
        obtain ⟨cs, h4, h5⟩ := hcs
        rw [h4] at hc
        rcases List.mem_append.mp hc with h6 | h6
        · exact hst c h6
        · rw [h5 c h6]
          exact hne

/-- The `Render` call of a configured pod that the cache knows with a valid IP:
there is exactly one, and it carries the rule lists generated for the sorted
policy list of an entry of the transaction that `Equals` takes for the sorted
policy list of the pod (same length, same IDs). -/
theorem commit_call_memo (env : Env) (hsort : SortContract env.SortPolicies)
    (ips : PodID → Option IPNet) (entries : List (PodID × List ContivPolicy))
    (hs : ∀ e ∈ entries, ExceptsSized e.2) (hnodup : (entries.map Prod.fst).Nodup)
    (pod : PodID) (l : List ContivPolicy) (hmem : (pod, l) ∈ entries) (podData : Pod)
    (n : IPNet) (hl : env.LookupPod pod = some podData) (hip : podData.IpAddress ≠ "")
    (hg : env.GetOneHostSubnet podData.IpAddress = some n) :
    ∃ calls c, commitCalls env ips entries = some calls ∧ c ∈ calls ∧
      (∀ c2 ∈ calls, c2.pod = pod → c2 = c) ∧ c.pod = pod ∧ c.podIPNet = some n ∧
      c.removed = false ∧
      ∃ e2 ∈ entries,
        ContivPolicies.Equals (env.SortPolicies e2.2) (env.SortPolicies l) = true ∧
        ∃ i e, generateRules env MatchType.MatchEgress (env.SortPolicies e2.2) = some i ∧
          generateRules env MatchType.MatchIngress (env.SortPolicies e2.2) = some e ∧
          c.ingress = i.rules ∧ c.egress = e.rules := by
  obtain ⟨calls, hcalls⟩ := commitCalls_isSome env hsort ips entries hs
  unfold commitCalls at hcalls
  cases hst : commitPods env { processed := [], podIPAddresses := ips, calls := [] } entries with
  | none => rw [hst] at hcalls; cases hcalls
  | some st1 =>
    have hinv := commitPods_memo env entries _ st1 []
      ⟨fun _ h => absurd h (List.not_mem_nil _), fun _ h => absurd h (List.not_mem_nil _)⟩ hst
    rw [List.nil_append] at hinv
    have hok := commitPods_processed env entries entries (fun _ h => h) _ st1
      (fun _ h => absurd h (List.not_mem_nil _)) hst
    obtain ⟨c, hc, h1, h2, h3, h4⟩ := commitPods_call env entries hnodup pod l hmem podData n
      hl hip hg _ st1 (fun _ h => absurd h (List.not_mem_nil _)) hst
    obtain ⟨e1, hm1, hp1, ps, hps, heq, hi, he⟩ := hinv.calls c hc h3
    have hkey : e1 = (pod, l) :=
      List.inj_on_of_nodup_map hnodup hm1 hmem (by rw [hp1, h1])
    rw [hkey] at heq
    obtain ⟨⟨e2, hm2, hpol⟩, hgi, hge⟩ := hok ps hps
    refine ⟨st1.calls, c, by unfold commitCalls; rw [hst]; rfl, hc, h4, h1, h2, h3, e2, hm2, ?_,
      ps.ingress, ps.egress, ?_, ?_, hi, he⟩
    · rw [← hpol]; exact heq
    · rw [← hpol]; exact hgi
    · rw [← hpol]; exact hge

/-- The list generated for direction `MatchIngress` from the sorted policies holds
the NAT-loopback permit whenever default-deny is injected into it: a policy
applies to the direction and no processed match names neither pods nor IP blocks
nor ports. -/
theorem generateRules_natLoop (env : Env) (hE : ∀ a b, env.Compare a b = 0 → a = b)
    (hsort : SortContract env.SortPolicies) (l : List ContivPolicy) (hs : ExceptsSized l)
    (rules : List ContivRule)
    (hg : (generateRules env MatchType.MatchIngress (env.SortPolicies l)).map
      ContivRules.rules = some rules)
    (happ : ∃ p ∈ l, policySkipped MatchType.MatchIngress p = false)
    (hna : ∀ p ∈ l, policySkipped MatchType.MatchIngress p = false → ∀ m ∈ p.Matches,
      m.Typ = MatchType.MatchIngress → ¬ (m.Pods = none ∧ m.IPBlocks = none ∧ m.Ports = [])) :
    ({ Action := renderer.ActionType.ActionPermit,
       Protocol := renderer.ProtocolType.ANY,
       SrcNetwork := env.GetOneHostSubnetFromIP env.NatLoopbackIP,
       DestNetwork := { IP := [], Mask := [] },
       SrcPort := 0, DestPort := 0 } : ContivRule) ∈ rules := by
  have hperm := (hsort l).1
  have hS := exceptsSized_of_perm _ _ hperm hs
  have hna2 : anyAllowsAll MatchType.MatchIngress (env.SortPolicies l) = false := by
    apply anyAllowsAll_false
    intro p hp hsk m hm hd
    unfold matchAllowsAll
    rw [decide_eq_false_iff_not, List.length_eq_zero]
    exact hna p (hperm.mem_iff.mp hp) hsk m hm hd
  obtain ⟨cr, rs, g1, _, _, g4, _⟩ := generateRules_default_deny env MatchType.MatchIngress
    (env.SortPolicies l) hE hS
    (anyApplies_true _ _ (applies_of_perm _ l _ hperm happ)) hna2
  rw [g1] at hg
  simp only [Option.map_some', Option.some.injEq] at hg
  rw [← hg]
  exact g4 rfl


/-! ## Claims C5 and C8: the lists that `Commit` passes to `Render` -/

/-- C5, as amended: let `Compare` be zero only on equal rules, let `sort.Sort`
sort, the exceptions be well-sized and the pods of the transaction distinct.  For
a configured pod that the cache knows with a valid IP, `Commit` issues exactly one
`Render` call.  Its egress list is the list generated for direction
`MatchIngress` from the sorted policy list of an entry of the transaction that
`Equals` takes for the sorted policy list of the pod (same length, pairwise equal
policy IDs), and whenever default-deny is injected into that list (a policy of
that entry applies to the direction and no processed match of it names neither
pods nor IP blocks nor ports), the egress list holds a Permit rule with protocol
ANY, ports 0 and the NAT loopback IP, as a one-host subnet, as source network.
Provided that every entry whose sorted policy list `Equals` takes for that of the
pod has the same sorted policy list, the egress list is the list generated from
the sorted policies of the pod, and it holds the permit whenever default-deny is
injected for the policies of the pod. -/
theorem C5_natLoopback_permit_in_render_egress (env : Env)
    (hE : ∀ a b, env.Compare a b = 0 → a = b) (hsort : SortContract env.SortPolicies)
    (ips : PodID → Option IPNet) (entries : List (PodID × List ContivPolicy))
    (hs : ∀ e ∈ entries, ExceptsSized e.2)
    (hnodup : (entries.map Prod.fst).Nodup) (pod : PodID) (l : List ContivPolicy)
    (hmem : (pod, l) ∈ entries) (podData : Pod) (n : IPNet)
    (hl : env.LookupPod pod = some podData) (hip : podData.IpAddress ≠ "")
    (hg : env.GetOneHostSubnet podData.IpAddress = some n) :
    ∃ calls c, commitCalls env ips entries = some calls ∧ c ∈ calls ∧
      (∀ c2 ∈ calls, c2.pod = pod → c2 = c) ∧ c.pod = pod ∧ c.removed = false ∧
      (∃ e2 ∈ entries,
        ContivPolicies.Equals (env.SortPolicies e2.2) (env.SortPolicies l) = true ∧
        (generateRules env MatchType.MatchIngress (env.SortPolicies e2.2)).map
          ContivRules.rules = some c.egress ∧
        ((∃ p ∈ e2.2, policySkipped MatchType.MatchIngress p = false) →
          (∀ p ∈ e2.2, policySkipped MatchType.MatchIngress p = false → ∀ m ∈ p.Matches,
            m.Typ = MatchType.MatchIngress →
              ¬ (m.Pods = none ∧ m.IPBlocks = none ∧ m.Ports = [])) →
          { Action := renderer.ActionType.ActionPermit,
            Protocol := renderer.ProtocolType.ANY,
            SrcNetwork := env.GetOneHostSubnetFromIP env.NatLoopbackIP,
            DestNetwork := { IP := [], Mask := [] },
            SrcPort := 0, DestPort := 0 } ∈ c.egress)) ∧
      ((∀ e3 ∈ entries,
          ContivPolicies.Equals (env.SortPolicies e3.2) (env.SortPolicies l) = true →
            env.SortPolicies e3.2 = env.SortPolicies l) →
        (generateRules env MatchType.MatchIngress (env.SortPolicies l)).map
          ContivRules.rules = some c.egress ∧
        ((∃ p ∈ l, policySkipped MatchType.MatchIngress p = false) →
          (∀ p ∈ l, policySkipped MatchType.MatchIngress p = false → ∀ m ∈ p.Matches,
            m.Typ = MatchType.MatchIngress →
              ¬ (m.Pods = none ∧ m.IPBlocks = none ∧ m.Ports = [])) →
          { Action := renderer.ActionType.ActionPermit,
            Protocol := renderer.ProtocolType.ANY,
            SrcNetwork := env.GetOneHostSubnetFromIP env.NatLoopbackIP,
            DestNetwork := { IP := [], Mask := [] },
            SrcPort := 0, DestPort := 0 } ∈ c.egress)) := by
  obtain ⟨calls, c, h1, h2, h3, h4, _, h6, e2, hm2, heq, i, e, _, hge, _, hce⟩ :=
    commit_call_memo env hsort ips entries hs hnodup pod l hmem podData n hl hip hg
  have hgen : (generateRules env MatchType.MatchIngress (env.SortPolicies e2.2)).map
      ContivRules.rules = some c.egress := by rw [hge, hce]; rfl
  refine ⟨calls, c, h1, h2, h3, h4, h6,
    ⟨e2, hm2, heq, hgen, generateRules_natLoop env hE hsort e2.2 (hs e2 hm2) c.egress hgen⟩,
    fun hown => ?_⟩
  rw [hown e2 hm2 heq] at hgen
  exact ⟨hgen, generateRules_natLoop env hE hsort l (hs (pod, l) hmem) c.egress hgen⟩

/-- Witness of C5 (amended): `podA` with the policy of type IngressAndEgress and
`podB` with the egress policy, in the test environment. -/
theorem C5_witness :
    ∃ calls c, commitCalls testEnv (fun _ => none)
        [(podA, [bothPolicy]), (podB, [egressPolicy])] = some calls ∧
      c ∈ calls ∧ c.pod = podA ∧ c.removed = false ∧
      (generateRules testEnv MatchType.MatchIngress (testEnv.SortPolicies [bothPolicy])).map
        ContivRules.rules = some c.egress ∧
      { Action := renderer.ActionType.ActionPermit,
        Protocol := renderer.ProtocolType.ANY,
        SrcNetwork := testEnv.GetOneHostSubnetFromIP testEnv.NatLoopbackIP,
        DestNetwork := { IP := [], Mask := [] },
        SrcPort := 0, DestPort := 0 } ∈ c.egress :=
  let ⟨calls, c, h1, h2, _, h4, h5, _, h7⟩ :=
    C5_natLoopback_permit_in_render_egress testEnv
      (fun a b => (lawful_ruleCompare.eq_iff a b).mp) sortContract_sortPolicies (fun _ => none)
      [(podA, [bothPolicy]), (podB, [egressPolicy])] (by decide) (by decide) podA
      [bothPolicy] (by decide) { IpAddress := "10.0.0.1" } (cidr4 10 0 0 1 32) (by decide)
      (by decide) (by decide)
  ⟨calls, c, h1, h2, h4, h5, (h7 (by decide)).1, (h7 (by decide)).2 (by decide) (by decide)⟩

/-- C8, as amended: let `sort.Sort` sort, the exceptions be well-sized and the
pods of the transaction distinct.  For a configured pod that the cache knows with
a valid IP, `Commit` issues exactly one `Render` call, with the lists generated
from the sorted policy list of an entry of the transaction that `Equals` takes for
the sorted policy list of the pod: the list of `generateRules(MatchEgress, ..)` as
ingress and the list of `generateRules(MatchIngress, ..)` as egress.  Provided
that every entry of the transaction whose sorted policy list `Equals` takes for
that of the pod (same length, pairwise equal policy IDs) has the same sorted
policy list: if every policy of the pod has type Ingress, its ingress list is
empty and its egress list is the list of `generateRules(MatchIngress, sorted
policies)`; if every policy has type Egress, its egress list is empty and its
ingress list is the list of `generateRules(MatchEgress, sorted policies)`. -/
theorem C8_direction_flip (env : Env) (hsort : SortContract env.SortPolicies)
    (ips : PodID → Option IPNet) (entries : List (PodID × List ContivPolicy))
    (hs : ∀ e ∈ entries, ExceptsSized e.2)
    (hnodup : (entries.map Prod.fst).Nodup) (pod : PodID) (l : List ContivPolicy)
    (hmem : (pod, l) ∈ entries) (podData : Pod) (n : IPNet)
    (hl : env.LookupPod pod = some podData) (hip : podData.IpAddress ≠ "")
    (hg : env.GetOneHostSubnet podData.IpAddress = some n) :
    ∃ calls c, commitCalls env ips entries = some calls ∧ c ∈ calls ∧
      (∀ c2 ∈ calls, c2.pod = pod → c2 = c) ∧ c.pod = pod ∧ c.removed = false ∧
      (∃ e2 ∈ entries,
        ContivPolicies.Equals (env.SortPolicies e2.2) (env.SortPolicies l) = true ∧
        (generateRules env MatchType.MatchEgress (env.SortPolicies e2.2)).map
          ContivRules.rules = some c.ingress ∧
        (generateRules env MatchType.MatchIngress (env.SortPolicies e2.2)).map
          ContivRules.rules = some c.egress) ∧
      ((∀ e3 ∈ entries,
          ContivPolicies.Equals (env.SortPolicies e3.2) (env.SortPolicies l) = true →
            env.SortPolicies e3.2 = env.SortPolicies l) →
        ((∀ p ∈ l, p.Typ = PolicyType.PolicyIngress) →
          c.ingress = [] ∧
            (generateRules env MatchType.MatchIngress (env.SortPolicies l)).map
              ContivRules.rules = some c.egress) ∧
        ((∀ p ∈ l, p.Typ = PolicyType.PolicyEgress) →
          c.egress = [] ∧
            (generateRules env MatchType.MatchEgress (env.SortPolicies l)).map
              ContivRules.rules = some c.ingress)) := by
  obtain ⟨calls, c, h1, h2, h3, h4, _, h6, e2, hm2, heq, i, e, hgi, hge, hci, hce⟩ :=
    commit_call_memo env hsort ips entries hs hnodup pod l hmem podData n hl hip hg
  have hperm := (hsort l).1
  refine ⟨calls, c, h1, h2, h3, h4, h6,
    ⟨e2, hm2, heq, by rw [hgi, hci]; rfl, by rw [hge, hce]; rfl⟩, fun hown => ⟨?_, ?_⟩⟩
  · intro hall
    rw [hown e2 hm2 heq] at hgi hge
    have hsk : ∀ p ∈ env.SortPolicies l, policySkipped MatchType.MatchEgress p = true := by
      intro p hp
      simp [policySkipped, hall p (hperm.mem_iff.mp hp)]
    have := generateRules_skipped env MatchType.MatchEgress _ hsk
    rw [hgi] at this
    simp only [Option.some.injEq] at this
    subst this
    exact ⟨hci, by rw [hge, hce]; rfl⟩
  · intro hall
    rw [hown e2 hm2 heq] at hgi hge
    have hsk : ∀ p ∈ env.SortPolicies l, policySkipped MatchType.MatchIngress p = true := by
      intro p hp
      simp [policySkipped, hall p (hperm.mem_iff.mp hp)]
    have := generateRules_skipped env MatchType.MatchIngress _ hsk
    rw [hge] at this
    simp only [Option.some.injEq] at this
    subst this
    exact ⟨hce, by rw [hgi, hci]; rfl⟩

/-- Witness of C8 (amended): `podA` with the ingress policy and `podB` with the
egress policy in one transaction of the test environment. -/
theorem C8_witness :
    (∀ p ∈ [ingressPolicy], p.Typ = PolicyType.PolicyIngress) ∧
      ∃ calls c, commitCalls testEnv (fun _ => none)
          [(podA, [ingressPolicy]), (podB, [egressPolicy])] = some calls ∧ c ∈ calls ∧
        (∀ c2 ∈ calls, c2.pod = podA → c2 = c) ∧ c.pod = podA ∧ c.removed = false ∧
        c.ingress = [] ∧
        (generateRules testEnv MatchType.MatchIngress
          (testEnv.SortPolicies [ingressPolicy])).map ContivRules.rules = some c.egress := by
  refine ⟨by decide, ?_⟩
  obtain ⟨calls, c, h1, h2, h3, h4, h5, _, h7⟩ :=
    C8_direction_flip testEnv sortContract_sortPolicies (fun _ => none)
      [(podA, [ingressPolicy]), (podB, [egressPolicy])] (by decide) (by decide)
      podA [ingressPolicy] (by decide) { IpAddress := "10.0.0.1" } (cidr4 10 0 0 1 32)
      (by decide) (by decide) (by decide)
  exact ⟨calls, c, h1, h2, h3, h4, h5, (h7 (by decide)).1 (by decide)⟩

/-- C8, the claim as stated fails: `podA` has the ingress policy `p1` and `podB` a
policy of type Ingress with the same ID that allows all ingress.  The policy list
of `podB` is not empty and all its policies have type Ingress, and `Commit`
passes for `podB` the egress list generated for `podA`, not the list that
`generateRules(MatchIngress, ..)` returns for the sorted policies of `podB`. -/
theorem C8_counterexample :
    (∀ p ∈ [sameIDPolicy], p.Typ = PolicyType.PolicyIngress) ∧
    (generateRules testEnv MatchType.MatchIngress (testEnv.SortPolicies [sameIDPolicy])).map
        ContivRules.rules = some [ruleAllowAll] ∧
    commitCalls testEnv (fun _ => none) [(podA, [ingressPolicy]), (podB, [sameIDPolicy])] =
      some [{ pod := podA, podIPNet := some (cidr4 10 0 0 1 32), ingress := [],
              egress := [rulePortFor MatchType.MatchIngress (cidr4 10 0 0 2 32)
                           { Protocol := ProtocolType.TCP, Number := 80 },
                         ruleNatLoop testEnv, ruleNone],
              removed := false },
            { pod := podB, podIPNet := some (cidr4 10 0 0 2 32), ingress := [],
              egress := [rulePortFor MatchType.MatchIngress (cidr4 10 0 0 2 32)
                           { Protocol := ProtocolType.TCP, Number := 80 },
                         ruleNatLoop testEnv, ruleNone],
              removed := false }] ∧
    [rulePortFor MatchType.MatchIngress (cidr4 10 0 0 2 32)
        { Protocol := ProtocolType.TCP, Number := 80 },
      ruleNatLoop testEnv, ruleNone] ≠ [ruleAllowAll] := by
  decide

end Vpp
